import Mathlib

/-! # MiniPL: a shallow embedding of the interpreter and the properties of its specification

The development follows the pipeline of the repository:

* `tokens.h`, `label.h`, `tree.h` : the data model (tokens, values, the symbol table, the
  concrete parse tree);
* `lex.c`, `memory.c` : the scanner (`lex`, the handlers, `addToken`, `addEOF`,
  `correctTokenList`);
* `parser.c` : the recursive-descent parser;
* `semantics.c` : the evaluator with its symbol table.

Conventions of the embedding.

* A C string is modelled by the list of the characters it holds before its terminating NUL.
* The input file is a list of characters together with a file position; `fread`, `fgetc` and
  `fseek` act on the position.
* The C type `int` is modelled by `Int` with explicit two's complement wrapping on 32 bits
  (`wrapInt`).
* Global variables (`line_number`, `global_tlist`, `errors_found`, `global_list`) and the
  standard streams are fields of explicit state records.
* A pointer to a tree node is `NULL`, the parser's `error` sentinel or a node; reading through
  an invalid pointer is the outcome `fault`.
* The string of a value is the list of its characters, `none` for a `NULL` pointer. The only
  place where the evaluator writes into the buffer of a string is the string case of `+`
  (`realloc` and `strcat`), where the size of the block is modelled; storing a byte outside
  a block is the outcome `fault` too. Everywhere else string buffers are only read, so that
  two values which share a buffer cannot be told apart from two values with equal strings.
* The scanner builds the message of `handleErrors` with `sprintf` in an array of
  `TOKEN_MAX_LENGTH + 1` characters; a message that does not fit into the array is the
  outcome `fault` of the scanner.
* Loops whose number of iterations is not bounded by the structure of their argument take a
  fuel argument, and running out of it is the outcome `fuel`.
-/

namespace MiniPL

/-! ## tokens.h -/

/-- Token types of `tokens.h`, in the order of their numeric codes 0..21. -/
inductive token_type where
  | TOKEN_BIN_OP | TOKEN_LPAR | TOKEN_RPAR | TOKEN_SCOL | TOKEN_COL | TOKEN_ASSIGN
  | TOKEN_IDENTIFIER | TOKEN_INT_LITERAL | TOKEN_STRING_LITERAL | TOKEN_TYPEKEY
  | TOKEN_FORKEY | TOKEN_VARKEY | TOKEN_ENDKEY | TOKEN_INKEY | TOKEN_DOKEY
  | TOKEN_READKEY | TOKEN_PRINTKEY | TOKEN_ASSERTKEY | TOKEN_ERROR | TOKEN_UN_OP
  | TOKEN_EOF | TOKEN_RANGE
  deriving DecidableEq, Repr

open token_type

/-- Numeric code of a token type (the value of its `#define`). -/
def token_type.code : token_type → Nat
  | TOKEN_BIN_OP => 0 | TOKEN_LPAR => 1 | TOKEN_RPAR => 2 | TOKEN_SCOL => 3 | TOKEN_COL => 4
  | TOKEN_ASSIGN => 5 | TOKEN_IDENTIFIER => 6 | TOKEN_INT_LITERAL => 7
  | TOKEN_STRING_LITERAL => 8 | TOKEN_TYPEKEY => 9 | TOKEN_FORKEY => 10 | TOKEN_VARKEY => 11
  | TOKEN_ENDKEY => 12 | TOKEN_INKEY => 13 | TOKEN_DOKEY => 14 | TOKEN_READKEY => 15
  | TOKEN_PRINTKEY => 16 | TOKEN_ASSERTKEY => 17 | TOKEN_ERROR => 18 | TOKEN_UN_OP => 19
  | TOKEN_EOF => 20 | TOKEN_RANGE => 21

/-- Size of the input buffer: `#define TOKEN_MAX_LENGTH 1024`. -/
def TOKEN_MAX_LENGTH : Nat := 1024

/-- The struct `token`: type, value (the C string held in the array) and line number. -/
structure token where
  type : token_type
  value : List Char
  line_number : Int
  deriving DecidableEq, Repr

/-- The type `token_list` as the list of the tokens of its nodes. -/
abbrev token_list := List token

/-! ## C strings and formatted output -/

/-- The NUL character. -/
def NUL : Char := Char.ofNat 0

/-- The C string stored in a character array: the characters before the first NUL. -/
def cstr (buf : List Char) : List Char := buf.takeWhile (fun c => c != NUL)

/-- The test `strncmp(a, b, n) == 0` on two C strings. -/
def strncmpEq (a b : List Char) (n : Nat) : Bool := a.take n == b.take n

/-- Two's complement wrapping of an integer to the 32 bits of a C `int`. -/
def wrapInt (x : Int) : Int := (x + 2147483648) % 4294967296 - 2147483648

/-- The largest value of the C type `int`. -/
def INT_MAX : Int := 2147483647

/-- The smallest value of the C type `int`. -/
def INT_MIN : Int := -2147483648

/-- Decimal digits of a natural number (the conversion `%d` on a non-negative value). -/
def natDigits (n : Nat) : List Char := (Nat.toDigits 10 n)

/-- The conversion `%d` of `printf`. -/
def fmtD (x : Int) : List Char :=
  if x < 0 then '-' :: natDigits x.natAbs else natDigits x.natAbs

/-- The conversion `%3d` of `printf`: `%d` padded with blanks on the left to width 3. -/
def fmt3D (x : Int) : List Char :=
  let d := fmtD x
  List.replicate (3 - d.length) ' ' ++ d

/-! ## label.h -/

/-- The enum `label_type`. -/
inductive label_type where
  | UNDEF | INT | STRING | BOOL
  deriving DecidableEq, Repr

open label_type

/-- The struct `value`; the pointer `s` is `none` when it is `NULL`. -/
structure value where
  i : Int
  b : Int
  s : Option (List Char)
  empty : Int
  error : Int
  constant : Int
  lt : label_type
  deriving DecidableEq, Repr

/-- A node of `label_list`: the label and its value. -/
abbrev label_entry := List Char × value

/-- The type `label_list` as the list of its nodes, head first. -/
abbrev label_list := List label_entry

/-- The template `default_value = {0, 0, NULL, 0, 0, 0, 0}`. -/
def default_value : value := ⟨0, 0, none, 0, 0, 0, UNDEF⟩

/-- The template `empty_value = {0, 0, NULL, 1, 0, 0, 0}`. -/
def empty_value : value := ⟨0, 0, none, 1, 0, 0, UNDEF⟩

/-- The template `error_value = {0, 0, NULL, 0, 1, 0, 0}`. -/
def error_value : value := ⟨0, 0, none, 0, 1, 0, UNDEF⟩

/-! ## semantics.c: the state of the evaluator and the symbol table -/

/-- The global `global_list` of `semantics.c` and the three standard streams. -/
structure Env where
  global_list : label_list
  out : List Char
  err : List Char
  inp : List Char
  deriving DecidableEq, Repr

/-- The enum `error_type` of `semantics.c`. -/
inductive error_type where
  | SEMANTIC_ERROR | RUNTIME_ERROR
  deriving DecidableEq, Repr

open error_type

/-- The text written by `printError` of `semantics.c`. -/
def semanticsErrorText (t : token) (message : List Char) (et : error_type) : List Char :=
  match et with
  | SEMANTIC_ERROR =>
    "Semantic error in line ".toList ++ fmt3D t.line_number ++ ": ".toList ++ message ++ ".\n".toList
  | RUNTIME_ERROR =>
    "Runtime error  in line ".toList ++ fmt3D t.line_number ++ ": ".toList ++ message ++ ".\n".toList

/-- The function `printError` of `semantics.c`: one diagnostic on standard error. -/
def printError (t : token) (message : List Char) (et : error_type) (st : Env) : Env :=
  { st with err := st.err ++ semanticsErrorText t message et }

/-- The test of the loops over the symbol table:
`strncmp(label, id->value, TOKEN_MAX_LENGTH + 1) == 0`. -/
def sameLabel (a b : List Char) : Bool := strncmpEq a b (TOKEN_MAX_LENGTH + 1)

/-- The loop of `findLabel`: the first node whose label is the one of the token. -/
def findLabelLoop (name : List Char) : label_list → Option label_entry
  | [] => none
  | e :: rest => if sameLabel name e.1 then some e else findLabelLoop name rest

/-- The function `findLabel`: the node of the label, or `NULL` with the diagnostic
`Reference to unknown variable`. -/
def findLabel (id : token) (st : Env) : Option label_entry × Env :=
  match findLabelLoop id.value st.global_list with
  | some e => (some e, st)
  | none =>
    (none, printError id ("Reference to unknown variable ".toList ++ id.value) SEMANTIC_ERROR st)

/-- The function `findLabelType`. -/
def findLabelType (id : token) (st : Env) : label_type × Env :=
  match findLabel id st with
  | (none, st1) => (UNDEF, st1)
  | (some e, st1) => (e.2.lt, st1)

/-- The function `findLabelValue`. -/
def findLabelValue (id : token) (st : Env) : value × Env :=
  match findLabel id st with
  | (none, st1) => (empty_value, st1)
  | (some e, st1) => (e.2, st1)

/-- The loop of `forceUpdate`: the value of the first node with the label is overwritten. -/
def forceUpdateLoop (name : List Char) (new_value : value) : label_list → label_list
  | [] => []
  | e :: rest =>
    if sameLabel e.1 name then (e.1, new_value) :: rest
    else e :: forceUpdateLoop name new_value rest

/-- The function `forceUpdate`. -/
def forceUpdate (id : token) (new_value : value) (st : Env) : Env :=
  { st with global_list := forceUpdateLoop id.value new_value st.global_list }

/-- The function `isConstant`. -/
def isConstant (id : token) (st : Env) : Int × Env :=
  match findLabelValue id st with
  | (v, st1) => if v.constant = 0 then (0, st1) else (1, st1)

/-- The function `update`. -/
def update (id : token) (new_value : value) (st : Env) : Int × Env :=
  match isConstant id st with
  | (c, st1) =>
    if c ≠ 0 then
      (0, printError id "Cannot modify the loop control variable".toList SEMANTIC_ERROR st1)
    else (1, forceUpdate id new_value st1)

/-- The duplicate check of `insert`, run on the nodes that follow the new head: the first node
with the label is unlinked (`prev->next = tmp->next`); `none` when the loop ends without a
match. -/
def insertScan (name : List Char) : label_list → Option label_list
  | [] => none
  | e :: rest =>
    if sameLabel e.1 name then some rest
    else match insertScan name rest with
      | some rest1 => some (e :: rest1)
      | none => none

/-- The function `insert`: the new node becomes the head (`newLabelListNode`), then the
duplicate check runs over the nodes behind it. -/
def insert (id : token) (v : value) (st : Env) : Int × Env :=
  match insertScan id.value st.global_list with
  | some rest => (0, { st with global_list := (id.value, v) :: rest })
  | none => (1, { st with global_list := (id.value, v) :: st.global_list })

/-- An operation on the symbol table, as the evaluator issues them. -/
inductive TableOp where
  | insert (id : token) (v : value)
  | update (id : token) (v : value)
  | forceUpdate (id : token) (v : value)

/-- Effect of one symbol-table operation on the state. -/
def TableOp.apply (st : Env) : TableOp → Env
  | .insert id v => (MiniPL.insert id v st).2
  | .update id v => (MiniPL.update id v st).2
  | .forceUpdate id v => MiniPL.forceUpdate id v st

/-- The state at the start of `run`: `global_list = NULL`, nothing written yet. -/
def initialEnv (inp : List Char) : Env := ⟨[], [], [], inp⟩

/-- The labels of the table, as the loops compare them. -/
def labelKeys (l : label_list) : List (List Char) := l.map (fun e => e.1.take (TOKEN_MAX_LENGTH + 1))

/-- No two entries of the table share a name. -/
def UniqueNames (l : label_list) : Prop := (labelKeys l).Nodup

/-- How a run of a function of the model ends: it returns, it reads or writes outside an object
(`fault`), or the fuel given to its loops is used up (`fuel`). -/
inductive Outcome (α : Type) where
  | done (a : α)
  | fault
  | fuel
  deriving DecidableEq, Repr

/-- Sequencing of two runs. -/
def Outcome.bind {α β : Type} (x : Outcome α) (f : α → Outcome β) : Outcome β :=
  match x with
  | .done a => f a
  | .fault => .fault
  | .fuel => .fuel

/-! ## lex.c and memory.c: the scanner -/

/-- The state of the scanner: the input file with its position, the global `line_number`, the
tokens added so far (the list from `head` up to the empty last node), and `under`, the byte
stored in front of `buffer`, which `handleStringLiterals` reads as `buffer[i-1]` while `i`
is 0. -/
structure LexState where
  input : List Char
  pos : Nat
  line_number : Int
  tl : token_list
  under : Char
  deriving DecidableEq, Repr

/-- The characters not yet read from the file. -/
def LexState.unread (st : LexState) : List Char := st.input.drop st.pos

/-- The macro `ungetc(x)`, that is `fseek(x, -1, SEEK_CUR)`; it fails at position 0. -/
def ungetc (st : LexState) : LexState := { st with pos := st.pos - 1 }

/-- The macro `skipch(x)`, that is `fseek(x, 1, SEEK_CUR)`. -/
def skipch (st : LexState) : LexState := { st with pos := st.pos + 1 }

/-- The function `newToken`: `strncpy` copies the C string of the buffer, at most
`TOKEN_MAX_LENGTH + 1` characters of it. -/
def newToken (type : token_type) (value : List Char) (line_number : Int) : token :=
  ⟨type, (cstr value).take (TOKEN_MAX_LENGTH + 1), line_number⟩

/-- The token types that `addToken` adds without seeking back. -/
def noBacktrack (type : token_type) : Bool :=
  type == TOKEN_BIN_OP || type == TOKEN_ERROR || type == TOKEN_LPAR || type == TOKEN_RPAR ||
  type == TOKEN_SCOL || type == TOKEN_UN_OP || type == TOKEN_STRING_LITERAL ||
  type == TOKEN_RANGE || type == TOKEN_COL

/-- The function `addToken` of `memory.c`. -/
def addToken (st : LexState) (type : token_type) (buffer : List Char) (line : Int) : LexState :=
  let st1 := { st with tl := st.tl ++ [newToken type buffer line] }
  if noBacktrack type then st1 else ungetc st1

/-- The comparison `c == EOF` on a `char` that holds the result of `fgetc`: true at the end of
the input and for the byte 255. -/
def charIsEOF (c : Char) : Bool := c.toNat == 255

/-- The loop of the one-line comment, `while((c = fgetc(input)) != '\n' && c != EOF);`, on the
unread characters: the number of characters read and whether the loop ended on a newline. -/
def lineCommentLoop : List Char → Nat × Bool
  | [] => (0, false)
  | c :: rest =>
    if c = '\n' then (1, true)
    else if charIsEOF c then (1, false)
    else ((lineCommentLoop rest).1 + 1, (lineCommentLoop rest).2)

/-- The loop of the multiline comment on the unread characters: the number of characters read
and whether the loop returned the error token. -/
def blockCommentLoop : List Char → Nat × Bool
  | [] => (0, true)
  | c :: rest =>
    if c = NUL then (1, false)
    else if charIsEOF c then (1, true)
    else if c ≠ '*' then ((blockCommentLoop rest).1 + 1, (blockCommentLoop rest).2)
    else match rest with
      | [] => (1, true)
      | d :: _ =>
        if d = '/' then (2, false)
        else ((blockCommentLoop rest).1 + 1, (blockCommentLoop rest).2)

/-- The function `handleSlash`; the buffer holds the slash. The result `NULL` (no token
added) leaves the token list as it is. -/
def handleSlash (st : LexState) (buffer : List Char) : LexState :=
  match st.unread with
  | [] => addToken (skipch st) TOKEN_BIN_OP buffer st.line_number
  | c :: rest =>
    let st1 := { st with pos := st.pos + 1 }
    if c = '/' then
      let r := lineCommentLoop rest
      let st2 := { st1 with pos := st1.pos + r.1 }
      if r.2 then { st2 with line_number := st2.line_number + 1 } else st2
    else if c = '*' then
      let r := blockCommentLoop rest
      let st2 := { st1 with pos := st1.pos + r.1 }
      if r.2 then addToken st2 TOKEN_ERROR buffer st2.line_number else st2
    else addToken (ungetc st1) TOKEN_BIN_OP buffer st.line_number

/-- The function `handleCol`; the buffer holds the colon. -/
def handleCol (st : LexState) (buffer : List Char) : LexState :=
  match st.unread with
  | [] => addToken st TOKEN_COL buffer st.line_number
  | c :: _ =>
    let st1 := { st with pos := st.pos + 1 }
    if c = '=' then addToken (skipch st1) TOKEN_ASSIGN (buffer ++ [c]) st.line_number
    else addToken (ungetc st1) TOKEN_COL buffer st.line_number

/-- The function `handlePeriod`; the buffer holds the period. -/
def handlePeriod (st : LexState) (buffer : List Char) : LexState :=
  match st.unread with
  | [] => addToken st TOKEN_ERROR buffer st.line_number
  | c :: _ =>
    let st1 := { st with pos := st.pos + 1 }
    if c = '.' then addToken st1 TOKEN_RANGE (buffer ++ [c]) st.line_number
    else addToken (ungetc st1) TOKEN_ERROR buffer st.line_number

/-- What a reading loop of a handler leaves: the buffer, the number of characters read by
`fread`, and the number of calls of `skipch`. -/
structure Scan where
  buffer : List Char
  read : Nat
  skip : Nat
  deriving DecidableEq, Repr

/-- The loop of `handleOthers`, `for(i = 0; i <= TOKEN_MAX_LENGTH; i++)`, on the unread
characters; `i` is the length of the buffer. -/
def handleOthersLoop (buffer : List Char) (read : Nat) : List Char → Scan
  | [] => if buffer.length ≤ TOKEN_MAX_LENGTH then ⟨buffer, read, 1⟩ else ⟨buffer, read, 0⟩
  | c :: rest =>
    if buffer.length ≤ TOKEN_MAX_LENGTH then
      if c.isAlphanum || c == '_' then handleOthersLoop (buffer ++ [c]) (read + 1) rest
      else ⟨buffer, read + 1, 0⟩
    else ⟨buffer, read, 0⟩

/-- The function `equals` of `lex.c`. -/
def equals (a b : List Char) : Bool := strncmpEq a b TOKEN_MAX_LENGTH

/-- The function `isTypeKey`. -/
def isTypeKey (word : List Char) : Bool :=
  strncmpEq word "int".toList TOKEN_MAX_LENGTH || strncmpEq word "string".toList TOKEN_MAX_LENGTH ||
  strncmpEq word "bool".toList TOKEN_MAX_LENGTH

/-- The function `isForKey`. -/
def isForKey (word : List Char) : Bool := equals word "for".toList

/-- The function `isVarKey`. -/
def isVarKey (word : List Char) : Bool := equals word "var".toList

/-- The function `isEndKey`. -/
def isEndKey (word : List Char) : Bool := equals word "end".toList

/-- The function `isInKey`. -/
def isInKey (word : List Char) : Bool := equals word "in".toList

/-- The function `isDoKey`. -/
def isDoKey (word : List Char) : Bool := equals word "do".toList

/-- The function `isReadKey`. -/
def isReadKey (word : List Char) : Bool := equals word "read".toList

/-- The function `isPrintKey`. -/
def isPrintKey (word : List Char) : Bool := equals word "print".toList

/-- The function `isAssertKey`. -/
def isAssertKey (word : List Char) : Bool := equals word "assert".toList

/-- The chain of keyword tests at the end of `handleOthers`. -/
def keywordType (buffer : List Char) : token_type :=
  if isAssertKey buffer then TOKEN_ASSERTKEY
  else if isPrintKey buffer then TOKEN_PRINTKEY
  else if isTypeKey buffer then TOKEN_TYPEKEY
  else if isReadKey buffer then TOKEN_READKEY
  else if isForKey buffer then TOKEN_FORKEY
  else if isVarKey buffer then TOKEN_VARKEY
  else if isEndKey buffer then TOKEN_ENDKEY
  else if isInKey buffer then TOKEN_INKEY
  else if isDoKey buffer then TOKEN_DOKEY
  else TOKEN_IDENTIFIER

/-- The function `handleOthers`, entered after the first letter was read. -/
def handleOthers (st : LexState) : LexState :=
  let st0 := ungetc st
  let r := handleOthersLoop [] 0 st0.unread
  let st1 := { st0 with pos := st0.pos + r.read + r.skip }
  if r.buffer.length ≥ TOKEN_MAX_LENGTH then
    addToken st1 TOKEN_ERROR "Ignoring too long identifier.".toList st1.line_number
  else addToken st1 (keywordType (cstr r.buffer)) r.buffer st1.line_number

/-- The loop of `handleIntLiterals` on the unread characters; the last component tells
whether the loop returned from inside (end of input). -/
def handleIntLiteralsLoop (buffer : List Char) (read : Nat) : List Char → Scan
  | [] => if buffer.length ≤ TOKEN_MAX_LENGTH then ⟨buffer, read, 1⟩ else ⟨buffer, read, 0⟩
  | c :: rest =>
    if buffer.length ≤ TOKEN_MAX_LENGTH then
      if c.isDigit then handleIntLiteralsLoop (buffer ++ [c]) (read + 1) rest
      else ⟨buffer, read + 1, 0⟩
    else ⟨buffer, read, 0⟩

/-- The function `handleIntLiterals`, entered after the first digit was read. -/
def handleIntLiterals (st : LexState) : LexState :=
  let st0 := ungetc st
  let r := handleIntLiteralsLoop [] 0 st0.unread
  let st1 := { st0 with pos := st0.pos + r.read + r.skip }
  addToken st1 TOKEN_INT_LITERAL r.buffer st1.line_number

/-- The loop of `handleErrors` on the unread characters; the last component of the result
tells whether the loop ended on a newline. -/
def handleErrorsLoop (buffer : List Char) (read : Nat) : List Char → Scan × Bool
  | [] => (⟨buffer, read, 0⟩, false)
  | c :: rest =>
    if buffer.length ≤ TOKEN_MAX_LENGTH then
      if c = ' ' ∨ c = '\n' ∨ c = '\t' then (⟨buffer, read + 1, 0⟩, c = '\n')
      else handleErrorsLoop (buffer ++ [c]) (read + 1) rest
    else (⟨buffer, read, 0⟩, false)

/-- The call `sprintf(buffer2, "Unidentified token: %s", buffer)` of `handleErrors` stores the
message, the C string of the buffer and a terminating NUL in `buffer2`, an array of
`TOKEN_MAX_LENGTH + 1` characters: whether these are more characters than the array has. -/
def handleErrorsOverflow (st : LexState) : Bool :=
  let r := handleErrorsLoop [] 0 st.unread
  decide (TOKEN_MAX_LENGTH + 1 < ("Unidentified token: ".toList ++ cstr r.1.buffer).length + 1)

/-- On this input no call of `handleErrors` makes `sprintf` write behind `buffer2`. -/
def NoOverflow (input : List Char) : Prop :=
  ∀ st : LexState, st.input = input → handleErrorsOverflow st = false

/-- The function `handleErrors`, when `buffer2` holds what `sprintf` stores. -/
def handleErrors (st : LexState) : LexState :=
  let tmp := st.line_number
  let r := handleErrorsLoop [] 0 st.unread
  let st1 := { st with pos := st.pos + r.1.read }
  let st2 := if r.2 then { st1 with line_number := st1.line_number + 1 } else st1
  addToken st2 TOKEN_ERROR ("Unidentified token: ".toList ++ cstr r.1.buffer) tmp

/-- The character an escape letter stands for: the cases `n t a b f r v` of the switch of
`handleStringLiterals`. -/
def escapeOf (c : Char) : Option Char :=
  if c = 'n' then some (Char.ofNat 10)
  else if c = 't' then some (Char.ofNat 9)
  else if c = 'a' then some (Char.ofNat 7)
  else if c = 'b' then some (Char.ofNat 8)
  else if c = 'f' then some (Char.ofNat 12)
  else if c = 'r' then some (Char.ofNat 13)
  else if c = 'v' then some (Char.ofNat 11)
  else none

/-- The result of one pass through the switch of `handleStringLiterals`: the handler returns
a token, or the loop goes on with the new `buffer[-1]`, buffer and `last_replaced`. The
buffer is kept reversed, so that its head is `buffer[i-1]` and its length is `i`. -/
inductive StrStep where
  | stop (type : token_type) (buffer : List Char)
  | next (under : Char) (rbuf : List Char) (last_replaced : Bool)
  deriving DecidableEq, Repr

/-- The assignment `buffer[i-1] = x; i--` followed by the `i++` of the loop; with `i = 0` the
character in front of the buffer is written. -/
def setPrev (x : Char) (under : Char) (rbuf : List Char) : Char × List Char :=
  match rbuf with
  | [] => (x, [])
  | _ :: r => (under, x :: r)

/-- The switch of `handleStringLiterals` on the character `c` just read. -/
def handleStringCase (under : Char) (rbuf : List Char) (last_replaced : Bool) (c : Char) :
    StrStep :=
  let esc : Bool := rbuf.headD under == '\\' && !last_replaced
  if c = '"' then
    if esc then .next (setPrev '"' under rbuf).1 (setPrev '"' under rbuf).2 last_replaced
    else .stop TOKEN_STRING_LITERAL rbuf.reverse
  else if c = '\\' then
    if esc then .next (setPrev '\\' under rbuf).1 (setPrev '\\' under rbuf).2 true
    else .next under (c :: rbuf) false
  else match escapeOf c with
    | some e =>
      if esc then .next (setPrev e under rbuf).1 (setPrev e under rbuf).2 last_replaced
      else .next under (c :: rbuf) false
    | none =>
      if esc then
        .stop TOKEN_ERROR ("Undefined control sequence \\".toList ++ [c] ++ " in string literal".toList)
      else .next under (c :: rbuf) false

/-- What `handleStringLiterals` hands to `addToken`, with the file movement and the byte in
front of the buffer. -/
structure StrScan where
  type : token_type
  buffer : List Char
  read : Nat
  skip : Nat
  under : Char
  deriving DecidableEq, Repr

/-- The loop `for(int i = 0; i < TOKEN_MAX_LENGTH; i++)` of `handleStringLiterals` on the
unread characters. -/
def handleStringLoop (under : Char) (rbuf : List Char) (last_replaced : Bool) (read : Nat) :
    List Char → StrScan
  | [] =>
    if rbuf.length < TOKEN_MAX_LENGTH then
      ⟨TOKEN_ERROR, "Unterminated string literal.".toList, read, 1, under⟩
    else ⟨TOKEN_ERROR, "String literal is too long.".toList, read, 0, under⟩
  | c :: rest =>
    if rbuf.length < TOKEN_MAX_LENGTH then
      match handleStringCase under rbuf last_replaced c with
      | .stop type buffer => ⟨type, buffer, read + 1, 0, under⟩
      | .next under1 rbuf1 lr1 => handleStringLoop under1 rbuf1 lr1 (read + 1) rest
    else ⟨TOKEN_ERROR, "String literal is too long.".toList, read, 0, under⟩

/-- The function `handleStringLiterals`, entered with an emptied buffer. -/
def handleStringLiterals (st : LexState) : LexState :=
  let r := handleStringLoop st.under [] false 0 st.unread
  addToken { st with pos := st.pos + r.read + r.skip, under := r.under } r.type r.buffer
    st.line_number

/-- The condition of the loop of `isLastTokenControlError`; `&&` binds tighter than `||`. -/
def controlErrorCond (t : token) : Bool :=
  (t.type == TOKEN_ERROR && strncmpEq t.value "String".toList 6) ||
  strncmpEq t.value "Undefined".toList 9

/-- The function `isLastTokenControlError`, on the tokens in front of the empty last node. -/
def isLastTokenControlError (list : token_list) : Bool :=
  list.foldl (fun _ t => controlErrorCond t) false

/-- The loop `do ... while(isLastTokenControlError(head))` of `lex`. -/
def stringLiteralLoop : Nat → LexState → Outcome LexState
  | 0, _ => .fuel
  | fuel + 1, st =>
    let st1 := handleStringLiterals st
    if isLastTokenControlError st1.tl then stringLiteralLoop fuel st1 else .done st1

/-- The switch of the main loop of `lex` on the character `c` just read. In the last case
`sprintf` writes behind the end of `buffer2` when the message does not fit. -/
def lexCase (fuel : Nat) (c : Char) (st : LexState) : Outcome LexState :=
  if c = '+' ∨ c = '-' ∨ c = '*' ∨ c = '=' ∨ c = '<' ∨ c = '&' then
    .done (addToken st TOKEN_BIN_OP [c] st.line_number)
  else if c = '(' then .done (addToken st TOKEN_LPAR [c] st.line_number)
  else if c = ')' then .done (addToken st TOKEN_RPAR [c] st.line_number)
  else if c = ';' then .done (addToken st TOKEN_SCOL [c] st.line_number)
  else if c = '!' then .done (addToken st TOKEN_UN_OP [c] st.line_number)
  else if c = '.' then .done (handlePeriod st [c])
  else if c = '/' then .done (handleSlash st [c])
  else if c = ':' then .done (handleCol st [c])
  else if c = ' ' ∨ c = '\n' ∨ c = '\t' then
    .done (if c = '\n' then { st with line_number := st.line_number + 1 } else st)
  else if c.isAlpha then .done (handleOthers st)
  else if c.isDigit then .done (handleIntLiterals st)
  else if c = '"' then stringLiteralLoop fuel st
  else if handleErrorsOverflow (ungetc st) then .fault
  else .done (handleErrors (ungetc st))

/-- The main loop of `lex`: `while(fread(&c, sizeof(char), 1, input) == sizeof(char))`. -/
def lexLoop : Nat → LexState → Outcome LexState
  | 0, _ => .fuel
  | fuel + 1, st =>
    match st.input[st.pos]? with
    | none => .done st
    | some c =>
      match lexCase fuel c { st with pos := st.pos + 1 } with
      | .done st1 => lexLoop fuel st1
      | .fault => .fault
      | .fuel => .fuel

/-- The function `addEOF`: the empty last node receives the token `EOF`. -/
def addEOF (st : LexState) : token_list :=
  st.tl ++ [newToken TOKEN_EOF "EOF".toList st.line_number]

/-- The scanner run with a given amount of fuel for its main loop. -/
def lexFuel (fuel : Nat) (under : Char) (input : List Char) : Outcome token_list :=
  (lexLoop fuel ⟨input, 0, 1, [], under⟩).bind (fun st => .done (addEOF st))

/-- The function `lex`: the main loop reads at least one character per round, so that one
round more than the input has characters ends it. The outcome is `fault` when a call of
`handleErrors` writes behind the end of `buffer2`. -/
def lex (under : Char) (input : List Char) : Outcome token_list :=
  lexFuel (input.length + 1) under input

/-- The diagnostic of `correctTokenList` for an error token. -/
def lexicalErrorText (t : token) : List Char :=
  "Lexical error in line ".toList ++ fmt3D t.line_number ++ ": ".toList ++ t.value ++ "\n".toList

/-- The loop of `correctTokenList`: `kept` is the list from `head` to `prev`, the second
component is standard error. -/
def correctTokenListLoop : token_list → token_list × List Char → token_list × List Char
  | [], acc => acc
  | t :: rest, acc =>
    if t.type = TOKEN_ERROR then correctTokenListLoop rest (acc.1, acc.2 ++ lexicalErrorText t)
    else correctTokenListLoop rest (acc.1 ++ [t], acc.2)

/-- The function `correctTokenList`, with standard error before and after. -/
def correctTokenList (list : token_list) (err : List Char) : token_list × List Char :=
  correctTokenListLoop list ([], err)

/-! ## The string-literal body as the specification describes it -/

/-- An element of the body of a string literal: an ordinary byte, or the escape sequence made
of a backslash and the given character. -/
inductive StrItem where
  | ordinary (c : Char)
  | escape (c : Char)
  deriving DecidableEq, Repr

/-- The source text of an element of a body. -/
def StrItem.raw : StrItem → List Char
  | .ordinary c => [c]
  | .escape c => ['\\', c]

/-- The single character the specification assigns to the escape sequences
`\n \t \a \b \f \r \v \\ \"`. -/
def specEscape (c : Char) : Char :=
  if c = 'n' then Char.ofNat 10
  else if c = 't' then Char.ofNat 9
  else if c = 'a' then Char.ofNat 7
  else if c = 'b' then Char.ofNat 8
  else if c = 'f' then Char.ofNat 12
  else if c = 'r' then Char.ofNat 13
  else if c = 'v' then Char.ofNat 11
  else c

/-- The character an element of a body stands for. -/
def StrItem.decoded : StrItem → Char
  | .ordinary c => c
  | .escape c => specEscape c

/-- The elements the claim on string literals speaks of: an ordinary byte is anything but a
double quote or a backslash, an escape sequence is one of the nine of the specification. -/
def StrItem.Allowed : StrItem → Prop
  | .ordinary c => c ≠ '"' ∧ c ≠ '\\'
  | .escape c => c ∈ ['n', 't', 'a', 'b', 'f', 'r', 'v', '\\', '"']

instance (x : StrItem) : Decidable x.Allowed := by
  cases x <;> simp only [StrItem.Allowed] <;> infer_instance

/-- The source text of a body. -/
def rawBody (items : List StrItem) : List Char := (items.map StrItem.raw).flatten

/-- The decoded value of a body: every element replaced by the character it stands for. -/
def decodedBody (items : List StrItem) : List Char := items.map StrItem.decoded

/-- No escape is pending: the last character of the buffer is not a backslash that waits for
its second character. -/
def StrClean (under : Char) (rbuf : List Char) (lr : Bool) : Prop :=
  (rbuf.headD under == '\\' && !lr) = false

/-- No token of the list is the end-of-input token. -/
def NoEOF (l : token_list) : Prop := ∀ t ∈ l, t.type ≠ token_type.TOKEN_EOF

/-- A step of the scanner from `st` to `st1` keeps the input, leaves the file position at `p`
or behind it, and adds no end-of-input token. -/
def LexStepOk (p : Nat) (st st1 : LexState) : Prop :=
  st1.input = st.input ∧ p ≤ st1.pos ∧ (NoEOF st.tl → NoEOF st1.tl)

/-! ## tree.h: the parse tree

Each type stands for the pointers to a node of the struct of the same name: the value `NULL`,
the sentinel `error` of the parser, or a node with its fields. A pointer to a token is `none`
when it is `NULL`. -/

mutual
/-- Pointers to `struct EXPRESSION_NODE`. -/
inductive expression_node where
  | NULL
  | error
  | node (unaryen : unary_expression_node) (binaryen : binary_expression_node)
/-- Pointers to `struct UNARY_EXPRESSION_NODE`. -/
inductive unary_expression_node where
  | NULL
  | error
  | node (unop : Option token) (opern : operand_node)
/-- Pointers to `struct BINARY_EXPRESSION_NODE`. -/
inductive binary_expression_node where
  | NULL
  | error
  | node (opern : operand_node) (osn : operand_suffix_node)
/-- Pointers to `struct OPERAND_NODE`. -/
inductive operand_node where
  | NULL
  | error
  | node (intLit : Option token) (strLit : Option token) (id : Option token)
      (expren : enclosed_expression_node)
/-- Pointers to `struct ENCLOSED_EXPRESSION_NODE`. -/
inductive enclosed_expression_node where
  | NULL
  | error
  | node (lPar : Option token) (expn : expression_node) (rPar : Option token)
/-- Pointers to `struct OPERAND_SUFFIX_NODE`. -/
inductive operand_suffix_node where
  | NULL
  | error
  | node (op : Option token) (opn : operand_node)
end

/-- Pointers to `struct DECLARATION_SUFFIX_NODE`. -/
inductive declaration_suffix_node where
  | NULL
  | error
  | node (ass : Option token) (expn : expression_node)

/-- Pointers to `struct DECLARATION_NODE`. -/
inductive declaration_node where
  | NULL
  | error
  | node (varKey : Option token) (id : Option token) (col : Option token)
      (typeKey : Option token) (asn : declaration_suffix_node)

/-- Pointers to `struct ASSIGNMENT_NODE`. -/
inductive assignment_node where
  | NULL
  | error
  | node (id : Option token) (assOp : Option token) (expn : expression_node)

/-- Pointers to `struct ASSERT_NODE`. -/
inductive assert_node where
  | NULL
  | error
  | node (assert : Option token) (lPar : Option token) (expn : expression_node)
      (rPar : Option token)

/-- Pointers to `struct READ_NODE`. -/
inductive read_node where
  | NULL
  | error
  | node (read : Option token) (id : Option token)

/-- Pointers to `struct PRINT_NODE`. -/
inductive print_node where
  | NULL
  | error
  | node (print : Option token) (expn : expression_node)

mutual
/-- Pointers to `struct STMTS_NODE`. -/
inductive stmts_node where
  | NULL
  | error
  | node (stmtn : statement_node) (sCol : Option token) (stmtsn : stmts_node)
/-- Pointers to `struct STATEMENT_NODE`. -/
inductive statement_node where
  | NULL
  | error
  | node (decn : declaration_node) (assn : assignment_node) (forn : for_node)
      (readn : read_node) (printn : print_node) (assertn : assert_node)
/-- Pointers to `struct FOR_NODE`. -/
inductive for_node where
  | NULL
  | error
  | node (forKeyStart : Option token) (id : Option token) (inKey : Option token)
      (expn1 : expression_node) (range : Option token) (expn2 : expression_node)
      (doKey : Option token) (stmtsn : stmts_node) (endKey : Option token)
      (forKeyEnd : Option token)
end

/-- Pointers to `struct PROGRAM_NODE`. -/
inductive program_node where
  | NULL
  | error
  | node (sln : stmts_node) (eof : Option token)

/-! ## semantics.c: expressions -/

/-- The C function `isspace` in the C locale. -/
def isspace (c : Char) : Bool := c == ' ' || (9 ≤ c.toNat && c.toNat ≤ 13)

/-- The value of a run of decimal digits, with what follows it. -/
def scanDigits (acc : Nat) : List Char → Nat × List Char
  | [] => (acc, [])
  | c :: rest =>
    if c.isDigit then scanDigits (10 * acc + (c.toNat - '0'.toNat)) rest else (acc, c :: rest)

/-- The conversion `%d` of `scanf` and `sscanf`: white space is skipped, then an optional sign
and at least one digit are read; the value is wrapped to an `int` (C leaves the conversion of
a value outside the range of `int` undefined). The result is `none` when nothing is
converted. -/
def scanInt (inp : List Char) : Option Int × List Char :=
  match inp.dropWhile isspace with
  | [] => (none, [])
  | c :: rest =>
    if c = '-' ∨ c = '+' then
      match rest with
      | [] => (none, [])
      | d :: rest1 =>
        if d.isDigit then
          let r := scanDigits 0 (d :: rest1)
          (some (wrapInt (if c = '-' then -(r.1 : Int) else (r.1 : Int))), r.2)
        else (none, d :: rest1)
    else if c.isDigit then
      let r := scanDigits 0 (c :: rest)
      (some (wrapInt (r.1 : Int)), r.2)
    else (none, c :: rest)

/-- The conversion `%s` of `scanf`: white space is skipped, then the characters up to the next
white space are read; `none` at the end of the input. The array that receives the field is
not part of this function: see `read`. -/
def scanStr (inp : List Char) : Option (List Char) × List Char :=
  match inp.dropWhile isspace with
  | [] => (none, [])
  | c :: rest =>
    (some ((c :: rest).takeWhile (fun x => !isspace x)), (c :: rest).dropWhile (fun x => !isspace x))

/-- The function `getIntValue`: `sscanf(data, "%d", &tmp)`. When nothing is converted the C
code returns `tmp` uninitialised; the model returns 0 then. -/
def getIntValue (data : List Char) : Int :=
  match (scanInt data).1 with
  | some n => n
  | none => 0

/-- The test `strcmp(a, b) < 0`: bytewise lexicographic order. -/
def strcmpLt : List Char → List Char → Bool
  | [], [] => false
  | [], _ :: _ => true
  | _ :: _, [] => false
  | a :: as, b :: bs => if a.toNat < b.toNat then true else if a.toNat > b.toNat then false
      else strcmpLt as bs

/-- The operation `b ^= 1` on an `int`: the lowest bit is flipped. -/
def xorOne (b : Int) : Int := if b % 2 = 0 then b + 1 else b - 1

/-- The quotient `l / r` of two `int`s: truncation toward zero, wrapped to an `int`; the one
quotient that does not fit is `INT_MIN / -1`, which C leaves undefined. -/
def cDiv (l r : Int) : Int := wrapInt (Int.tdiv l r)

/-- The string case of `+`: `oper.s = realloc(oper.s, strlen(suffix.s) + strlen(oper.s))`
followed by `strcat(oper.s, suffix.s)`. The block has the requested number of bytes, and
`strcat` stores the characters of both strings and the terminating NUL in it; the result is
`none` when a byte is stored outside the block, which C leaves undefined. The block is the
one `oper.s` points to: for a string literal the copy made by `operand`, for a variable the
block of its table entry (`findLabelValue` returns `l->v`). With an allocator that leaves
room behind the requested bytes the call returns, and the concatenation then stands in that
block. -/
def reallocStrcat (oper_s suffix_s : List Char) : Option (List Char) :=
  let block := suffix_s.length + oper_s.length
  let stored := oper_s ++ suffix_s ++ [NUL]
  if stored.length ≤ block then some (oper_s ++ suffix_s) else none

/-- The body of `binaryExpression` once both operands are evaluated and the suffix is not
empty: the type check and the choice of the operator; `op` is `ben->osn->op`. -/
def applyBinary (op : token) (oper suffix : value) (st : Env) : Outcome (value × Env) :=
  if suffix.lt ≠ oper.lt then
    .done (error_value, printError op "Mismatched types in expression".toList .SEMANTIC_ERROR st)
  else if strncmpEq op.value ['+'] 1 then
    if suffix.lt = .INT then .done ({ suffix with i := wrapInt (suffix.i + oper.i) }, st)
    else if suffix.lt = .STRING then
      match oper.s, suffix.s with
      | some a, some b =>
        match reallocStrcat a b with
        | some s => .done ({ oper with s := some s }, st)
        | none => .fault
      | _, _ => .fault
    else .done (error_value,
      printError op "Trying to use addition operator with boolean values".toList .SEMANTIC_ERROR st)
  else if strncmpEq op.value ['-'] 1 then
    if suffix.lt = .INT then .done ({ suffix with i := wrapInt (oper.i - suffix.i) }, st)
    else .done (error_value,
      printError op "Trying to use subtraction operator with non integer values".toList
        .SEMANTIC_ERROR st)
  else if strncmpEq op.value ['*'] 1 then
    if suffix.lt = .INT then .done ({ suffix with i := wrapInt (suffix.i * oper.i) }, st)
    else .done (error_value,
      printError op "Trying to use multiplication operator with non integer values".toList
        .SEMANTIC_ERROR st)
  else if strncmpEq op.value ['/'] 1 then
    if suffix.i = 0 then
      .done (error_value, printError op "Division by zero".toList .RUNTIME_ERROR st)
    else if suffix.lt = .INT then .done ({ suffix with i := cDiv oper.i suffix.i }, st)
    else .done (error_value,
      printError op "trying to use division operator with non integer values".toList
        .SEMANTIC_ERROR st)
  else if strncmpEq op.value ['&'] 1 then
    if suffix.lt = .BOOL then .done ({ suffix with b := Int.land suffix.b oper.b }, st)
    else .done (error_value,
      printError op "Trying to use logical and operator with non boolean values".toList
        .SEMANTIC_ERROR st)
  else if strncmpEq op.value ['<'] 1 then
    match suffix.lt with
    | .UNDEF => .done (error_value,
        printError op "Trying to use boolean operator < with non boolean values".toList
          .SEMANTIC_ERROR st)
    | .INT => .done ({ suffix with b := if oper.i < suffix.i then 1 else 0, lt := .BOOL }, st)
    | .STRING =>
      match oper.s, suffix.s with
      | some a, some b => .done ({ suffix with b := if strcmpLt a b then 1 else 0, lt := .BOOL }, st)
      | _, _ => .fault
    | .BOOL => .done ({ suffix with b := if oper.b < suffix.b then 1 else 0, lt := .BOOL }, st)
  else if strncmpEq op.value ['='] 1 then
    match suffix.lt with
    | .UNDEF => .done (error_value,
        printError op "Trying to compare types with undefined types".toList .SEMANTIC_ERROR st)
    | .INT => .done ({ suffix with b := if oper.i = suffix.i then 1 else 0, lt := .BOOL }, st)
    | .STRING =>
      match oper.s, suffix.s with
      | some a, some b => .done ({ suffix with b := if b = a then 1 else 0, lt := .BOOL }, st)
      | _, _ => .fault
    | .BOOL => .done ({ suffix with b := if oper.b = suffix.b then 1 else 0, lt := .BOOL }, st)
  else .done (oper, st)

mutual
/-- The function `expression` of `semantics.c`. -/
def expression : expression_node → Env → Outcome (value × Env)
  | .NULL, st => .done (empty_value, st)
  | .error, _ => .fault
  | .node unaryen binaryen, st =>
    (unaryExpression unaryen st).bind fun r =>
      if r.1.empty ≠ 1 then .done r else binaryExpression binaryen r.2
/-- The function `unaryExpression` of `semantics.c`. -/
def unaryExpression : unary_expression_node → Env → Outcome (value × Env)
  | .NULL, st => .done (empty_value, st)
  | .error, _ => .fault
  | .node (some unop) opern, st =>
    (operand opern st).bind fun r =>
      if r.1.lt ≠ .BOOL then
        .done (error_value,
          printError unop "The argument type of unary expression must be bool".toList
            .SEMANTIC_ERROR r.2)
      else .done ({ r.1 with b := xorOne r.1.b }, r.2)
  | .node none opern, st => operand opern st
/-- The function `binaryExpression` of `semantics.c`: the suffix operand is evaluated first. -/
def binaryExpression : binary_expression_node → Env → Outcome (value × Env)
  | .NULL, st => .done (empty_value, st)
  | .error, _ => .fault
  | .node opern osn, st =>
    (operandSuffix osn st).bind fun rs =>
    (operand opern rs.2).bind fun ro =>
      let suffix := { rs.1 with constant := 0 }
      let oper := { ro.1 with constant := 0 }
      if oper.empty = 1 ∨ suffix.error = 1 ∨ oper.error = 1 then .done (error_value, ro.2)
      else if suffix.empty ≠ 1 then
        match osn with
        | .node (some op) _ => applyBinary op oper suffix ro.2
        | _ => .fault
      else .done (oper, ro.2)
/-- The function `operandSuffix` of `semantics.c`. -/
def operandSuffix : operand_suffix_node → Env → Outcome (value × Env)
  | .NULL, st => .done (empty_value, st)
  | .error, _ => .fault
  | .node _ opn, st => operand opn st
/-- The function `operand` of `semantics.c`. -/
def operand : operand_node → Env → Outcome (value × Env)
  | .NULL, _ => .fault
  | .error, _ => .fault
  | .node intLit strLit id expren, st =>
    (enclosedExpression expren st).bind fun r =>
      if r.1.empty ≠ 1 then .done r
      else match intLit, strLit, id with
        | some t, _, _ => .done ({ default_value with lt := .INT, i := getIntValue t.value }, r.2)
        | none, some t, _ => .done ({ default_value with lt := .STRING, s := some t.value }, r.2)
        | none, none, some t =>
          let f := findLabelValue t r.2
          if f.1.empty ≠ 0 then .done (error_value, f.2) else .done f
        | none, none, none => .fault
/-- The function `enclosedExpression` of `semantics.c`. -/
def enclosedExpression : enclosed_expression_node → Env → Outcome (value × Env)
  | .NULL, st => .done (empty_value, st)
  | .error, _ => .fault
  | .node _ expn _, st => expression expn st
end

/-! ## semantics.c: statements -/

/-- The function `printValue` for the two types `print` lets through; a `NULL` string is an
invalid read. -/
def printValue (v : value) (st : Env) : Outcome Env :=
  match v.lt with
  | .INT => .done { st with out := st.out ++ fmtD v.i }
  | .STRING =>
    match v.s with
    | some s => .done { st with out := st.out ++ s }
    | none => .fault
  | .BOOL => .done { st with out := st.out ++ "BOOL: ".toList ++
      (if v.b = 1 then "True".toList else "False".toList) ++ "\n".toList }
  | .UNDEF => .done { st with out := st.out ++ "Value is invalid\n".toList }

/-- The function `declarationSuffix` of `semantics.c`. -/
def declarationSuffix : declaration_suffix_node → Env → Outcome (value × Env)
  | .NULL, st => .done (empty_value, st)
  | .error, _ => .fault
  | .node _ expn, st => expression expn st

/-- The type a declaration expects, from the lexeme of its type keyword; for any other lexeme
the C variable `expected` stays uninitialised, and the model takes `UNDEF`. -/
def expectedType (typeKey : token) : label_type :=
  if strncmpEq typeKey.value "int".toList TOKEN_MAX_LENGTH then .INT
  else if strncmpEq typeKey.value "string".toList TOKEN_MAX_LENGTH then .STRING
  else if strncmpEq typeKey.value "bool".toList TOKEN_MAX_LENGTH then .BOOL
  else .UNDEF

/-- The function `declaration` of `semantics.c`. -/
def declaration : declaration_node → Env → Outcome (Int × Env)
  | .NULL, st => .done (1, st)
  | .error, _ => .fault
  | .node _ (some id) _ (some typeKey) asn, st =>
    let expected := expectedType typeKey
    (declarationSuffix asn st).bind fun r =>
      let v : value :=
        if r.1.empty ≠ 0 then
          { default_value with lt := expected, s := if expected = .STRING then some [] else none }
        else r.1
      if v.lt ≠ expected then
        .done (0, printError id "Incompatible types in declaration".toList .SEMANTIC_ERROR r.2)
      else
        let ins := insert id v r.2
        if ins.1 = 0 then
          .done (0, printError id ("Redeclaration of symbol ".toList ++ id.value)
            .SEMANTIC_ERROR ins.2)
        else .done (1, ins.2)
  | .node _ _ _ _ _, _ => .fault

/-- The function `assignment` of `semantics.c`. -/
def assignment : assignment_node → Env → Outcome (Int × Env)
  | .NULL, st => .done (1, st)
  | .error, _ => .fault
  | .node (some id) _ expn, st =>
    let f := findLabelType id st
    if f.1 = .UNDEF then
      .done (0, printError id ("Undefined variable ".toList ++ id.value) .SEMANTIC_ERROR f.2)
    else
      (expression expn f.2).bind fun r =>
        if f.1 ≠ r.1.lt then
          .done (0, printError id "Incompatible types in assignment".toList .SEMANTIC_ERROR r.2)
        else if r.1.error ≠ 1 ∧ r.1.empty ≠ 1 then .done (update id r.1 r.2)
        else .done (0, r.2)
  | .node none _ _, _ => .fault

/-- The function `assert` of `semantics.c`. -/
def assert : assert_node → Env → Outcome (Int × Env)
  | .NULL, st => .done (1, st)
  | .error, _ => .fault
  | .node assertKey _ expn _, st =>
    (expression expn st).bind fun r =>
      if r.1.b ≠ 1 then
        match assertKey with
        | some t => .done (0, printError t "Assertion failed".toList .SEMANTIC_ERROR r.2)
        | none => .fault
      else .done (1, r.2)

/-- The function `read` of `semantics.c`; `scanf` reads from the field `inp`. A string is
read into `char tmp[512]` and copied with `strncpy(v.s, tmp, 512)`: the model keeps the first
512 characters of the field, and follows neither the store of a field of 512 characters or
more outside `tmp` nor the end of the copy at a NUL byte of the field. -/
def read : read_node → Env → Outcome (Int × Env)
  | .NULL, st => .done (1, st)
  | .error, _ => .fault
  | .node _ (some id) , st =>
    let f := findLabelType id st
    match f.1 with
    | .UNDEF =>
      .done (0, printError id "Undefined label in read statement".toList .SEMANTIC_ERROR f.2)
    | .INT =>
      match scanInt f.2.inp with
      | (none, rest) =>
        .done (0, printError id "Failed to read integer".toList .RUNTIME_ERROR
          { f.2 with inp := rest })
      | (some n, rest) =>
        .done (update id { default_value with lt := .INT, i := n } { f.2 with inp := rest })
    | .STRING =>
      match scanStr f.2.inp with
      | (none, rest) =>
        .done (0, printError id "Failed to read string".toList .RUNTIME_ERROR
          { f.2 with inp := rest })
      | (some s, rest) =>
        .done (update id { default_value with lt := .STRING, s := some (s.take 512) }
          { f.2 with inp := rest })
    | .BOOL =>
      .done (0, printError id "Cannot read boolean value".toList .RUNTIME_ERROR f.2)
  | .node _ none, _ => .fault

/-- The function `print` of `semantics.c`. -/
def print : print_node → Env → Outcome (Int × Env)
  | .NULL, st => .done (1, st)
  | .error, _ => .fault
  | .node printKey expn, st =>
    (expression expn st).bind fun r =>
      if r.1.error = 1 ∨ r.1.empty = 1 ∨ (r.1.lt ≠ .STRING ∧ r.1.lt ≠ .INT) then
        match printKey with
        | some t =>
          .done (0, printError t "Invalid value in printable expression".toList .RUNTIME_ERROR r.2)
        | none => .fault
      else (printValue r.1 r.2).bind fun st1 => .done (1, st1)

/-- The loop of `for_`,
`for(counter.i = range_start.i; counter.i <= range_end.i; counter.i++)`, with its exit code:
each round writes the counter into the control variable and runs the body; a failing body
returns 0 at once; after the last round the counter is written with `constant` cleared. -/
def forLoop (body : Env → Outcome (Int × Env)) (id : token) (range_end : Int) :
    Nat → value → Env → Outcome (Int × Env)
  | 0, _, _ => .fuel
  | fuel + 1, counter, st =>
    if counter.i ≤ range_end then
      match body (forceUpdate id counter st) with
      | .done r =>
        if r.1 = 0 then .done (0, r.2)
        else forLoop body id range_end fuel { counter with i := wrapInt (counter.i + 1) } r.2
      | .fault => .fault
      | .fuel => .fuel
    else .done (1, forceUpdate id { counter with constant := 0 } st)

mutual
/-- The function `stmts` of `semantics.c`; `fuel` bounds the rounds of each `for` loop. -/
def stmts (fuel : Nat) : stmts_node → Env → Outcome (Int × Env)
  | .NULL, st => .done (1, st)
  | .error, _ => .fault
  | .node stmtn _ stmtsn, st =>
    (statement fuel stmtn st).bind fun r =>
      if r.1 = 0 then .done (0, r.2) else stmts fuel stmtsn r.2
/-- The function `statement` of `semantics.c`: the six calls joined by `&&`. -/
def statement (fuel : Nat) : statement_node → Env → Outcome (Int × Env)
  | .NULL, _ => .fault
  | .error, _ => .fault
  | .node decn assn forn readn printn assertn, st =>
    (declaration decn st).bind fun r1 =>
    if r1.1 = 0 then .done (0, r1.2) else
    (assignment assn r1.2).bind fun r2 =>
    if r2.1 = 0 then .done (0, r2.2) else
    (for_ fuel forn r2.2).bind fun r3 =>
    if r3.1 = 0 then .done (0, r3.2) else
    (read readn r3.2).bind fun r4 =>
    if r4.1 = 0 then .done (0, r4.2) else
    (print printn r4.2).bind fun r5 =>
    if r5.1 = 0 then .done (0, r5.2) else
    (assert assertn r5.2).bind fun r6 =>
    if r6.1 = 0 then .done (0, r6.2) else .done (1, r6.2)
/-- The function `for_` of `semantics.c`. -/
def for_ (fuel : Nat) : for_node → Env → Outcome (Int × Env)
  | .NULL, st => .done (1, st)
  | .error, _ => .fault
  | .node _ (some id) _ expn1 _ expn2 _ stmtsn _ _, st =>
    let f := findLabelType id st
    if f.1 ≠ .INT then
      .done (0, printError id "For variable should be integer".toList .SEMANTIC_ERROR f.2)
    else
      (expression expn1 f.2).bind fun range_start =>
      (expression expn2 range_start.2).bind fun range_end =>
        if range_start.1.lt ≠ .INT ∨ range_end.1.lt ≠ .INT then
          .done (0, printError id "For range should be integer".toList .SEMANTIC_ERROR range_end.2)
        else
          forLoop (fun st1 => stmts fuel stmtsn st1) id range_end.1.i fuel
            { default_value with lt := .INT, constant := 1, i := range_start.1.i } range_end.2
  | .node _ none _ _ _ _ _ _ _ _, _ => .fault
end

/-- The function `program` of `semantics.c`. -/
def program (fuel : Nat) : program_node → Env → Outcome (Int × Env)
  | .node sln _, st => stmts fuel sln st
  | _, _ => .fault

/-- The function `run`: the symbol table starts empty; the result is the return value with the
final state of the streams. -/
def run (fuel : Nat) (pn : program_node) (inp : List Char) : Outcome (Int × Env) :=
  program fuel pn (initialEnv inp)

/-! ## parser.c -/

namespace Parser

/-- The enum `consumption_types`. -/
inductive consumption_type where
  | CONSUME | NO_CONSUME
  deriving DecidableEq, Repr

/-- The enum `discard_option`. -/
inductive discard_option where
  | AFTER_SEMICOLON | SEMICOLON
  deriving DecidableEq, Repr

open consumption_type discard_option

/-- The globals of `parser.c`: `global_tlist` (the list from the next unhandled token on, `[]`
for `NULL`), `errors_found`, and standard error. -/
structure ParseState where
  global_tlist : token_list
  errors_found : Int
  err : List Char
  deriving DecidableEq, Repr

/-- The function `match`. -/
def match_ (tt : token_type) (ct : consumption_type) (st : ParseState) :
    Option token × ParseState :=
  match st.global_tlist with
  | [] => (none, st)
  | t :: rest =>
    if t.type = tt then
      (some t, if ct = CONSUME then { st with global_tlist := rest } else st)
    else (none, st)

/-- The first loop of `discardTokens`: up to the next semicolon or end-of-input token; `none`
when the loop reads past the last node of the list. -/
def discardToSemicolon : token_list → Option token_list
  | [] => none
  | t :: rest =>
    if t.type ≠ TOKEN_SCOL ∧ t.type ≠ TOKEN_EOF then discardToSemicolon rest else some (t :: rest)

/-- The second loop of `discardTokens`: over the semicolons. -/
def discardSemicolons : token_list → Option token_list
  | [] => none
  | t :: rest => if t.type = TOKEN_SCOL then discardSemicolons rest else some (t :: rest)

/-- The function `discardTokens`. -/
def discardTokens (o : discard_option) (st : ParseState) : Outcome ParseState :=
  match discardToSemicolon st.global_tlist with
  | none => .fault
  | some l =>
    if o = AFTER_SEMICOLON then
      match discardSemicolons l with
      | none => .fault
      | some l1 => .done { st with global_tlist := l1 }
    else .done { st with global_tlist := l }

/-- The text written by `printError` of `parser.c`. -/
def syntaxErrorText (t : token) : List Char :=
  "Syntax  error in line ".toList ++ fmt3D t.line_number ++ ": Invalid ".toList ++
  (match t.type with
   | TOKEN_VARKEY => "declaration".toList
   | TOKEN_IDENTIFIER => "assignment".toList
   | TOKEN_FORKEY => "for".toList
   | TOKEN_READKEY => "read".toList
   | TOKEN_PRINTKEY => "print".toList
   | TOKEN_ASSERTKEY => "assert".toList
   | ty => "type ".toList ++ fmtD ty.code) ++
  " statement.\n".toList

/-- The function `printError` of `parser.c`. -/
def printError (t : token) (st : ParseState) : ParseState :=
  { st with err := st.err ++ syntaxErrorText t }

mutual
/-- The function `expression` of `parser.c`. -/
def expression : Nat → ParseState → Outcome (expression_node × ParseState)
  | 0, _ => .fuel
  | fuel + 1, st =>
    if (match_ TOKEN_UN_OP NO_CONSUME st).1.isSome then
      (unaryExpression fuel st).bind fun r =>
        match r.1 with
        | .error => .done (.error, r.2)
        | unaryen => .done (.node unaryen .NULL, r.2)
    else
      (binaryExpression fuel st).bind fun r =>
        match r.1 with
        | .error => .done (.error, r.2)
        | binaryen => .done (.node .NULL binaryen, r.2)
/-- The function `unaryExpression` of `parser.c`. -/
def unaryExpression : Nat → ParseState → Outcome (unary_expression_node × ParseState)
  | 0, _ => .fuel
  | fuel + 1, st =>
    match match_ TOKEN_UN_OP CONSUME st with
    | (none, st1) => .done (.error, st1)
    | (some unop, st1) =>
      (operand fuel st1).bind fun r =>
        match r.1 with
        | .error => .done (.error, r.2)
        | opern => .done (.node (some unop) opern, r.2)
/-- The function `binaryExpression` of `parser.c`. -/
def binaryExpression : Nat → ParseState → Outcome (binary_expression_node × ParseState)
  | 0, _ => .fuel
  | fuel + 1, st =>
    (operand fuel st).bind fun r =>
      match r.1 with
      | .error => .done (.error, r.2)
      | opern =>
        (operandSuffix fuel r.2).bind fun rs =>
          match rs.1 with
          | .error => .done (.error, rs.2)
          | osn => .done (.node opern osn, rs.2)
/-- The function `operand` of `parser.c`. -/
def operand : Nat → ParseState → Outcome (operand_node × ParseState)
  | 0, _ => .fuel
  | fuel + 1, st =>
    match match_ TOKEN_INT_LITERAL CONSUME st with
    | (some intLit, st1) => .done (.node (some intLit) none none .NULL, st1)
    | (none, st1) =>
      match match_ TOKEN_STRING_LITERAL CONSUME st1 with
      | (some strLit, st2) => .done (.node none (some strLit) none .NULL, st2)
      | (none, st2) =>
        match match_ TOKEN_IDENTIFIER CONSUME st2 with
        | (some id, st3) => .done (.node none none (some id) .NULL, st3)
        | (none, st3) =>
          (enclosedExpression fuel st3).bind fun r =>
            match r.1 with
            | .error => .done (.error, r.2)
            | expren => .done (.node none none none expren, r.2)
/-- The function `operandSuffix` of `parser.c`. -/
def operandSuffix : Nat → ParseState → Outcome (operand_suffix_node × ParseState)
  | 0, _ => .fuel
  | fuel + 1, st =>
    match match_ TOKEN_BIN_OP CONSUME st with
    | (some op, st1) =>
      (operand fuel st1).bind fun r =>
        match r.1 with
        | .error => .done (.error, r.2)
        | opn => .done (.node (some op) opn, r.2)
    | (none, st1) => .done (.NULL, st1)
/-- The function `enclosedExpression` of `parser.c`. -/
def enclosedExpression : Nat → ParseState → Outcome (enclosed_expression_node × ParseState)
  | 0, _ => .fuel
  | fuel + 1, st =>
    match match_ TOKEN_LPAR CONSUME st with
    | (none, st1) => .done (.error, st1)
    | (some lPar, st1) =>
      (expression fuel st1).bind fun r =>
        match r.1 with
        | .error => .done (.error, r.2)
        | expn =>
          match match_ TOKEN_RPAR CONSUME r.2 with
          | (none, st2) => .done (.error, st2)
          | (some rPar, st2) => .done (.node (some lPar) expn (some rPar), st2)
end

/-- The function `declarationSuffix` of `parser.c`. -/
def declarationSuffix (fuel : Nat) (st : ParseState) :
    Outcome (declaration_suffix_node × ParseState) :=
  match match_ TOKEN_ASSIGN CONSUME st with
  | (some ass, st1) =>
    (expression fuel st1).bind fun r =>
      match r.1 with
      | .error => .done (.error, r.2)
      | expn => .done (.node (some ass) expn, r.2)
  | (none, st1) => .done (.NULL, st1)

/-- The function `declaration` of `parser.c`. -/
def declaration (fuel : Nat) (st : ParseState) : Outcome (declaration_node × ParseState) :=
  match match_ TOKEN_VARKEY CONSUME st with
  | (none, st1) => .done (.error, st1)
  | (some varKey, st1) =>
    match match_ TOKEN_IDENTIFIER CONSUME st1 with
    | (none, st2) => .done (.error, st2)
    | (some id, st2) =>
      match match_ TOKEN_COL CONSUME st2 with
      | (none, st3) => .done (.error, st3)
      | (some col, st3) =>
        match match_ TOKEN_TYPEKEY CONSUME st3 with
        | (none, st4) => .done (.error, st4)
        | (some typeKey, st4) =>
          (declarationSuffix fuel st4).bind fun r =>
            match r.1 with
            | .error => .done (.error, r.2)
            | asn => .done (.node (some varKey) (some id) (some col) (some typeKey) asn, r.2)

/-- The function `assignment` of `parser.c`. -/
def assignment (fuel : Nat) (st : ParseState) : Outcome (assignment_node × ParseState) :=
  match match_ TOKEN_IDENTIFIER CONSUME st with
  | (none, st1) => .done (.error, st1)
  | (some id, st1) =>
    match match_ TOKEN_ASSIGN CONSUME st1 with
    | (none, st2) => .done (.error, st2)
    | (some assOp, st2) =>
      (expression fuel st2).bind fun r =>
        match r.1 with
        | .error => .done (.error, r.2)
        | expn => .done (.node (some id) (some assOp) expn, r.2)

/-- The function `assert` of `parser.c`. -/
def assert (fuel : Nat) (st : ParseState) : Outcome (assert_node × ParseState) :=
  match match_ TOKEN_ASSERTKEY CONSUME st with
  | (none, st1) => .done (.error, st1)
  | (some assertKey, st1) =>
    match match_ TOKEN_LPAR CONSUME st1 with
    | (none, st2) => .done (.error, st2)
    | (some lPar, st2) =>
      (expression fuel st2).bind fun r =>
        match r.1 with
        | .error => .done (.error, r.2)
        | expn =>
          match match_ TOKEN_RPAR CONSUME r.2 with
          | (none, st3) => .done (.error, st3)
          | (some rPar, st3) => .done (.node (some assertKey) (some lPar) expn (some rPar), st3)

/-- The function `read` of `parser.c`. -/
def read (st : ParseState) : Outcome (read_node × ParseState) :=
  match match_ TOKEN_READKEY CONSUME st with
  | (none, st1) => .done (.error, st1)
  | (some readKey, st1) =>
    match match_ TOKEN_IDENTIFIER CONSUME st1 with
    | (none, st2) => .done (.error, st2)
    | (some id, st2) => .done (.node (some readKey) (some id), st2)

/-- The function `print` of `parser.c`. -/
def print (fuel : Nat) (st : ParseState) : Outcome (print_node × ParseState) :=
  match match_ TOKEN_PRINTKEY CONSUME st with
  | (none, st1) => .done (.error, st1)
  | (some printKey, st1) =>
    (expression fuel st1).bind fun r =>
      match r.1 with
      | .error => .done (.error, r.2)
      | expn => .done (.node (some printKey) expn, r.2)

/-- The chain of `match(..., NO_CONSUME)` at the head of `stmts`: the token that starts a
statement, if the next token is one. -/
def stmtsStarter (st : ParseState) : Option token :=
  match (match_ TOKEN_VARKEY NO_CONSUME st).1 with
  | some t => some t
  | none =>
    match (match_ TOKEN_IDENTIFIER NO_CONSUME st).1 with
    | some t => some t
    | none =>
      match (match_ TOKEN_FORKEY NO_CONSUME st).1 with
      | some t => some t
      | none =>
        match (match_ TOKEN_READKEY NO_CONSUME st).1 with
        | some t => some t
        | none =>
          match (match_ TOKEN_PRINTKEY NO_CONSUME st).1 with
          | some t => some t
          | none => (match_ TOKEN_ASSERTKEY NO_CONSUME st).1

/-- The recovery of `stmts` after a failed statement: the flag, the diagnostic, and
`discardTokens(SEMICOLON)`. -/
def recoverStatement (t : token) (st : ParseState) : Outcome ParseState :=
  discardTokens SEMICOLON (printError t { st with errors_found := 1 })

/-- The recovery of `stmts` after a missing semicolon. -/
def recoverSemicolon (t : token) (st : ParseState) : Outcome ParseState :=
  discardTokens AFTER_SEMICOLON
    { st with errors_found := 1,
              err := st.err ++ "Syntax  error in line ".toList ++ fmt3D t.line_number ++
                ": Expected semicolon.\n".toList }

mutual
/-- The function `stmts` of `parser.c`. -/
def stmts : Nat → ParseState → Outcome (stmts_node × ParseState)
  | 0, _ => .fuel
  | fuel + 1, st =>
    match stmtsStarter st with
    | none => .done (.NULL, st)
    | some t =>
      (statement fuel st).bind fun rs =>
      (match rs.1 with
        | .error => recoverStatement t rs.2
        | _ => .done rs.2).bind fun st1 =>
      (match match_ TOKEN_SCOL CONSUME st1 with
        | (none, st2) => (recoverSemicolon t st2).bind fun st3 => .done (none, st3)
        | (some sCol, st2) => .done (some sCol, st2)).bind fun m =>
      (stmts fuel m.2).bind fun rr =>
        match rr.1 with
        | .error => .done (.error, rr.2)
        | stmtsn => .done (.node rs.1 m.1 stmtsn, rr.2)
/-- The function `statement` of `parser.c`. -/
def statement : Nat → ParseState → Outcome (statement_node × ParseState)
  | 0, _ => .fuel
  | fuel + 1, st =>
    if (match_ TOKEN_VARKEY NO_CONSUME st).1.isSome then
      (declaration fuel st).bind fun r =>
        match r.1 with
        | .error => .done (.error, r.2)
        | decn => .done (.node decn .NULL .NULL .NULL .NULL .NULL, r.2)
    else if (match_ TOKEN_IDENTIFIER NO_CONSUME st).1.isSome then
      (assignment fuel st).bind fun r =>
        match r.1 with
        | .error => .done (.error, r.2)
        | assn => .done (.node .NULL assn .NULL .NULL .NULL .NULL, r.2)
    else if (match_ TOKEN_FORKEY NO_CONSUME st).1.isSome then
      (for_ fuel st).bind fun r =>
        match r.1 with
        | .error => .done (.error, r.2)
        | forn => .done (.node .NULL .NULL forn .NULL .NULL .NULL, r.2)
    else if (match_ TOKEN_READKEY NO_CONSUME st).1.isSome then
      (read st).bind fun r =>
        match r.1 with
        | .error => .done (.error, r.2)
        | readn => .done (.node .NULL .NULL .NULL readn .NULL .NULL, r.2)
    else if (match_ TOKEN_PRINTKEY NO_CONSUME st).1.isSome then
      (print fuel st).bind fun r =>
        match r.1 with
        | .error => .done (.error, r.2)
        | printn => .done (.node .NULL .NULL .NULL .NULL printn .NULL, r.2)
    else if (match_ TOKEN_ASSERTKEY NO_CONSUME st).1.isSome then
      (assert fuel st).bind fun r =>
        match r.1 with
        | .error => .done (.error, r.2)
        | assertn => .done (.node .NULL .NULL .NULL .NULL .NULL assertn, r.2)
    else .done (.error, st)
/-- The function `for_` of `parser.c`. -/
def for_ : Nat → ParseState → Outcome (for_node × ParseState)
  | 0, _ => .fuel
  | fuel + 1, st =>
    match match_ TOKEN_FORKEY CONSUME st with
    | (none, st1) => .done (.error, st1)
    | (some forKeyStart, st1) =>
    match match_ TOKEN_IDENTIFIER CONSUME st1 with
    | (none, st2) => .done (.error, st2)
    | (some id, st2) =>
    match match_ TOKEN_INKEY CONSUME st2 with
    | (none, st3) => .done (.error, st3)
    | (some inKey, st3) =>
    (expression fuel st3).bind fun r1 =>
    match r1.1 with
    | .error => .done (.error, r1.2)
    | expn1 =>
    match match_ TOKEN_RANGE CONSUME r1.2 with
    | (none, st4) => .done (.error, st4)
    | (some range, st4) =>
    (expression fuel st4).bind fun r2 =>
    match r2.1 with
    | .error => .done (.error, r2.2)
    | expn2 =>
    match match_ TOKEN_DOKEY CONSUME r2.2 with
    | (none, st5) => .done (.error, st5)
    | (some doKey, st5) =>
    (stmts fuel st5).bind fun r3 =>
    match r3.1 with
    | .error => .done (.error, r3.2)
    | stmtsn =>
    match match_ TOKEN_ENDKEY CONSUME r3.2 with
    | (none, st6) => .done (.error, st6)
    | (some endKey, st6) =>
    match match_ TOKEN_FORKEY CONSUME st6 with
    | (none, st7) => .done (.error, st7)
    | (some forKeyEnd, st7) =>
      .done (.node (some forKeyStart) (some id) (some inKey) expn1 (some range) expn2
        (some doKey) stmtsn (some endKey) (some forKeyEnd), st7)
end

/-- The diagnostic at the end of `program`; it reads the token under the cursor. -/
def unexpectedToken (st : ParseState) : Outcome (program_node × ParseState) :=
  match st.global_tlist with
  | [] => .fault
  | t :: _ =>
    .done (.NULL,
      { st with err := st.err ++ "Syntax  error in line ".toList ++ fmt3D t.line_number ++
                  ": Unexpected token ".toList ++ t.value ++ "\n".toList })

/-- The function `program` of `parser.c`. -/
def program (fuel : Nat) (st : ParseState) : Outcome (program_node × ParseState) :=
  (stmts fuel st).bind fun r =>
    match r.1 with
    | .error => unexpectedToken r.2
    | sln =>
      match match_ TOKEN_EOF CONSUME r.2 with
      | (some eof, st1) =>
        if st1.errors_found ≠ 0 then .done (.NULL, st1) else .done (.node sln (some eof), st1)
      | (none, st1) => unexpectedToken st1

/-- The function `parse` run with a given amount of fuel, from a given state of
`errors_found` and of standard error. -/
def parseFuel (fuel : Nat) (tlist : token_list) (errors_found : Int) (err : List Char) :
    Outcome (program_node × ParseState) :=
  program fuel ⟨tlist, errors_found, err⟩

/-- The function `parse`. Six levels of calls at most lie between two consumed tokens, so
that the depth of the calls never exceeds six times the number of tokens plus six. -/
def parse (tlist : token_list) (errors_found : Int) (err : List Char) :
    Outcome (program_node × ParseState) :=
  parseFuel (6 * tlist.length + 6) tlist errors_found err

end Parser

/-! ## Statement lists and the rounds of a loop, for the statements of the properties -/

/-- The tree of the statement list made of the statements `pre`, each with the token of its
semicolon, followed by the list `tail`. -/
def seqStmts (pre : List (statement_node × Option token)) (tail : stmts_node) : stmts_node :=
  pre.foldr (fun p t => .node p.1 p.2 t) tail

/-- Every statement of the list succeeds when they are evaluated one after the other from the
state `st`, and `st1` is the state the last one leaves. -/
def StmtsAllSucceed (fuel : Nat) : List (statement_node × Option token) → Env → Env → Prop
  | [], st, st1 => st1 = st
  | p :: ps, st, st1 =>
    ∃ st2, statement fuel p.1 st = .done (1, st2) ∧ StmtsAllSucceed fuel ps st2 st1

/-- The value `for_` writes into the control variable for the index `k`: type `INT`,
`constant` set. -/
def counterValue (k : Int) : value := { default_value with lt := .INT, constant := 1, i := k }

/-- The indices `a, a+1, ..., b` in ascending order; there are `max(0, b - a + 1)` of them. -/
def ascending (a b : Int) : List Int :=
  (List.range (b - a + 1).toNat).map (fun (k : Nat) => a + (k : Int))

/-- The body succeeds in every round when it is run once for each index of the list, in the
order of the list, each time after the index was written into the control variable; `st1` is
the state the last round leaves. -/
def RoundsSucceed (body : Env → Outcome (Int × Env)) (id : token) : List Int → Env → Env → Prop
  | [], st, st1 => st1 = st
  | k :: ks, st, st1 =>
    ∃ r, body (forceUpdate id (counterValue k) st) = .done r ∧ r.1 ≠ 0 ∧
      RoundsSucceed body id ks r.2 st1

/-! ## Trees for the examples -/

/-- A token of line 1 with the given type and lexeme. -/
def tok (type : token_type) (lexeme : String) : token := ⟨type, lexeme.toList, 1⟩

/-- The operand node of an integer literal. -/
def intOperand (digits : String) : operand_node :=
  .node (some (tok .TOKEN_INT_LITERAL digits)) none none .NULL

/-- The operand node of an identifier. -/
def idOperand (name : String) : operand_node :=
  .node none none (some (tok .TOKEN_IDENTIFIER name)) .NULL

/-- The expression node of a single operand. -/
def operandExpr (o : operand_node) : expression_node := .node .NULL (.node o .NULL)

/-- The expression node of `l op r`. -/
def binaryExpr (l : operand_node) (op : String) (r : operand_node) : expression_node :=
  .node .NULL (.node l (.node (some (tok .TOKEN_BIN_OP op)) r))

/-- The statement node of `var name : int`. -/
def declIntStmt (name : String) : statement_node :=
  .node (.node (some (tok .TOKEN_VARKEY "var")) (some (tok .TOKEN_IDENTIFIER name))
      (some (tok .TOKEN_COL ":")) (some (tok .TOKEN_TYPEKEY "int")) .NULL)
    .NULL .NULL .NULL .NULL .NULL

/-- The statement node of `name := e`. -/
def assignStmt (name : String) (e : expression_node) : statement_node :=
  .node .NULL (.node (some (tok .TOKEN_IDENTIFIER name)) (some (tok .TOKEN_ASSIGN ":=")) e)
    .NULL .NULL .NULL .NULL

/-- The statement node of `print e`. -/
def printStmt (e : expression_node) : statement_node :=
  .node .NULL .NULL .NULL .NULL (.node (some (tok .TOKEN_PRINTKEY "print")) e) .NULL

/-- The statement node of `assert (e)`. -/
def assertStmt (e : expression_node) : statement_node :=
  .node .NULL .NULL .NULL .NULL .NULL
    (.node (some (tok .TOKEN_ASSERTKEY "assert")) (some (tok .TOKEN_LPAR "(")) e
      (some (tok .TOKEN_RPAR ")")))

/-- The statement node of `for name in e1..e2 do body end for`. -/
def forStmt (name : String) (e1 e2 : expression_node) (body : stmts_node) : statement_node :=
  .node .NULL .NULL
    (.node (some (tok .TOKEN_FORKEY "for")) (some (tok .TOKEN_IDENTIFIER name))
      (some (tok .TOKEN_INKEY "in")) e1 (some (tok .TOKEN_RANGE "..")) e2
      (some (tok .TOKEN_DOKEY "do")) body (some (tok .TOKEN_ENDKEY "end"))
      (some (tok .TOKEN_FORKEY "for")))
    .NULL .NULL .NULL

/-- The list node of statements that each end with a semicolon. -/
def stmtList (l : List statement_node) : stmts_node :=
  seqStmts (l.map fun s => (s, some (tok .TOKEN_SCOL ";"))) .NULL

/-- The program node of a list of statements. -/
def programOf (l : List statement_node) : program_node :=
  .node (stmtList l) (some (tok .TOKEN_EOF "EOF"))

/-- The tree of `var i : int; for i in 0..0 do for i in 5..5 do end for; print i; i := 9;
print i; end for;`: a loop on `i` nested in the body of a loop on `i`. -/
def nestedLoopProgram : program_node :=
  programOf [declIntStmt "i",
    forStmt "i" (operandExpr (intOperand "0")) (operandExpr (intOperand "0"))
      (stmtList [forStmt "i" (operandExpr (intOperand "5")) (operandExpr (intOperand "5")) .NULL,
        printStmt (operandExpr (idOperand "i")),
        assignStmt "i" (operandExpr (intOperand "9")),
        printStmt (operandExpr (idOperand "i"))])]

/-- The tree of `var i : int; for i in 2147483647..2147483647 do print i;
assert (i = 2147483647); end for;`: a loop whose upper bound is the largest `int`. -/
def maxBoundProgram : program_node :=
  programOf [declIntStmt "i",
    forStmt "i" (operandExpr (intOperand "2147483647")) (operandExpr (intOperand "2147483647"))
      (stmtList [printStmt (operandExpr (idOperand "i")),
        assertStmt (binaryExpr (idOperand "i") "=" (intOperand "2147483647"))])]

/-! ## The grammar of the specification -/

/-- The nonterminals of the grammar. -/
inductive NT where
  | program | stmts | statement | declaration | declaration_suffix | assignment | for_
  | read | print | assert | expression | unary_expression | binary_expression | operand
  | operand_suffix
  deriving DecidableEq, Repr

/-- Derivability in the grammar of the specification: `Derives X w` says that the sequence `w`
of token types is derivable from the nonterminal `X`. There is one constructor for each
alternative of each rule. -/
inductive Derives : NT → List token_type → Prop
  | program {w} : Derives .stmts w → Derives .program (w ++ [TOKEN_EOF])
  | stmts_cons {w v} : Derives .statement w → Derives .stmts v →
      Derives .stmts (w ++ TOKEN_SCOL :: v)
  | stmts_eps : Derives .stmts []
  | statement_declaration {w} : Derives .declaration w → Derives .statement w
  | statement_assignment {w} : Derives .assignment w → Derives .statement w
  | statement_for {w} : Derives .for_ w → Derives .statement w
  | statement_read {w} : Derives .read w → Derives .statement w
  | statement_print {w} : Derives .print w → Derives .statement w
  | statement_assert {w} : Derives .assert w → Derives .statement w
  | declaration {w} : Derives .declaration_suffix w →
      Derives .declaration (TOKEN_VARKEY :: TOKEN_IDENTIFIER :: TOKEN_COL :: TOKEN_TYPEKEY :: w)
  | declaration_suffix_init {w} : Derives .expression w →
      Derives .declaration_suffix (TOKEN_ASSIGN :: w)
  | declaration_suffix_eps : Derives .declaration_suffix []
  | assignment {w} : Derives .expression w →
      Derives .assignment (TOKEN_IDENTIFIER :: TOKEN_ASSIGN :: w)
  | for_ {w1 w2 w3} : Derives .expression w1 → Derives .expression w2 → Derives .stmts w3 →
      Derives .for_ (TOKEN_FORKEY :: TOKEN_IDENTIFIER :: TOKEN_INKEY :: w1 ++ TOKEN_RANGE :: w2 ++
        TOKEN_DOKEY :: w3 ++ [TOKEN_ENDKEY, TOKEN_FORKEY])
  | read : Derives .read [TOKEN_READKEY, TOKEN_IDENTIFIER]
  | print {w} : Derives .expression w → Derives .print (TOKEN_PRINTKEY :: w)
  | assert {w} : Derives .expression w →
      Derives .assert (TOKEN_ASSERTKEY :: TOKEN_LPAR :: w ++ [TOKEN_RPAR])
  | expression_unary {w} : Derives .unary_expression w → Derives .expression w
  | expression_binary {w} : Derives .binary_expression w → Derives .expression w
  | unary_expression {w} : Derives .operand w → Derives .unary_expression (TOKEN_UN_OP :: w)
  | binary_expression {w v} : Derives .operand w → Derives .operand_suffix v →
      Derives .binary_expression (w ++ v)
  | operand_int : Derives .operand [TOKEN_INT_LITERAL]
  | operand_string : Derives .operand [TOKEN_STRING_LITERAL]
  | operand_id : Derives .operand [TOKEN_IDENTIFIER]
  | operand_paren {w} : Derives .expression w →
      Derives .operand (TOKEN_LPAR :: w ++ [TOKEN_RPAR])
  | operand_suffix_op {w} : Derives .operand w → Derives .operand_suffix (TOKEN_BIN_OP :: w)
  | operand_suffix_eps : Derives .operand_suffix []

/-- The token types of a token list. -/
def kinds (l : token_list) : List token_type := l.map (fun t => t.type)

/-- A token list terminated by exactly one end-of-input token. -/
def EOFTerminated (l : token_list) : Prop :=
  ∃ ts eof, l = ts ++ [eof] ∧ eof.type = TOKEN_EOF ∧ ∀ t ∈ ts, t.type ≠ TOKEN_EOF

/-- The parser returned a tree: the pointer is a node. -/
def program_node.isTree : program_node → Bool
  | .node _ _ => true
  | _ => false

/-! ## What the calls of the parser read -/

namespace Parser
/-- What a call of a function of the expression part of the parser leaves: the flag and
standard error untouched, and after success a derivable sequence read. -/
def ReadsExpr (X : NT) {α : Type} (isError : α → Prop) (st : ParseState) (r : α)
    (st1 : ParseState) : Prop :=
  st1.errors_found = st.errors_found ∧ st1.err = st.err ∧
  (¬ isError r → ∃ ts, st.global_tlist = ts ++ st1.global_tlist ∧ Derives X (kinds ts))

/-- What a call of a function of the statement part of the parser leaves: the flag
`errors_found` is never cleared, and after a success that leaves the flag clear a derivable
sequence was read. -/
def ReadsStmt (X : NT) {α : Type} (isError : α → Prop) (st : ParseState) (r : α)
    (st1 : ParseState) : Prop :=
  (st1.errors_found = 0 → st.errors_found = 0) ∧
  (¬ isError r → st1.errors_found = 0 →
    ∃ ts, st.global_tlist = ts ++ st1.global_tlist ∧ Derives X (kinds ts))

end Parser

namespace Parser
/-- The token list holds an end-of-input token. -/
def HasEOF (l : token_list) : Prop := ∃ t ∈ l, t.type = TOKEN_EOF

/-- The call returns, with a cursor that still has an end-of-input token in front of it and at
most `n` tokens left. -/
def Returns {α : Type} (x : Outcome (α × ParseState)) (n : Nat) : Prop :=
  ∃ r st1, x = .done (r, st1) ∧ HasEOF st1.global_tlist ∧ st1.global_tlist.length ≤ n
end Parser

namespace Parser
/-- The token list does not start with a token of type `tt`. -/
def NotStart (tt : token_type) (rest : token_list) : Prop :=
  ∀ t l, rest = t :: l → t.type ≠ tt

/-- What may follow a sequence derived from a nonterminal for the one-token look-ahead of the
parser to take the derivation's alternative: no statement starter behind `stmts`, no
assignment operator behind a declaration, no binary operator behind an expression. In the
grammar these hold wherever the nonterminal occurs. -/
def Follow : NT → token_list → Prop
  | .stmts, rest => ∀ ef err, stmtsStarter ⟨rest, ef, err⟩ = none
  | .statement, rest => NotStart TOKEN_BIN_OP rest ∧ NotStart TOKEN_ASSIGN rest
  | .declaration, rest => NotStart TOKEN_BIN_OP rest ∧ NotStart TOKEN_ASSIGN rest
  | .declaration_suffix, rest => NotStart TOKEN_BIN_OP rest ∧ NotStart TOKEN_ASSIGN rest
  | .assignment, rest => NotStart TOKEN_BIN_OP rest
  | .print, rest => NotStart TOKEN_BIN_OP rest
  | .expression, rest => NotStart TOKEN_BIN_OP rest
  | .binary_expression, rest => NotStart TOKEN_BIN_OP rest
  | .operand_suffix, rest => NotStart TOKEN_BIN_OP rest
  | _, _ => True

/-- The function `f` accepts the tokens `ts` in front of `rest`: whenever its call returns, it
returns a result other than `error` with the cursor at `rest`, the flag and standard error
untouched. -/
def Accepts {α : Type} (f : ParseState → Outcome (α × ParseState)) (isError : α → Prop)
    (ts rest : token_list) : Prop :=
  ∀ ef err r st1, f ⟨ts ++ rest, ef, err⟩ = .done (r, st1) → ¬ isError r ∧ st1 = ⟨rest, ef, err⟩

/-- The parser function of each nonterminal accepts every token list whose types are the
sequence `w`, in front of any token list that may follow. -/
def CompleteFor (X : NT) (w : List token_type) : Prop :=
  match X with
  | .program => ∀ fuel ts err r st1, kinds ts = w →
      program fuel ⟨ts, 0, err⟩ = .done (r, st1) → r.isTree = true
  | .stmts => ∀ fuel ts rest, kinds ts = w → Follow .stmts rest →
      Accepts (stmts fuel) (fun x => x = .error) ts rest
  | .statement => ∀ fuel ts rest, kinds ts = w → Follow .statement rest →
      Accepts (statement fuel) (fun x => x = .error) ts rest
  | .declaration => ∀ fuel ts rest, kinds ts = w → Follow .declaration rest →
      Accepts (declaration fuel) (fun x => x = .error) ts rest
  | .declaration_suffix => ∀ fuel ts rest, kinds ts = w → Follow .declaration_suffix rest →
      Accepts (declarationSuffix fuel) (fun x => x = .error) ts rest
  | .assignment => ∀ fuel ts rest, kinds ts = w → Follow .assignment rest →
      Accepts (assignment fuel) (fun x => x = .error) ts rest
  | .for_ => ∀ fuel ts rest, kinds ts = w → Follow .for_ rest →
      Accepts (for_ fuel) (fun x => x = .error) ts rest
  | .read => ∀ (_ : Nat) ts rest, kinds ts = w → Follow .read rest →
      Accepts read (fun x => x = .error) ts rest
  | .print => ∀ fuel ts rest, kinds ts = w → Follow .print rest →
      Accepts (print fuel) (fun x => x = .error) ts rest
  | .assert => ∀ fuel ts rest, kinds ts = w → Follow .assert rest →
      Accepts (assert fuel) (fun x => x = .error) ts rest
  | .expression => ∀ fuel ts rest, kinds ts = w → Follow .expression rest →
      Accepts (expression fuel) (fun x => x = .error) ts rest
  | .unary_expression => ∀ fuel ts rest, kinds ts = w → Follow .unary_expression rest →
      Accepts (unaryExpression fuel) (fun x => x = .error) ts rest
  | .binary_expression => ∀ fuel ts rest, kinds ts = w → Follow .binary_expression rest →
      Accepts (binaryExpression fuel) (fun x => x = .error) ts rest
  | .operand => ∀ fuel ts rest, kinds ts = w → Follow .operand rest →
      Accepts (operand fuel) (fun x => x = .error) ts rest
  | .operand_suffix => ∀ fuel ts rest, kinds ts = w → Follow .operand_suffix rest →
      Accepts (operandSuffix fuel) (fun x => x = .error) ts rest
end Parser

/-! ## What a call leaves untouched -/

/-- The state `st1` differs from `st` at most by diagnostics appended to standard error: the
symbol table, standard output and standard input are the same. -/
def Frame (st st1 : Env) : Prop :=
  st1.global_list = st.global_list ∧ st1.out = st.out ∧ st1.inp = st.inp ∧
    ∃ d, st1.err = st.err ++ d

/-! ## More trees for the examples -/

/-- The operand node of a string literal. -/
def strOperand (chars : String) : operand_node :=
  .node none (some (tok .TOKEN_STRING_LITERAL chars)) none .NULL

/-- The suffix node `:= e` of a declaration. -/
def initSuffix (e : expression_node) : declaration_suffix_node :=
  .node (some (tok .TOKEN_ASSIGN ":=")) e

/-- The statement node of `var name : type` followed by the suffix `asn`. -/
def declStmt (name type : String) (asn : declaration_suffix_node) : statement_node :=
  .node (.node (some (tok .TOKEN_VARKEY "var")) (some (tok .TOKEN_IDENTIFIER name))
      (some (tok .TOKEN_COL ":")) (some (tok .TOKEN_TYPEKEY type)) asn)
    .NULL .NULL .NULL .NULL .NULL

/-- The expression node of `! o`. -/
def unaryExpr (o : operand_node) : expression_node :=
  .node (.node (some (tok .TOKEN_UN_OP "!")) o) .NULL

/-- The operand node of `( e )`. -/
def parenOperand (e : expression_node) : operand_node :=
  .node none none none (.node (some (tok .TOKEN_LPAR "(")) e (some (tok .TOKEN_RPAR ")")))

/-- The default of a declared type in the words of the specification: the integer 0, the
boolean false, the empty string. -/
def specDefault : label_type → value
  | .INT => ⟨0, 0, none, 0, 0, 0, .INT⟩
  | .BOOL => ⟨0, 0, none, 0, 0, 0, .BOOL⟩
  | .STRING => ⟨0, 0, some [], 0, 0, 0, .STRING⟩
  | .UNDEF => ⟨0, 0, none, 0, 0, 0, .UNDEF⟩

/-! ## The operators in the words of the specification -/

/-- The value `v` is the boolean value of the proposition `p`: type `BOOL`, neither empty nor
an error, with `b` equal to 1 when `p` holds and to 0 when it does not. -/
def BoolResult (v : value) (p : Prop) : Prop :=
  v.lt = .BOOL ∧ v.error = 0 ∧ v.empty = 0 ∧ (p → v.b = 1) ∧ (¬ p → v.b = 0)

/-- The string `a` precedes the string `b` in the bytewise lexicographic order. -/
def specLexLt (a b : List Char) : Prop :=
  List.Lex (fun x y : Nat => x < y) (a.map Char.toNat) (b.map Char.toNat)

/-! ## The labels of the symbol table -/

/-- Every label of the table of `st` is still a label of the table of `st1`. -/
def KeysPersist (st st1 : Env) : Prop :=
  ∀ k ∈ labelKeys st.global_list, k ∈ labelKeys st1.global_list

/-- The tree of `var i : int; for i in 0..0 do assert (1 = 2); end for;`: a loop whose body
fails in its first round. -/
def failingBodyProgram : program_node :=
  programOf [declIntStmt "i",
    forStmt "i" (operandExpr (intOperand "0")) (operandExpr (intOperand "0"))
      (stmtList [assertStmt (binaryExpr (intOperand "1") "=" (intOperand "2"))])]

/-! ## Line numbers as the specification describes them -/

/-- The line number the specification gives to a token whose first byte is at offset `p` of
the source: 1 plus the number of newline bytes in front of that byte. -/
def specLine (input : List Char) (p : Nat) : Int := 1 + ((input.take p).count '\n' : Nat)

/-! ## Words as the specification describes them -/

/-- The kind the specification gives to a word: the keyword kinds for
`for in do end var read print assert`, the type keyword for `int`, `string` and `bool`, and
identifier for every other word. -/
def specWordKind (w : List Char) : token_type :=
  if w = "for".toList then TOKEN_FORKEY
  else if w = "in".toList then TOKEN_INKEY
  else if w = "do".toList then TOKEN_DOKEY
  else if w = "end".toList then TOKEN_ENDKEY
  else if w = "var".toList then TOKEN_VARKEY
  else if w = "read".toList then TOKEN_READKEY
  else if w = "print".toList then TOKEN_PRINTKEY
  else if w = "assert".toList then TOKEN_ASSERTKEY
  else if w = "int".toList ∨ w = "string".toList ∨ w = "bool".toList then TOKEN_TYPEKEY
  else TOKEN_IDENTIFIER

/-! ## The values and the states of a run -/

/-- The shape of the values the evaluator builds: the flags `error` and `empty` are 0 or 1; a
value of type `BOOL` holds 0 or 1 in `b` and is neither the error value nor empty; a value of
another type holds 0 in `b`. -/
def GoodValue (v : value) : Prop :=
  (v.error = 0 ∨ v.error = 1) ∧ (v.empty = 0 ∨ v.empty = 1) ∧
  (v.lt = .BOOL → (v.b = 0 ∨ v.b = 1) ∧ v.error = 0 ∧ v.empty = 0) ∧
  (v.lt ≠ .BOOL → v.b = 0)

/-- Every value of the symbol table has the shape of the values the evaluator builds. -/
def GoodTable (l : label_list) : Prop := ∀ e ∈ l, GoodValue e.2

/-- The states a run of the evaluator goes through: the state at the start of `run`, the
state a statement leaves, the state an expression or a lookup of `for_` leaves, and the state
in which a round of a `for` loop starts its body, after the counter was written into the
control variable. -/
inductive Reachable : Env → Prop
  | start (inp : List Char) : Reachable (initialEnv inp)
  | statement (fuel : Nat) (n : statement_node) (st : Env) (r : Int × Env) :
      Reachable st → MiniPL.statement fuel n st = .done r → Reachable r.2
  | expression (n : expression_node) (st : Env) (r : value × Env) :
      Reachable st → MiniPL.expression n st = .done r → Reachable r.2
  | lookup (id : token) (st : Env) : Reachable st → Reachable (findLabelType id st).2
  | round (id : token) (k : Int) (st : Env) :
      Reachable st → Reachable (forceUpdate id (counterValue k) st)

/-- The tree of the example `var x : int := 4 + 5; print x;` of the specification. -/
def printExampleProgram : program_node :=
  programOf [declStmt "x" "int" (initSuffix (binaryExpr (intOperand "4") "+" (intOperand "5"))),
    printStmt (operandExpr (idOperand "x"))]

/-! ## main.c -/

/-- What a call of `main` on a source file that could be opened leaves: the value `main`
returns, what was written on standard output and on standard error, and whether `run` was
called. -/
structure MainResult where
  code : Int
  out : List Char
  err : List Char
  launched : Bool
  deriving DecidableEq, Repr

/-- The function `main` of `main.c` on a source file that could be opened: `lex`,
`correctTokenList`, `parse` with the flag `errors_found` in its initial state 0, and, when the
pointer `parse` returns is not `NULL`, `run`, whose return value `main` returns; `fuel` bounds
the rounds of each `for` loop of the evaluation, `inp` is standard input. -/
def main (fuel : Nat) (under : Char) (source inp : List Char) : Outcome MainResult :=
  (lex under source).bind fun tl =>
    (Parser.parse (correctTokenList tl []).1 0 (correctTokenList tl []).2).bind fun p =>
      match p.1 with
      | .NULL => .done ⟨0, [], p.2.err, false⟩
      | pn => (run fuel pn inp).bind fun r => .done ⟨r.1, r.2.out, p.2.err ++ r.2.err, true⟩

/-! ## The type tags of the symbol table -/

/-- The labels of the table with the type tags of their values, head first. -/
def typeTags (l : label_list) : List (List Char × label_type) := l.map fun e => (e.1, e.2.lt)

/-- The entries of the table of `st` are the last entries of the table of `st1`, in the same
order, with the same labels and the same type tags; and the lookup of a name that has an
entry in `st` finds in `st1` an entry with the same type tag. -/
def TypesPersist (st st1 : Env) : Prop :=
  (∃ pre, typeTags st1.global_list = pre ++ typeTags st.global_list) ∧
  ∀ name e, findLabelLoop name st.global_list = some e →
    ∃ e1, findLabelLoop name st1.global_list = some e1 ∧ e1.2.lt = e.2.lt

/-! ## Typed values -/

/-- The value carries one of the type tags `INT`, `STRING` and `BOOL`, and the payload field
of that tag is live: a string has a string pointer that is not `NULL`, a boolean holds 0 or 1
in `b`; the field `i` of an integer always holds an `int`. -/
def Typed (v : value) : Prop :=
  v.lt ≠ .UNDEF ∧ (v.lt = .STRING → v.s ≠ none) ∧ (v.lt = .BOOL → v.b = 0 ∨ v.b = 1)

/-- A value as the symbol table holds it: typed, with flags `error` and `empty` that are 0
or 1. -/
def Stored (v : value) : Prop :=
  Typed v ∧ (v.error = 0 ∨ v.error = 1) ∧ (v.empty = 0 ∨ v.empty = 1)

/-- Every value of the symbol table is typed. -/
def TypedTable (l : label_list) : Prop := ∀ e ∈ l, Stored e.2

/-- A value as the evaluation of an expression returns it: the flags are 0 or 1, the payload
field of the tag is live, and the tag is not `UNDEF` when both flags are 0. -/
def TypedResult (v : value) : Prop :=
  (v.error = 0 ∨ v.error = 1) ∧ (v.empty = 0 ∨ v.empty = 1) ∧
  (v.lt = .STRING → v.s ≠ none) ∧ (v.lt = .BOOL → v.b = 0 ∨ v.b = 1) ∧
  (v.error = 0 → v.empty = 0 → v.lt ≠ .UNDEF)

/-- The type keyword of the declaration is one of the three lexemes that `declaration` of
`semantics.c` knows, the ones the scanner gives the type `TOKEN_TYPEKEY`. -/
def declarationTypeKnown : declaration_node → Bool
  | .node _ _ _ (some typeKey) _ => decide (expectedType typeKey ≠ .UNDEF)
  | _ => true

mutual
/-- Every declaration of the statement list has a known type keyword. -/
def stmtsTypesKnown : stmts_node → Bool
  | .node stmtn _ stmtsn => statementTypesKnown stmtn && stmtsTypesKnown stmtsn
  | _ => true
/-- Every declaration of the statement has a known type keyword. -/
def statementTypesKnown : statement_node → Bool
  | .node decn _ forn _ _ _ => declarationTypeKnown decn && forTypesKnown forn
  | _ => true
/-- Every declaration of the body of the loop has a known type keyword. -/
def forTypesKnown : for_node → Bool
  | .node _ _ _ _ _ _ _ stmtsn _ _ => stmtsTypesKnown stmtsn
  | _ => true
end

/-- Every declaration of the program has a known type keyword. -/
def programTypesKnown : program_node → Bool
  | .node sln _ => stmtsTypesKnown sln
  | _ => true

/-- The states a run of the evaluator goes through when every declaration it executes has a
known type keyword: the state at the start of `run`, the state a statement leaves, the state
an expression or a lookup of `for_` leaves, and the state in which a round of a `for` loop
starts its body. -/
inductive ReachableKnown : Env → Prop
  | start (inp : List Char) : ReachableKnown (initialEnv inp)
  | statement (fuel : Nat) (n : statement_node) (st : Env) (r : Int × Env) :
      ReachableKnown st → statementTypesKnown n = true →
      MiniPL.statement fuel n st = .done r → ReachableKnown r.2
  | expression (n : expression_node) (st : Env) (r : value × Env) :
      ReachableKnown st → MiniPL.expression n st = .done r → ReachableKnown r.2
  | lookup (id : token) (st : Env) : ReachableKnown st → ReachableKnown (findLabelType id st).2
  | round (id : token) (k : Int) (st : Env) :
      ReachableKnown st → ReachableKnown (forceUpdate id (counterValue k) st)

/-! ## The leaves of the parse tree -/

mutual
/-- The tokens stored in an expression tree, from left to right. -/
def expressionLeaves : expression_node → token_list
  | .node unaryen binaryen => unaryExpressionLeaves unaryen ++ binaryExpressionLeaves binaryen
  | _ => []
/-- The tokens stored in the tree of a unary expression, from left to right. -/
def unaryExpressionLeaves : unary_expression_node → token_list
  | .node unop opern => unop.toList ++ operandLeaves opern
  | _ => []
/-- The tokens stored in the tree of a binary expression, from left to right. -/
def binaryExpressionLeaves : binary_expression_node → token_list
  | .node opern osn => operandLeaves opern ++ operandSuffixLeaves osn
  | _ => []
/-- The tokens stored in the tree of an operand, from left to right. -/
def operandLeaves : operand_node → token_list
  | .node intLit strLit id expren =>
    intLit.toList ++ strLit.toList ++ id.toList ++ enclosedExpressionLeaves expren
  | _ => []
/-- The tokens stored in the tree of an expression in parentheses, from left to right. -/
def enclosedExpressionLeaves : enclosed_expression_node → token_list
  | .node lPar expn rPar => lPar.toList ++ expressionLeaves expn ++ rPar.toList
  | _ => []
/-- The tokens stored in the tree of an operand suffix, from left to right. -/
def operandSuffixLeaves : operand_suffix_node → token_list
  | .node op opn => op.toList ++ operandLeaves opn
  | _ => []
end

/-- The tokens stored in the tree of a declaration suffix, from left to right. -/
def declarationSuffixLeaves : declaration_suffix_node → token_list
  | .node ass expn => ass.toList ++ expressionLeaves expn
  | _ => []

/-- The tokens stored in the tree of a declaration, from left to right. -/
def declarationLeaves : declaration_node → token_list
  | .node varKey id col typeKey asn =>
    varKey.toList ++ id.toList ++ col.toList ++ typeKey.toList ++ declarationSuffixLeaves asn
  | _ => []

/-- The tokens stored in the tree of an assignment, from left to right. -/
def assignmentLeaves : assignment_node → token_list
  | .node id assOp expn => id.toList ++ assOp.toList ++ expressionLeaves expn
  | _ => []

/-- The tokens stored in the tree of an assert statement, from left to right. -/
def assertLeaves : assert_node → token_list
  | .node assertKey lPar expn rPar =>
    assertKey.toList ++ lPar.toList ++ expressionLeaves expn ++ rPar.toList
  | _ => []

/-- The tokens stored in the tree of a read statement, from left to right. -/
def readLeaves : read_node → token_list
  | .node readKey id => readKey.toList ++ id.toList
  | _ => []

/-- The tokens stored in the tree of a print statement, from left to right. -/
def printLeaves : print_node → token_list
  | .node printKey expn => printKey.toList ++ expressionLeaves expn
  | _ => []

mutual
/-- The tokens stored in the tree of a statement list, from left to right. -/
def stmtsLeaves : stmts_node → token_list
  | .node stmtn sCol stmtsn => statementLeaves stmtn ++ sCol.toList ++ stmtsLeaves stmtsn
  | _ => []
/-- The tokens stored in the tree of a statement, from left to right. -/
def statementLeaves : statement_node → token_list
  | .node decn assn forn readn printn assertn =>
    declarationLeaves decn ++ assignmentLeaves assn ++ forLeaves forn ++ readLeaves readn ++
      printLeaves printn ++ assertLeaves assertn
  | _ => []
/-- The tokens stored in the tree of a for statement, from left to right. -/
def forLeaves : for_node → token_list
  | .node forKeyStart id inKey expn1 range expn2 doKey stmtsn endKey forKeyEnd =>
    forKeyStart.toList ++ id.toList ++ inKey.toList ++ expressionLeaves expn1 ++
      range.toList ++ expressionLeaves expn2 ++ doKey.toList ++ stmtsLeaves stmtsn ++
      endKey.toList ++ forKeyEnd.toList
  | _ => []
end

/-- The tokens stored in the tree of a program, from left to right. -/
def programLeaves : program_node → token_list
  | .node sln eof => stmtsLeaves sln ++ eof.toList
  | _ => []

namespace Parser

/-- The cursor `l1` is what is left of the token list `l` once the tokens in front of it were
passed. -/
def Behind (l l1 : token_list) : Prop := ∃ pre, l = pre ++ l1

/-- What a call of a function of the expression part of the parser leaves: the cursor has
moved forward in the list, and after a success the tokens passed are the leaves of the tree
that was returned. -/
def Keeps {α : Type} (leaves : α → token_list) (isError : α → Prop) (st : ParseState) (r : α)
    (st1 : ParseState) : Prop :=
  Behind st.global_tlist st1.global_tlist ∧
  (¬ isError r → st.global_tlist = leaves r ++ st1.global_tlist)

/-- Every token of type `TOKEN_TYPEKEY` of the list has one of the lexemes `int`, `string` and
`bool`. -/
def TypeKeysOk (l : token_list) : Prop :=
  ∀ t ∈ l, t.type = TOKEN_TYPEKEY → expectedType t ≠ .UNDEF

/-- What a call of a function of the statement part of the parser leaves: the cursor has
moved forward in the list; after a success that leaves the flag clear the tokens passed are
the leaves of the tree that was returned; and the declarations of the tree carry type
keywords of the list. -/
def KeepsStmt {α : Type} (leaves : α → token_list) (isError : α → Prop) (known : α → Bool)
    (st : ParseState) (r : α) (st1 : ParseState) : Prop :=
  Behind st.global_tlist st1.global_tlist ∧
  (¬ isError r → st1.errors_found = 0 → st.global_tlist = leaves r ++ st1.global_tlist) ∧
  (TypeKeysOk st.global_tlist → known r = true)

end Parser

/-! ## Lexemes joined by single spaces -/

/-- A word: a letter followed by letters, digits and underscores. -/
def isWord : List Char → Bool
  | [] => false
  | c :: rest => c.isAlpha && rest.all fun x => x.isAlphanum || x == '_'

/-- The lexemes of a token kind, for the kinds binary operator, unary operator, parenthesis,
semicolon, colon, assign, range, identifier, keyword and integer literal: the operator signs,
the non-empty runs of digits, and the words, each word with the kind the specification gives
it; every lexeme is shorter than `TOKEN_MAX_LENGTH` bytes. -/
def validLexeme (ty : token_type) (w : List Char) : Bool :=
  decide (w.length < TOKEN_MAX_LENGTH) &&
  match ty with
  | TOKEN_BIN_OP =>
    decide (w = ['+'] ∨ w = ['-'] ∨ w = ['*'] ∨ w = ['/'] ∨ w = ['='] ∨ w = ['<'] ∨ w = ['&'])
  | TOKEN_UN_OP => decide (w = ['!'])
  | TOKEN_LPAR => decide (w = ['('])
  | TOKEN_RPAR => decide (w = [')'])
  | TOKEN_SCOL => decide (w = [';'])
  | TOKEN_COL => decide (w = [':'])
  | TOKEN_ASSIGN => decide (w = [':', '='])
  | TOKEN_RANGE => decide (w = ['.', '.'])
  | TOKEN_INT_LITERAL => !w.isEmpty && w.all fun c => c.isDigit
  | TOKEN_STRING_LITERAL => false
  | TOKEN_ERROR => false
  | TOKEN_EOF => false
  | kind => isWord w && decide (specWordKind w = kind)

/-- The signs that the main loop of `lex` turns into a token by itself, with the kind of the
token: the binary operators other than the slash, the unary operator, the parentheses and
the semicolon. -/
def isSimpleSign (ty : token_type) (c : Char) : Bool :=
  (ty == TOKEN_BIN_OP &&
    (c == '+' || c == '-' || c == '*' || c == '=' || c == '<' || c == '&')) ||
  (ty == TOKEN_UN_OP && c == '!') || (ty == TOKEN_LPAR && c == '(') ||
  (ty == TOKEN_RPAR && c == ')') || (ty == TOKEN_SCOL && c == ';')

/-- The lexemes joined by single spaces. -/
def joinLexemes : List (List Char) → List Char
  | [] => []
  | [w] => w
  | w :: v :: rest => w ++ ' ' :: joinLexemes (v :: rest)

/-! # Properties -/

/-! ## The symbol table -/

theorem sameLabel_iff (a b : List Char) :
    sameLabel a b = true ↔ a.take (TOKEN_MAX_LENGTH + 1) = b.take (TOKEN_MAX_LENGTH + 1) := by
  simp [sameLabel, strncmpEq]

theorem labelKeys_forceUpdateLoop (name : List Char) (v : value) (l : label_list) :
    labelKeys (forceUpdateLoop name v l) = labelKeys l := by
  induction l with
  | nil => rfl
  | cons e rest ih =>
    by_cases h : sameLabel e.1 name = true
    · simp [forceUpdateLoop, h, labelKeys]
    · simp only [forceUpdateLoop, h, labelKeys, List.map_cons] at ih ⊢
      simp [ih]

theorem insertScan_none (name : List Char) (l : label_list) :
    insertScan name l = none ↔ name.take (TOKEN_MAX_LENGTH + 1) ∉ labelKeys l := by
  induction l with
  | nil => simp [insertScan, labelKeys]
  | cons e rest ih =>
    have hk : labelKeys (e :: rest) = e.1.take (TOKEN_MAX_LENGTH + 1) :: labelKeys rest := rfl
    rw [hk, List.mem_cons, not_or]
    by_cases h : sameLabel e.1 name = true
    · have h2 := (sameLabel_iff _ _).1 h
      constructor
      · intro hh
        rw [insertScan, if_pos h] at hh
        exact absurd hh (by simp)
      · intro hh
        exact absurd h2.symm hh.1
    · have h3 : ¬ (name.take (TOKEN_MAX_LENGTH + 1) = e.1.take (TOKEN_MAX_LENGTH + 1)) :=
        fun hh => h ((sameLabel_iff _ _).2 hh.symm)
      rw [insertScan, if_neg h]
      cases hs : insertScan name rest with
      | none =>
        have := ih.1 hs
        exact ⟨fun _ => ⟨h3, this⟩, fun _ => rfl⟩
      | some r =>
        constructor
        · intro hh
          exact absurd hh (by simp)
        · intro hh
          have := ih.2 hh.2
          rw [hs] at this
          exact absurd this (by simp)

/-- The duplicate check of `insert` unlinks the first node that carries the label: the list
splits around it. -/
theorem insertScan_some (name : List Char) (l r : label_list) (h : insertScan name l = some r) :
    ∃ pre old post, l = pre ++ old :: post ∧ r = pre ++ post ∧ sameLabel old.1 name = true ∧
      ∀ e ∈ pre, sameLabel e.1 name = false := by
  induction l generalizing r with
  | nil => simp [insertScan] at h
  | cons e rest ih =>
    by_cases hs : sameLabel e.1 name = true
    · rw [insertScan, if_pos hs] at h
      simp only [Option.some.injEq] at h
      exact ⟨[], e, rest, by simp, by simp [h], hs, by simp⟩
    · cases hr : insertScan name rest with
      | none =>
        rw [insertScan, if_neg hs, hr] at h
        exact absurd h (by simp)
      | some r1 =>
        rw [insertScan, if_neg hs, hr] at h
        simp only [Option.some.injEq] at h
        obtain ⟨pre, old, post, h1, h2, h3, h4⟩ := ih r1 hr
        refine ⟨e :: pre, old, post, by simp [h1], by simp [← h, h2], h3, ?_⟩
        intro x hx
        rcases List.mem_cons.1 hx with hx | hx
        · subst hx; simpa using hs
        · exact h4 x hx

theorem uniqueNames_insert (id : token) (v : value) (st : Env) (h : UniqueNames st.global_list) :
    UniqueNames (insert id v st).2.global_list := by
  unfold insert
  cases hs : insertScan id.value st.global_list with
  | none =>
    have hn := (insertScan_none _ _).1 hs
    simp only [UniqueNames, labelKeys, List.map_cons, List.nodup_cons] at h ⊢
    exact ⟨hn, h⟩
  | some r =>
    obtain ⟨pre, old, post, h1, h2, h3, _⟩ := insertScan_some _ _ _ hs
    have hk := (sameLabel_iff _ _).1 h3
    simp only [UniqueNames, labelKeys] at h ⊢
    rw [h1] at h
    simp only [List.map_append, List.map_cons] at h
    have hnd := List.nodup_cons.1 (List.nodup_middle.1 h)
    simp only [List.map_cons, h2, List.map_append]
    rw [List.nodup_cons]
    refine ⟨?_, hnd.2⟩
    rw [← hk]
    exact hnd.1

theorem uniqueNames_update (id : token) (v : value) (st : Env) (h : UniqueNames st.global_list) :
    UniqueNames (update id v st).2.global_list := by
  have hf : (findLabel id st).2.global_list = st.global_list := by
    unfold findLabel
    cases findLabelLoop id.value st.global_list <;> simp [printError]
  have hv : (findLabelValue id st).2.global_list = st.global_list := by
    unfold findLabelValue
    rcases hx : findLabel id st with ⟨o, s1⟩
    rw [hx] at hf
    cases o <;> simpa using hf
  have hc : (isConstant id st).2.global_list = st.global_list := by
    unfold isConstant
    rcases hx : findLabelValue id st with ⟨o, s1⟩
    rw [hx] at hv
    simp only
    split <;> simpa using hv
  unfold update
  rcases hx : isConstant id st with ⟨c, s1⟩
  rw [hx] at hc
  simp only at hc ⊢
  split
  · simpa [printError, hc] using h
  · simp only [forceUpdate, hc, UniqueNames, labelKeys_forceUpdateLoop]
    exact h

/-- C5: starting from the empty symbol table, every sequence of `insert`, `update` and
`forceUpdate` operations leaves a table in which no two entries share a name. -/
theorem symbol_table_names_unique (inp : List Char) (ops : List TableOp) :
    UniqueNames (ops.foldl TableOp.apply (initialEnv inp)).global_list := by
  have key : ∀ (ops : List TableOp) (st : Env), UniqueNames st.global_list →
      UniqueNames (ops.foldl TableOp.apply st).global_list := by
    intro ops
    induction ops with
    | nil => intro st h; simpa using h
    | cons op rest ih =>
      intro st h
      simp only [List.foldl_cons]
      apply ih
      cases op with
      | insert id v => exact uniqueNames_insert id v st h
      | update id v => exact uniqueNames_update id v st h
      | forceUpdate id v =>
        simp only [TableOp.apply, forceUpdate, UniqueNames, labelKeys_forceUpdateLoop]
        exact h
  exact key ops _ (by simp [initialEnv, UniqueNames, labelKeys])

/-- C4 (as amended): `insert` on a name that has an entry reports failure and unlinks the
prior entry, keeping the new one at the head. -/
theorem insert_existing_keeps_new (id : token) (v : value) (st : Env)
    (h : ∃ e ∈ st.global_list, sameLabel e.1 id.value = true) :
    (insert id v st).1 = 0 ∧
    ∃ pre old post, st.global_list = pre ++ old :: post ∧ sameLabel old.1 id.value = true ∧
      (∀ e ∈ pre, sameLabel e.1 id.value = false) ∧
      (insert id v st).2 = { st with global_list := (id.value, v) :: (pre ++ post) } ∧
      findLabelValue id (insert id v st).2 = (v, (insert id v st).2) := by
  obtain ⟨e, he, hs⟩ := h
  have hmem : id.value.take (TOKEN_MAX_LENGTH + 1) ∈ labelKeys st.global_list := by
    rw [← (sameLabel_iff _ _).1 hs]
    exact List.mem_map_of_mem _ he
  cases hscan : insertScan id.value st.global_list with
  | none => exact absurd hmem ((insertScan_none _ _).1 hscan)
  | some r =>
    obtain ⟨pre, old, post, h1, h2, h3, h4⟩ := insertScan_some _ _ _ hscan
    have hself : sameLabel id.value id.value = true := (sameLabel_iff _ _).2 rfl
    refine ⟨by simp [insert, hscan], pre, old, post, h1, h3, h4, by simp [insert, hscan, h2], ?_⟩
    simp [insert, hscan, findLabelValue, findLabel, findLabelLoop, hself]

theorem insert_existing_keeps_new_witness :
    (insert ⟨TOKEN_IDENTIFIER, ['x'], 2⟩ ⟨0, 0, some ['a'], 0, 0, 0, STRING⟩
        ⟨[(['y'], ⟨3, 0, none, 0, 0, 0, INT⟩), (['x'], ⟨1, 0, none, 0, 0, 0, INT⟩)], [], [], []⟩).1 = 0 ∧
    ∃ pre old post,
      [((['y'] : List Char), (⟨3, 0, none, 0, 0, 0, INT⟩ : value)), (['x'], ⟨1, 0, none, 0, 0, 0, INT⟩)]
        = pre ++ old :: post ∧
      sameLabel old.1 ['x'] = true ∧ (∀ e ∈ pre, sameLabel e.1 ['x'] = false) ∧
      (insert ⟨TOKEN_IDENTIFIER, ['x'], 2⟩ ⟨0, 0, some ['a'], 0, 0, 0, STRING⟩
        ⟨[(['y'], ⟨3, 0, none, 0, 0, 0, INT⟩), (['x'], ⟨1, 0, none, 0, 0, 0, INT⟩)], [], [], []⟩).2 =
        ⟨(['x'], ⟨0, 0, some ['a'], 0, 0, 0, STRING⟩) :: (pre ++ post), [], [], []⟩ ∧
      findLabelValue ⟨TOKEN_IDENTIFIER, ['x'], 2⟩
        (insert ⟨TOKEN_IDENTIFIER, ['x'], 2⟩ ⟨0, 0, some ['a'], 0, 0, 0, STRING⟩
          ⟨[(['y'], ⟨3, 0, none, 0, 0, 0, INT⟩), (['x'], ⟨1, 0, none, 0, 0, 0, INT⟩)], [], [], []⟩).2 =
        (⟨0, 0, some ['a'], 0, 0, 0, STRING⟩,
          (insert ⟨TOKEN_IDENTIFIER, ['x'], 2⟩ ⟨0, 0, some ['a'], 0, 0, 0, STRING⟩
            ⟨[(['y'], ⟨3, 0, none, 0, 0, 0, INT⟩), (['x'], ⟨1, 0, none, 0, 0, 0, INT⟩)], [], [], []⟩).2) :=
  insert_existing_keeps_new ⟨TOKEN_IDENTIFIER, ['x'], 2⟩ ⟨0, 0, some ['a'], 0, 0, 0, STRING⟩
    ⟨[(['y'], ⟨3, 0, none, 0, 0, 0, INT⟩), (['x'], ⟨1, 0, none, 0, 0, 0, INT⟩)], [], [], []⟩
    ⟨(['x'], ⟨1, 0, none, 0, 0, 0, INT⟩), by decide, by decide⟩

/-- C4 (as stated) fails: with `x` bound to the int 1, `insert` of a string value for `x`
reports failure, yet the table is not the one before the call and `findLabelValue` returns
the new value, a string, instead of the prior int. -/
theorem insert_existing_counterexample :
    (∃ e ∈ [((['x'] : List Char), (⟨1, 0, none, 0, 0, 0, INT⟩ : value))], sameLabel e.1 ['x'] = true) ∧
    (insert ⟨TOKEN_IDENTIFIER, ['x'], 2⟩ ⟨0, 0, some ['a'], 0, 0, 0, STRING⟩
        ⟨[(['x'], ⟨1, 0, none, 0, 0, 0, INT⟩)], [], [], []⟩).1 = 0 ∧
    (insert ⟨TOKEN_IDENTIFIER, ['x'], 2⟩ ⟨0, 0, some ['a'], 0, 0, 0, STRING⟩
        ⟨[(['x'], ⟨1, 0, none, 0, 0, 0, INT⟩)], [], [], []⟩).2.global_list ≠
      [(['x'], ⟨1, 0, none, 0, 0, 0, INT⟩)] ∧
    (findLabelValue ⟨TOKEN_IDENTIFIER, ['x'], 2⟩ ⟨[(['x'], ⟨1, 0, none, 0, 0, 0, INT⟩)], [], [], []⟩).1 =
      ⟨1, 0, none, 0, 0, 0, INT⟩ ∧
    (findLabelValue ⟨TOKEN_IDENTIFIER, ['x'], 2⟩
      (insert ⟨TOKEN_IDENTIFIER, ['x'], 2⟩ ⟨0, 0, some ['a'], 0, 0, 0, STRING⟩
        ⟨[(['x'], ⟨1, 0, none, 0, 0, 0, INT⟩)], [], [], []⟩).2).1 =
      ⟨0, 0, some ['a'], 0, 0, 0, STRING⟩ := by
  decide

/-! ## The token list without its error tokens -/

theorem correctTokenListLoop_eq (list : token_list) (acc : token_list × List Char) :
    correctTokenListLoop list acc =
      (acc.1 ++ list.filter (fun t => decide (t.type ≠ TOKEN_ERROR)),
       acc.2 ++ ((list.filter (fun t => decide (t.type = TOKEN_ERROR))).map lexicalErrorText).flatten) := by
  induction list generalizing acc with
  | nil => simp [correctTokenListLoop]
  | cons t rest ih =>
    by_cases h : t.type = TOKEN_ERROR
    · simp [correctTokenListLoop, h, ih]
    · simp [correctTokenListLoop, h, ih]

/-- C8: on a token list terminated by end-of-input, `correctTokenList` returns exactly the
tokens whose type is not `TOKEN_ERROR`, in their order, so that the result holds no error
token and still ends with the end-of-input token, and it writes one
`Lexical error in line NNN: <lexeme>` line per removed token, in the order of the stream. -/
theorem correctTokenList_filters (ts : token_list) (eof : token) (err : List Char)
    (h : eof.type = TOKEN_EOF) :
    (correctTokenList (ts ++ [eof]) err).1 =
        (ts ++ [eof]).filter (fun t => decide (t.type ≠ TOKEN_ERROR)) ∧
    (correctTokenList (ts ++ [eof]) err).1 =
        ts.filter (fun t => decide (t.type ≠ TOKEN_ERROR)) ++ [eof] ∧
    (∀ t ∈ (correctTokenList (ts ++ [eof]) err).1, t.type ≠ TOKEN_ERROR) ∧
    (correctTokenList (ts ++ [eof]) err).2 =
        err ++ (((ts ++ [eof]).filter (fun t => decide (t.type = TOKEN_ERROR))).map
          lexicalErrorText).flatten := by
  have he : eof.type ≠ TOKEN_ERROR := by rw [h]; decide
  refine ⟨?_, ?_, ?_, ?_⟩
  · simp [correctTokenList, correctTokenListLoop_eq]
  · simp [correctTokenList, correctTokenListLoop_eq, List.filter_append, he]
  · intro t ht
    simp only [correctTokenList, correctTokenListLoop_eq, List.nil_append, List.mem_filter,
      decide_eq_true_eq] at ht
    exact ht.2
  · simp [correctTokenList, correctTokenListLoop_eq]

theorem correctTokenList_filters_witness :
    (correctTokenList ([⟨TOKEN_ERROR, ['.'], 1⟩, ⟨TOKEN_IDENTIFIER, ['a'], 1⟩,
        ⟨TOKEN_ERROR, ['.'], 2⟩] ++ [⟨TOKEN_EOF, ['E', 'O', 'F'], 2⟩]) []).1 =
      [⟨TOKEN_IDENTIFIER, ['a'], 1⟩, ⟨TOKEN_EOF, ['E', 'O', 'F'], 2⟩] ∧
    (correctTokenList ([⟨TOKEN_ERROR, ['.'], 1⟩, ⟨TOKEN_IDENTIFIER, ['a'], 1⟩,
        ⟨TOKEN_ERROR, ['.'], 2⟩] ++ [⟨TOKEN_EOF, ['E', 'O', 'F'], 2⟩]) []).2 =
      "Lexical error in line   1: .\nLexical error in line   2: .\n".toList :=
  ⟨(correctTokenList_filters [⟨TOKEN_ERROR, ['.'], 1⟩, ⟨TOKEN_IDENTIFIER, ['a'], 1⟩,
        ⟨TOKEN_ERROR, ['.'], 2⟩] ⟨TOKEN_EOF, ['E', 'O', 'F'], 2⟩ [] rfl).1.trans (by decide),
   (correctTokenList_filters [⟨TOKEN_ERROR, ['.'], 1⟩, ⟨TOKEN_IDENTIFIER, ['a'], 1⟩,
        ⟨TOKEN_ERROR, ['.'], 2⟩] ⟨TOKEN_EOF, ['E', 'O', 'F'], 2⟩ [] rfl).2.2.2.trans (by decide)⟩

/-! ## String literals -/

theorem handleStringCase_ordinary (under : Char) (rbuf : List Char) (lr : Bool) (c : Char)
    (hc : StrClean under rbuf lr) (h1 : c ≠ '"') (h2 : c ≠ '\\') :
    handleStringCase under rbuf lr c = .next under (c :: rbuf) false := by
  unfold StrClean at hc
  unfold handleStringCase
  simp only [hc, h1, h2, if_false, Bool.false_eq_true]
  cases escapeOf c <;> rfl

theorem handleStringCase_backslash (under : Char) (rbuf : List Char) (lr : Bool)
    (hc : StrClean under rbuf lr) :
    handleStringCase under rbuf lr '\\' = .next under ('\\' :: rbuf) false := by
  unfold StrClean at hc
  unfold handleStringCase
  simp only [hc]
  rfl

theorem handleStringCase_escaped (under : Char) (r : List Char) (c : Char)
    (h : c ∈ ['n', 't', 'a', 'b', 'f', 'r', 'v', '\\', '"']) :
    handleStringCase under ('\\' :: r) false c =
      .next under (specEscape c :: r) (c == '\\') := by
  simp only [List.mem_cons, List.mem_singleton, List.not_mem_nil, or_false] at h
  rcases h with h | h | h | h | h | h | h | h | h <;> subst h <;> rfl

theorem strClean_escaped (under : Char) (r : List Char) (c : Char)
    (h : c ∈ ['n', 't', 'a', 'b', 'f', 'r', 'v', '\\', '"']) :
    StrClean under (specEscape c :: r) (c == '\\') := by
  simp only [List.mem_cons, List.mem_singleton, List.not_mem_nil, or_false] at h
  unfold StrClean
  rcases h with h | h | h | h | h | h | h | h | h <;> subst h <;> rfl

theorem specEscape_ne_NUL (c : Char)
    (h : c ∈ ['n', 't', 'a', 'b', 'f', 'r', 'v', '\\', '"']) : specEscape c ≠ NUL := by
  simp only [List.mem_cons, List.mem_singleton, List.not_mem_nil, or_false] at h
  rcases h with h | h | h | h | h | h | h | h | h <;> subst h <;> decide

/-- The loop of the handler on a body of allowed elements followed by the closing quote. -/
theorem handleStringLoop_body (under : Char) (rest : List Char) (items : List StrItem) :
    ∀ (rbuf : List Char) (lr : Bool) (read : Nat),
      (∀ x ∈ items, x.Allowed) → StrClean under rbuf lr →
      rbuf.length + items.length < TOKEN_MAX_LENGTH →
      handleStringLoop under rbuf lr read (rawBody items ++ '"' :: rest) =
        ⟨TOKEN_STRING_LITERAL, rbuf.reverse ++ decodedBody items,
          read + (rawBody items).length + 1, 0, under⟩ := by
  induction items with
  | nil =>
    intro rbuf lr read _ hc hlen
    simp only [List.length_nil, Nat.add_zero] at hlen
    have hq : handleStringCase under rbuf lr '"' = .stop TOKEN_STRING_LITERAL rbuf.reverse := by
      unfold StrClean at hc
      unfold handleStringCase
      simp only [hc]
      rfl
    simp [rawBody, decodedBody, handleStringLoop, hlen, hq]
  | cons x xs ih =>
    intro rbuf lr read hall hc hlen
    have hx := hall x (List.mem_cons_self _ _)
    have hxs : ∀ y ∈ xs, y.Allowed := fun y hy => hall y (List.mem_cons_of_mem _ hy)
    simp only [List.length_cons] at hlen
    have hl1 : rbuf.length < TOKEN_MAX_LENGTH := by omega
    cases x with
    | ordinary c =>
      simp only [StrItem.Allowed] at hx
      have hstep := handleStringCase_ordinary under rbuf lr c hc hx.1 hx.2
      have hclean : StrClean under (c :: rbuf) false := by
        simp [StrClean, hx.2]
      have hraw : rawBody (.ordinary c :: xs) ++ '"' :: rest = c :: (rawBody xs ++ '"' :: rest) := by
        simp [rawBody, StrItem.raw]
      have hrl : (rawBody (.ordinary c :: xs)).length = (rawBody xs).length + 1 := by
        simp [rawBody, StrItem.raw]
      rw [hraw, handleStringLoop, if_pos hl1, hstep]
      simp only
      rw [ih (c :: rbuf) false (read + 1) hxs hclean (by simp only [List.length_cons]; omega), hrl]
      simp only [decodedBody, List.map_cons, StrItem.decoded, List.reverse_cons,
        List.append_assoc, List.singleton_append]
      congr 1
      omega
    | escape c =>
      simp only [StrItem.Allowed] at hx
      have hstep1 := handleStringCase_backslash under rbuf lr hc
      have hstep2 := handleStringCase_escaped under rbuf c hx
      have hclean := strClean_escaped under rbuf c hx
      have hl2 : ('\\' :: rbuf).length < TOKEN_MAX_LENGTH := by
        simp only [List.length_cons]; omega
      have hraw : rawBody (.escape c :: xs) ++ '"' :: rest =
          '\\' :: c :: (rawBody xs ++ '"' :: rest) := by
        simp [rawBody, StrItem.raw]
      have hrl : (rawBody (.escape c :: xs)).length = (rawBody xs).length + 2 := by
        simp [rawBody, StrItem.raw]
      rw [hraw, handleStringLoop, if_pos hl1, hstep1]
      simp only
      rw [handleStringLoop, if_pos hl2, hstep2]
      simp only
      rw [ih (specEscape c :: rbuf) (c == '\\') (read + 1 + 1) hxs hclean
        (by simp only [List.length_cons]; omega), hrl]
      simp only [decodedBody, List.map_cons, StrItem.decoded, List.reverse_cons,
        List.append_assoc, List.singleton_append]
      congr 1
      omega

theorem cstr_eq_self (l : List Char) (h : ∀ c ∈ l, c ≠ NUL) : cstr l = l := by
  unfold cstr
  rw [List.takeWhile_eq_self_iff]
  intro c hc
  simpa using h c hc

/-- On a body of ordinary bytes and escape sequences of decoded length below the cap, the
handler started after the opening quote with no backslash in front of the buffer adds one
string-literal token made by `newToken` from the decoded body, and stops behind the closing
quote. -/
theorem handleStringLiterals_body (st : LexState) (items : List StrItem) (rest : List Char)
    (hunread : st.unread = rawBody items ++ '"' :: rest)
    (hall : ∀ x ∈ items, x.Allowed)
    (hlen : (decodedBody items).length < TOKEN_MAX_LENGTH)
    (hunder : st.under ≠ '\\') :
    handleStringLiterals st =
      { st with pos := st.pos + (rawBody items).length + 1,
                tl := st.tl ++ [newToken TOKEN_STRING_LITERAL (decodedBody items)
                  st.line_number] } := by
  have hclean : StrClean st.under [] false := by
    simp [StrClean, hunder]
  have hlen2 : ([] : List Char).length + items.length < TOKEN_MAX_LENGTH := by
    simpa [decodedBody] using hlen
  have hloop := handleStringLoop_body st.under rest items [] false 0 hall hclean hlen2
  simp only [handleStringLiterals, hunread, hloop, List.reverse_nil, List.nil_append, addToken,
    noBacktrack]
  simp [Nat.add_assoc]

/-- C9 (as amended): on a body of ordinary bytes other than NUL and of the nine escape
sequences, of decoded length below the cap, the handler started after the opening quote with
no backslash in front of the buffer adds one string-literal token, whose value is the body
with every escape sequence replaced by its character, and stops behind the closing quote. -/
theorem string_literal_decoded (st : LexState) (items : List StrItem) (rest : List Char)
    (hunread : st.unread = rawBody items ++ '"' :: rest)
    (hall : ∀ x ∈ items, x.Allowed)
    (hnul : StrItem.ordinary NUL ∉ items)
    (hlen : (decodedBody items).length < TOKEN_MAX_LENGTH)
    (hunder : st.under ≠ '\\') :
    handleStringLiterals st =
      { st with pos := st.pos + (rawBody items).length + 1,
                tl := st.tl ++ [⟨TOKEN_STRING_LITERAL, decodedBody items, st.line_number⟩] } := by
  have hnn : ∀ c ∈ decodedBody items, c ≠ NUL := by
    intro c hc
    simp only [decodedBody, List.mem_map] at hc
    obtain ⟨x, hx, rfl⟩ := hc
    cases x with
    | ordinary d =>
      intro hd
      simp only [StrItem.decoded] at hd
      subst hd
      exact hnul hx
    | escape d => exact specEscape_ne_NUL d (hall _ hx)
  have htake : (decodedBody items).take (TOKEN_MAX_LENGTH + 1) = decodedBody items :=
    List.take_of_length_le (by omega)
  rw [handleStringLiterals_body st items rest hunread hall hlen hunder, newToken,
    cstr_eq_self _ hnn, htake]

theorem string_literal_decoded_witness :
    handleStringLiterals ⟨['"', '\\', '\\', '\\', '\\', '"', ';'], 1, 1, [], 'x'⟩ =
      ⟨['"', '\\', '\\', '\\', '\\', '"', ';'], 6, 1, [⟨TOKEN_STRING_LITERAL, ['\\', '\\'], 1⟩], 'x'⟩ :=
  string_literal_decoded ⟨['"', '\\', '\\', '\\', '\\', '"', ';'], 1, 1, [], 'x'⟩
    [.escape '\\', .escape '\\'] [';'] (by decide) (by decide) (by decide) (by decide) (by decide)

/-- C9 (as stated) fails: the NUL byte is an ordinary byte, and the body made of it alone
yields a string-literal token with the empty value, not the one-byte body. -/
theorem string_literal_nul_counterexample :
    (StrItem.ordinary NUL).Allowed ∧
    (decodedBody [.ordinary NUL]).length < TOKEN_MAX_LENGTH ∧
    (handleStringLiterals ⟨'"' :: (rawBody [.ordinary NUL] ++ ['"']), 1, 1, [], 'x'⟩).tl =
      [⟨TOKEN_STRING_LITERAL, [], 1⟩] ∧
    decodedBody [.ordinary NUL] ≠ [] := by
  decide

/-- C10 (as amended): with no backslash in front of the buffer, the source text made of a
double quote, two backslashes, the letter n and a double quote scans to one string-literal
token whose value has the two characters backslash and n. -/
theorem escaped_backslash_then_n (under : Char) (h : under ≠ '\\') :
    lex under ['"', '\\', '\\', 'n', '"'] =
      .done [⟨TOKEN_STRING_LITERAL, ['\\', 'n'], 1⟩, ⟨TOKEN_EOF, ['E', 'O', 'F'], 1⟩] := by
  have h1 : handleStringLiterals ⟨['"', '\\', '\\', 'n', '"'], 1, 1, [], under⟩ =
      ⟨['"', '\\', '\\', 'n', '"'], 1 + (rawBody [.escape '\\', .ordinary 'n']).length + 1, 1,
        [] ++ [⟨TOKEN_STRING_LITERAL, decodedBody [.escape '\\', .ordinary 'n'], 1⟩], under⟩ := by
    rw [handleStringLiterals_body ⟨['"', '\\', '\\', 'n', '"'], 1, 1, [], under⟩
      [.escape '\\', .ordinary 'n'] [] rfl (by decide) (by decide) h]
    have hn : newToken TOKEN_STRING_LITERAL (decodedBody [.escape '\\', .ordinary 'n']) 1 =
        ⟨TOKEN_STRING_LITERAL, decodedBody [.escape '\\', .ordinary 'n'], 1⟩ := by decide
    rw [hn]
  simp only [lex, lexFuel, List.length_cons, List.length_nil, lexLoop]
  simp [lexCase, stringLiteralLoop, h1, isLastTokenControlError, controlErrorCond, rawBody,
    StrItem.raw, decodedBody, StrItem.decoded, strncmpEq, addEOF, newToken, cstr, NUL,
    Outcome.bind]
  exact ⟨rfl, by decide⟩

theorem escaped_backslash_then_n_witness :
    lex 'x' ['"', '\\', '\\', 'n', '"'] =
      .done [⟨TOKEN_STRING_LITERAL, ['\\', 'n'], 1⟩, ⟨TOKEN_EOF, ['E', 'O', 'F'], 1⟩] :=
  escaped_backslash_then_n 'x' (by decide)

/-- C10 (as stated) fails: the decoded value of the token is not a one-character string, it
has two characters. -/
theorem escaped_backslash_then_n_counterexample :
    ∃ t eof, lex '"' ['"', '\\', '\\', 'n', '"'] = .done [t, eof] ∧
      t.type = TOKEN_STRING_LITERAL ∧ t.value.length = 2 ∧ t.value.length ≠ 1 :=
  ⟨⟨TOKEN_STRING_LITERAL, ['\\', 'n'], 1⟩, ⟨TOKEN_EOF, ['E', 'O', 'F'], 1⟩, by decide, rfl, rfl,
    by decide⟩

/-! ## Termination of the scanner and the end-of-input token -/

theorem unread_of_getElem? (st : LexState) (c : Char) (h : st.input[st.pos]? = some c) :
    st.input.drop st.pos = c :: st.input.drop (st.pos + 1) := by
  obtain ⟨hlt, heq⟩ := List.getElem?_eq_some_iff.1 h
  rw [List.drop_eq_getElem_cons hlt, heq]

theorem noEOF_append (l : token_list) (t : token) (h : NoEOF l) (ht : t.type ≠ TOKEN_EOF) :
    NoEOF (l ++ [t]) := by
  intro x hx
  rcases List.mem_append.1 hx with hx | hx
  · exact h x hx
  · rw [List.mem_singleton.1 hx]; exact ht

@[simp] theorem addToken_input (st : LexState) (type : token_type) (buffer : List Char)
    (line : Int) : (addToken st type buffer line).input = st.input := by
  unfold addToken; split_ifs <;> rfl

@[simp] theorem addToken_tl (st : LexState) (type : token_type) (buffer : List Char)
    (line : Int) : (addToken st type buffer line).tl = st.tl ++ [newToken type buffer line] := by
  unfold addToken; split_ifs <;> rfl

theorem addToken_pos (st : LexState) (type : token_type) (buffer : List Char) (line : Int) :
    (addToken st type buffer line).pos = if noBacktrack type = true then st.pos else st.pos - 1 := by
  unfold addToken; split_ifs <;> rfl

theorem addToken_noEOF (st : LexState) (type : token_type) (buffer : List Char) (line : Int)
    (ht : type ≠ TOKEN_EOF) (h : NoEOF st.tl) : NoEOF (addToken st type buffer line).tl := by
  rw [addToken_tl]
  exact noEOF_append _ _ h ht

theorem handleOthersLoop_mono (l : List Char) :
    ∀ (buffer : List Char) (read : Nat), read ≤ (handleOthersLoop buffer read l).read := by
  induction l with
  | nil => intro buffer read; unfold handleOthersLoop; split_ifs <;> simp
  | cons c rest ih =>
    intro buffer read
    unfold handleOthersLoop
    split_ifs
    · exact le_trans (Nat.le_succ _) (ih _ _)
    · simp
    · simp

theorem handleOthersLoop_progress (c : Char) (rest : List Char) (h : c.isAlpha = true) :
    2 ≤ (handleOthersLoop [] 0 (c :: rest)).read + (handleOthersLoop [] 0 (c :: rest)).skip := by
  have hal : (c.isAlphanum || c == '_') = true := by simp [Char.isAlphanum, h]
  have h0 : ([] : List Char).length ≤ TOKEN_MAX_LENGTH := by simp
  rw [handleOthersLoop, if_pos h0, if_pos hal]
  cases rest with
  | nil => unfold handleOthersLoop; split_ifs <;> simp_all [TOKEN_MAX_LENGTH]
  | cons d r =>
    have h1 : ([] ++ [c] : List Char).length ≤ TOKEN_MAX_LENGTH := by simp [TOKEN_MAX_LENGTH]
    rw [handleOthersLoop, if_pos h1]
    split_ifs
    · have := handleOthersLoop_mono r ([] ++ [c] ++ [d]) (0 + 1 + 1)
      omega
    · simp

theorem handleIntLiteralsLoop_mono (l : List Char) :
    ∀ (buffer : List Char) (read : Nat), read ≤ (handleIntLiteralsLoop buffer read l).read := by
  induction l with
  | nil => intro buffer read; unfold handleIntLiteralsLoop; split_ifs <;> simp
  | cons c rest ih =>
    intro buffer read
    unfold handleIntLiteralsLoop
    split_ifs
    · exact le_trans (Nat.le_succ _) (ih _ _)
    · simp
    · simp

theorem handleIntLiteralsLoop_progress (c : Char) (rest : List Char) (h : c.isDigit = true) :
    2 ≤ (handleIntLiteralsLoop [] 0 (c :: rest)).read +
      (handleIntLiteralsLoop [] 0 (c :: rest)).skip := by
  have h0 : ([] : List Char).length ≤ TOKEN_MAX_LENGTH := by simp
  rw [handleIntLiteralsLoop, if_pos h0, if_pos h]
  cases rest with
  | nil => unfold handleIntLiteralsLoop; split_ifs <;> simp_all [TOKEN_MAX_LENGTH]
  | cons d r =>
    have h1 : ([] ++ [c] : List Char).length ≤ TOKEN_MAX_LENGTH := by simp [TOKEN_MAX_LENGTH]
    rw [handleIntLiteralsLoop, if_pos h1]
    split_ifs
    · have := handleIntLiteralsLoop_mono r ([] ++ [c] ++ [d]) (0 + 1 + 1)
      omega
    · simp

theorem handleErrorsLoop_mono (l : List Char) :
    ∀ (buffer : List Char) (read : Nat), read ≤ (handleErrorsLoop buffer read l).1.read := by
  induction l with
  | nil => intro buffer read; simp [handleErrorsLoop]
  | cons c rest ih =>
    intro buffer read
    rw [handleErrorsLoop]
    split_ifs
    · simp
    · exact le_trans (Nat.le_succ _) (ih _ _)
    · simp

theorem handleErrorsLoop_progress (c : Char) (rest : List Char)
    (h : ¬ (c = ' ' ∨ c = '\n' ∨ c = '\t')) :
    1 ≤ (handleErrorsLoop [] 0 (c :: rest)).1.read := by
  have h0 : ([] : List Char).length ≤ TOKEN_MAX_LENGTH := by simp
  rw [handleErrorsLoop, if_pos h0, if_neg h]
  exact handleErrorsLoop_mono rest _ _

theorem keywordType_ne_EOF (buffer : List Char) : keywordType buffer ≠ TOKEN_EOF := by
  unfold keywordType
  split_ifs <;> decide

theorem handleOthers_ok (st : LexState) (c : Char) (h : st.input[st.pos]? = some c)
    (hc : c.isAlpha = true) :
    LexStepOk (st.pos + 1) st (handleOthers { st with pos := st.pos + 1 }) := by
  have hu := unread_of_getElem? st c h
  have hprog := handleOthersLoop_progress c (st.input.drop (st.pos + 1)) hc
  unfold handleOthers
  simp only [ungetc, LexState.unread, Nat.add_sub_cancel, hu]
  refine ⟨?_, ?_, ?_⟩
  · split_ifs <;> simp
  · split_ifs
    · rw [addToken_pos]; simp only [noBacktrack]; simp; omega
    · rw [addToken_pos]; split_ifs <;> simp only <;> omega
  · intro hn
    split_ifs
    · exact addToken_noEOF _ _ _ _ (by decide) hn
    · exact addToken_noEOF _ _ _ _ (keywordType_ne_EOF _) hn

theorem handleIntLiterals_ok (st : LexState) (c : Char) (h : st.input[st.pos]? = some c)
    (hc : c.isDigit = true) :
    LexStepOk (st.pos + 1) st (handleIntLiterals { st with pos := st.pos + 1 }) := by
  have hu := unread_of_getElem? st c h
  have hprog := handleIntLiteralsLoop_progress c (st.input.drop (st.pos + 1)) hc
  unfold handleIntLiterals
  simp only [ungetc, LexState.unread, Nat.add_sub_cancel, hu]
  refine ⟨by simp, ?_, fun hn => addToken_noEOF _ _ _ _ (by decide) hn⟩
  rw [addToken_pos]; split_ifs <;> simp only <;> omega

theorem handleErrors_ok (st : LexState) (c : Char) (h : st.input[st.pos]? = some c)
    (hc : ¬ (c = ' ' ∨ c = '\n' ∨ c = '\t')) :
    LexStepOk (st.pos + 1) st (handleErrors (ungetc { st with pos := st.pos + 1 })) := by
  have hu := unread_of_getElem? st c h
  have hprog := handleErrorsLoop_progress c (st.input.drop (st.pos + 1)) hc
  unfold handleErrors
  simp only [ungetc, LexState.unread, Nat.add_sub_cancel, hu]
  have hb : noBacktrack TOKEN_ERROR = true := rfl
  refine ⟨?_, ?_, fun hn => ?_⟩
  · rw [addToken_input]; split_ifs <;> rfl
  · rw [addToken_pos, if_pos hb]; split_ifs <;> simp only <;> omega
  · split_ifs <;> exact addToken_noEOF _ _ _ _ (by decide) hn

theorem handlePeriod_ok (st : LexState) (buffer : List Char) :
    LexStepOk st.pos st (handlePeriod st buffer) := by
  unfold handlePeriod
  cases st.unread with
  | nil =>
    refine ⟨by simp, ?_, fun hn => addToken_noEOF _ _ _ _ (by decide) hn⟩
    rw [addToken_pos]; simp [noBacktrack]
  | cons c rest =>
    simp only
    split_ifs
    · refine ⟨by simp, ?_, fun hn => addToken_noEOF _ _ _ _ (by decide) hn⟩
      rw [addToken_pos]; simp [noBacktrack]
    · refine ⟨by simp [ungetc], ?_, fun hn => addToken_noEOF _ _ _ _ (by decide) hn⟩
      rw [addToken_pos]; simp [noBacktrack, ungetc]

theorem handleCol_ok (st : LexState) (buffer : List Char) :
    LexStepOk st.pos st (handleCol st buffer) := by
  unfold handleCol
  cases st.unread with
  | nil =>
    refine ⟨by simp, ?_, fun hn => addToken_noEOF _ _ _ _ (by decide) hn⟩
    rw [addToken_pos]; simp [noBacktrack]
  | cons c rest =>
    simp only
    split_ifs
    · refine ⟨by simp [skipch], ?_, fun hn => addToken_noEOF _ _ _ _ (by decide) hn⟩
      rw [addToken_pos]; simp [noBacktrack, skipch]
    · refine ⟨by simp [ungetc], ?_, fun hn => addToken_noEOF _ _ _ _ (by decide) hn⟩
      rw [addToken_pos]; simp [noBacktrack, ungetc]

theorem handleSlash_ok (st : LexState) (buffer : List Char) :
    LexStepOk st.pos st (handleSlash st buffer) := by
  unfold handleSlash
  cases st.unread with
  | nil =>
    refine ⟨by simp [skipch], ?_, fun hn => addToken_noEOF _ _ _ _ (by decide) hn⟩
    rw [addToken_pos]; simp [noBacktrack, skipch]
  | cons c rest =>
    simp only
    split_ifs
    · exact ⟨rfl, by simp only; omega, fun hn => hn⟩
    · exact ⟨rfl, by simp only; omega, fun hn => hn⟩
    · refine ⟨by simp, ?_, fun hn => addToken_noEOF _ _ _ _ (by decide) hn⟩
      rw [addToken_pos]; simp [noBacktrack]; omega
    · exact ⟨rfl, by simp only; omega, fun hn => hn⟩
    · refine ⟨by simp [ungetc], ?_, fun hn => addToken_noEOF _ _ _ _ (by decide) hn⟩
      rw [addToken_pos]; simp [noBacktrack, ungetc]

theorem lexStepOk_trans (p q : Nat) (a b c : LexState) (h1 : LexStepOk p a b)
    (h2 : LexStepOk q b c) (hpq : p ≤ q) : LexStepOk p a c :=
  ⟨h2.1.trans h1.1, le_trans hpq h2.2.1, fun hn => h2.2.2 (h1.2.2 hn)⟩

theorem handleStringCase_stop_type (under : Char) (rbuf : List Char) (lr : Bool) (c : Char)
    (type : token_type) (buffer : List Char)
    (h : handleStringCase under rbuf lr c = .stop type buffer) :
    type = TOKEN_ERROR ∨ type = TOKEN_STRING_LITERAL := by
  unfold handleStringCase at h
  simp only at h
  split_ifs at h
  · cases h; simp
  · split at h
    · cases h
    · cases h; simp
  · split at h <;> cases h

theorem handleStringLoop_type (l : List Char) :
    ∀ (under : Char) (rbuf : List Char) (lr : Bool) (read : Nat),
      (handleStringLoop under rbuf lr read l).type = TOKEN_ERROR ∨
      (handleStringLoop under rbuf lr read l).type = TOKEN_STRING_LITERAL := by
  induction l with
  | nil => intro under rbuf lr read; unfold handleStringLoop; split_ifs <;> simp
  | cons c rest ih =>
    intro under rbuf lr read
    unfold handleStringLoop
    split_ifs
    · split
      · rename_i type buffer hs
        exact handleStringCase_stop_type _ _ _ _ _ _ hs
      · exact ih _ _ _ _
    · simp

theorem handleStringLoop_mono (l : List Char) :
    ∀ (under : Char) (rbuf : List Char) (lr : Bool) (read : Nat),
      read ≤ (handleStringLoop under rbuf lr read l).read := by
  induction l with
  | nil => intro under rbuf lr read; unfold handleStringLoop; split_ifs <;> simp
  | cons c rest ih =>
    intro under rbuf lr read
    unfold handleStringLoop
    split_ifs
    · split
      · simp
      · exact le_trans (Nat.le_succ _) (ih _ _ _ _)
    · simp

theorem handleStringLoop_progress (under : Char) (c : Char) (rest : List Char) :
    1 ≤ (handleStringLoop under [] false 0 (c :: rest)).read := by
  have h0 : ([] : List Char).length < TOKEN_MAX_LENGTH := by simp [TOKEN_MAX_LENGTH]
  rw [handleStringLoop, if_pos h0]
  split
  · simp
  · exact handleStringLoop_mono rest _ _ _ _

theorem isLastTokenControlError_append (l : token_list) (t : token) :
    isLastTokenControlError (l ++ [t]) = controlErrorCond t := by
  simp [isLastTokenControlError, List.foldl_append]

theorem controlErrorCond_unterminated (line : Int) :
    controlErrorCond (newToken TOKEN_ERROR "Unterminated string literal.".toList line) = false :=
  rfl

/-- One call of the string-literal handler: it keeps the input and adds no end-of-input token,
and when the loop of `lex` calls it again it has read at least one character. -/
theorem handleStringLiterals_ok (st : LexState) :
    LexStepOk st.pos st (handleStringLiterals st) ∧
    (isLastTokenControlError (handleStringLiterals st).tl = true →
      st.pos < st.input.length ∧ st.pos + 1 ≤ (handleStringLiterals st).pos) := by
  have hty := handleStringLoop_type st.unread st.under [] false 0
  have hb : noBacktrack (handleStringLoop st.under [] false 0 st.unread).type = true := by
    rcases hty with h | h <;> rw [h] <;> rfl
  have hne : (handleStringLoop st.under [] false 0 st.unread).type ≠ TOKEN_EOF := by
    rcases hty with h | h <;> rw [h] <;> decide
  unfold handleStringLiterals
  refine ⟨⟨by simp, ?_, fun hn => addToken_noEOF _ _ _ _ hne hn⟩, ?_⟩
  · rw [addToken_pos, if_pos hb]; simp only; omega
  · rw [addToken_tl, isLastTokenControlError_append]
    intro hce
    cases hun : st.unread with
    | nil =>
      rw [hun] at hce
      have : handleStringLoop st.under [] false 0 [] =
          ⟨TOKEN_ERROR, "Unterminated string literal.".toList, 0, 1, st.under⟩ := rfl
      rw [this, controlErrorCond_unterminated] at hce
      exact absurd hce (by simp)
    | cons c rest =>
      have hlt : st.pos < st.input.length := by
        by_contra hge
        have : st.input.drop st.pos = [] := List.drop_eq_nil_of_le (by omega)
        rw [LexState.unread, this] at hun
        exact absurd hun (by simp)
      have hp := handleStringLoop_progress st.under c rest
      refine ⟨hlt, ?_⟩
      rw [hun] at hb
      rw [addToken_pos, if_pos hb]
      simp only
      omega

theorem stringLiteralLoop_ok : ∀ (fuel : Nat) (st : LexState),
    st.input.length - st.pos + 1 ≤ fuel →
    ∃ st1, stringLiteralLoop fuel st = .done st1 ∧ LexStepOk st.pos st st1 := by
  intro fuel
  induction fuel with
  | zero => intro st h; omega
  | succ f ih =>
    intro st h
    have hs := handleStringLiterals_ok st
    unfold stringLiteralLoop
    simp only
    by_cases hc : isLastTokenControlError (handleStringLiterals st).tl = true
    · rw [if_pos hc]
      obtain ⟨hlt, hpos⟩ := hs.2 hc
      have hin : (handleStringLiterals st).input = st.input := hs.1.1
      obtain ⟨st1, h1, h2⟩ := ih (handleStringLiterals st) (by rw [hin]; omega)
      exact ⟨st1, h1, lexStepOk_trans _ _ _ _ _ hs.1 h2 (by omega)⟩
    · rw [if_neg hc]
      exact ⟨_, rfl, hs.1⟩

theorem lexCase_ok (fuel : Nat) (st : LexState) (c : Char) (h : st.input[st.pos]? = some c)
    (hf : st.input.length - st.pos ≤ fuel) (hov : handleErrorsOverflow st = false) :
    ∃ st1, lexCase fuel c { st with pos := st.pos + 1 } = .done st1 ∧
      LexStepOk (st.pos + 1) st st1 := by
  have hlt : st.pos < st.input.length := (List.getElem?_eq_some_iff.1 h).1
  have hsimple : ∀ (type : token_type), type ≠ TOKEN_EOF → noBacktrack type = true →
      LexStepOk (st.pos + 1) st
        (addToken { st with pos := st.pos + 1 } type [c] st.line_number) := by
    intro type h1 h2
    refine ⟨by simp, ?_, fun hn => addToken_noEOF _ _ _ _ h1 hn⟩
    rw [addToken_pos, if_pos h2]
  unfold lexCase
  by_cases c1 : c = '+' ∨ c = '-' ∨ c = '*' ∨ c = '=' ∨ c = '<' ∨ c = '&'
  · rw [if_pos c1]; exact ⟨_, rfl, hsimple _ (by decide) rfl⟩
  rw [if_neg c1]
  by_cases c2 : c = '('
  · rw [if_pos c2]; exact ⟨_, rfl, hsimple _ (by decide) rfl⟩
  rw [if_neg c2]
  by_cases c3 : c = ')'
  · rw [if_pos c3]; exact ⟨_, rfl, hsimple _ (by decide) rfl⟩
  rw [if_neg c3]
  by_cases c4 : c = ';'
  · rw [if_pos c4]; exact ⟨_, rfl, hsimple _ (by decide) rfl⟩
  rw [if_neg c4]
  by_cases c5 : c = '!'
  · rw [if_pos c5]; exact ⟨_, rfl, hsimple _ (by decide) rfl⟩
  rw [if_neg c5]
  by_cases c6 : c = '.'
  · rw [if_pos c6]; exact ⟨_, rfl, handlePeriod_ok { st with pos := st.pos + 1 } [c]⟩
  rw [if_neg c6]
  by_cases c7 : c = '/'
  · rw [if_pos c7]; exact ⟨_, rfl, handleSlash_ok { st with pos := st.pos + 1 } [c]⟩
  rw [if_neg c7]
  by_cases c8 : c = ':'
  · rw [if_pos c8]; exact ⟨_, rfl, handleCol_ok { st with pos := st.pos + 1 } [c]⟩
  rw [if_neg c8]
  by_cases c9 : c = ' ' ∨ c = '\n' ∨ c = '\t'
  · rw [if_pos c9]
    refine ⟨_, rfl, ?_⟩
    split_ifs
    · exact ⟨rfl, le_refl _, fun hn => hn⟩
    · exact ⟨rfl, le_refl _, fun hn => hn⟩
  rw [if_neg c9]
  by_cases c10 : c.isAlpha = true
  · rw [if_pos c10]; exact ⟨_, rfl, handleOthers_ok st c h c10⟩
  rw [if_neg c10]
  by_cases c11 : c.isDigit = true
  · rw [if_pos c11]; exact ⟨_, rfl, handleIntLiterals_ok st c h c11⟩
  rw [if_neg c11]
  by_cases c12 : c = '"'
  · rw [if_pos c12]
    obtain ⟨st1, h1, h2⟩ := stringLiteralLoop_ok fuel { st with pos := st.pos + 1 }
      (by simp only; omega)
    exact ⟨st1, h1, h2⟩
  rw [if_neg c12]
  have hu : handleErrorsOverflow (ungetc { st with pos := st.pos + 1 }) = false := by
    simpa [handleErrorsOverflow, ungetc, LexState.unread] using hov
  rw [hu]
  exact ⟨_, rfl, handleErrors_ok st c h c9⟩

theorem lexLoop_ok : ∀ (fuel : Nat) (st : LexState),
    st.input.length - st.pos + 1 ≤ fuel → NoOverflow st.input →
    ∃ st1, lexLoop fuel st = .done st1 ∧ (NoEOF st.tl → NoEOF st1.tl) := by
  intro fuel
  induction fuel with
  | zero => intro st h; omega
  | succ f ih =>
    intro st h hno
    unfold lexLoop
    cases hc : st.input[st.pos]? with
    | none => exact ⟨st, rfl, fun hn => hn⟩
    | some c =>
      have hlt : st.pos < st.input.length := (List.getElem?_eq_some_iff.1 hc).1
      obtain ⟨st1, h1, h2⟩ := lexCase_ok f st c hc (by omega) (hno st rfl)
      simp only [h1]
      obtain ⟨st2, h3, h4⟩ := ih st1 (by rw [h2.1]; have := h2.2.1; omega) (by rw [h2.1]; exact hno)
      exact ⟨st2, h3, fun hn => h4 (h2.2.2 hn)⟩

/-- On an input on which `sprintf` stays inside `buffer2`, `lex` returns a token stream that
ends with a token of type `TOKEN_EOF`, and no other token of the stream has that type. -/
theorem lex_ends_with_single_EOF (under : Char) (input : List Char) (hno : NoOverflow input) :
    ∃ (toks : token_list) (eof : token), lex under input = .done (toks ++ [eof]) ∧
      eof.type = TOKEN_EOF ∧ ∀ t ∈ toks, t.type ≠ TOKEN_EOF := by
  obtain ⟨st1, h1, h2⟩ := lexLoop_ok (input.length + 1) ⟨input, 0, 1, [], under⟩
    (by simp only; omega) hno
  refine ⟨st1.tl, newToken TOKEN_EOF "EOF".toList st1.line_number, ?_, rfl, ?_⟩
  · simp [lex, lexFuel, h1, addEOF, Outcome.bind]
  · exact h2 (by intro t ht; simp at ht)

/-! ## The evaluator: failure stops the run -/

@[simp] theorem Outcome.bind_done {α β : Type} (a : α) (f : α → Outcome β) :
    (Outcome.done a).bind f = f a := rfl

@[simp] theorem Outcome.bind_fault {α β : Type} (f : α → Outcome β) :
    (Outcome.fault : Outcome α).bind f = .fault := rfl

@[simp] theorem Outcome.bind_fuel {α β : Type} (f : α → Outcome β) :
    (Outcome.fuel : Outcome α).bind f = .fuel := rfl

theorem Outcome.bind_eq_done {α β : Type} (x : Outcome α) (f : α → Outcome β) (b : β)
    (h : x.bind f = .done b) : ∃ a, x = .done a ∧ f a = .done b := by
  cases x with
  | done a => exact ⟨a, rfl, h⟩
  | fault => simp at h
  | fuel => simp at h

theorem stmts_node_eq (fuel : Nat) (stmtn : statement_node) (sCol : Option token)
    (stmtsn : stmts_node) (st : Env) :
    stmts fuel (.node stmtn sCol stmtsn) st =
      (statement fuel stmtn st).bind fun r =>
        if r.1 = 0 then .done (0, r.2) else stmts fuel stmtsn r.2 := by
  rw [stmts]

theorem statement_result (fuel : Nat) (stmtn : statement_node) (st : Env) (r : Int × Env)
    (h : statement fuel stmtn st = .done r) : r.1 = 0 ∨ r.1 = 1 := by
  cases stmtn with
  | NULL => simp [statement] at h
  | error => simp [statement] at h
  | node decn assn forn readn printn assertn =>
    rw [statement] at h
    obtain ⟨r1, _, h⟩ := Outcome.bind_eq_done _ _ _ h
    split_ifs at h
    · cases h; simp
    obtain ⟨r2, _, h⟩ := Outcome.bind_eq_done _ _ _ h
    split_ifs at h
    · cases h; simp
    obtain ⟨r3, _, h⟩ := Outcome.bind_eq_done _ _ _ h
    split_ifs at h
    · cases h; simp
    obtain ⟨r4, _, h⟩ := Outcome.bind_eq_done _ _ _ h
    split_ifs at h
    · cases h; simp
    obtain ⟨r5, _, h⟩ := Outcome.bind_eq_done _ _ _ h
    split_ifs at h
    · cases h; simp
    obtain ⟨r6, _, h⟩ := Outcome.bind_eq_done _ _ _ h
    split_ifs at h
    · cases h; simp
    · cases h; simp

theorem stmts_seq_succeed (fuel : Nat) (pre : List (statement_node × Option token))
    (tail : stmts_node) :
    ∀ (st st1 : Env), StmtsAllSucceed fuel pre st st1 →
      stmts fuel (seqStmts pre tail) st = stmts fuel tail st1 := by
  induction pre with
  | nil => intro st st1 h; simp only [StmtsAllSucceed] at h; rw [h]; rfl
  | cons p ps ih =>
    intro st st1 h
    obtain ⟨st2, h1, h2⟩ := h
    have hs : seqStmts (p :: ps) tail = .node p.1 p.2 (seqStmts ps tail) := rfl
    rw [hs, stmts_node_eq, h1]
    simp only [Outcome.bind_done, one_ne_zero, if_false]
    exact ih st2 st1 h2

theorem stmts_succeed_iff (fuel : Nat) (ss : List (statement_node × Option token)) :
    ∀ (st st1 : Env), stmts fuel (seqStmts ss .NULL) st = .done (1, st1) ↔
      StmtsAllSucceed fuel ss st st1 := by
  induction ss with
  | nil =>
    intro st st1
    simp only [seqStmts, List.foldr_nil, stmts, StmtsAllSucceed, Outcome.done.injEq,
      Prod.mk.injEq, true_and]
    exact eq_comm
  | cons p ps ih =>
    intro st st1
    have hs : seqStmts (p :: ps) .NULL = .node p.1 p.2 (seqStmts ps .NULL) := rfl
    rw [hs, stmts_node_eq]
    constructor
    · intro h
      obtain ⟨r, h1, h2⟩ := Outcome.bind_eq_done _ _ _ h
      split_ifs at h2 with h0
      · simp at h2
      · rcases statement_result fuel p.1 st r h1 with h3 | h3
        · exact absurd h3 h0
        · refine ⟨r.2, ?_, (ih r.2 st1).1 h2⟩
          rw [h1, ← h3]
    · intro h
      obtain ⟨st2, h1, h2⟩ := h
      rw [h1]
      simp only [Outcome.bind_done, one_ne_zero, if_false]
      exact (ih st2 st1).2 h2

/-! ## The `for` loop -/

theorem wrapInt_of_range (x : Int) (h1 : INT_MIN ≤ x) (h2 : x ≤ INT_MAX) : wrapInt x = x := by
  unfold wrapInt
  unfold INT_MIN at h1
  unfold INT_MAX at h2
  omega

theorem ascending_cons (a b : Int) (h : a ≤ b) : ascending a b = a :: ascending (a + 1) b := by
  unfold ascending
  have h1 : (b - a + 1).toNat = (b - (a + 1) + 1).toNat + 1 := by omega
  rw [h1, List.range_succ_eq_map, List.map_cons, List.map_map]
  congr 1
  · simp
  · apply List.map_congr_left
    intro k _
    simp only [Function.comp, Nat.succ_eq_add_one, Nat.cast_add, Nat.cast_one]
    omega

theorem ascending_nil (a b : Int) (h : b < a) : ascending a b = [] := by
  unfold ascending
  have h1 : (b - a + 1).toNat = 0 := by omega
  rw [h1]
  rfl

theorem ascending_length (a b : Int) : ((ascending a b).length : Int) = max 0 (b - a + 1) := by
  unfold ascending
  rw [List.length_map, List.length_range]
  omega

/-- The loop of `for_` below the largest `int`: when the body succeeds in every round, the
loop runs it once for each of the indices `a, a+1, ..., b`, in this order, and returns 1. -/
theorem forLoop_rounds (body : Env → Outcome (Int × Env)) (id : token) (b : Int)
    (hb : b < INT_MAX) :
    ∀ (n : Nat) (a : Int) (st st1 : Env) (fuel : Nat), INT_MIN ≤ a → (b - a + 1).toNat = n →
      RoundsSucceed body id (ascending a b) st st1 → n < fuel →
      forLoop body id b fuel (counterValue a) st =
        .done (1, forceUpdate id { counterValue (a + n) with constant := 0 } st1) := by
  intro n
  induction n with
  | zero =>
    intro a st st1 fuel _ hn hr hf
    have hlt : b < a := by omega
    rw [ascending_nil a b hlt] at hr
    simp only [RoundsSucceed] at hr
    obtain ⟨f, rfl⟩ : ∃ f, fuel = f + 1 := ⟨fuel - 1, by omega⟩
    have hc : ¬ (counterValue a).i ≤ b := by simp only [counterValue]; omega
    rw [forLoop, if_neg hc, hr]
    simp
  | succ m ih =>
    intro a st st1 fuel ha hn hr hf
    have hle : a ≤ b := by omega
    rw [ascending_cons a b hle] at hr
    obtain ⟨r, h1, h2, h3⟩ := hr
    obtain ⟨f, rfl⟩ : ∃ f, fuel = f + 1 := ⟨fuel - 1, by omega⟩
    have hc : (counterValue a).i ≤ b := by simp only [counterValue]; omega
    have hw : wrapInt (a + 1) = a + 1 :=
      wrapInt_of_range _ (by unfold INT_MIN at *; omega) (by omega)
    have hcv : { counterValue a with i := wrapInt ((counterValue a).i + 1) } =
        counterValue (a + 1) := by
      simp only [counterValue, hw]
    rw [forLoop, if_pos hc, h1]
    simp only [h2, if_false, hcv]
    rw [ih (a + 1) r.2 st1 f (by omega) (by omega) h3 (by omega)]
    have : a + 1 + (m : Int) = a + ((m + 1 : Nat) : Int) := by push_cast; ring
    rw [this]

/-- The `for` statement below the largest `int`: for a declared int variable and range
expressions of int values `a` and `b < INT_MAX`, when the body succeeds in every round the
statement runs it once for each of the `max(0, b - a + 1)` indices `a, ..., b`, in ascending
order, and succeeds. -/
theorem for_rounds_below_INT_MAX (fuel : Nat) (fk ik rg dk ek fe : Option token) (id : token)
    (expn1 expn2 : expression_node) (body : stmts_node) (st st1 st2 st3 : Env) (va vb : value)
    (hid : findLabelType id st = (.INT, st))
    (h1 : expression expn1 st = .done (va, st1))
    (h2 : expression expn2 st1 = .done (vb, st2))
    (hva : va.lt = .INT) (hvb : vb.lt = .INT) (ha : INT_MIN ≤ va.i) (hb : vb.i < INT_MAX)
    (hr : RoundsSucceed (fun s => stmts fuel body s) id (ascending va.i vb.i) st2 st3)
    (hf : (vb.i - va.i + 1).toNat < fuel) :
    for_ fuel (.node fk (some id) ik expn1 rg expn2 dk body ek fe) st =
      .done (1, forceUpdate id
        { counterValue (va.i + (vb.i - va.i + 1).toNat) with constant := 0 } st3) ∧
    ((ascending va.i vb.i).length : Int) = max 0 (vb.i - va.i + 1) := by
  refine ⟨?_, ascending_length _ _⟩
  rw [for_]
  simp only [hid, ne_eq, not_true_eq_false, if_false, h1, h2, Outcome.bind_done, hva, hvb,
    or_self]
  exact forLoop_rounds _ id vb.i hb _ va.i st2 st3 fuel ha rfl hr hf

/-- C3 on the failing input: with both bounds equal to the largest `int`, the body runs a
second time, with the control variable bound to the smallest `int`: the program prints both
values and the assertion of the second round fails. -/
theorem max_bound_loop_runs_again :
    run 10 maxBoundProgram [] =
      .done (0, ⟨[("i".toList, ⟨-2147483648, 0, none, 0, 0, 1, INT⟩)],
        "2147483647-2147483648".toList,
        "Semantic error in line   1: Assertion failed.\n".toList, []⟩) := by
  decide

set_option maxRecDepth 100000 in
set_option maxHeartbeats 4000000 in
/-- C2 on the failing input: after the inner loop on `i` has run inside the body of the outer
loop on `i`, the lookup of `i` yields 6, not the index 0 of the outer round, and the
assignment `i := 9` in the body succeeds: the program prints 6 and 9 and `run` returns 1
without any diagnostic. -/
theorem nested_loop_breaks_immutability :
    run 10 nestedLoopProgram [] =
      .done (1, ⟨[("i".toList, ⟨1, 0, none, 0, 0, 0, INT⟩)], "69".toList, [], []⟩) := by
  decide

/-- The loop of `for_` stops in the round in which its body fails: when the body succeeds for
the indices `a, ..., j - 1` and fails for the index `j`, which is not above the bound `b`, the
loop returns 0 in the state that the failing round leaves; no round is run for a later
index. -/
theorem forLoop_stops (body : Env → Outcome (Int × Env)) (id : token) (b j : Int) (st1 : Env)
    (hjb : j ≤ b) (hj : j ≤ INT_MAX) :
    ∀ (n : Nat) (a : Int) (st stj : Env) (fuel : Nat), INT_MIN ≤ a → (j - a).toNat = n →
      a ≤ j → RoundsSucceed body id (ascending a (j - 1)) st stj →
      body (forceUpdate id (counterValue j) stj) = .done (0, st1) → n < fuel →
      forLoop body id b fuel (counterValue a) st = .done (0, st1) := by
  intro n
  induction n with
  | zero =>
    intro a st stj fuel _ hn haj hr hbody hf
    have haj2 : a = j := by omega
    subst haj2
    rw [ascending_nil a (a - 1) (by omega)] at hr
    simp only [RoundsSucceed] at hr
    subst hr
    obtain ⟨f, rfl⟩ : ∃ f, fuel = f + 1 := ⟨fuel - 1, by omega⟩
    have hc : (counterValue a).i ≤ b := by simp only [counterValue]; omega
    rw [forLoop, if_pos hc, hbody]
    simp
  | succ m ih =>
    intro a st stj fuel ha hn haj hr hbody hf
    have hlt : a ≤ j - 1 := by omega
    rw [ascending_cons a (j - 1) hlt] at hr
    obtain ⟨r, h1, h2, h3⟩ := hr
    obtain ⟨f, rfl⟩ : ∃ f, fuel = f + 1 := ⟨fuel - 1, by omega⟩
    have hc : (counterValue a).i ≤ b := by simp only [counterValue]; omega
    have hw : wrapInt (a + 1) = a + 1 :=
      wrapInt_of_range _ (by unfold INT_MIN at *; omega) (by omega)
    have hcv : { counterValue a with i := wrapInt ((counterValue a).i + 1) } =
        counterValue (a + 1) := by
      simp only [counterValue, hw]
    rw [forLoop, if_pos hc, h1]
    simp only [h2, if_false, hcv]
    exact ih (a + 1) r.2 stj f (by omega) (by omega) (by omega) h3 hbody (by omega)

/-- C6: when the statements `pre` of a list succeed and the next statement `stmtn` fails,
leaving the state `st1`, then the list returns 0 in that very state whatever follows the
failing statement (no later statement is evaluated). A `for` statement whose body is this
list, on a declared int variable with int bounds `a` and `b`, in which the failure happens in
the round of the index `j` after the rounds of `a, ..., j - 1` succeeded, stops in that round:
`for_` returns 0 in the state `st1`, no round is run for `j + 1, ..., b`, and the statement of
the loop fails in that state too, so that the same holds for the list and the loop that
enclose it. Any failing `for` makes its statement fail, `run` returns 0, and `run` returns 1
exactly when every statement of the list succeeded in turn. -/
theorem first_failure_stops (fuel : Nat) (pre : List (statement_node × Option token))
    (stmtn : statement_node) (st0 st st1 : Env)
    (hpre : StmtsAllSucceed fuel pre st0 st)
    (hfail : statement fuel stmtn st = .done (0, st1)) :
    (∀ sCol rest, stmts fuel (seqStmts pre (.node stmtn sCol rest)) st0 = .done (0, st1)) ∧
    (∀ (fk ik rg dk ek fe sCol : Option token) (rest : stmts_node) (id : token)
      (expn1 expn2 : expression_node) (stf sta stb stj : Env) (va vb : value) (j : Int),
      findLabelType id stf = (.INT, stf) →
      expression expn1 stf = .done (va, sta) → expression expn2 sta = .done (vb, stb) →
      va.lt = .INT → vb.lt = .INT → INT_MIN ≤ va.i → va.i ≤ j → j ≤ vb.i → j ≤ INT_MAX →
      RoundsSucceed (fun s => stmts fuel (seqStmts pre (.node stmtn sCol rest)) s) id
        (ascending va.i (j - 1)) stb stj →
      forceUpdate id (counterValue j) stj = st0 → (j - va.i).toNat < fuel →
      for_ fuel (.node fk (some id) ik expn1 rg expn2 dk
          (seqStmts pre (.node stmtn sCol rest)) ek fe) stf = .done (0, st1) ∧
      statement fuel (.node .NULL .NULL (.node fk (some id) ik expn1 rg expn2 dk
          (seqStmts pre (.node stmtn sCol rest)) ek fe) .NULL .NULL .NULL) stf =
        .done (0, st1)) ∧
    (∀ forn st2 st3, for_ fuel forn st2 = .done (0, st3) →
      statement fuel (.node .NULL .NULL forn .NULL .NULL .NULL) st2 = .done (0, st3)) ∧
    (∀ sCol rest eof inp, st0 = initialEnv inp →
      run fuel (.node (seqStmts pre (.node stmtn sCol rest)) eof) inp = .done (0, st1)) ∧
    (∀ ss eof inp st2, run fuel (.node (seqStmts ss .NULL) eof) inp = .done (1, st2) ↔
      StmtsAllSucceed fuel ss (initialEnv inp) st2) := by
  have hlist : ∀ sCol rest,
      stmts fuel (seqStmts pre (.node stmtn sCol rest)) st0 = .done (0, st1) := by
    intro sCol rest
    rw [stmts_seq_succeed fuel pre _ st0 st hpre, stmts_node_eq, hfail]
    simp
  have hstmt : ∀ forn st2 st3, for_ fuel forn st2 = .done (0, st3) →
      statement fuel (.node .NULL .NULL forn .NULL .NULL .NULL) st2 = .done (0, st3) := by
    intro forn st2 st3 h
    rw [statement]
    simp [declaration, assignment, h]
  refine ⟨hlist, ?_, hstmt, ?_, ?_⟩
  · intro fk ik rg dk ek fe sCol rest id expn1 expn2 stf sta stb stj va vb j hid h1 h2 hva hvb
      ha haj hjb hj hr hst hf
    have hfor : for_ fuel (.node fk (some id) ik expn1 rg expn2 dk
        (seqStmts pre (.node stmtn sCol rest)) ek fe) stf = .done (0, st1) := by
      rw [for_]
      simp only [hid, ne_eq, not_true_eq_false, if_false, h1, h2, Outcome.bind_done, hva, hvb,
        or_self]
      refine forLoop_stops _ id vb.i j st1 hjb hj _ va.i stb stj fuel ha rfl haj hr ?_ hf
      rw [hst]
      exact hlist sCol rest
    exact ⟨hfor, hstmt _ _ _ hfor⟩
  · intro sCol rest eof inp hst
    rw [run, program, ← hst]
    exact hlist sCol rest
  · intro ss eof inp st2
    rw [run, program]
    exact stmts_succeed_iff fuel ss _ _

theorem first_failure_stops_witness :
    statement 3
      (forStmt "i" (operandExpr (intOperand "1")) (operandExpr (intOperand "3"))
        (stmtList [printStmt (operandExpr (idOperand "i")), declIntStmt "x",
          printStmt (operandExpr (intOperand "7"))]))
      ⟨[("i".toList, ⟨0, 0, none, 0, 0, 0, INT⟩)], [], [], []⟩ =
      .done (0, ⟨[("x".toList, ⟨0, 0, none, 0, 0, 0, INT⟩),
          ("i".toList, ⟨2, 0, none, 0, 0, 1, INT⟩)], "172".toList,
        "Semantic error in line   1: Redeclaration of symbol x.\n".toList, []⟩) :=
  ((first_failure_stops 3 [(printStmt (operandExpr (idOperand "i")), some (tok TOKEN_SCOL ";"))]
      (declIntStmt "x")
      ⟨[("x".toList, ⟨0, 0, none, 0, 0, 0, INT⟩), ("i".toList, ⟨2, 0, none, 0, 0, 1, INT⟩)],
        "17".toList, [], []⟩
      ⟨[("x".toList, ⟨0, 0, none, 0, 0, 0, INT⟩), ("i".toList, ⟨2, 0, none, 0, 0, 1, INT⟩)],
        "172".toList, [], []⟩
      ⟨[("x".toList, ⟨0, 0, none, 0, 0, 0, INT⟩), ("i".toList, ⟨2, 0, none, 0, 0, 1, INT⟩)],
        "172".toList, "Semantic error in line   1: Redeclaration of symbol x.\n".toList, []⟩
      ⟨_, by decide, rfl⟩ (by decide)).2.1
    (some (tok TOKEN_FORKEY "for")) (some (tok TOKEN_INKEY "in")) (some (tok TOKEN_RANGE ".."))
    (some (tok TOKEN_DOKEY "do")) (some (tok TOKEN_ENDKEY "end")) (some (tok TOKEN_FORKEY "for"))
    (some (tok TOKEN_SCOL ";"))
    (seqStmts [(printStmt (operandExpr (intOperand "7")), some (tok TOKEN_SCOL ";"))] .NULL)
    (tok TOKEN_IDENTIFIER "i") (operandExpr (intOperand "1")) (operandExpr (intOperand "3"))
    ⟨[("i".toList, ⟨0, 0, none, 0, 0, 0, INT⟩)], [], [], []⟩
    ⟨[("i".toList, ⟨0, 0, none, 0, 0, 0, INT⟩)], [], [], []⟩
    ⟨[("i".toList, ⟨0, 0, none, 0, 0, 0, INT⟩)], [], [], []⟩
    ⟨[("x".toList, ⟨0, 0, none, 0, 0, 0, INT⟩), ("i".toList, ⟨1, 0, none, 0, 0, 1, INT⟩)],
      "17".toList, [], []⟩
    ⟨1, 0, none, 0, 0, 0, INT⟩ ⟨3, 0, none, 0, 0, 0, INT⟩ 2
    (by decide) (by decide) (by decide) rfl rfl (by decide) (by decide) (by decide) (by decide)
    ⟨(1, ⟨[("x".toList, ⟨0, 0, none, 0, 0, 0, INT⟩), ("i".toList, ⟨1, 0, none, 0, 0, 1, INT⟩)],
      "17".toList, [], []⟩), by decide, by decide, by exact rfl⟩ (by decide) (by decide)).2

namespace Parser
open consumption_type discard_option

/-! ## The parser: what a successful call has read -/

theorem match_consume_some (tt : token_type) (st st1 : ParseState) (t : token)
    (h : match_ tt CONSUME st = (some t, st1)) :
    st.global_tlist = t :: st1.global_tlist ∧ t.type = tt ∧
      st1.errors_found = st.errors_found ∧ st1.err = st.err := by
  unfold match_ at h
  cases hl : st.global_tlist with
  | nil => rw [hl] at h; simp at h
  | cons t0 rest =>
    rw [hl] at h
    simp only at h
    by_cases ht : t0.type = tt
    · rw [if_pos ht] at h
      simp only [if_true, Prod.mk.injEq, Option.some.injEq] at h
      obtain ⟨rfl, rfl⟩ := h
      exact ⟨rfl, ht, rfl, rfl⟩
    · rw [if_neg ht] at h
      simp at h

theorem match_none (tt : token_type) (ct : consumption_type) (st st1 : ParseState)
    (h : match_ tt ct st = (none, st1)) :
    st1 = st ∧ ∀ t rest, st.global_tlist = t :: rest → t.type ≠ tt := by
  unfold match_ at h
  cases hl : st.global_tlist with
  | nil =>
    rw [hl] at h
    simp only [Prod.mk.injEq, true_and] at h
    exact ⟨h.symm, fun t rest hh => by simp at hh⟩
  | cons t0 rest =>
    rw [hl] at h
    simp only at h
    by_cases ht : t0.type = tt
    · rw [if_pos ht] at h
      simp at h
    · rw [if_neg ht] at h
      simp only [Prod.mk.injEq, true_and] at h
      refine ⟨h.symm, fun t rest hh => ?_⟩
      simp only [List.cons.injEq] at hh
      rw [← hh.1]; exact ht

theorem expression_family_sound : ∀ fuel : Nat,
    (∀ st r st1, expression fuel st = .done (r, st1) →
      ReadsExpr .expression (fun x => x = .error) st r st1) ∧
    (∀ st r st1, unaryExpression fuel st = .done (r, st1) →
      ReadsExpr .unary_expression (fun x => x = .error) st r st1) ∧
    (∀ st r st1, binaryExpression fuel st = .done (r, st1) →
      ReadsExpr .binary_expression (fun x => x = .error) st r st1) ∧
    (∀ st r st1, operand fuel st = .done (r, st1) →
      ReadsExpr .operand (fun x => x = .error) st r st1) ∧
    (∀ st r st1, operandSuffix fuel st = .done (r, st1) →
      ReadsExpr .operand_suffix (fun x => x = .error) st r st1) ∧
    (∀ st r st1, enclosedExpression fuel st = .done (r, st1) →
      ReadsExpr .operand (fun x => x = .error) st r st1) := by
  intro fuel
  induction fuel with
  | zero =>
    refine ⟨?_, ?_, ?_, ?_, ?_, ?_⟩ <;> intro st r st1 h
    · simp [expression] at h
    · simp [unaryExpression] at h
    · simp [binaryExpression] at h
    · simp [operand] at h
    · simp [operandSuffix] at h
    · simp [enclosedExpression] at h
  | succ f ih =>
    obtain ⟨ihE, ihU, ihB, ihO, ihS, ihP⟩ := ih
    refine ⟨?_, ?_, ?_, ?_, ?_, ?_⟩ <;> intro st r st1 h
    · -- expression
      rw [expression] at h
      split_ifs at h
      · obtain ⟨⟨u, st2⟩, h1, h2⟩ := Outcome.bind_eq_done _ _ _ h
        obtain ⟨e1, e2, e3⟩ := ihU st u st2 h1
        simp only at h2
        split at h2
        · simp only [Outcome.done.injEq, Prod.mk.injEq] at h2
          obtain ⟨rfl, rfl⟩ := h2
          exact ⟨e1, e2, fun hh => absurd rfl hh⟩
        · rename_i hne
          simp only [Outcome.done.injEq, Prod.mk.injEq] at h2
          obtain ⟨rfl, rfl⟩ := h2
          refine ⟨e1, e2, fun _ => ?_⟩
          obtain ⟨ts, h3, h4⟩ := e3 (fun hh => hne hh)
          exact ⟨ts, h3, Derives.expression_unary h4⟩
      · obtain ⟨⟨u, st2⟩, h1, h2⟩ := Outcome.bind_eq_done _ _ _ h
        obtain ⟨e1, e2, e3⟩ := ihB st u st2 h1
        simp only at h2
        split at h2
        · simp only [Outcome.done.injEq, Prod.mk.injEq] at h2
          obtain ⟨rfl, rfl⟩ := h2
          exact ⟨e1, e2, fun hh => absurd rfl hh⟩
        · rename_i hne
          simp only [Outcome.done.injEq, Prod.mk.injEq] at h2
          obtain ⟨rfl, rfl⟩ := h2
          refine ⟨e1, e2, fun _ => ?_⟩
          obtain ⟨ts, h3, h4⟩ := e3 (fun hh => hne hh)
          exact ⟨ts, h3, Derives.expression_binary h4⟩
    · -- unaryExpression
      rw [unaryExpression] at h
      split at h
      · rename_i st2 hm
        simp only [Outcome.done.injEq, Prod.mk.injEq] at h
        obtain ⟨rfl, rfl⟩ := h
        obtain ⟨rfl, _⟩ := match_none _ _ _ _ hm
        exact ⟨rfl, rfl, fun hh => absurd rfl hh⟩
      · rename_i unop st2 hm
        obtain ⟨m1, m2, m3, m4⟩ := match_consume_some _ _ _ _ hm
        obtain ⟨⟨u, st3⟩, h1, h2⟩ := Outcome.bind_eq_done _ _ _ h
        obtain ⟨e1, e2, e3⟩ := ihO st2 u st3 h1
        simp only at h2
        split at h2
        · simp only [Outcome.done.injEq, Prod.mk.injEq] at h2
          obtain ⟨rfl, rfl⟩ := h2
          exact ⟨e1.trans m3, e2.trans m4, fun hh => absurd rfl hh⟩
        · rename_i hne
          simp only [Outcome.done.injEq, Prod.mk.injEq] at h2
          obtain ⟨rfl, rfl⟩ := h2
          refine ⟨e1.trans m3, e2.trans m4, fun _ => ?_⟩
          obtain ⟨ts, h3, h4⟩ := e3 (fun hh => hne hh)
          refine ⟨unop :: ts, by rw [m1, h3]; rfl, ?_⟩
          simp only [kinds, List.map_cons, m2]
          exact Derives.unary_expression h4
    · -- binaryExpression
      rw [binaryExpression] at h
      obtain ⟨⟨o, st2⟩, h1, h2⟩ := Outcome.bind_eq_done _ _ _ h
      obtain ⟨e1, e2, e3⟩ := ihO st o st2 h1
      simp only at h2
      split at h2
      · simp only [Outcome.done.injEq, Prod.mk.injEq] at h2
        obtain ⟨rfl, rfl⟩ := h2
        exact ⟨e1, e2, fun hh => absurd rfl hh⟩
      · rename_i hne
        obtain ⟨⟨s, st3⟩, h3, h4⟩ := Outcome.bind_eq_done _ _ _ h2
        obtain ⟨f1, f2, f3⟩ := ihS st2 s st3 h3
        simp only at h4
        split at h4
        · simp only [Outcome.done.injEq, Prod.mk.injEq] at h4
          obtain ⟨rfl, rfl⟩ := h4
          exact ⟨f1.trans e1, f2.trans e2, fun hh => absurd rfl hh⟩
        · rename_i hne2
          simp only [Outcome.done.injEq, Prod.mk.injEq] at h4
          obtain ⟨rfl, rfl⟩ := h4
          refine ⟨f1.trans e1, f2.trans e2, fun _ => ?_⟩
          obtain ⟨ts, h5, h6⟩ := e3 (fun hh => hne hh)
          obtain ⟨ts2, h7, h8⟩ := f3 (fun hh => hne2 hh)
          refine ⟨ts ++ ts2, by rw [h5, h7, List.append_assoc], ?_⟩
          simp only [kinds, List.map_append]
          exact Derives.binary_expression h6 h8
    · -- operand
      rw [operand] at h
      split at h
      · rename_i intLit st2 hm
        obtain ⟨m1, m2, m3, m4⟩ := match_consume_some _ _ _ _ hm
        simp only [Outcome.done.injEq, Prod.mk.injEq] at h
        obtain ⟨rfl, rfl⟩ := h
        refine ⟨m3, m4, fun _ => ⟨[intLit], by rw [m1]; rfl, ?_⟩⟩
        simp only [kinds, List.map_cons, List.map_nil, m2]
        exact Derives.operand_int
      · rename_i st2 hm
        obtain ⟨rfl, _⟩ := match_none _ _ _ _ hm
        split at h
        · rename_i strLit st3 hm2
          obtain ⟨m1, m2, m3, m4⟩ := match_consume_some _ _ _ _ hm2
          simp only [Outcome.done.injEq, Prod.mk.injEq] at h
          obtain ⟨rfl, rfl⟩ := h
          refine ⟨m3, m4, fun _ => ⟨[strLit], by rw [m1]; rfl, ?_⟩⟩
          simp only [kinds, List.map_cons, List.map_nil, m2]
          exact Derives.operand_string
        · rename_i st3 hm2
          obtain ⟨rfl, _⟩ := match_none _ _ _ _ hm2
          split at h
          · rename_i id st4 hm3
            obtain ⟨m1, m2, m3, m4⟩ := match_consume_some _ _ _ _ hm3
            simp only [Outcome.done.injEq, Prod.mk.injEq] at h
            obtain ⟨rfl, rfl⟩ := h
            refine ⟨m3, m4, fun _ => ⟨[id], by rw [m1]; rfl, ?_⟩⟩
            simp only [kinds, List.map_cons, List.map_nil, m2]
            exact Derives.operand_id
          · rename_i st4 hm3
            obtain ⟨rfl, _⟩ := match_none _ _ _ _ hm3
            obtain ⟨⟨p, st5⟩, h1, h2⟩ := Outcome.bind_eq_done _ _ _ h
            obtain ⟨e1, e2, e3⟩ := ihP _ p st5 h1
            simp only at h2
            split at h2
            · simp only [Outcome.done.injEq, Prod.mk.injEq] at h2
              obtain ⟨rfl, rfl⟩ := h2
              exact ⟨e1, e2, fun hh => absurd rfl hh⟩
            · rename_i hne
              simp only [Outcome.done.injEq, Prod.mk.injEq] at h2
              obtain ⟨rfl, rfl⟩ := h2
              exact ⟨e1, e2, fun _ => e3 (fun hh => hne hh)⟩
    · -- operandSuffix
      rw [operandSuffix] at h
      split at h
      · rename_i op st2 hm
        obtain ⟨m1, m2, m3, m4⟩ := match_consume_some _ _ _ _ hm
        obtain ⟨⟨o, st3⟩, h1, h2⟩ := Outcome.bind_eq_done _ _ _ h
        obtain ⟨e1, e2, e3⟩ := ihO st2 o st3 h1
        simp only at h2
        split at h2
        · simp only [Outcome.done.injEq, Prod.mk.injEq] at h2
          obtain ⟨rfl, rfl⟩ := h2
          exact ⟨e1.trans m3, e2.trans m4, fun hh => absurd rfl hh⟩
        · rename_i hne
          simp only [Outcome.done.injEq, Prod.mk.injEq] at h2
          obtain ⟨rfl, rfl⟩ := h2
          refine ⟨e1.trans m3, e2.trans m4, fun _ => ?_⟩
          obtain ⟨ts, h3, h4⟩ := e3 (fun hh => hne hh)
          refine ⟨op :: ts, by rw [m1, h3]; rfl, ?_⟩
          simp only [kinds, List.map_cons, m2]
          exact Derives.operand_suffix_op h4
      · rename_i st2 hm
        obtain ⟨rfl, _⟩ := match_none _ _ _ _ hm
        simp only [Outcome.done.injEq, Prod.mk.injEq] at h
        obtain ⟨rfl, rfl⟩ := h
        exact ⟨rfl, rfl, fun _ => ⟨[], rfl, Derives.operand_suffix_eps⟩⟩
    · -- enclosedExpression
      rw [enclosedExpression] at h
      split at h
      · rename_i st2 hm
        obtain ⟨rfl, _⟩ := match_none _ _ _ _ hm
        simp only [Outcome.done.injEq, Prod.mk.injEq] at h
        obtain ⟨rfl, rfl⟩ := h
        exact ⟨rfl, rfl, fun hh => absurd rfl hh⟩
      · rename_i lPar st2 hm
        obtain ⟨m1, m2, m3, m4⟩ := match_consume_some _ _ _ _ hm
        obtain ⟨⟨e, st3⟩, h1, h2⟩ := Outcome.bind_eq_done _ _ _ h
        obtain ⟨e1, e2, e3⟩ := ihE st2 e st3 h1
        simp only at h2
        split at h2
        · simp only [Outcome.done.injEq, Prod.mk.injEq] at h2
          obtain ⟨rfl, rfl⟩ := h2
          exact ⟨e1.trans m3, e2.trans m4, fun hh => absurd rfl hh⟩
        · rename_i hne
          split at h2
          · rename_i st4 hm2
            obtain ⟨rfl, _⟩ := match_none _ _ _ _ hm2
            simp only [Outcome.done.injEq, Prod.mk.injEq] at h2
            obtain ⟨rfl, rfl⟩ := h2
            exact ⟨e1.trans m3, e2.trans m4, fun hh => absurd rfl hh⟩
          · rename_i rPar st4 hm2
            obtain ⟨n1, n2, n3, n4⟩ := match_consume_some _ _ _ _ hm2
            simp only [Outcome.done.injEq, Prod.mk.injEq] at h2
            obtain ⟨rfl, rfl⟩ := h2
            refine ⟨n3.trans (e1.trans m3), n4.trans (e2.trans m4), fun _ => ?_⟩
            obtain ⟨ts, h3, h4⟩ := e3 (fun hh => hne hh)
            refine ⟨lPar :: ts ++ [rPar], by rw [m1, h3, n1]; simp, ?_⟩
            simp only [kinds, List.map_cons, List.map_append, List.map_nil, m2, n2]
            exact Derives.operand_paren h4

end Parser

namespace Parser
open consumption_type discard_option

theorem declarationSuffix_sound (fuel : Nat) (st : ParseState) (r : declaration_suffix_node)
    (st1 : ParseState) (h : declarationSuffix fuel st = .done (r, st1)) :
    ReadsExpr .declaration_suffix (fun x => x = .error) st r st1 := by
  rw [declarationSuffix] at h
  split at h
  · rename_i ass st2 hm
    obtain ⟨m1, m2, m3, m4⟩ := match_consume_some _ _ _ _ hm
    obtain ⟨⟨e, st3⟩, h1, h2⟩ := Outcome.bind_eq_done _ _ _ h
    obtain ⟨e1, e2, e3⟩ := (expression_family_sound fuel).1 st2 e st3 h1
    simp only at h2
    split at h2
    · simp only [Outcome.done.injEq, Prod.mk.injEq] at h2
      obtain ⟨rfl, rfl⟩ := h2
      exact ⟨e1.trans m3, e2.trans m4, fun hh => absurd rfl hh⟩
    · rename_i hne
      simp only [Outcome.done.injEq, Prod.mk.injEq] at h2
      obtain ⟨rfl, rfl⟩ := h2
      refine ⟨e1.trans m3, e2.trans m4, fun _ => ?_⟩
      obtain ⟨ts, h3, h4⟩ := e3 (fun hh => hne hh)
      refine ⟨ass :: ts, by rw [m1, h3]; rfl, ?_⟩
      simp only [kinds, List.map_cons, m2]
      exact Derives.declaration_suffix_init h4
  · rename_i st2 hm
    obtain ⟨rfl, _⟩ := match_none _ _ _ _ hm
    simp only [Outcome.done.injEq, Prod.mk.injEq] at h
    obtain ⟨rfl, rfl⟩ := h
    exact ⟨rfl, rfl, fun _ => ⟨[], rfl, Derives.declaration_suffix_eps⟩⟩

theorem declaration_sound (fuel : Nat) (st : ParseState) (r : declaration_node)
    (st1 : ParseState) (h : declaration fuel st = .done (r, st1)) :
    ReadsExpr .declaration (fun x => x = .error) st r st1 := by
  rw [declaration] at h
  split at h
  · rename_i st2 hm
    obtain ⟨rfl, _⟩ := match_none _ _ _ _ hm
    simp only [Outcome.done.injEq, Prod.mk.injEq] at h
    obtain ⟨rfl, rfl⟩ := h
    exact ⟨rfl, rfl, fun hh => absurd rfl hh⟩
  rename_i varKey sa ha
  obtain ⟨a1, a2, a3, a4⟩ := match_consume_some _ _ _ _ ha
  split at h
  · rename_i st2 hm
    obtain ⟨rfl, _⟩ := match_none _ _ _ _ hm
    simp only [Outcome.done.injEq, Prod.mk.injEq] at h
    obtain ⟨rfl, rfl⟩ := h
    exact ⟨a3, a4, fun hh => absurd rfl hh⟩
  rename_i id sb hb
  obtain ⟨b1, b2, b3, b4⟩ := match_consume_some _ _ _ _ hb
  split at h
  · rename_i st2 hm
    obtain ⟨rfl, _⟩ := match_none _ _ _ _ hm
    simp only [Outcome.done.injEq, Prod.mk.injEq] at h
    obtain ⟨rfl, rfl⟩ := h
    exact ⟨b3.trans a3, b4.trans a4, fun hh => absurd rfl hh⟩
  rename_i col sc hc
  obtain ⟨c1, c2, c3, c4⟩ := match_consume_some _ _ _ _ hc
  split at h
  · rename_i st2 hm
    obtain ⟨rfl, _⟩ := match_none _ _ _ _ hm
    simp only [Outcome.done.injEq, Prod.mk.injEq] at h
    obtain ⟨rfl, rfl⟩ := h
    exact ⟨c3.trans (b3.trans a3), c4.trans (b4.trans a4), fun hh => absurd rfl hh⟩
  rename_i typeKey sd hd
  obtain ⟨d1, d2, d3, d4⟩ := match_consume_some _ _ _ _ hd
  obtain ⟨⟨e, st3⟩, h1, h2⟩ := Outcome.bind_eq_done _ _ _ h
  obtain ⟨e1, e2, e3⟩ := declarationSuffix_sound fuel sd e st3 h1
  have f1 := e1.trans (d3.trans (c3.trans (b3.trans a3)))
  have f2 := e2.trans (d4.trans (c4.trans (b4.trans a4)))
  simp only at h2
  split at h2
  · simp only [Outcome.done.injEq, Prod.mk.injEq] at h2
    obtain ⟨rfl, rfl⟩ := h2
    exact ⟨f1, f2, fun hh => absurd rfl hh⟩
  · rename_i hne
    simp only [Outcome.done.injEq, Prod.mk.injEq] at h2
    obtain ⟨rfl, rfl⟩ := h2
    refine ⟨f1, f2, fun _ => ?_⟩
    obtain ⟨ts, h3, h4⟩ := e3 (fun hh => hne hh)
    refine ⟨varKey :: id :: col :: typeKey :: ts, by rw [a1, b1, c1, d1, h3]; rfl, ?_⟩
    simp only [kinds, List.map_cons, a2, b2, c2, d2]
    exact Derives.declaration h4

theorem assignment_sound (fuel : Nat) (st : ParseState) (r : assignment_node)
    (st1 : ParseState) (h : assignment fuel st = .done (r, st1)) :
    ReadsExpr .assignment (fun x => x = .error) st r st1 := by
  rw [assignment] at h
  split at h
  · rename_i st2 hm
    obtain ⟨rfl, _⟩ := match_none _ _ _ _ hm
    simp only [Outcome.done.injEq, Prod.mk.injEq] at h
    obtain ⟨rfl, rfl⟩ := h
    exact ⟨rfl, rfl, fun hh => absurd rfl hh⟩
  rename_i id sa ha
  obtain ⟨a1, a2, a3, a4⟩ := match_consume_some _ _ _ _ ha
  split at h
  · rename_i st2 hm
    obtain ⟨rfl, _⟩ := match_none _ _ _ _ hm
    simp only [Outcome.done.injEq, Prod.mk.injEq] at h
    obtain ⟨rfl, rfl⟩ := h
    exact ⟨a3, a4, fun hh => absurd rfl hh⟩
  rename_i assOp sb hb
  obtain ⟨b1, b2, b3, b4⟩ := match_consume_some _ _ _ _ hb
  obtain ⟨⟨e, st3⟩, h1, h2⟩ := Outcome.bind_eq_done _ _ _ h
  obtain ⟨e1, e2, e3⟩ := (expression_family_sound fuel).1 sb e st3 h1
  have f1 := e1.trans (b3.trans a3)
  have f2 := e2.trans (b4.trans a4)
  simp only at h2
  split at h2
  · simp only [Outcome.done.injEq, Prod.mk.injEq] at h2
    obtain ⟨rfl, rfl⟩ := h2
    exact ⟨f1, f2, fun hh => absurd rfl hh⟩
  · rename_i hne
    simp only [Outcome.done.injEq, Prod.mk.injEq] at h2
    obtain ⟨rfl, rfl⟩ := h2
    refine ⟨f1, f2, fun _ => ?_⟩
    obtain ⟨ts, h3, h4⟩ := e3 (fun hh => hne hh)
    refine ⟨id :: assOp :: ts, by rw [a1, b1, h3]; rfl, ?_⟩
    simp only [kinds, List.map_cons, a2, b2]
    exact Derives.assignment h4

theorem assert_sound (fuel : Nat) (st : ParseState) (r : assert_node)
    (st1 : ParseState) (h : assert fuel st = .done (r, st1)) :
    ReadsExpr .assert (fun x => x = .error) st r st1 := by
  rw [assert] at h
  split at h
  · rename_i st2 hm
    obtain ⟨rfl, _⟩ := match_none _ _ _ _ hm
    simp only [Outcome.done.injEq, Prod.mk.injEq] at h
    obtain ⟨rfl, rfl⟩ := h
    exact ⟨rfl, rfl, fun hh => absurd rfl hh⟩
  rename_i assertKey sa ha
  obtain ⟨a1, a2, a3, a4⟩ := match_consume_some _ _ _ _ ha
  split at h
  · rename_i st2 hm
    obtain ⟨rfl, _⟩ := match_none _ _ _ _ hm
    simp only [Outcome.done.injEq, Prod.mk.injEq] at h
    obtain ⟨rfl, rfl⟩ := h
    exact ⟨a3, a4, fun hh => absurd rfl hh⟩
  rename_i lPar sb hb
  obtain ⟨b1, b2, b3, b4⟩ := match_consume_some _ _ _ _ hb
  obtain ⟨⟨e, st3⟩, h1, h2⟩ := Outcome.bind_eq_done _ _ _ h
  obtain ⟨e1, e2, e3⟩ := (expression_family_sound fuel).1 sb e st3 h1
  have f1 := e1.trans (b3.trans a3)
  have f2 := e2.trans (b4.trans a4)
  simp only at h2
  split at h2
  · simp only [Outcome.done.injEq, Prod.mk.injEq] at h2
    obtain ⟨rfl, rfl⟩ := h2
    exact ⟨f1, f2, fun hh => absurd rfl hh⟩
  rename_i hne
  split at h2
  · rename_i st4 hm2
    obtain ⟨rfl, _⟩ := match_none _ _ _ _ hm2
    simp only [Outcome.done.injEq, Prod.mk.injEq] at h2
    obtain ⟨rfl, rfl⟩ := h2
    exact ⟨f1, f2, fun hh => absurd rfl hh⟩
  · rename_i rPar st4 hm2
    obtain ⟨n1, n2, n3, n4⟩ := match_consume_some _ _ _ _ hm2
    simp only [Outcome.done.injEq, Prod.mk.injEq] at h2
    obtain ⟨rfl, rfl⟩ := h2
    refine ⟨n3.trans f1, n4.trans f2, fun _ => ?_⟩
    obtain ⟨ts, h3, h4⟩ := e3 (fun hh => hne hh)
    refine ⟨assertKey :: lPar :: ts ++ [rPar], by rw [a1, b1, h3, n1]; simp, ?_⟩
    simp only [kinds, List.map_cons, List.map_append, List.map_nil, a2, b2, n2]
    exact Derives.assert h4

theorem read_sound (st : ParseState) (r : read_node)
    (st1 : ParseState) (h : read st = .done (r, st1)) :
    ReadsExpr .read (fun x => x = .error) st r st1 := by
  rw [read] at h
  split at h
  · rename_i st2 hm
    obtain ⟨rfl, _⟩ := match_none _ _ _ _ hm
    simp only [Outcome.done.injEq, Prod.mk.injEq] at h
    obtain ⟨rfl, rfl⟩ := h
    exact ⟨rfl, rfl, fun hh => absurd rfl hh⟩
  rename_i readKey sa ha
  obtain ⟨a1, a2, a3, a4⟩ := match_consume_some _ _ _ _ ha
  split at h
  · rename_i st2 hm
    obtain ⟨rfl, _⟩ := match_none _ _ _ _ hm
    simp only [Outcome.done.injEq, Prod.mk.injEq] at h
    obtain ⟨rfl, rfl⟩ := h
    exact ⟨a3, a4, fun hh => absurd rfl hh⟩
  rename_i id sb hb
  obtain ⟨b1, b2, b3, b4⟩ := match_consume_some _ _ _ _ hb
  simp only [Outcome.done.injEq, Prod.mk.injEq] at h
  obtain ⟨rfl, rfl⟩ := h
  refine ⟨b3.trans a3, b4.trans a4, fun _ => ⟨[readKey, id], by rw [a1, b1]; rfl, ?_⟩⟩
  simp only [kinds, List.map_cons, List.map_nil, a2, b2]
  exact Derives.read

theorem print_sound (fuel : Nat) (st : ParseState) (r : print_node)
    (st1 : ParseState) (h : print fuel st = .done (r, st1)) :
    ReadsExpr .print (fun x => x = .error) st r st1 := by
  rw [print] at h
  split at h
  · rename_i st2 hm
    obtain ⟨rfl, _⟩ := match_none _ _ _ _ hm
    simp only [Outcome.done.injEq, Prod.mk.injEq] at h
    obtain ⟨rfl, rfl⟩ := h
    exact ⟨rfl, rfl, fun hh => absurd rfl hh⟩
  rename_i printKey sa ha
  obtain ⟨a1, a2, a3, a4⟩ := match_consume_some _ _ _ _ ha
  obtain ⟨⟨e, st3⟩, h1, h2⟩ := Outcome.bind_eq_done _ _ _ h
  obtain ⟨e1, e2, e3⟩ := (expression_family_sound fuel).1 sa e st3 h1
  simp only at h2
  split at h2
  · simp only [Outcome.done.injEq, Prod.mk.injEq] at h2
    obtain ⟨rfl, rfl⟩ := h2
    exact ⟨e1.trans a3, e2.trans a4, fun hh => absurd rfl hh⟩
  · rename_i hne
    simp only [Outcome.done.injEq, Prod.mk.injEq] at h2
    obtain ⟨rfl, rfl⟩ := h2
    refine ⟨e1.trans a3, e2.trans a4, fun _ => ?_⟩
    obtain ⟨ts, h3, h4⟩ := e3 (fun hh => hne hh)
    refine ⟨printKey :: ts, by rw [a1, h3]; rfl, ?_⟩
    simp only [kinds, List.map_cons, a2]
    exact Derives.print h4

end Parser

namespace Parser
open consumption_type discard_option

theorem discardTokens_errors_found (o : discard_option) (st st1 : ParseState)
    (h : discardTokens o st = .done st1) :
    st1.errors_found = st.errors_found ∧ st1.err = st.err := by
  unfold discardTokens at h
  split at h
  · simp at h
  · split_ifs at h
    · split at h
      · simp at h
      · simp only [Outcome.done.injEq] at h
        rw [← h]; exact ⟨rfl, rfl⟩
    · simp only [Outcome.done.injEq] at h
      rw [← h]; exact ⟨rfl, rfl⟩

theorem recoverStatement_errors_found (t : token) (st st1 : ParseState)
    (h : recoverStatement t st = .done st1) : st1.errors_found = 1 := by
  unfold recoverStatement at h
  rw [(discardTokens_errors_found _ _ _ h).1]
  rfl

theorem recoverSemicolon_errors_found (t : token) (st st1 : ParseState)
    (h : recoverSemicolon t st = .done st1) : st1.errors_found = 1 := by
  unfold recoverSemicolon at h
  rw [(discardTokens_errors_found _ _ _ h).1]

theorem stmtsStarter_none_or (st : ParseState) (t : token) (h : stmtsStarter st = some t) :
    ∃ rest, st.global_tlist = t :: rest := by
  have key : ∀ tt (t : token), (match_ tt NO_CONSUME st).1 = some t →
      ∃ rest, st.global_tlist = t :: rest := by
    intro tt t hm
    unfold match_ at hm
    cases hl : st.global_tlist with
    | nil => rw [hl] at hm; simp at hm
    | cons t0 rest =>
      rw [hl] at hm
      simp only at hm
      by_cases ht : t0.type = tt
      · rw [if_pos ht] at hm
        simp only [Option.some.injEq] at hm
        exact ⟨rest, by rw [hm]⟩
      · rw [if_neg ht] at hm
        simp at hm
  unfold stmtsStarter at h
  split at h
  · rename_i t1 h1
    simp only [Option.some.injEq] at h
    rw [← h]; exact key _ _ h1
  split at h
  · rename_i t1 h1
    simp only [Option.some.injEq] at h
    rw [← h]; exact key _ _ h1
  split at h
  · rename_i t1 h1
    simp only [Option.some.injEq] at h
    rw [← h]; exact key _ _ h1
  split at h
  · rename_i t1 h1
    simp only [Option.some.injEq] at h
    rw [← h]; exact key _ _ h1
  split at h
  · rename_i t1 h1
    simp only [Option.some.injEq] at h
    rw [← h]; exact key _ _ h1
  · exact key _ _ h

theorem statement_family_sound : ∀ fuel : Nat,
    (∀ st r st1, stmts fuel st = .done (r, st1) →
      ReadsStmt .stmts (fun x => x = .error) st r st1) ∧
    (∀ st r st1, statement fuel st = .done (r, st1) →
      ReadsStmt .statement (fun x => x = .error) st r st1) ∧
    (∀ st r st1, for_ fuel st = .done (r, st1) →
      ReadsStmt .for_ (fun x => x = .error) st r st1) := by
  intro fuel
  induction fuel with
  | zero =>
    refine ⟨?_, ?_, ?_⟩ <;> intro st r st1 h
    · simp [stmts] at h
    · simp [statement] at h
    · simp [for_] at h
  | succ f ih =>
    obtain ⟨ihS, ihT, ihF⟩ := ih
    refine ⟨?_, ?_, ?_⟩ <;> intro st r st1 h
    · -- stmts
      rw [stmts] at h
      split at h
      · simp only [Outcome.done.injEq, Prod.mk.injEq] at h
        obtain ⟨rfl, rfl⟩ := h
        exact ⟨fun hh => hh, fun _ _ => ⟨[], rfl, Derives.stmts_eps⟩⟩
      · rename_i t hstart
        obtain ⟨rs, h1, h⟩ := Outcome.bind_eq_done _ _ _ h
        obtain ⟨sta, h2, h⟩ := Outcome.bind_eq_done _ _ _ h
        obtain ⟨m, h3, h⟩ := Outcome.bind_eq_done _ _ _ h
        obtain ⟨rr, h4, h⟩ := Outcome.bind_eq_done _ _ _ h
        obtain ⟨t1, t2⟩ := ihT st rs.1 rs.2 h1
        obtain ⟨s1, s2⟩ := ihS m.2 rr.1 rr.2 h4
        -- the state behind the statement and its recovery
        have ha : sta.errors_found = 0 → rs.1 ≠ .error ∧ sta = rs.2 := by
          intro h0
          split at h2
          · exact absurd (recoverStatement_errors_found _ _ _ h2) (by rw [h0]; decide)
          · rename_i hne
            simp only [Outcome.done.injEq] at h2
            exact ⟨fun hh => hne hh, h2.symm⟩
        -- the semicolon
        have hb : m.2.errors_found = 0 →
            sta.errors_found = 0 ∧ ∃ sCol, m.1 = some sCol ∧ sCol.type = TOKEN_SCOL ∧
              sta.global_tlist = sCol :: m.2.global_tlist := by
          intro h0
          split at h3
          · rename_i st2 hm
            obtain ⟨st3, h5, h6⟩ := Outcome.bind_eq_done _ _ _ h3
            simp only [Outcome.done.injEq] at h6
            rw [← h6] at h0
            exact absurd (recoverSemicolon_errors_found _ _ _ h5) (by rw [h0]; decide)
          · rename_i sCol st2 hm
            obtain ⟨m1, m2, m3, _⟩ := match_consume_some _ _ _ _ hm
            simp only [Outcome.done.injEq] at h3
            rw [← h3] at h0 ⊢
            exact ⟨m3 ▸ h0, sCol, rfl, m2, m1⟩
        have hmono : rr.2.errors_found = 0 → st.errors_found = 0 := by
          intro h0
          have h5 := (hb (s1 h0)).1
          have h6 := ha h5
          exact t1 (h6.2 ▸ h5)
        have hderiv : rr.1 ≠ .error → rr.2.errors_found = 0 →
            ∃ ts, st.global_tlist = ts ++ rr.2.global_tlist ∧ Derives .stmts (kinds ts) := by
          intro hne h0
          obtain ⟨h5, sCol, _, h7, h8⟩ := hb (s1 h0)
          obtain ⟨h9, h10⟩ := ha h5
          obtain ⟨ts1, h11, h12⟩ := t2 h9 (h10 ▸ h5)
          obtain ⟨ts2, h13, h14⟩ := s2 hne h0
          refine ⟨ts1 ++ sCol :: ts2, ?_, ?_⟩
          · rw [h11, ← h10, h8, h13]; simp
          · simp only [kinds, List.map_append, List.map_cons, h7]
            exact Derives.stmts_cons h12 h14
        split at h
        · simp only [Outcome.done.injEq, Prod.mk.injEq] at h
          obtain ⟨rfl, rfl⟩ := h
          exact ⟨hmono, fun hh => absurd rfl hh⟩
        · rename_i hne
          simp only [Outcome.done.injEq, Prod.mk.injEq] at h
          obtain ⟨rfl, rfl⟩ := h
          exact ⟨hmono, fun _ h0 => hderiv (fun hh => hne hh) h0⟩
    · -- statement
      have conv : ∀ {α : Type} (X : NT) (isError : α → Prop) (s0 : ParseState) (x : α)
          (s1 : ParseState), ReadsExpr X isError s0 x s1 → ReadsStmt X isError s0 x s1 := by
        intro α X isError s0 x s1 hh
        exact ⟨fun h0 => hh.1 ▸ h0, fun hne _ => hh.2.2 hne⟩
      rw [statement] at h
      split_ifs at h
      · obtain ⟨⟨u, st2⟩, h1, h2⟩ := Outcome.bind_eq_done _ _ _ h
        obtain ⟨e1, e3⟩ := conv _ _ _ _ _ (declaration_sound f st u st2 h1)
        simp only at h2
        split at h2
        · simp only [Outcome.done.injEq, Prod.mk.injEq] at h2
          obtain ⟨rfl, rfl⟩ := h2
          exact ⟨e1, fun hh => absurd rfl hh⟩
        · rename_i hne
          simp only [Outcome.done.injEq, Prod.mk.injEq] at h2
          obtain ⟨rfl, rfl⟩ := h2
          refine ⟨e1, fun _ h0 => ?_⟩
          obtain ⟨ts, h3, h4⟩ := e3 (fun hh => hne hh) h0
          exact ⟨ts, h3, Derives.statement_declaration h4⟩
      · obtain ⟨⟨u, st2⟩, h1, h2⟩ := Outcome.bind_eq_done _ _ _ h
        obtain ⟨e1, e3⟩ := conv _ _ _ _ _ (assignment_sound f st u st2 h1)
        simp only at h2
        split at h2
        · simp only [Outcome.done.injEq, Prod.mk.injEq] at h2
          obtain ⟨rfl, rfl⟩ := h2
          exact ⟨e1, fun hh => absurd rfl hh⟩
        · rename_i hne
          simp only [Outcome.done.injEq, Prod.mk.injEq] at h2
          obtain ⟨rfl, rfl⟩ := h2
          refine ⟨e1, fun _ h0 => ?_⟩
          obtain ⟨ts, h3, h4⟩ := e3 (fun hh => hne hh) h0
          exact ⟨ts, h3, Derives.statement_assignment h4⟩
      · obtain ⟨⟨u, st2⟩, h1, h2⟩ := Outcome.bind_eq_done _ _ _ h
        obtain ⟨e1, e3⟩ := ihF st u st2 h1
        simp only at h2
        split at h2
        · simp only [Outcome.done.injEq, Prod.mk.injEq] at h2
          obtain ⟨rfl, rfl⟩ := h2
          exact ⟨e1, fun hh => absurd rfl hh⟩
        · rename_i hne
          simp only [Outcome.done.injEq, Prod.mk.injEq] at h2
          obtain ⟨rfl, rfl⟩ := h2
          refine ⟨e1, fun _ h0 => ?_⟩
          obtain ⟨ts, h3, h4⟩ := e3 (fun hh => hne hh) h0
          exact ⟨ts, h3, Derives.statement_for h4⟩
      · obtain ⟨⟨u, st2⟩, h1, h2⟩ := Outcome.bind_eq_done _ _ _ h
        obtain ⟨e1, e3⟩ := conv _ _ _ _ _ (read_sound st u st2 h1)
        simp only at h2
        split at h2
        · simp only [Outcome.done.injEq, Prod.mk.injEq] at h2
          obtain ⟨rfl, rfl⟩ := h2
          exact ⟨e1, fun hh => absurd rfl hh⟩
        · rename_i hne
          simp only [Outcome.done.injEq, Prod.mk.injEq] at h2
          obtain ⟨rfl, rfl⟩ := h2
          refine ⟨e1, fun _ h0 => ?_⟩
          obtain ⟨ts, h3, h4⟩ := e3 (fun hh => hne hh) h0
          exact ⟨ts, h3, Derives.statement_read h4⟩
      · obtain ⟨⟨u, st2⟩, h1, h2⟩ := Outcome.bind_eq_done _ _ _ h
        obtain ⟨e1, e3⟩ := conv _ _ _ _ _ (print_sound f st u st2 h1)
        simp only at h2
        split at h2
        · simp only [Outcome.done.injEq, Prod.mk.injEq] at h2
          obtain ⟨rfl, rfl⟩ := h2
          exact ⟨e1, fun hh => absurd rfl hh⟩
        · rename_i hne
          simp only [Outcome.done.injEq, Prod.mk.injEq] at h2
          obtain ⟨rfl, rfl⟩ := h2
          refine ⟨e1, fun _ h0 => ?_⟩
          obtain ⟨ts, h3, h4⟩ := e3 (fun hh => hne hh) h0
          exact ⟨ts, h3, Derives.statement_print h4⟩
      · obtain ⟨⟨u, st2⟩, h1, h2⟩ := Outcome.bind_eq_done _ _ _ h
        obtain ⟨e1, e3⟩ := conv _ _ _ _ _ (assert_sound f st u st2 h1)
        simp only at h2
        split at h2
        · simp only [Outcome.done.injEq, Prod.mk.injEq] at h2
          obtain ⟨rfl, rfl⟩ := h2
          exact ⟨e1, fun hh => absurd rfl hh⟩
        · rename_i hne
          simp only [Outcome.done.injEq, Prod.mk.injEq] at h2
          obtain ⟨rfl, rfl⟩ := h2
          refine ⟨e1, fun _ h0 => ?_⟩
          obtain ⟨ts, h3, h4⟩ := e3 (fun hh => hne hh) h0
          exact ⟨ts, h3, Derives.statement_assert h4⟩
      · simp only [Outcome.done.injEq, Prod.mk.injEq] at h
        obtain ⟨rfl, rfl⟩ := h
        exact ⟨fun hh => hh, fun hh => absurd rfl hh⟩
    · -- for_
      rw [for_] at h
      split at h
      · rename_i st2 hm
        obtain ⟨rfl, _⟩ := match_none _ _ _ _ hm
        simp only [Outcome.done.injEq, Prod.mk.injEq] at h
        obtain ⟨rfl, rfl⟩ := h
        exact ⟨fun hh => hh, fun hh => absurd rfl hh⟩
      rename_i forKeyStart sa ha
      obtain ⟨a1, a2, a3, _⟩ := match_consume_some _ _ _ _ ha
      split at h
      · rename_i st2 hm
        obtain ⟨rfl, _⟩ := match_none _ _ _ _ hm
        simp only [Outcome.done.injEq, Prod.mk.injEq] at h
        obtain ⟨rfl, rfl⟩ := h
        exact ⟨fun hh => a3 ▸ hh, fun hh => absurd rfl hh⟩
      rename_i id sb hb
      obtain ⟨b1, b2, b3, _⟩ := match_consume_some _ _ _ _ hb
      split at h
      · rename_i st2 hm
        obtain ⟨rfl, _⟩ := match_none _ _ _ _ hm
        simp only [Outcome.done.injEq, Prod.mk.injEq] at h
        obtain ⟨rfl, rfl⟩ := h
        exact ⟨fun hh => a3 ▸ b3 ▸ hh, fun hh => absurd rfl hh⟩
      rename_i inKey sc hc
      obtain ⟨c1, c2, c3, _⟩ := match_consume_some _ _ _ _ hc
      obtain ⟨⟨x1, sd⟩, hx1, h⟩ := Outcome.bind_eq_done _ _ _ h
      obtain ⟨d3, _, d5⟩ := (expression_family_sound f).1 sc x1 sd hx1
      have q1 : sd.errors_found = st.errors_found := d3.trans (c3.trans (b3.trans a3))
      simp only at h
      split at h
      · simp only [Outcome.done.injEq, Prod.mk.injEq] at h
        obtain ⟨rfl, rfl⟩ := h
        exact ⟨fun hh => q1 ▸ hh, fun hh => absurd rfl hh⟩
      rename_i hne1
      split at h
      · rename_i st2 hm
        obtain ⟨rfl, _⟩ := match_none _ _ _ _ hm
        simp only [Outcome.done.injEq, Prod.mk.injEq] at h
        obtain ⟨rfl, rfl⟩ := h
        exact ⟨fun hh => q1 ▸ hh, fun hh => absurd rfl hh⟩
      rename_i range se he
      obtain ⟨e1, e2, e3, _⟩ := match_consume_some _ _ _ _ he
      obtain ⟨⟨x2, sg⟩, hx2, h⟩ := Outcome.bind_eq_done _ _ _ h
      obtain ⟨g3, _, g5⟩ := (expression_family_sound f).1 se x2 sg hx2
      have q2 : sg.errors_found = st.errors_found := g3.trans (e3.trans q1)
      simp only at h
      split at h
      · simp only [Outcome.done.injEq, Prod.mk.injEq] at h
        obtain ⟨rfl, rfl⟩ := h
        exact ⟨fun hh => q2 ▸ hh, fun hh => absurd rfl hh⟩
      rename_i hne2
      split at h
      · rename_i st2 hm
        obtain ⟨rfl, _⟩ := match_none _ _ _ _ hm
        simp only [Outcome.done.injEq, Prod.mk.injEq] at h
        obtain ⟨rfl, rfl⟩ := h
        exact ⟨fun hh => q2 ▸ hh, fun hh => absurd rfl hh⟩
      rename_i doKey sk hk
      obtain ⟨k1, k2, k3, _⟩ := match_consume_some _ _ _ _ hk
      obtain ⟨⟨x3, sl⟩, hx3, h⟩ := Outcome.bind_eq_done _ _ _ h
      obtain ⟨l3, l5⟩ := ihS sk x3 sl hx3
      have q3 : sl.errors_found = 0 → st.errors_found = 0 := fun hh => q2 ▸ k3 ▸ l3 hh
      simp only at h
      split at h
      · simp only [Outcome.done.injEq, Prod.mk.injEq] at h
        obtain ⟨rfl, rfl⟩ := h
        exact ⟨q3, fun hh => absurd rfl hh⟩
      rename_i hne3
      split at h
      · rename_i st2 hm
        obtain ⟨rfl, _⟩ := match_none _ _ _ _ hm
        simp only [Outcome.done.injEq, Prod.mk.injEq] at h
        obtain ⟨rfl, rfl⟩ := h
        exact ⟨q3, fun hh => absurd rfl hh⟩
      rename_i endKey sm hm
      obtain ⟨m1, m2, m3, _⟩ := match_consume_some _ _ _ _ hm
      split at h
      · rename_i st2 hm2
        obtain ⟨rfl, _⟩ := match_none _ _ _ _ hm2
        simp only [Outcome.done.injEq, Prod.mk.injEq] at h
        obtain ⟨rfl, rfl⟩ := h
        exact ⟨fun hh => q3 (m3 ▸ hh), fun hh => absurd rfl hh⟩
      rename_i forKeyEnd sn hn
      obtain ⟨n1, n2, n3, _⟩ := match_consume_some _ _ _ _ hn
      simp only [Outcome.done.injEq, Prod.mk.injEq] at h
      obtain ⟨rfl, rfl⟩ := h
      refine ⟨fun hh => q3 (m3 ▸ n3 ▸ hh), fun _ h0 => ?_⟩
      have h0l : sl.errors_found = 0 := m3 ▸ n3 ▸ h0
      obtain ⟨w1, p1, p2⟩ := d5 (fun hh => hne1 hh)
      obtain ⟨w2, p3, p4⟩ := g5 (fun hh => hne2 hh)
      obtain ⟨w3, p5, p6⟩ := l5 (fun hh => hne3 hh) h0l
      refine ⟨forKeyStart :: id :: inKey :: w1 ++ range :: w2 ++ doKey :: w3 ++
        [endKey, forKeyEnd], ?_, ?_⟩
      · rw [a1, b1, c1, p1, e1, p3, k1, p5, m1, n1]; simp
      · simp only [kinds, List.map_cons, List.map_append, List.map_nil, a2, b2, c2, e2, k2, m2,
          n2]
        exact Derives.for_ p2 p4 p6

end Parser

namespace Parser
open consumption_type discard_option

/-! ## The parser: every call returns -/

theorem Returns.mono {α : Type} {x : Outcome (α × ParseState)} {n m : Nat} (h : Returns x n)
    (hnm : n ≤ m) : Returns x m := by
  obtain ⟨r, st1, h1, h2, h3⟩ := h
  exact ⟨r, st1, h1, h2, le_trans h3 hnm⟩

theorem Returns.bind {α β : Type} {x : Outcome (α × ParseState)}
    {k : α × ParseState → Outcome (β × ParseState)} {n : Nat} (hx : Returns x n)
    (hk : ∀ r st1, x = .done (r, st1) → HasEOF st1.global_tlist → st1.global_tlist.length ≤ n →
      Returns (k (r, st1)) n) : Returns (x.bind k) n := by
  obtain ⟨r, st1, h1, h2, h3⟩ := hx
  rw [h1]
  exact hk r st1 h1 h2 h3

theorem Returns.done {α : Type} (r : α) (st1 : ParseState) (n : Nat)
    (h1 : HasEOF st1.global_tlist) (h2 : st1.global_tlist.length ≤ n) :
    Returns (Outcome.done (r, st1)) n := ⟨r, st1, rfl, h1, h2⟩

/-- A successful `match(tt, CONSUME)` for a type other than end-of-input leaves a cursor that
still has the end-of-input token in front of it, one token further. -/
theorem match_consume_hasEOF (tt : token_type) (st st1 : ParseState) (t : token)
    (h : match_ tt CONSUME st = (some t, st1)) (htt : tt ≠ TOKEN_EOF)
    (he : HasEOF st.global_tlist) :
    HasEOF st1.global_tlist ∧ st1.global_tlist.length + 1 = st.global_tlist.length := by
  obtain ⟨m1, m2, _, _⟩ := match_consume_some _ _ _ _ h
  rw [m1] at he ⊢
  obtain ⟨e, he1, he2⟩ := he
  refine ⟨?_, by simp⟩
  rcases List.mem_cons.1 he1 with h1 | h1
  · rw [h1, m2] at he2; exact absurd he2 htt
  · exact ⟨e, h1, he2⟩

theorem expression_family_returns : ∀ fuel : Nat,
    (∀ st, HasEOF st.global_tlist → 6 * st.global_tlist.length + 4 ≤ fuel →
      Returns (expression fuel st) st.global_tlist.length) ∧
    (∀ st, HasEOF st.global_tlist → 6 * st.global_tlist.length + 1 ≤ fuel →
      Returns (unaryExpression fuel st) st.global_tlist.length) ∧
    (∀ st, HasEOF st.global_tlist → 6 * st.global_tlist.length + 3 ≤ fuel →
      Returns (binaryExpression fuel st) st.global_tlist.length) ∧
    (∀ st, HasEOF st.global_tlist → 6 * st.global_tlist.length + 2 ≤ fuel →
      Returns (operand fuel st) st.global_tlist.length) ∧
    (∀ st, HasEOF st.global_tlist → 6 * st.global_tlist.length + 1 ≤ fuel →
      Returns (operandSuffix fuel st) st.global_tlist.length) ∧
    (∀ st, HasEOF st.global_tlist → 6 * st.global_tlist.length + 1 ≤ fuel →
      Returns (enclosedExpression fuel st) st.global_tlist.length) := by
  intro fuel
  induction fuel with
  | zero =>
    refine ⟨?_, ?_, ?_, ?_, ?_, ?_⟩ <;> intro st _ hf <;> omega
  | succ f ih =>
    obtain ⟨ihE, ihU, ihB, ihO, ihS, ihP⟩ := ih
    refine ⟨?_, ?_, ?_, ?_, ?_, ?_⟩ <;> intro st he hf
    · -- expression
      rw [expression]
      split_ifs
      · refine Returns.bind (ihU st he (by omega)) ?_
        intro r st1 _ h1 h2
        simp only
        split <;> exact Returns.done _ _ _ h1 h2
      · refine Returns.bind (ihB st he (by omega)) ?_
        intro r st1 _ h1 h2
        simp only
        split <;> exact Returns.done _ _ _ h1 h2
    · -- unaryExpression
      rw [unaryExpression]
      split
      · rename_i st2 hm
        obtain ⟨rfl, _⟩ := match_none _ _ _ _ hm
        exact Returns.done _ _ _ he (le_refl _)
      · rename_i unop st2 hm
        obtain ⟨g1, g2⟩ := match_consume_hasEOF _ _ _ _ hm (by decide) he
        refine Returns.bind ((ihO st2 g1 (by omega)).mono (by omega)) ?_
        intro r st1 _ h1 h2
        simp only
        split <;> exact Returns.done _ _ _ h1 h2
    · -- binaryExpression
      rw [binaryExpression]
      refine Returns.bind (ihO st he (by omega)) ?_
      intro r st1 _ h1 h2
      simp only
      split
      · exact Returns.done _ _ _ h1 h2
      · refine Returns.bind ((ihS st1 h1 (by omega)).mono h2) ?_
        intro r2 st2 _ h3 h4
        simp only
        split <;> exact Returns.done _ _ _ h3 h4
    · -- operand
      rw [operand]
      split
      · rename_i x st2 hm
        obtain ⟨g1, g2⟩ := match_consume_hasEOF _ _ _ _ hm (by decide) he
        exact Returns.done _ _ _ g1 (by omega)
      rename_i st2 hm
      obtain ⟨rfl, _⟩ := match_none _ _ _ _ hm
      split
      · rename_i x st3 hm2
        obtain ⟨g1, g2⟩ := match_consume_hasEOF _ _ _ _ hm2 (by decide) he
        exact Returns.done _ _ _ g1 (by omega)
      rename_i st3 hm2
      obtain ⟨rfl, _⟩ := match_none _ _ _ _ hm2
      split
      · rename_i x st4 hm3
        obtain ⟨g1, g2⟩ := match_consume_hasEOF _ _ _ _ hm3 (by decide) he
        exact Returns.done _ _ _ g1 (by omega)
      rename_i st4 hm3
      obtain ⟨rfl, _⟩ := match_none _ _ _ _ hm3
      refine Returns.bind (ihP _ he (by omega)) ?_
      intro r st1 _ h1 h2
      simp only
      split <;> exact Returns.done _ _ _ h1 h2
    · -- operandSuffix
      rw [operandSuffix]
      split
      · rename_i op st2 hm
        obtain ⟨g1, g2⟩ := match_consume_hasEOF _ _ _ _ hm (by decide) he
        refine Returns.bind ((ihO st2 g1 (by omega)).mono (by omega)) ?_
        intro r st1 _ h1 h2
        simp only
        split <;> exact Returns.done _ _ _ h1 h2
      · rename_i st2 hm
        obtain ⟨rfl, _⟩ := match_none _ _ _ _ hm
        exact Returns.done _ _ _ he (le_refl _)
    · -- enclosedExpression
      rw [enclosedExpression]
      split
      · rename_i st2 hm
        obtain ⟨rfl, _⟩ := match_none _ _ _ _ hm
        exact Returns.done _ _ _ he (le_refl _)
      · rename_i lPar st2 hm
        obtain ⟨g1, g2⟩ := match_consume_hasEOF _ _ _ _ hm (by decide) he
        refine Returns.bind ((ihE st2 g1 (by omega)).mono (by omega)) ?_
        intro r st1 _ h1 h2
        simp only
        split
        · exact Returns.done _ _ _ h1 h2
        · split
          · rename_i st4 hm2
            obtain ⟨rfl, _⟩ := match_none _ _ _ _ hm2
            exact Returns.done _ _ _ h1 h2
          · rename_i rPar st4 hm2
            obtain ⟨g3, g4⟩ := match_consume_hasEOF _ _ _ _ hm2 (by decide) h1
            exact Returns.done _ _ _ g3 (by omega)

end Parser

namespace Parser
open consumption_type discard_option

theorem match_fst_noconsume (tt : token_type) (st : ParseState) :
    (match_ tt NO_CONSUME st).1 = (match_ tt CONSUME st).1 := by
  unfold match_
  cases st.global_tlist with
  | nil => rfl
  | cons t rest =>
    simp only
    split_ifs <;> rfl

theorem discardToSemicolon_returns (l : token_list) (h : HasEOF l) :
    ∃ l1, discardToSemicolon l = some l1 ∧ HasEOF l1 ∧ l1.length ≤ l.length := by
  induction l with
  | nil => obtain ⟨t, ht, _⟩ := h; simp at ht
  | cons t rest ih =>
    rw [discardToSemicolon]
    split_ifs with hc
    · obtain ⟨e, he1, he2⟩ := h
      rcases List.mem_cons.1 he1 with h1 | h1
      · rw [h1] at he2; exact absurd he2 hc.2
      · obtain ⟨l1, h2, h3, h4⟩ := ih ⟨e, h1, he2⟩
        exact ⟨l1, h2, h3, by simp only [List.length_cons]; omega⟩
    · exact ⟨_, rfl, h, le_refl _⟩

theorem discardSemicolons_returns (l : token_list) (h : HasEOF l) :
    ∃ l1, discardSemicolons l = some l1 ∧ HasEOF l1 ∧ l1.length ≤ l.length := by
  induction l with
  | nil => obtain ⟨t, ht, _⟩ := h; simp at ht
  | cons t rest ih =>
    rw [discardSemicolons]
    split_ifs with hc
    · obtain ⟨e, he1, he2⟩ := h
      rcases List.mem_cons.1 he1 with h1 | h1
      · rw [h1, hc] at he2; exact absurd he2 (by decide)
      · obtain ⟨l1, h2, h3, h4⟩ := ih ⟨e, h1, he2⟩
        exact ⟨l1, h2, h3, by simp only [List.length_cons]; omega⟩
    · exact ⟨_, rfl, h, le_refl _⟩

theorem discardTokens_returns (o : discard_option) (st : ParseState)
    (h : HasEOF st.global_tlist) :
    ∃ st1, discardTokens o st = .done st1 ∧ HasEOF st1.global_tlist ∧
      st1.global_tlist.length ≤ st.global_tlist.length := by
  obtain ⟨l1, h1, h2, h3⟩ := discardToSemicolon_returns _ h
  obtain ⟨l2, h4, h5, h6⟩ := discardSemicolons_returns _ h2
  unfold discardTokens
  rw [h1]
  simp only [h4]
  split_ifs
  · exact ⟨_, rfl, h5, le_trans h6 h3⟩
  · exact ⟨_, rfl, h2, h3⟩

theorem declarationSuffix_returns (fuel : Nat) (st : ParseState)
    (he : HasEOF st.global_tlist) (hf : 6 * st.global_tlist.length ≤ fuel) :
    Returns (declarationSuffix fuel st) st.global_tlist.length := by
  rw [declarationSuffix]
  split
  · rename_i ass st2 hm
    obtain ⟨g1, g2⟩ := match_consume_hasEOF _ _ _ _ hm (by decide) he
    refine Returns.bind (((expression_family_returns fuel).1 st2 g1 (by omega)).mono
      (by omega)) ?_
    intro r st1 _ h1 h2
    simp only
    split <;> exact Returns.done _ _ _ h1 h2
  · rename_i st2 hm
    obtain ⟨rfl, _⟩ := match_none _ _ _ _ hm
    exact Returns.done _ _ _ he (le_refl _)

theorem declaration_returns (fuel : Nat) (st : ParseState)
    (he : HasEOF st.global_tlist) (hf : 6 * st.global_tlist.length ≤ fuel) :
    Returns (declaration fuel st) st.global_tlist.length ∧
    ((match_ TOKEN_VARKEY NO_CONSUME st).1.isSome = true →
      Returns (declaration fuel st) (st.global_tlist.length - 1)) := by
  rw [declaration, match_fst_noconsume]
  split
  · rename_i st2 hm
    obtain ⟨rfl, _⟩ := match_none _ _ _ _ hm
    exact ⟨Returns.done _ _ _ he (le_refl _), fun hh => by rw [hm] at hh; simp at hh⟩
  rename_i varKey sa ha
  obtain ⟨a1, a2⟩ := match_consume_hasEOF _ _ _ _ ha (by decide) he
  suffices h : Returns (match match_ TOKEN_IDENTIFIER CONSUME sa with
      | (none, st2) => Outcome.done (declaration_node.error, st2)
      | (some id, st2) =>
        match match_ TOKEN_COL CONSUME st2 with
        | (none, st3) => Outcome.done (declaration_node.error, st3)
        | (some col, st3) =>
          match match_ TOKEN_TYPEKEY CONSUME st3 with
          | (none, st4) => Outcome.done (declaration_node.error, st4)
          | (some typeKey, st4) =>
            (declarationSuffix fuel st4).bind fun r =>
              match r.1 with
              | .error => .done (.error, r.2)
              | asn => .done (.node (some varKey) (some id) (some col) (some typeKey) asn, r.2))
      (st.global_tlist.length - 1) from ⟨h.mono (by omega), fun _ => h⟩
  split
  · rename_i st2 hm
    obtain ⟨rfl, _⟩ := match_none _ _ _ _ hm
    exact Returns.done _ _ _ a1 (by omega)
  rename_i id sb hb
  obtain ⟨b1, b2⟩ := match_consume_hasEOF _ _ _ _ hb (by decide) a1
  split
  · rename_i st2 hm
    obtain ⟨rfl, _⟩ := match_none _ _ _ _ hm
    exact Returns.done _ _ _ b1 (by omega)
  rename_i col sc hc
  obtain ⟨c1, c2⟩ := match_consume_hasEOF _ _ _ _ hc (by decide) b1
  split
  · rename_i st2 hm
    obtain ⟨rfl, _⟩ := match_none _ _ _ _ hm
    exact Returns.done _ _ _ c1 (by omega)
  rename_i typeKey sd hd
  obtain ⟨d1, d2⟩ := match_consume_hasEOF _ _ _ _ hd (by decide) c1
  refine Returns.bind ((declarationSuffix_returns fuel sd d1 (by omega)).mono (by omega)) ?_
  intro r st1 _ h1 h2
  simp only
  split <;> exact Returns.done _ _ _ h1 h2

end Parser

namespace Parser
open consumption_type discard_option

/-- From the two cases of the first `match` of a statement function to the two bounds. -/
theorem returns_of_keyword {α : Type} (x : Outcome (α × ParseState)) (n : Nat) (b : Bool)
    (h1 : b = true → Returns x (n - 1)) (h2 : b = false → Returns x n) :
    Returns x n ∧ (b = true → Returns x (n - 1)) := by
  cases b with
  | true => exact ⟨(h1 rfl).mono (by omega), h1⟩
  | false => exact ⟨h2 rfl, fun hh => absurd hh (by simp)⟩

theorem Returns.bind_state {β : Type} {x : Outcome ParseState}
    {k : ParseState → Outcome (β × ParseState)} {n : Nat}
    (hx : ∃ s, x = .done s ∧ HasEOF s.global_tlist ∧ s.global_tlist.length ≤ n)
    (hk : ∀ s, HasEOF s.global_tlist → s.global_tlist.length ≤ n → Returns (k s) n) :
    Returns (x.bind k) n := by
  obtain ⟨s, h1, h2, h3⟩ := hx
  rw [h1]
  exact hk s h2 h3

theorem assignment_returns (fuel : Nat) (st : ParseState)
    (he : HasEOF st.global_tlist) (hf : 6 * st.global_tlist.length ≤ fuel) :
    Returns (assignment fuel st) st.global_tlist.length ∧
    ((match_ TOKEN_IDENTIFIER NO_CONSUME st).1.isSome = true →
      Returns (assignment fuel st) (st.global_tlist.length - 1)) := by
  apply returns_of_keyword <;> intro hk <;> rw [match_fst_noconsume] at hk <;> rw [assignment]
  · split
    · rename_i st2 hm
      rw [hm] at hk; simp at hk
    rename_i id sa ha
    obtain ⟨a1, a2⟩ := match_consume_hasEOF _ _ _ _ ha (by decide) he
    split
    · rename_i st2 hm
      obtain ⟨rfl, _⟩ := match_none _ _ _ _ hm
      exact Returns.done _ _ _ a1 (by omega)
    rename_i assOp sb hb
    obtain ⟨b1, b2⟩ := match_consume_hasEOF _ _ _ _ hb (by decide) a1
    refine Returns.bind (((expression_family_returns fuel).1 sb b1 (by omega)).mono
      (by omega)) ?_
    intro r st1 _ h1 h2
    simp only
    split <;> exact Returns.done _ _ _ h1 h2
  · split
    · rename_i st2 hm
      obtain ⟨rfl, _⟩ := match_none _ _ _ _ hm
      exact Returns.done _ _ _ he (le_refl _)
    · rename_i id sa ha
      rw [ha] at hk; simp at hk

theorem assert_returns (fuel : Nat) (st : ParseState)
    (he : HasEOF st.global_tlist) (hf : 6 * st.global_tlist.length ≤ fuel) :
    Returns (assert fuel st) st.global_tlist.length ∧
    ((match_ TOKEN_ASSERTKEY NO_CONSUME st).1.isSome = true →
      Returns (assert fuel st) (st.global_tlist.length - 1)) := by
  apply returns_of_keyword <;> intro hk <;> rw [match_fst_noconsume] at hk <;> rw [assert]
  · split
    · rename_i st2 hm
      rw [hm] at hk; simp at hk
    rename_i key sa ha
    obtain ⟨a1, a2⟩ := match_consume_hasEOF _ _ _ _ ha (by decide) he
    split
    · rename_i st2 hm
      obtain ⟨rfl, _⟩ := match_none _ _ _ _ hm
      exact Returns.done _ _ _ a1 (by omega)
    rename_i lPar sb hb
    obtain ⟨b1, b2⟩ := match_consume_hasEOF _ _ _ _ hb (by decide) a1
    refine Returns.bind (((expression_family_returns fuel).1 sb b1 (by omega)).mono
      (by omega)) ?_
    intro r st1 _ h1 h2
    simp only
    split
    · exact Returns.done _ _ _ h1 h2
    · split
      · rename_i st4 hm2
        obtain ⟨rfl, _⟩ := match_none _ _ _ _ hm2
        exact Returns.done _ _ _ h1 h2
      · rename_i rPar st4 hm2
        obtain ⟨g3, g4⟩ := match_consume_hasEOF _ _ _ _ hm2 (by decide) h1
        exact Returns.done _ _ _ g3 (by omega)
  · split
    · rename_i st2 hm
      obtain ⟨rfl, _⟩ := match_none _ _ _ _ hm
      exact Returns.done _ _ _ he (le_refl _)
    · rename_i id sa ha
      rw [ha] at hk; simp at hk

theorem read_returns (st : ParseState) (he : HasEOF st.global_tlist) :
    Returns (read st) st.global_tlist.length ∧
    ((match_ TOKEN_READKEY NO_CONSUME st).1.isSome = true →
      Returns (read st) (st.global_tlist.length - 1)) := by
  apply returns_of_keyword <;> intro hk <;> rw [match_fst_noconsume] at hk <;> rw [read]
  · split
    · rename_i st2 hm
      rw [hm] at hk; simp at hk
    rename_i key sa ha
    obtain ⟨a1, a2⟩ := match_consume_hasEOF _ _ _ _ ha (by decide) he
    split
    · rename_i st2 hm
      obtain ⟨rfl, _⟩ := match_none _ _ _ _ hm
      exact Returns.done _ _ _ a1 (by omega)
    rename_i id sb hb
    obtain ⟨b1, b2⟩ := match_consume_hasEOF _ _ _ _ hb (by decide) a1
    exact Returns.done _ _ _ b1 (by omega)
  · split
    · rename_i st2 hm
      obtain ⟨rfl, _⟩ := match_none _ _ _ _ hm
      exact Returns.done _ _ _ he (le_refl _)
    · rename_i id sa ha
      rw [ha] at hk; simp at hk

theorem print_returns (fuel : Nat) (st : ParseState)
    (he : HasEOF st.global_tlist) (hf : 6 * st.global_tlist.length ≤ fuel) :
    Returns (print fuel st) st.global_tlist.length ∧
    ((match_ TOKEN_PRINTKEY NO_CONSUME st).1.isSome = true →
      Returns (print fuel st) (st.global_tlist.length - 1)) := by
  apply returns_of_keyword <;> intro hk <;> rw [match_fst_noconsume] at hk <;> rw [print]
  · split
    · rename_i st2 hm
      rw [hm] at hk; simp at hk
    rename_i key sa ha
    obtain ⟨a1, a2⟩ := match_consume_hasEOF _ _ _ _ ha (by decide) he
    refine Returns.bind (((expression_family_returns fuel).1 sa a1 (by omega)).mono
      (by omega)) ?_
    intro r st1 _ h1 h2
    simp only
    split <;> exact Returns.done _ _ _ h1 h2
  · split
    · rename_i st2 hm
      obtain ⟨rfl, _⟩ := match_none _ _ _ _ hm
      exact Returns.done _ _ _ he (le_refl _)
    · rename_i id sa ha
      rw [ha] at hk; simp at hk

theorem stmtsStarter_isSome (st : ParseState) :
    (stmtsStarter st).isSome =
      ((match_ TOKEN_VARKEY NO_CONSUME st).1.isSome ||
       (match_ TOKEN_IDENTIFIER NO_CONSUME st).1.isSome ||
       (match_ TOKEN_FORKEY NO_CONSUME st).1.isSome ||
       (match_ TOKEN_READKEY NO_CONSUME st).1.isSome ||
       (match_ TOKEN_PRINTKEY NO_CONSUME st).1.isSome ||
       (match_ TOKEN_ASSERTKEY NO_CONSUME st).1.isSome) := by
  unfold stmtsStarter
  cases (match_ TOKEN_VARKEY NO_CONSUME st).1 <;>
  cases (match_ TOKEN_IDENTIFIER NO_CONSUME st).1 <;>
  cases (match_ TOKEN_FORKEY NO_CONSUME st).1 <;>
  cases (match_ TOKEN_READKEY NO_CONSUME st).1 <;>
  cases (match_ TOKEN_PRINTKEY NO_CONSUME st).1 <;>
  cases (match_ TOKEN_ASSERTKEY NO_CONSUME st).1 <;> rfl

theorem statement_family_returns : ∀ fuel : Nat,
    (∀ st, HasEOF st.global_tlist → 6 * st.global_tlist.length + 3 ≤ fuel →
      Returns (stmts fuel st) st.global_tlist.length) ∧
    (∀ st, HasEOF st.global_tlist → 6 * st.global_tlist.length + 2 ≤ fuel →
      Returns (statement fuel st) st.global_tlist.length ∧
      ((stmtsStarter st).isSome = true →
        Returns (statement fuel st) (st.global_tlist.length - 1))) ∧
    (∀ st, HasEOF st.global_tlist → 6 * st.global_tlist.length + 1 ≤ fuel →
      Returns (for_ fuel st) st.global_tlist.length ∧
      ((match_ TOKEN_FORKEY NO_CONSUME st).1.isSome = true →
        Returns (for_ fuel st) (st.global_tlist.length - 1))) := by
  intro fuel
  induction fuel with
  | zero =>
    refine ⟨?_, ?_, ?_⟩ <;> intro st _ hf <;> omega
  | succ f ih =>
    obtain ⟨ihS, ihT, ihF⟩ := ih
    refine ⟨?_, ?_, ?_⟩ <;> intro st he hf
    · -- stmts
      rw [stmts]
      split
      · exact Returns.done _ _ _ he (le_refl _)
      · rename_i t hstart
        have hs : (stmtsStarter st).isSome = true := by rw [hstart]; rfl
        obtain ⟨rest, hrest⟩ := stmtsStarter_none_or st t hstart
        have hpos : 1 ≤ st.global_tlist.length := by rw [hrest]; simp
        have hT := ((ihT st he (by omega)).2 hs)
        refine (Returns.bind hT ?_).mono (by omega)
        intro rs st1 _ h1 h2
        simp only
        refine Returns.bind_state ?_ ?_
        · split
          · obtain ⟨s2, k1, k2, k3⟩ := discardTokens_returns SEMICOLON
              (printError t { st1 with errors_found := 1 }) h1
            exact ⟨s2, k1, k2, le_trans k3 h2⟩
          · exact ⟨st1, rfl, h1, h2⟩
        intro sa ha1 ha2
        refine Returns.bind ?_ ?_
        · split
          · rename_i st2 hm
            rw [(match_none _ _ _ _ hm).1]
            obtain ⟨s2, k1, k2, k3⟩ := discardTokens_returns AFTER_SEMICOLON
              { sa with errors_found := 1,
                        err := sa.err ++ "Syntax  error in line ".toList ++
                          fmt3D t.line_number ++ ": Expected semicolon.\n".toList } ha1
            rw [recoverSemicolon, k1]
            exact Returns.done _ _ _ k2 (le_trans k3 ha2)
          · rename_i sCol st2 hm
            obtain ⟨g1, g2⟩ := match_consume_hasEOF _ _ _ _ hm (by decide) ha1
            exact Returns.done _ _ _ g1 (by omega)
        intro m sm _ hm1 hm2
        refine Returns.bind ((ihS sm hm1 (by omega)).mono hm2) ?_
        intro rr sr _ hr1 hr2
        simp only
        split <;> exact Returns.done _ _ _ hr1 hr2
    · -- statement
      have fin : ∀ {α : Type} (x : Outcome (α × ParseState))
          (k : α × ParseState → Outcome (statement_node × ParseState)),
          Returns x (st.global_tlist.length - 1) →
          (∀ r s, HasEOF s.global_tlist → s.global_tlist.length ≤ st.global_tlist.length - 1 →
            Returns (k (r, s)) (st.global_tlist.length - 1)) →
          Returns (x.bind k) st.global_tlist.length ∧
          ((stmtsStarter st).isSome = true →
            Returns (x.bind k) (st.global_tlist.length - 1)) := by
        intro α x k hx hk
        have := Returns.bind hx (fun r s _ h1 h2 => hk r s h1 h2)
        exact ⟨this.mono (by omega), fun _ => this⟩
      rw [statement]
      split_ifs with k1 k2 k3 k4 k5 k6
      · refine fin _ _ ((declaration_returns f st he (by omega)).2 k1) ?_
        intro r s h1 h2
        simp only
        split <;> exact Returns.done _ _ _ h1 h2
      · refine fin _ _ ((assignment_returns f st he (by omega)).2 k2) ?_
        intro r s h1 h2
        simp only
        split <;> exact Returns.done _ _ _ h1 h2
      · refine fin _ _ ((ihF st he (by omega)).2 k3) ?_
        intro r s h1 h2
        simp only
        split <;> exact Returns.done _ _ _ h1 h2
      · refine fin _ _ ((read_returns st he).2 k4) ?_
        intro r s h1 h2
        simp only
        split <;> exact Returns.done _ _ _ h1 h2
      · refine fin _ _ ((print_returns f st he (by omega)).2 k5) ?_
        intro r s h1 h2
        simp only
        split <;> exact Returns.done _ _ _ h1 h2
      · refine fin _ _ ((assert_returns f st he (by omega)).2 k6) ?_
        intro r s h1 h2
        simp only
        split <;> exact Returns.done _ _ _ h1 h2
      · refine ⟨Returns.done _ _ _ he (le_refl _), fun hh => ?_⟩
        rw [stmtsStarter_isSome] at hh
        simp only [Bool.not_eq_true] at k1 k2 k3 k4 k5 k6
        rw [k1, k2, k3, k4, k5, k6] at hh
        simp at hh
    · -- for_
      apply returns_of_keyword <;> intro hk <;> rw [match_fst_noconsume] at hk <;> rw [for_]
      · split
        · rename_i st2 hm
          rw [hm] at hk; simp at hk
        rename_i forKeyStart sa ha
        obtain ⟨a1, a2⟩ := match_consume_hasEOF _ _ _ _ ha (by decide) he
        split
        · rename_i st2 hm
          obtain ⟨rfl, _⟩ := match_none _ _ _ _ hm
          exact Returns.done _ _ _ a1 (by omega)
        rename_i id sb hb
        obtain ⟨b1, b2⟩ := match_consume_hasEOF _ _ _ _ hb (by decide) a1
        split
        · rename_i st2 hm
          obtain ⟨rfl, _⟩ := match_none _ _ _ _ hm
          exact Returns.done _ _ _ b1 (by omega)
        rename_i inKey sc hc
        obtain ⟨c1, c2⟩ := match_consume_hasEOF _ _ _ _ hc (by decide) b1
        refine Returns.bind (((expression_family_returns f).1 sc c1 (by omega)).mono
          (by omega)) ?_
        intro x1 sd _ d1 d2
        simp only
        split
        · exact Returns.done _ _ _ d1 d2
        split
        · rename_i st2 hm
          obtain ⟨rfl, _⟩ := match_none _ _ _ _ hm
          exact Returns.done _ _ _ d1 d2
        rename_i range se he2
        obtain ⟨e1, e2⟩ := match_consume_hasEOF _ _ _ _ he2 (by decide) d1
        refine Returns.bind (((expression_family_returns f).1 se e1 (by omega)).mono
          (by omega)) ?_
        intro x2 sg _ g1 g2
        simp only
        split
        · exact Returns.done _ _ _ g1 g2
        split
        · rename_i st2 hm
          obtain ⟨rfl, _⟩ := match_none _ _ _ _ hm
          exact Returns.done _ _ _ g1 g2
        rename_i doKey sk hk2
        obtain ⟨k1, k2⟩ := match_consume_hasEOF _ _ _ _ hk2 (by decide) g1
        refine Returns.bind ((ihS sk k1 (by omega)).mono (by omega)) ?_
        intro x3 sl _ l1 l2
        simp only
        split
        · exact Returns.done _ _ _ l1 l2
        split
        · rename_i st2 hm
          obtain ⟨rfl, _⟩ := match_none _ _ _ _ hm
          exact Returns.done _ _ _ l1 l2
        rename_i endKey sm hm
        obtain ⟨m1, m2⟩ := match_consume_hasEOF _ _ _ _ hm (by decide) l1
        split
        · rename_i st2 hm2
          obtain ⟨rfl, _⟩ := match_none _ _ _ _ hm2
          exact Returns.done _ _ _ m1 (by omega)
        rename_i forKeyEnd sn hn
        obtain ⟨n1, n2⟩ := match_consume_hasEOF _ _ _ _ hn (by decide) m1
        exact Returns.done _ _ _ n1 (by omega)
      · split
        · rename_i st2 hm
          obtain ⟨rfl, _⟩ := match_none _ _ _ _ hm
          exact Returns.done _ _ _ he (le_refl _)
        · rename_i id sa ha
          rw [ha] at hk; simp at hk

end Parser

namespace Parser
open consumption_type discard_option

/-! ## The parser: derivable sequences are accepted -/

theorem kinds_eq_nil (ts : token_list) (h : kinds ts = []) : ts = [] := by
  simpa [kinds] using h

theorem kinds_eq_cons (ts : token_list) (a : token_type) (w : List token_type)
    (h : kinds ts = a :: w) : ∃ t ts1, ts = t :: ts1 ∧ t.type = a ∧ kinds ts1 = w := by
  cases ts with
  | nil => simp [kinds] at h
  | cons t ts1 =>
    simp only [kinds, List.map_cons, List.cons.injEq] at h
    exact ⟨t, ts1, rfl, h.1, h.2⟩

theorem kinds_eq_append (ts : token_list) (w v : List token_type) (h : kinds ts = w ++ v) :
    ∃ ts1 ts2, ts = ts1 ++ ts2 ∧ kinds ts1 = w ∧ kinds ts2 = v := by
  unfold kinds at h
  obtain ⟨l1, l2, h1, h2, h3⟩ := List.map_eq_append_iff.1 h
  exact ⟨l1, l2, h1, h2, h3⟩

theorem match_cons_pos (tt : token_type) (t : token) (l : token_list) (ef : Int)
    (err : List Char) (h : t.type = tt) :
    match_ tt CONSUME ⟨t :: l, ef, err⟩ = (some t, ⟨l, ef, err⟩) := by
  simp [match_, h]

theorem match_cons_neg (tt : token_type) (ct : consumption_type) (t : token) (l : token_list)
    (ef : Int) (err : List Char) (h : t.type ≠ tt) :
    match_ tt ct ⟨t :: l, ef, err⟩ = (none, ⟨t :: l, ef, err⟩) := by
  simp [match_, h]

theorem match_cons_peek (tt : token_type) (t : token) (l : token_list) (ef : Int)
    (err : List Char) (h : t.type = tt) :
    match_ tt NO_CONSUME ⟨t :: l, ef, err⟩ = (some t, ⟨t :: l, ef, err⟩) := by
  simp [match_, h]

theorem match_notStart (tt : token_type) (ct : consumption_type) (rest : token_list) (ef : Int)
    (err : List Char) (h : NotStart tt rest) :
    match_ tt ct ⟨rest, ef, err⟩ = (none, ⟨rest, ef, err⟩) := by
  cases rest with
  | nil => rfl
  | cons t l => exact match_cons_neg _ _ _ _ _ _ (h t l rfl)

/-- The sequences derived from `operand` start with a literal, an identifier or a left
parenthesis. -/
theorem first_operand (w : List token_type) (h : Derives .operand w) :
    ∃ a w1, w = a :: w1 ∧ (a = TOKEN_INT_LITERAL ∨ a = TOKEN_STRING_LITERAL ∨
      a = TOKEN_IDENTIFIER ∨ a = TOKEN_LPAR) := by
  cases h with
  | operand_int => exact ⟨_, _, rfl, Or.inl rfl⟩
  | operand_string => exact ⟨_, _, rfl, Or.inr (Or.inl rfl)⟩
  | operand_id => exact ⟨_, _, rfl, Or.inr (Or.inr (Or.inl rfl))⟩
  | operand_paren _ => exact ⟨_, _, rfl, Or.inr (Or.inr (Or.inr rfl))⟩

theorem first_binary_expression (w : List token_type) (h : Derives .binary_expression w) :
    ∃ a w1, w = a :: w1 ∧ a ≠ TOKEN_UN_OP := by
  cases h with
  | binary_expression h1 _ =>
    obtain ⟨a, w1, rfl, ha⟩ := first_operand _ h1
    refine ⟨a, _, rfl, ?_⟩
    rcases ha with rfl | rfl | rfl | rfl <;> decide

theorem complete_operand_int : CompleteFor .operand [TOKEN_INT_LITERAL] := by
  intro fuel ts rest hk _ ef err r st1 h
  obtain ⟨t, ts1, rfl, ht, hk1⟩ := kinds_eq_cons _ _ _ hk
  have := kinds_eq_nil _ hk1
  subst this
  cases fuel with
  | zero => simp [operand] at h
  | succ f =>
    rw [operand] at h
    simp only [List.cons_append, List.nil_append, match_cons_pos _ _ _ _ _ ht,
      Outcome.done.injEq, Prod.mk.injEq] at h
    rw [← h.1, ← h.2]
    exact ⟨by simp, rfl⟩

theorem complete_operand_string : CompleteFor .operand [TOKEN_STRING_LITERAL] := by
  intro fuel ts rest hk _ ef err r st1 h
  obtain ⟨t, ts1, rfl, ht, hk1⟩ := kinds_eq_cons _ _ _ hk
  have := kinds_eq_nil _ hk1
  subst this
  cases fuel with
  | zero => simp [operand] at h
  | succ f =>
    rw [operand] at h
    simp only [List.cons_append, List.nil_append,
      match_cons_neg TOKEN_INT_LITERAL _ _ _ _ _ (by rw [ht]; decide),
      match_cons_pos _ _ _ _ _ ht, Outcome.done.injEq, Prod.mk.injEq] at h
    rw [← h.1, ← h.2]
    exact ⟨by simp, rfl⟩

theorem complete_operand_id : CompleteFor .operand [TOKEN_IDENTIFIER] := by
  intro fuel ts rest hk _ ef err r st1 h
  obtain ⟨t, ts1, rfl, ht, hk1⟩ := kinds_eq_cons _ _ _ hk
  have := kinds_eq_nil _ hk1
  subst this
  cases fuel with
  | zero => simp [operand] at h
  | succ f =>
    rw [operand] at h
    simp only [List.cons_append, List.nil_append,
      match_cons_neg TOKEN_INT_LITERAL _ _ _ _ _ (by rw [ht]; decide),
      match_cons_neg TOKEN_STRING_LITERAL _ _ _ _ _ (by rw [ht]; decide),
      match_cons_pos _ _ _ _ _ ht, Outcome.done.injEq, Prod.mk.injEq] at h
    rw [← h.1, ← h.2]
    exact ⟨by simp, rfl⟩

theorem complete_operand_paren (w : List token_type) (ih : CompleteFor .expression w) :
    CompleteFor .operand (TOKEN_LPAR :: w ++ [TOKEN_RPAR]) := by
  intro fuel ts rest hk _ ef err r st1 h
  obtain ⟨lp, ts0, rfl, hlp, hk0⟩ := kinds_eq_cons _ _ _ hk
  obtain ⟨ts1, ts2, rfl, hk1, hk2⟩ := kinds_eq_append _ _ _ hk0
  obtain ⟨rp, ts3, rfl, hrp, hk3⟩ := kinds_eq_cons _ _ _ hk2
  have := kinds_eq_nil _ hk3
  subst this
  cases fuel with
  | zero => simp [operand] at h
  | succ f =>
    rw [operand] at h
    simp only [List.cons_append, List.nil_append, List.append_assoc,
      match_cons_neg TOKEN_INT_LITERAL _ _ _ _ _ (by rw [hlp]; decide),
      match_cons_neg TOKEN_STRING_LITERAL _ _ _ _ _ (by rw [hlp]; decide),
      match_cons_neg TOKEN_IDENTIFIER _ _ _ _ _ (by rw [hlp]; decide)] at h
    obtain ⟨⟨p, s⟩, h1, h2⟩ := Outcome.bind_eq_done _ _ _ h
    cases f with
    | zero => simp [enclosedExpression] at h1
    | succ g =>
      rw [enclosedExpression] at h1
      simp only [match_cons_pos _ _ _ _ _ hlp] at h1
      obtain ⟨⟨e, s2⟩, h3, h4⟩ := Outcome.bind_eq_done _ _ _ h1
      have hfol : Follow .expression (rp :: rest) := by
        intro t l hh
        simp only [List.cons.injEq] at hh
        rw [← hh.1, hrp]; decide
      obtain ⟨hne, rfl⟩ := ih g ts1 (rp :: rest) hk1 hfol ef err e s2 h3
      cases e with
      | error => exact (hne rfl).elim
      | _ =>
        simp only [match_cons_pos _ _ _ _ _ hrp, Outcome.done.injEq, Prod.mk.injEq] at h4
        obtain ⟨rfl, rfl⟩ := h4
        simp only [Outcome.done.injEq, Prod.mk.injEq] at h2
        obtain ⟨rfl, rfl⟩ := h2
        exact ⟨by simp, rfl⟩

theorem complete_operand_suffix_eps : CompleteFor .operand_suffix [] := by
  intro fuel ts rest hk hfol ef err r st1 h
  have := kinds_eq_nil _ hk
  subst this
  cases fuel with
  | zero => simp [operandSuffix] at h
  | succ f =>
    rw [operandSuffix] at h
    simp only [List.nil_append, match_notStart _ _ _ _ _ hfol, Outcome.done.injEq,
      Prod.mk.injEq] at h
    rw [← h.1, ← h.2]
    exact ⟨by simp, rfl⟩

theorem complete_operand_suffix_op (w : List token_type) (ih : CompleteFor .operand w) :
    CompleteFor .operand_suffix (TOKEN_BIN_OP :: w) := by
  intro fuel ts rest hk _ ef err r st1 h
  obtain ⟨op, ts1, rfl, hop, hk1⟩ := kinds_eq_cons _ _ _ hk
  cases fuel with
  | zero => simp [operandSuffix] at h
  | succ f =>
    rw [operandSuffix] at h
    simp only [List.cons_append, match_cons_pos _ _ _ _ _ hop] at h
    obtain ⟨⟨o, s⟩, h1, h2⟩ := Outcome.bind_eq_done _ _ _ h
    obtain ⟨hne, rfl⟩ := ih f ts1 rest hk1 trivial ef err o s h1
    cases o with
    | error => exact (hne rfl).elim
    | _ =>
      simp only [Outcome.done.injEq, Prod.mk.injEq] at h2
      obtain ⟨rfl, rfl⟩ := h2
      exact ⟨by simp, rfl⟩

theorem complete_unary_expression (w : List token_type) (ih : CompleteFor .operand w) :
    CompleteFor .unary_expression (TOKEN_UN_OP :: w) := by
  intro fuel ts rest hk _ ef err r st1 h
  obtain ⟨op, ts1, rfl, hop, hk1⟩ := kinds_eq_cons _ _ _ hk
  cases fuel with
  | zero => simp [unaryExpression] at h
  | succ f =>
    rw [unaryExpression] at h
    simp only [List.cons_append, match_cons_pos _ _ _ _ _ hop] at h
    obtain ⟨⟨o, s⟩, h1, h2⟩ := Outcome.bind_eq_done _ _ _ h
    obtain ⟨hne, rfl⟩ := ih f ts1 rest hk1 trivial ef err o s h1
    cases o with
    | error => exact (hne rfl).elim
    | _ =>
      simp only [Outcome.done.injEq, Prod.mk.injEq] at h2
      obtain ⟨rfl, rfl⟩ := h2
      exact ⟨by simp, rfl⟩

theorem complete_binary_expression (w v : List token_type) (ih1 : CompleteFor .operand w)
    (ih2 : CompleteFor .operand_suffix v) : CompleteFor .binary_expression (w ++ v) := by
  intro fuel ts rest hk hfol ef err r st1 h
  obtain ⟨ts1, ts2, rfl, hk1, hk2⟩ := kinds_eq_append _ _ _ hk
  cases fuel with
  | zero => simp [binaryExpression] at h
  | succ f =>
    rw [binaryExpression, List.append_assoc] at h
    obtain ⟨⟨o, s⟩, h1, h2⟩ := Outcome.bind_eq_done _ _ _ h
    obtain ⟨hne, rfl⟩ := ih1 f ts1 (ts2 ++ rest) hk1 trivial ef err o s h1
    cases o with
    | error => exact (hne rfl).elim
    | _ =>
      simp only at h2
      obtain ⟨⟨o2, s2⟩, h3, h4⟩ := Outcome.bind_eq_done _ _ _ h2
      obtain ⟨hne2, rfl⟩ := ih2 f ts2 rest hk2 hfol ef err o2 s2 h3
      cases o2 with
      | error => exact (hne2 rfl).elim
      | _ =>
        simp only [Outcome.done.injEq, Prod.mk.injEq] at h4
        obtain ⟨rfl, rfl⟩ := h4
        exact ⟨by simp, rfl⟩

theorem complete_expression_unary (w : List token_type) (hd : Derives .unary_expression w)
    (ih : CompleteFor .unary_expression w) : CompleteFor .expression w := by
  intro fuel ts rest hk _ ef err r st1 h
  obtain ⟨w1, rfl⟩ : ∃ w1, w = TOKEN_UN_OP :: w1 := by cases hd; exact ⟨_, rfl⟩
  obtain ⟨op, ts1, rfl, hop, hk1⟩ := kinds_eq_cons _ _ _ hk
  cases fuel with
  | zero => simp [expression] at h
  | succ f =>
    rw [expression] at h
    simp only [List.cons_append, match_cons_peek _ _ _ _ _ hop, Option.isSome_some,
      if_true] at h
    obtain ⟨⟨o, s⟩, h1, h2⟩ := Outcome.bind_eq_done _ _ _ h
    obtain ⟨hne, rfl⟩ := ih f (op :: ts1) rest hk trivial ef err o s h1
    cases o with
    | error => exact (hne rfl).elim
    | _ =>
      simp only [Outcome.done.injEq, Prod.mk.injEq] at h2
      obtain ⟨rfl, rfl⟩ := h2
      exact ⟨by simp, rfl⟩

theorem complete_expression_binary (w : List token_type) (hd : Derives .binary_expression w)
    (ih : CompleteFor .binary_expression w) : CompleteFor .expression w := by
  intro fuel ts rest hk hfol ef err r st1 h
  obtain ⟨a, w1, rfl, ha⟩ := first_binary_expression _ hd
  obtain ⟨t, ts1, rfl, ht, hk1⟩ := kinds_eq_cons _ _ _ hk
  cases fuel with
  | zero => simp [expression] at h
  | succ f =>
    rw [expression] at h
    simp only [List.cons_append, match_cons_neg TOKEN_UN_OP _ _ _ _ _ (by rw [ht]; exact ha),
      Option.isSome_none, Bool.false_eq_true, if_false] at h
    obtain ⟨⟨o, s⟩, h1, h2⟩ := Outcome.bind_eq_done _ _ _ h
    obtain ⟨hne, rfl⟩ := ih f (t :: ts1) rest hk hfol ef err o s h1
    cases o with
    | error => exact (hne rfl).elim
    | _ =>
      simp only [Outcome.done.injEq, Prod.mk.injEq] at h2
      obtain ⟨rfl, rfl⟩ := h2
      exact ⟨by simp, rfl⟩



theorem complete_declaration_suffix_eps : CompleteFor .declaration_suffix [] := by
  intro fuel ts rest hk hfol ef err r st1 h
  have := kinds_eq_nil _ hk
  subst this
  rw [declarationSuffix] at h
  simp only [List.nil_append, match_notStart _ _ _ _ _ hfol.2, Outcome.done.injEq,
    Prod.mk.injEq] at h
  obtain ⟨rfl, rfl⟩ := h
  exact ⟨by simp, rfl⟩

theorem complete_declaration_suffix_init (w : List token_type)
    (ih : CompleteFor .expression w) : CompleteFor .declaration_suffix (TOKEN_ASSIGN :: w) := by
  intro fuel ts rest hk hfol ef err r st1 h
  obtain ⟨op, ts1, rfl, hop, hk1⟩ := kinds_eq_cons _ _ _ hk
  rw [declarationSuffix] at h
  simp only [List.cons_append, match_cons_pos _ _ _ _ _ hop] at h
  obtain ⟨⟨o, s⟩, h1, h2⟩ := Outcome.bind_eq_done _ _ _ h
  obtain ⟨hne, rfl⟩ := ih fuel ts1 rest hk1 hfol.1 ef err o s h1
  cases o with
  | error => exact (hne rfl).elim
  | _ =>
    simp only [Outcome.done.injEq, Prod.mk.injEq] at h2
    obtain ⟨rfl, rfl⟩ := h2
    exact ⟨by simp, rfl⟩

theorem complete_declaration (w : List token_type) (ih : CompleteFor .declaration_suffix w) :
    CompleteFor .declaration
      (TOKEN_VARKEY :: TOKEN_IDENTIFIER :: TOKEN_COL :: TOKEN_TYPEKEY :: w) := by
  intro fuel ts rest hk hfol ef err r st1 h
  obtain ⟨t1, l1, rfl, ht1, hk1⟩ := kinds_eq_cons _ _ _ hk
  obtain ⟨t2, l2, rfl, ht2, hk2⟩ := kinds_eq_cons _ _ _ hk1
  obtain ⟨t3, l3, rfl, ht3, hk3⟩ := kinds_eq_cons _ _ _ hk2
  obtain ⟨t4, l4, rfl, ht4, hk4⟩ := kinds_eq_cons _ _ _ hk3
  rw [declaration] at h
  simp only [List.cons_append, match_cons_pos _ _ _ _ _ ht1, match_cons_pos _ _ _ _ _ ht2,
    match_cons_pos _ _ _ _ _ ht3, match_cons_pos _ _ _ _ _ ht4] at h
  obtain ⟨⟨o, s⟩, h1, h2⟩ := Outcome.bind_eq_done _ _ _ h
  obtain ⟨hne, rfl⟩ := ih fuel l4 rest hk4 hfol ef err o s h1
  cases o with
  | error => exact (hne rfl).elim
  | _ =>
    simp only [Outcome.done.injEq, Prod.mk.injEq] at h2
    obtain ⟨rfl, rfl⟩ := h2
    exact ⟨by simp, rfl⟩

theorem complete_assignment (w : List token_type) (ih : CompleteFor .expression w) :
    CompleteFor .assignment (TOKEN_IDENTIFIER :: TOKEN_ASSIGN :: w) := by
  intro fuel ts rest hk hfol ef err r st1 h
  obtain ⟨t1, l1, rfl, ht1, hk1⟩ := kinds_eq_cons _ _ _ hk
  obtain ⟨t2, l2, rfl, ht2, hk2⟩ := kinds_eq_cons _ _ _ hk1
  rw [assignment] at h
  simp only [List.cons_append, match_cons_pos _ _ _ _ _ ht1,
    match_cons_pos _ _ _ _ _ ht2] at h
  obtain ⟨⟨o, s⟩, h1, h2⟩ := Outcome.bind_eq_done _ _ _ h
  obtain ⟨hne, rfl⟩ := ih fuel l2 rest hk2 hfol ef err o s h1
  cases o with
  | error => exact (hne rfl).elim
  | _ =>
    simp only [Outcome.done.injEq, Prod.mk.injEq] at h2
    obtain ⟨rfl, rfl⟩ := h2
    exact ⟨by simp, rfl⟩

theorem complete_print (w : List token_type) (ih : CompleteFor .expression w) :
    CompleteFor .print (TOKEN_PRINTKEY :: w) := by
  intro fuel ts rest hk hfol ef err r st1 h
  obtain ⟨t1, l1, rfl, ht1, hk1⟩ := kinds_eq_cons _ _ _ hk
  rw [print] at h
  simp only [List.cons_append, match_cons_pos _ _ _ _ _ ht1] at h
  obtain ⟨⟨o, s⟩, h1, h2⟩ := Outcome.bind_eq_done _ _ _ h
  obtain ⟨hne, rfl⟩ := ih fuel l1 rest hk1 hfol ef err o s h1
  cases o with
  | error => exact (hne rfl).elim
  | _ =>
    simp only [Outcome.done.injEq, Prod.mk.injEq] at h2
    obtain ⟨rfl, rfl⟩ := h2
    exact ⟨by simp, rfl⟩

theorem complete_read : CompleteFor .read [TOKEN_READKEY, TOKEN_IDENTIFIER] := by
  intro _ ts rest hk _ ef err r st1 h
  obtain ⟨t1, l1, rfl, ht1, hk1⟩ := kinds_eq_cons _ _ _ hk
  obtain ⟨t2, l2, rfl, ht2, hk2⟩ := kinds_eq_cons _ _ _ hk1
  have := kinds_eq_nil _ hk2
  subst this
  rw [read] at h
  simp only [List.cons_append, List.nil_append, match_cons_pos _ _ _ _ _ ht1,
    match_cons_pos _ _ _ _ _ ht2, Outcome.done.injEq, Prod.mk.injEq] at h
  obtain ⟨rfl, rfl⟩ := h
  exact ⟨by simp, rfl⟩

theorem complete_assert (w : List token_type) (ih : CompleteFor .expression w) :
    CompleteFor .assert (TOKEN_ASSERTKEY :: TOKEN_LPAR :: w ++ [TOKEN_RPAR]) := by
  intro fuel ts rest hk _ ef err r st1 h
  obtain ⟨t1, l1, rfl, ht1, hk1⟩ := kinds_eq_cons _ _ _ hk
  obtain ⟨t2, l2, rfl, ht2, hk2⟩ := kinds_eq_cons _ _ _ hk1
  obtain ⟨ts1, ts2, rfl, hk3, hk4⟩ := kinds_eq_append _ _ _ hk2
  obtain ⟨rp, ts3, rfl, hrp, hk5⟩ := kinds_eq_cons _ _ _ hk4
  have := kinds_eq_nil _ hk5
  subst this
  rw [assert] at h
  simp only [List.cons_append, List.nil_append, List.append_assoc,
    match_cons_pos _ _ _ _ _ ht1, match_cons_pos _ _ _ _ _ ht2] at h
  obtain ⟨⟨o, s⟩, h1, h2⟩ := Outcome.bind_eq_done _ _ _ h
  have hfol : Follow .expression (rp :: rest) := by
    intro t l hh
    simp only [List.cons.injEq] at hh
    rw [← hh.1, hrp]; decide
  obtain ⟨hne, rfl⟩ := ih fuel ts1 (rp :: rest) hk3 hfol ef err o s h1
  cases o with
  | error => exact (hne rfl).elim
  | _ =>
    simp only [match_cons_pos _ _ _ _ _ hrp, Outcome.done.injEq, Prod.mk.injEq] at h2
    obtain ⟨rfl, rfl⟩ := h2
    exact ⟨by simp, rfl⟩

end Parser

namespace Parser
open consumption_type discard_option

theorem stmtsStarter_cons_none (t : token) (l : token_list) (ef : Int) (err : List Char)
    (h1 : t.type ≠ TOKEN_VARKEY) (h2 : t.type ≠ TOKEN_IDENTIFIER) (h3 : t.type ≠ TOKEN_FORKEY)
    (h4 : t.type ≠ TOKEN_READKEY) (h5 : t.type ≠ TOKEN_PRINTKEY)
    (h6 : t.type ≠ TOKEN_ASSERTKEY) : stmtsStarter ⟨t :: l, ef, err⟩ = none := by
  simp [stmtsStarter, match_, h1, h2, h3, h4, h5, h6]

theorem stmtsStarter_cons_some (t : token) (l : token_list) (ef : Int) (err : List Char)
    (h : t.type = TOKEN_VARKEY ∨ t.type = TOKEN_IDENTIFIER ∨ t.type = TOKEN_FORKEY ∨
      t.type = TOKEN_READKEY ∨ t.type = TOKEN_PRINTKEY ∨ t.type = TOKEN_ASSERTKEY) :
    stmtsStarter ⟨t :: l, ef, err⟩ = some t := by
  rcases h with h | h | h | h | h | h <;> simp [stmtsStarter, match_, h]

theorem first_statement (w : List token_type) (h : Derives .statement w) :
    ∃ a w1, w = a :: w1 ∧ (a = TOKEN_VARKEY ∨ a = TOKEN_IDENTIFIER ∨ a = TOKEN_FORKEY ∨
      a = TOKEN_READKEY ∨ a = TOKEN_PRINTKEY ∨ a = TOKEN_ASSERTKEY) := by
  cases h with
  | statement_declaration h => cases h; exact ⟨_, _, rfl, by simp⟩
  | statement_assignment h => cases h; exact ⟨_, _, rfl, by simp⟩
  | statement_for h => cases h; exact ⟨_, _, rfl, by simp⟩
  | statement_read h => cases h; exact ⟨_, _, rfl, by simp⟩
  | statement_print h => cases h; exact ⟨_, _, rfl, by simp⟩
  | statement_assert h => cases h; exact ⟨_, _, rfl, by simp⟩

end Parser

namespace Parser
open consumption_type discard_option

theorem complete_statement_declaration (w : List token_type) (hd : Derives .declaration w)
    (ih : CompleteFor .declaration w) : CompleteFor .statement w := by
  intro fuel ts rest hk hfol ef err r st1 h
  obtain ⟨w1, rfl⟩ : ∃ w1, w = TOKEN_VARKEY :: w1 := by cases hd; exact ⟨_, rfl⟩
  obtain ⟨t, ts1, rfl, ht, hk1⟩ := kinds_eq_cons _ _ _ hk
  cases fuel with
  | zero => simp [statement] at h
  | succ f =>
    rw [statement] at h
    simp only [List.cons_append, match_cons_peek _ _ _ _ _ ht, Option.isSome_some,
      if_true] at h
    obtain ⟨⟨o, s⟩, h1, h2⟩ := Outcome.bind_eq_done _ _ _ h
    obtain ⟨hne, rfl⟩ := ih f (t :: ts1) rest hk hfol ef err o s h1
    cases o with
    | error => exact (hne rfl).elim
    | _ =>
      simp only [Outcome.done.injEq, Prod.mk.injEq] at h2
      obtain ⟨rfl, rfl⟩ := h2
      exact ⟨by simp, rfl⟩

theorem complete_statement_assignment (w : List token_type) (hd : Derives .assignment w)
    (ih : CompleteFor .assignment w) : CompleteFor .statement w := by
  intro fuel ts rest hk hfol ef err r st1 h
  obtain ⟨w1, rfl⟩ : ∃ w1, w = TOKEN_IDENTIFIER :: w1 := by cases hd; exact ⟨_, rfl⟩
  obtain ⟨t, ts1, rfl, ht, hk1⟩ := kinds_eq_cons _ _ _ hk
  cases fuel with
  | zero => simp [statement] at h
  | succ f =>
    rw [statement] at h
    simp only [List.cons_append,
      match_cons_neg TOKEN_VARKEY _ _ _ _ _ (by rw [ht]; decide),
      match_cons_peek _ _ _ _ _ ht, Option.isSome_some, Option.isSome_none,
      Bool.false_eq_true, if_true, if_false] at h
    obtain ⟨⟨o, s⟩, h1, h2⟩ := Outcome.bind_eq_done _ _ _ h
    obtain ⟨hne, rfl⟩ := ih f (t :: ts1) rest hk hfol.1 ef err o s h1
    cases o with
    | error => exact (hne rfl).elim
    | _ =>
      simp only [Outcome.done.injEq, Prod.mk.injEq] at h2
      obtain ⟨rfl, rfl⟩ := h2
      exact ⟨by simp, rfl⟩

theorem complete_statement_for (w : List token_type) (hd : Derives .for_ w)
    (ih : CompleteFor .for_ w) : CompleteFor .statement w := by
  intro fuel ts rest hk hfol ef err r st1 h
  obtain ⟨w1, rfl⟩ : ∃ w1, w = TOKEN_FORKEY :: w1 := by cases hd; exact ⟨_, rfl⟩
  obtain ⟨t, ts1, rfl, ht, hk1⟩ := kinds_eq_cons _ _ _ hk
  cases fuel with
  | zero => simp [statement] at h
  | succ f =>
    rw [statement] at h
    simp only [List.cons_append,
      match_cons_neg TOKEN_VARKEY _ _ _ _ _ (by rw [ht]; decide),
      match_cons_neg TOKEN_IDENTIFIER _ _ _ _ _ (by rw [ht]; decide),
      match_cons_peek _ _ _ _ _ ht, Option.isSome_some, Option.isSome_none,
      Bool.false_eq_true, if_true, if_false] at h
    obtain ⟨⟨o, s⟩, h1, h2⟩ := Outcome.bind_eq_done _ _ _ h
    obtain ⟨hne, rfl⟩ := ih f (t :: ts1) rest hk trivial ef err o s h1
    cases o with
    | error => exact (hne rfl).elim
    | _ =>
      simp only [Outcome.done.injEq, Prod.mk.injEq] at h2
      obtain ⟨rfl, rfl⟩ := h2
      exact ⟨by simp, rfl⟩

theorem complete_statement_read (w : List token_type) (hd : Derives .read w)
    (ih : CompleteFor .read w) : CompleteFor .statement w := by
  intro fuel ts rest hk hfol ef err r st1 h
  obtain ⟨w1, rfl⟩ : ∃ w1, w = TOKEN_READKEY :: w1 := by cases hd; exact ⟨_, rfl⟩
  obtain ⟨t, ts1, rfl, ht, hk1⟩ := kinds_eq_cons _ _ _ hk
  cases fuel with
  | zero => simp [statement] at h
  | succ f =>
    rw [statement] at h
    simp only [List.cons_append,
      match_cons_neg TOKEN_VARKEY _ _ _ _ _ (by rw [ht]; decide),
      match_cons_neg TOKEN_IDENTIFIER _ _ _ _ _ (by rw [ht]; decide),
      match_cons_neg TOKEN_FORKEY _ _ _ _ _ (by rw [ht]; decide),
      match_cons_peek _ _ _ _ _ ht, Option.isSome_some, Option.isSome_none,
      Bool.false_eq_true, if_true, if_false] at h
    obtain ⟨⟨o, s⟩, h1, h2⟩ := Outcome.bind_eq_done _ _ _ h
    obtain ⟨hne, rfl⟩ := ih f (t :: ts1) rest hk trivial ef err o s h1
    cases o with
    | error => exact (hne rfl).elim
    | _ =>
      simp only [Outcome.done.injEq, Prod.mk.injEq] at h2
      obtain ⟨rfl, rfl⟩ := h2
      exact ⟨by simp, rfl⟩

theorem complete_statement_print (w : List token_type) (hd : Derives .print w)
    (ih : CompleteFor .print w) : CompleteFor .statement w := by
  intro fuel ts rest hk hfol ef err r st1 h
  obtain ⟨w1, rfl⟩ : ∃ w1, w = TOKEN_PRINTKEY :: w1 := by cases hd; exact ⟨_, rfl⟩
  obtain ⟨t, ts1, rfl, ht, hk1⟩ := kinds_eq_cons _ _ _ hk
  cases fuel with
  | zero => simp [statement] at h
  | succ f =>
    rw [statement] at h
    simp only [List.cons_append,
      match_cons_neg TOKEN_VARKEY _ _ _ _ _ (by rw [ht]; decide),
      match_cons_neg TOKEN_IDENTIFIER _ _ _ _ _ (by rw [ht]; decide),
      match_cons_neg TOKEN_FORKEY _ _ _ _ _ (by rw [ht]; decide),
      match_cons_neg TOKEN_READKEY _ _ _ _ _ (by rw [ht]; decide),
      match_cons_peek _ _ _ _ _ ht, Option.isSome_some, Option.isSome_none,
      Bool.false_eq_true, if_true, if_false] at h
    obtain ⟨⟨o, s⟩, h1, h2⟩ := Outcome.bind_eq_done _ _ _ h
    obtain ⟨hne, rfl⟩ := ih f (t :: ts1) rest hk hfol.1 ef err o s h1
    cases o with
    | error => exact (hne rfl).elim
    | _ =>
      simp only [Outcome.done.injEq, Prod.mk.injEq] at h2
      obtain ⟨rfl, rfl⟩ := h2
      exact ⟨by simp, rfl⟩

theorem complete_statement_assert (w : List token_type) (hd : Derives .assert w)
    (ih : CompleteFor .assert w) : CompleteFor .statement w := by
  intro fuel ts rest hk hfol ef err r st1 h
  obtain ⟨w1, rfl⟩ : ∃ w1, w = TOKEN_ASSERTKEY :: w1 := by cases hd; exact ⟨_, rfl⟩
  obtain ⟨t, ts1, rfl, ht, hk1⟩ := kinds_eq_cons _ _ _ hk
  cases fuel with
  | zero => simp [statement] at h
  | succ f =>
    rw [statement] at h
    simp only [List.cons_append,
      match_cons_neg TOKEN_VARKEY _ _ _ _ _ (by rw [ht]; decide),
      match_cons_neg TOKEN_IDENTIFIER _ _ _ _ _ (by rw [ht]; decide),
      match_cons_neg TOKEN_FORKEY _ _ _ _ _ (by rw [ht]; decide),
      match_cons_neg TOKEN_READKEY _ _ _ _ _ (by rw [ht]; decide),
      match_cons_neg TOKEN_PRINTKEY _ _ _ _ _ (by rw [ht]; decide),
      match_cons_peek _ _ _ _ _ ht, Option.isSome_some, Option.isSome_none,
      Bool.false_eq_true, if_true, if_false] at h
    obtain ⟨⟨o, s⟩, h1, h2⟩ := Outcome.bind_eq_done _ _ _ h
    obtain ⟨hne, rfl⟩ := ih f (t :: ts1) rest hk trivial ef err o s h1
    cases o with
    | error => exact (hne rfl).elim
    | _ =>
      simp only [Outcome.done.injEq, Prod.mk.injEq] at h2
      obtain ⟨rfl, rfl⟩ := h2
      exact ⟨by simp, rfl⟩

end Parser

namespace Parser
open consumption_type discard_option

theorem notStart_cons (tt : token_type) (t : token) (l : token_list) (h : t.type ≠ tt) :
    NotStart tt (t :: l) := by
  intro t1 l1 hh
  simp only [List.cons.injEq] at hh
  rw [← hh.1]
  exact h

theorem complete_for (w1 w2 w3 : List token_type) (ih1 : CompleteFor .expression w1)
    (ih2 : CompleteFor .expression w2) (ih3 : CompleteFor .stmts w3) :
    CompleteFor .for_
      (TOKEN_FORKEY :: TOKEN_IDENTIFIER :: TOKEN_INKEY :: w1 ++ TOKEN_RANGE :: w2 ++
        TOKEN_DOKEY :: w3 ++ [TOKEN_ENDKEY, TOKEN_FORKEY]) := by
  intro fuel ts rest hk _ ef err r st1 h
  simp only [List.append_assoc, List.cons_append] at hk
  obtain ⟨fk, l1, rfl, hfk, hk1⟩ := kinds_eq_cons _ _ _ hk
  obtain ⟨id, l2, rfl, hid, hk2⟩ := kinds_eq_cons _ _ _ hk1
  obtain ⟨ik, l3, rfl, hik, hk3⟩ := kinds_eq_cons _ _ _ hk2
  obtain ⟨ts1, l4, rfl, hts1, hk4⟩ := kinds_eq_append _ _ _ hk3
  obtain ⟨rg, l5, rfl, hrg, hk5⟩ := kinds_eq_cons _ _ _ hk4
  obtain ⟨ts2, l6, rfl, hts2, hk6⟩ := kinds_eq_append _ _ _ hk5
  obtain ⟨dk, l7, rfl, hdk, hk7⟩ := kinds_eq_cons _ _ _ hk6
  obtain ⟨ts3, l8, rfl, hts3, hk8⟩ := kinds_eq_append _ _ _ hk7
  obtain ⟨ek, l9, rfl, hek, hk9⟩ := kinds_eq_cons _ _ _ hk8
  obtain ⟨fe, l10, rfl, hfe, hk10⟩ := kinds_eq_cons _ _ _ hk9
  have := kinds_eq_nil _ hk10
  subst this
  cases fuel with
  | zero => simp [for_] at h
  | succ f =>
    rw [for_] at h
    simp only [List.cons_append, List.nil_append, List.append_assoc,
      match_cons_pos _ _ _ _ _ hfk, match_cons_pos _ _ _ _ _ hid,
      match_cons_pos _ _ _ _ _ hik] at h
    obtain ⟨⟨e1, s1⟩, h1, h2⟩ := Outcome.bind_eq_done _ _ _ h
    obtain ⟨hne1, rfl⟩ := ih1 f ts1 _ hts1
      (notStart_cons _ _ _ (by rw [hrg]; decide)) ef err e1 s1 h1
    cases e1 with
    | error => exact (hne1 rfl).elim
    | _ =>
      simp only [match_cons_pos _ _ _ _ _ hrg] at h2
      obtain ⟨⟨e2, s2⟩, h3, h4⟩ := Outcome.bind_eq_done _ _ _ h2
      obtain ⟨hne2, rfl⟩ := ih2 f ts2 _ hts2
        (notStart_cons _ _ _ (by rw [hdk]; decide)) ef err e2 s2 h3
      cases e2 with
      | error => exact (hne2 rfl).elim
      | _ =>
        simp only [match_cons_pos _ _ _ _ _ hdk] at h4
        obtain ⟨⟨b, s3⟩, h5, h6⟩ := Outcome.bind_eq_done _ _ _ h4
        have hfol : Follow .stmts (ek :: fe :: rest) := by
          intro ef1 err1
          apply stmtsStarter_cons_none <;> rw [hek] <;> decide
        obtain ⟨hne3, rfl⟩ := ih3 f ts3 _ hts3 hfol ef err b s3 h5
        cases b with
        | error => exact (hne3 rfl).elim
        | _ =>
          simp only [match_cons_pos _ _ _ _ _ hek, match_cons_pos _ _ _ _ _ hfe,
            Outcome.done.injEq, Prod.mk.injEq] at h6
          obtain ⟨rfl, rfl⟩ := h6
          exact ⟨by simp, rfl⟩

theorem complete_stmts_eps : CompleteFor .stmts [] := by
  intro fuel ts rest hk hfol ef err r st1 h
  have := kinds_eq_nil _ hk
  subst this
  cases fuel with
  | zero => simp [stmts] at h
  | succ f =>
    rw [stmts] at h
    simp only [List.nil_append, hfol ef err, Outcome.done.injEq, Prod.mk.injEq] at h
    obtain ⟨rfl, rfl⟩ := h
    exact ⟨by simp, rfl⟩

theorem complete_stmts_cons (w v : List token_type) (hd : Derives .statement w)
    (ih1 : CompleteFor .statement w) (ih2 : CompleteFor .stmts v) :
    CompleteFor .stmts (w ++ TOKEN_SCOL :: v) := by
  intro fuel ts rest hk hfol ef err r st1 h
  obtain ⟨a, w1, rfl, ha⟩ := first_statement _ hd
  obtain ⟨ts1, l1, rfl, hts1, hk1⟩ := kinds_eq_append _ _ _ hk
  obtain ⟨sc, ts2, rfl, hsc, hts2⟩ := kinds_eq_cons _ _ _ hk1
  obtain ⟨t, ts0, rfl, ht, hk0⟩ := kinds_eq_cons _ _ _ hts1
  cases fuel with
  | zero => simp [stmts] at h
  | succ f =>
    rw [stmts] at h
    simp only [List.cons_append, List.append_assoc,
      stmtsStarter_cons_some t _ ef err (by rw [ht]; exact ha)] at h
    obtain ⟨⟨rs, s1⟩, h1, h2⟩ := Outcome.bind_eq_done _ _ _ h
    have hfol1 : Follow .statement (sc :: (ts2 ++ rest)) :=
      ⟨notStart_cons _ _ _ (by rw [hsc]; decide), notStart_cons _ _ _ (by rw [hsc]; decide)⟩
    obtain ⟨hne1, rfl⟩ := ih1 f (t :: ts0) _ hts1 hfol1 ef err rs s1 h1
    cases rs with
    | error => exact (hne1 rfl).elim
    | _ =>
      simp only [Outcome.bind_done, match_cons_pos _ _ _ _ _ hsc] at h2
      obtain ⟨⟨rr, s2⟩, h3, h4⟩ := Outcome.bind_eq_done _ _ _ h2
      obtain ⟨hne2, rfl⟩ := ih2 f ts2 rest hts2 hfol ef err rr s2 h3
      cases rr with
      | error => exact (hne2 rfl).elim
      | _ =>
        simp only [Outcome.done.injEq, Prod.mk.injEq] at h4
        obtain ⟨rfl, rfl⟩ := h4
        exact ⟨by simp, rfl⟩

theorem complete_program (w : List token_type) (ih : CompleteFor .stmts w) :
    CompleteFor .program (w ++ [TOKEN_EOF]) := by
  intro fuel ts err r st1 hk h
  obtain ⟨ts1, l1, rfl, hts1, hk1⟩ := kinds_eq_append _ _ _ hk
  obtain ⟨eof, l2, rfl, heof, hk2⟩ := kinds_eq_cons _ _ _ hk1
  have := kinds_eq_nil _ hk2
  subst this
  rw [program] at h
  obtain ⟨⟨b, s⟩, h1, h2⟩ := Outcome.bind_eq_done _ _ _ h
  have hfol : Follow .stmts [eof] := by
    intro ef1 err1
    apply stmtsStarter_cons_none <;> rw [heof] <;> decide
  obtain ⟨hne, rfl⟩ := ih fuel ts1 [eof] hts1 hfol 0 err b s h1
  cases b with
  | error => exact (hne rfl).elim
  | _ =>
    simp only [match_cons_pos _ _ _ _ _ heof, ne_eq, not_true_eq_false, if_false,
      Outcome.done.injEq, Prod.mk.injEq] at h2
    obtain ⟨rfl, rfl⟩ := h2
    rfl

/-- Every token list whose types the grammar derives from a nonterminal is accepted by the
parser function of that nonterminal. -/
theorem derives_complete (X : NT) (w : List token_type) (h : Derives X w) :
    CompleteFor X w := by
  induction h with
  | program _ ih => exact complete_program _ ih
  | stmts_cons h1 _ ih1 ih2 => exact complete_stmts_cons _ _ h1 ih1 ih2
  | stmts_eps => exact complete_stmts_eps
  | statement_declaration h ih => exact complete_statement_declaration _ h ih
  | statement_assignment h ih => exact complete_statement_assignment _ h ih
  | statement_for h ih => exact complete_statement_for _ h ih
  | statement_read h ih => exact complete_statement_read _ h ih
  | statement_print h ih => exact complete_statement_print _ h ih
  | statement_assert h ih => exact complete_statement_assert _ h ih
  | declaration _ ih => exact complete_declaration _ ih
  | declaration_suffix_init _ ih => exact complete_declaration_suffix_init _ ih
  | declaration_suffix_eps => exact complete_declaration_suffix_eps
  | assignment _ ih => exact complete_assignment _ ih
  | for_ _ _ _ ih1 ih2 ih3 => exact complete_for _ _ _ ih1 ih2 ih3
  | read => exact complete_read
  | print _ ih => exact complete_print _ ih
  | assert _ ih => exact complete_assert _ ih
  | expression_unary h ih => exact complete_expression_unary _ h ih
  | expression_binary h ih => exact complete_expression_binary _ h ih
  | unary_expression _ ih => exact complete_unary_expression _ ih
  | binary_expression _ _ ih1 ih2 => exact complete_binary_expression _ _ ih1 ih2
  | operand_int => exact complete_operand_int
  | operand_string => exact complete_operand_string
  | operand_id => exact complete_operand_id
  | operand_paren _ ih => exact complete_operand_paren _ ih
  | operand_suffix_op _ ih => exact complete_operand_suffix_op _ ih
  | operand_suffix_eps => exact complete_operand_suffix_eps

end Parser

namespace Parser
open consumption_type discard_option

/-! ## The parser: the function `program` -/

theorem unexpectedToken_done (st : ParseState) (he : HasEOF st.global_tlist) :
    ∃ st1, unexpectedToken st = .done (.NULL, st1) := by
  obtain ⟨t, ht, _⟩ := he
  unfold unexpectedToken
  cases hl : st.global_tlist with
  | nil => rw [hl] at ht; simp at ht
  | cons t0 rest => exact ⟨_, rfl⟩

theorem unexpectedToken_result (st st1 : ParseState) (pn : program_node)
    (h : unexpectedToken st = .done (pn, st1)) : pn = .NULL := by
  unfold unexpectedToken at h
  cases hl : st.global_tlist with
  | nil => rw [hl] at h; simp at h
  | cons t0 rest =>
    rw [hl] at h
    simp only [Outcome.done.injEq, Prod.mk.injEq] at h
    exact h.1.symm

/-- What `program` returns is the nil pointer or a tree, never the error pointer. -/
theorem program_result (fuel : Nat) (st st1 : ParseState) (pn : program_node)
    (h : program fuel st = .done (pn, st1)) : pn = .NULL ∨ ∃ sln e, pn = .node sln e := by
  rw [program] at h
  obtain ⟨⟨b, s⟩, _, h2⟩ := Outcome.bind_eq_done _ _ _ h
  have key : (match match_ TOKEN_EOF CONSUME s with
      | (some eof, st1) =>
        if st1.errors_found ≠ 0 then Outcome.done (program_node.NULL, st1)
        else .done (.node b (some eof), st1)
      | (none, st1) => unexpectedToken st1) = .done (pn, st1) →
      pn = .NULL ∨ ∃ sln e, pn = .node sln e := by
    intro h3
    cases hm : match_ TOKEN_EOF CONSUME s with
    | mk o s2 =>
      rw [hm] at h3
      cases o with
      | none => exact Or.inl (unexpectedToken_result _ _ _ h3)
      | some e =>
        simp only at h3
        by_cases hef : s2.errors_found ≠ 0
        · rw [if_pos hef] at h3
          simp only [Outcome.done.injEq, Prod.mk.injEq] at h3
          exact Or.inl h3.1.symm
        · rw [if_neg hef] at h3
          simp only [Outcome.done.injEq, Prod.mk.injEq] at h3
          exact Or.inr ⟨_, _, h3.1.symm⟩
  cases b with
  | error => exact Or.inl (unexpectedToken_result _ _ _ h2)
  | NULL => exact key h2
  | node a b c => exact key h2

/-- With enough fuel `program` returns on every token list that holds an end-of-input
token. -/
theorem program_returns (fuel : Nat) (st : ParseState) (he : HasEOF st.global_tlist)
    (hf : 6 * st.global_tlist.length + 3 ≤ fuel) :
    ∃ pn st1, program fuel st = .done (pn, st1) := by
  obtain ⟨b, s, h1, he1, _⟩ := (statement_family_returns fuel).1 st he hf
  rw [program, h1]
  simp only [Outcome.bind_done]
  have key : ∃ pn st1, (match match_ TOKEN_EOF CONSUME s with
      | (some eof, st1) =>
        if st1.errors_found ≠ 0 then Outcome.done (program_node.NULL, st1)
        else .done (.node b (some eof), st1)
      | (none, st1) => unexpectedToken st1) = .done (pn, st1) := by
    cases hm : match_ TOKEN_EOF CONSUME s with
    | mk o s2 =>
      cases o with
      | none =>
        rw [(match_none _ _ _ _ hm).1]
        obtain ⟨s3, h3⟩ := unexpectedToken_done s he1
        exact ⟨_, _, h3⟩
      | some e =>
        simp only
        by_cases hef : s2.errors_found ≠ 0
        · rw [if_pos hef]; exact ⟨_, _, rfl⟩
        · rw [if_neg hef]; exact ⟨_, _, rfl⟩
  cases b with
  | error =>
    obtain ⟨s3, h3⟩ := unexpectedToken_done s he1
    exact ⟨_, _, h3⟩
  | NULL => exact key
  | node a b c => exact key

/-- When `program` returns a tree, the flag was clear, and the tokens in front of an
end-of-input token are a derivable statement list. -/
theorem program_sound (fuel : Nat) (st st1 : ParseState) (sln : stmts_node) (e : Option token)
    (h : program fuel st = .done (.node sln e, st1)) :
    ∃ ts eof rest, st.global_tlist = ts ++ eof :: rest ∧ eof.type = TOKEN_EOF ∧
      Derives .stmts (kinds ts) := by
  rw [program] at h
  obtain ⟨⟨b, s⟩, h1, h2⟩ := Outcome.bind_eq_done _ _ _ h
  have hs := (statement_family_sound fuel).1 st b s h1
  have key : b ≠ .error → (match match_ TOKEN_EOF CONSUME s with
      | (some eof, st1) =>
        if st1.errors_found ≠ 0 then Outcome.done (program_node.NULL, st1)
        else .done (.node b (some eof), st1)
      | (none, st1) => unexpectedToken st1) = .done (.node sln e, st1) →
      ∃ ts eof rest, st.global_tlist = ts ++ eof :: rest ∧ eof.type = TOKEN_EOF ∧
        Derives .stmts (kinds ts) := by
    intro hb h3
    cases hm : match_ TOKEN_EOF CONSUME s with
    | mk o s2 =>
      rw [hm] at h3
      cases o with
      | none => exact absurd (unexpectedToken_result _ _ _ h3) (by simp)
      | some t =>
        simp only at h3
        by_cases hef : s2.errors_found ≠ 0
        · rw [if_pos hef] at h3
          simp at h3
        · obtain ⟨m1, m2, m3, _⟩ := match_consume_some _ _ _ _ hm
          have h0 : s.errors_found = 0 := by
            rw [← m3]; exact not_not.1 hef
          obtain ⟨ts, hts, hd⟩ := hs.2 hb h0
          exact ⟨ts, t, s2.global_tlist, by rw [hts, m1], m2, hd⟩
  cases b with
  | error => exact absurd (unexpectedToken_result _ _ _ h2) (by simp)
  | NULL => exact key (by simp) h2
  | node a b c => exact key (by simp) h2

/-- A list that ends with its only end-of-input token splits in one way only in front of an
end-of-input token. -/
theorem split_at_EOF (ts ts1 rest : token_list) (eof e : token)
    (hts : ∀ t ∈ ts, t.type ≠ TOKEN_EOF) (he : e.type = TOKEN_EOF)
    (h : ts ++ [eof] = ts1 ++ e :: rest) : ts1 = ts := by
  induction ts generalizing ts1 with
  | nil =>
    cases ts1 with
    | nil => rfl
    | cons a l =>
      simp only [List.nil_append, List.cons_append, List.cons.injEq] at h
      have := h.2
      simp at this
  | cons a l ih =>
    cases ts1 with
    | nil =>
      simp only [List.nil_append, List.cons_append, List.cons.injEq] at h
      exact absurd he (by rw [← h.1]; exact hts a (List.mem_cons_self _ _))
    | cons b l1 =>
      simp only [List.cons_append, List.cons.injEq] at h
      rw [h.1, ih l1 (fun t ht => hts t (List.mem_cons_of_mem _ ht)) h.2]

theorem kinds_append_EOF (ts : token_list) (eof : token) (heof : eof.type = TOKEN_EOF) :
    kinds (ts ++ [eof]) = kinds ts ++ [TOKEN_EOF] := by
  simp [kinds, heof]

/-- The sequences derived from `program` are the ones derived from `stmts` with an
end-of-input token behind them. -/
theorem derives_program_iff (w : List token_type) :
    Derives .program (w ++ [TOKEN_EOF]) ↔ Derives .stmts w := by
  constructor
  · intro h
    generalize hv : w ++ [TOKEN_EOF] = v at h
    cases h with
    | program h1 =>
      have := List.append_inj_left' hv rfl
      rw [this]
      exact h1
  · exact Derives.program

end Parser

/-- C1: for every token list that ends with its only end-of-input token, with the error
flag of the parser clear, `parse` returns, and what it returns is a tree if and only if the
token types in front of the end-of-input token, with the end-of-input type behind them, are
derivable from `program` in the grammar; in every other case it returns the nil pointer. -/
theorem parse_accepts_exactly_grammar (ts : token_list) (eof : token) (err : List Char)
    (heof : eof.type = TOKEN_EOF) (hts : ∀ t ∈ ts, t.type ≠ TOKEN_EOF) :
    ∃ pn st1, Parser.parse (ts ++ [eof]) 0 err = .done (pn, st1) ∧
      ((∃ sln e, pn = .node sln e) ↔ Derives .program (kinds ts ++ [TOKEN_EOF])) ∧
      (¬ Derives .program (kinds ts ++ [TOKEN_EOF]) → pn = .NULL) := by
  have he : Parser.HasEOF (ts ++ [eof]) := ⟨eof, by simp, heof⟩
  obtain ⟨pn, st1, h⟩ := Parser.program_returns (6 * (ts ++ [eof]).length + 6)
    ⟨ts ++ [eof], 0, err⟩ he (by simp only; omega)
  have hiff : (∃ sln e, pn = .node sln e) ↔ Derives .program (kinds ts ++ [TOKEN_EOF]) := by
    constructor
    · rintro ⟨sln, e, rfl⟩
      obtain ⟨ts1, t, rest, h1, h2, h3⟩ := Parser.program_sound _ _ _ _ _ h
      have := Parser.split_at_EOF ts ts1 rest eof t hts h2 h1
      rw [this] at h3
      exact Derives.program h3
    · intro hd
      have hc := Parser.derives_complete _ _ hd (6 * (ts ++ [eof]).length + 6) (ts ++ [eof]) err
        pn st1 (Parser.kinds_append_EOF ts eof heof) h
      cases pn with
      | node sln e => exact ⟨sln, e, rfl⟩
      | NULL => simp [program_node.isTree] at hc
      | error => simp [program_node.isTree] at hc
  refine ⟨pn, st1, h, hiff, ?_⟩
  intro hn
  rcases Parser.program_result _ _ _ _ h with h1 | h1
  · exact h1
  · exact absurd (hiff.1 h1) hn

theorem parse_accepts_exactly_grammar_witness :
    (tok .TOKEN_EOF "").type = TOKEN_EOF ∧
    (∀ t ∈ [tok .TOKEN_PRINTKEY "print", tok .TOKEN_INT_LITERAL "1", tok .TOKEN_SCOL ";"],
      t.type ≠ TOKEN_EOF) ∧
    ∃ pn st1, Parser.parse ([tok .TOKEN_PRINTKEY "print", tok .TOKEN_INT_LITERAL "1",
        tok .TOKEN_SCOL ";"] ++ [tok .TOKEN_EOF ""]) 0 [] = .done (pn, st1) ∧
      ((∃ sln e, pn = .node sln e) ↔
        Derives .program (kinds [tok .TOKEN_PRINTKEY "print", tok .TOKEN_INT_LITERAL "1",
          tok .TOKEN_SCOL ";"] ++ [TOKEN_EOF])) ∧
      (¬ Derives .program (kinds [tok .TOKEN_PRINTKEY "print", tok .TOKEN_INT_LITERAL "1",
          tok .TOKEN_SCOL ";"] ++ [TOKEN_EOF]) → pn = .NULL) :=
  ⟨rfl, by simp [tok],
    parse_accepts_exactly_grammar _ _ _ rfl (by simp [tok])⟩

/-! ## The evaluator: expressions leave the symbol table untouched -/

theorem Frame.refl (st : Env) : Frame st st := ⟨rfl, rfl, rfl, [], by simp⟩

theorem Frame.trans {a b c : Env} (h1 : Frame a b) (h2 : Frame b c) : Frame a c := by
  obtain ⟨a1, a2, a3, d1, a4⟩ := h1
  obtain ⟨b1, b2, b3, d2, b4⟩ := h2
  exact ⟨b1.trans a1, b2.trans a2, b3.trans a3, d1 ++ d2, by rw [b4, a4, List.append_assoc]⟩

theorem frame_printError (t : token) (m : List Char) (et : error_type) (st : Env) :
    Frame st (printError t m et st) := ⟨rfl, rfl, rfl, _, rfl⟩

theorem frame_findLabel (id : token) (st : Env) : Frame st (findLabel id st).2 := by
  unfold findLabel
  cases findLabelLoop id.value st.global_list with
  | none => exact frame_printError _ _ _ _
  | some e => exact Frame.refl _

theorem frame_findLabelValue (id : token) (st : Env) : Frame st (findLabelValue id st).2 := by
  have h := frame_findLabel id st
  unfold findLabelValue
  rcases hx : findLabel id st with ⟨o, s1⟩
  rw [hx] at h
  cases o <;> exact h

theorem frame_findLabelType (id : token) (st : Env) : Frame st (findLabelType id st).2 := by
  have h := frame_findLabel id st
  unfold findLabelType
  rcases hx : findLabel id st with ⟨o, s1⟩
  rw [hx] at h
  cases o <;> exact h

/-- The ways `applyBinary` ends: with a value and the state untouched, or with the error
value and one diagnostic. -/
theorem applyBinary_cases (op : token) (oper suffix : value) (st : Env) (r : value × Env)
    (h : applyBinary op oper suffix st = .done r) :
    r.2 = st ∨ ∃ m et, r = (error_value, printError op m et st) := by
  unfold applyBinary at h
  have done_same : ∀ v : value, Outcome.done (v, st) = Outcome.done r →
      r.2 = st ∨ ∃ m et, r = (error_value, printError op m et st) := by
    intro v hv
    simp only [Outcome.done.injEq] at hv
    subst hv
    exact Or.inl rfl
  have done_err : ∀ m et, Outcome.done (error_value, printError op m et st) = Outcome.done r →
      r.2 = st ∨ ∃ m et, r = (error_value, printError op m et st) := by
    intro m et hv
    simp only [Outcome.done.injEq] at hv
    subst hv
    exact Or.inr ⟨m, et, rfl⟩
  by_cases c0 : suffix.lt ≠ oper.lt
  · rw [if_pos c0] at h; exact done_err _ _ h
  rw [if_neg c0] at h
  by_cases c1 : strncmpEq op.value ['+'] 1 = true
  · rw [if_pos c1] at h
    by_cases d1 : suffix.lt = .INT
    · rw [if_pos d1] at h; exact done_same _ h
    rw [if_neg d1] at h
    by_cases d2 : suffix.lt = .STRING
    · rw [if_pos d2] at h
      split at h
      · split at h
        · exact done_same _ h
        · simp at h
      · simp at h
    rw [if_neg d2] at h
    exact done_err _ _ h
  rw [if_neg c1] at h
  by_cases c2 : strncmpEq op.value ['-'] 1 = true
  · rw [if_pos c2] at h
    by_cases d1 : suffix.lt = .INT
    · rw [if_pos d1] at h; exact done_same _ h
    rw [if_neg d1] at h
    exact done_err _ _ h
  rw [if_neg c2] at h
  by_cases c3 : strncmpEq op.value ['*'] 1 = true
  · rw [if_pos c3] at h
    by_cases d1 : suffix.lt = .INT
    · rw [if_pos d1] at h; exact done_same _ h
    rw [if_neg d1] at h
    exact done_err _ _ h
  rw [if_neg c3] at h
  by_cases c4 : strncmpEq op.value ['/'] 1 = true
  · rw [if_pos c4] at h
    by_cases d0 : suffix.i = 0
    · rw [if_pos d0] at h; exact done_err _ _ h
    rw [if_neg d0] at h
    by_cases d1 : suffix.lt = .INT
    · rw [if_pos d1] at h; exact done_same _ h
    rw [if_neg d1] at h
    exact done_err _ _ h
  rw [if_neg c4] at h
  by_cases c5 : strncmpEq op.value ['&'] 1 = true
  · rw [if_pos c5] at h
    by_cases d1 : suffix.lt = .BOOL
    · rw [if_pos d1] at h; exact done_same _ h
    rw [if_neg d1] at h
    exact done_err _ _ h
  rw [if_neg c5] at h
  by_cases c6 : strncmpEq op.value ['<'] 1 = true
  · rw [if_pos c6] at h
    split at h
    · exact done_err _ _ h
    · exact done_same _ h
    · split at h
      · exact done_same _ h
      · simp at h
    · exact done_same _ h
  rw [if_neg c6] at h
  by_cases c7 : strncmpEq op.value ['='] 1 = true
  · rw [if_pos c7] at h
    split at h
    · exact done_err _ _ h
    · exact done_same _ h
    · split at h
      · exact done_same _ h
      · simp at h
    · exact done_same _ h
  rw [if_neg c7] at h
  exact done_same _ h

theorem applyBinary_frame (op : token) (oper suffix : value) (st : Env) (r : value × Env)
    (h : applyBinary op oper suffix st = .done r) : Frame st r.2 := by
  rcases applyBinary_cases op oper suffix st r h with h1 | ⟨m, et, h1⟩
  · rw [h1]; exact Frame.refl _
  · rw [h1]; exact frame_printError _ _ _ _

mutual
theorem expression_frame : ∀ (n : expression_node) (st : Env) (r : value × Env),
    expression n st = .done r → Frame st r.2
  | .NULL, st, r, h => by
    simp only [expression, Outcome.done.injEq] at h; subst h; exact Frame.refl _
  | .error, st, r, h => by simp [expression] at h
  | .node u b, st, r, h => by
    rw [expression] at h
    obtain ⟨r1, h1, h2⟩ := Outcome.bind_eq_done _ _ _ h
    have f1 := unaryExpression_frame u st r1 h1
    split_ifs at h2
    · simp only [Outcome.done.injEq] at h2; subst h2; exact f1
    · exact f1.trans (binaryExpression_frame b r1.2 r h2)
theorem unaryExpression_frame : ∀ (n : unary_expression_node) (st : Env) (r : value × Env),
    unaryExpression n st = .done r → Frame st r.2
  | .NULL, st, r, h => by
    simp only [unaryExpression, Outcome.done.injEq] at h; subst h; exact Frame.refl _
  | .error, st, r, h => by simp [unaryExpression] at h
  | .node (some unop) opern, st, r, h => by
    rw [unaryExpression] at h
    obtain ⟨r1, h1, h2⟩ := Outcome.bind_eq_done _ _ _ h
    have f1 := operand_frame opern st r1 h1
    split_ifs at h2
    · simp only [Outcome.done.injEq] at h2; subst h2
      exact f1.trans (frame_printError _ _ _ _)
    · simp only [Outcome.done.injEq] at h2; subst h2; exact f1
  | .node none opern, st, r, h => by
    rw [unaryExpression] at h
    exact operand_frame opern st r h
theorem binaryExpression_frame : ∀ (n : binary_expression_node) (st : Env) (r : value × Env),
    binaryExpression n st = .done r → Frame st r.2
  | .NULL, st, r, h => by
    simp only [binaryExpression, Outcome.done.injEq] at h; subst h; exact Frame.refl _
  | .error, st, r, h => by simp [binaryExpression] at h
  | .node opern osn, st, r, h => by
    rw [binaryExpression] at h
    obtain ⟨rs, h1, h2⟩ := Outcome.bind_eq_done _ _ _ h
    obtain ⟨ro, h3, h4⟩ := Outcome.bind_eq_done _ _ _ h2
    have f1 := operandSuffix_frame osn st rs h1
    have f2 := operand_frame opern rs.2 ro h3
    simp only at h4
    split_ifs at h4
    · simp only [Outcome.done.injEq] at h4; subst h4; exact f1.trans f2
    · split at h4
      · exact (f1.trans f2).trans (applyBinary_frame _ _ _ _ _ h4)
      · simp at h4
    · simp only [Outcome.done.injEq] at h4; subst h4; exact f1.trans f2
theorem operandSuffix_frame : ∀ (n : operand_suffix_node) (st : Env) (r : value × Env),
    operandSuffix n st = .done r → Frame st r.2
  | .NULL, st, r, h => by
    simp only [operandSuffix, Outcome.done.injEq] at h; subst h; exact Frame.refl _
  | .error, st, r, h => by simp [operandSuffix] at h
  | .node _ opn, st, r, h => by
    rw [operandSuffix] at h
    exact operand_frame opn st r h
theorem operand_frame : ∀ (n : operand_node) (st : Env) (r : value × Env),
    operand n st = .done r → Frame st r.2
  | .NULL, st, r, h => by simp [operand] at h
  | .error, st, r, h => by simp [operand] at h
  | .node intLit strLit id expren, st, r, h => by
    rw [operand] at h
    obtain ⟨r1, h1, h2⟩ := Outcome.bind_eq_done _ _ _ h
    have f1 := enclosedExpression_frame expren st r1 h1
    split_ifs at h2
    · simp only [Outcome.done.injEq] at h2; subst h2; exact f1
    · split at h2
      · simp only [Outcome.done.injEq] at h2; subst h2; exact f1
      · simp only [Outcome.done.injEq] at h2; subst h2; exact f1
      · simp only at h2
        split_ifs at h2
        · simp only [Outcome.done.injEq] at h2; subst h2
          exact f1.trans (frame_findLabelValue _ _)
        · simp only [Outcome.done.injEq] at h2; subst h2
          exact f1.trans (frame_findLabelValue _ _)
      · simp at h2
theorem enclosedExpression_frame : ∀ (n : enclosed_expression_node) (st : Env)
    (r : value × Env), enclosedExpression n st = .done r → Frame st r.2
  | .NULL, st, r, h => by
    simp only [enclosedExpression, Outcome.done.injEq] at h; subst h; exact Frame.refl _
  | .error, st, r, h => by simp [enclosedExpression] at h
  | .node _ expn _, st, r, h => by
    rw [enclosedExpression] at h
    exact expression_frame expn st r h
end

/-! ## The symbol table: `update` -/

theorem sameLabel_comm (a b : List Char) : sameLabel a b = sameLabel b a := by
  unfold sameLabel strncmpEq
  rw [Bool.eq_iff_iff]
  simp only [beq_iff_eq]
  exact eq_comm

/-- The entry `findLabel` returns is the first one with the label. -/
theorem findLabelLoop_some (name : List Char) (l : label_list) (e : label_entry)
    (h : findLabelLoop name l = some e) :
    ∃ pre post, l = pre ++ e :: post ∧ sameLabel name e.1 = true ∧
      ∀ x ∈ pre, sameLabel name x.1 = false := by
  induction l with
  | nil => simp [findLabelLoop] at h
  | cons a rest ih =>
    by_cases hs : sameLabel name a.1 = true
    · rw [findLabelLoop, if_pos hs] at h
      simp only [Option.some.injEq] at h
      subst h
      exact ⟨[], rest, rfl, hs, by simp⟩
    · rw [findLabelLoop, if_neg hs] at h
      obtain ⟨pre, post, h1, h2, h3⟩ := ih h
      refine ⟨a :: pre, post, by rw [h1]; rfl, h2, ?_⟩
      intro x hx
      rcases List.mem_cons.1 hx with hx | hx
      · rw [hx]; simpa using hs
      · exact h3 x hx

theorem findLabelLoop_none (name : List Char) (l : label_list)
    (h : findLabelLoop name l = none) : ∀ x ∈ l, sameLabel name x.1 = false := by
  induction l with
  | nil => simp
  | cons a rest ih =>
    by_cases hs : sameLabel name a.1 = true
    · rw [findLabelLoop, if_pos hs] at h; simp at h
    · rw [findLabelLoop, if_neg hs] at h
      intro x hx
      rcases List.mem_cons.1 hx with hx | hx
      · rw [hx]; simpa using hs
      · exact ih h x hx

theorem findLabelLoop_split (name : List Char) (pre post : label_list) (e : label_entry)
    (he : sameLabel name e.1 = true) (hpre : ∀ x ∈ pre, sameLabel name x.1 = false) :
    findLabelLoop name (pre ++ e :: post) = some e := by
  induction pre with
  | nil => simp [findLabelLoop, he]
  | cons a rest ih =>
    have ha := hpre a (List.mem_cons_self _ _)
    rw [List.cons_append, findLabelLoop, ha]
    simp only [Bool.false_eq_true, if_false]
    exact ih (fun x hx => hpre x (List.mem_cons_of_mem _ hx))

theorem forceUpdateLoop_split (name : List Char) (v : value) (pre post : label_list)
    (e : label_entry) (he : sameLabel name e.1 = true)
    (hpre : ∀ x ∈ pre, sameLabel name x.1 = false) :
    forceUpdateLoop name v (pre ++ e :: post) = pre ++ (e.1, v) :: post := by
  induction pre with
  | nil =>
    rw [sameLabel_comm] at he
    simp [forceUpdateLoop, he]
  | cons a rest ih =>
    have ha := hpre a (List.mem_cons_self _ _)
    rw [sameLabel_comm] at ha
    rw [List.cons_append, forceUpdateLoop, ha]
    simp only [Bool.false_eq_true, if_false, List.cons_append, List.cons.injEq, true_and]
    exact ih (fun x hx => hpre x (List.mem_cons_of_mem _ hx))

theorem findLabelValue_of_some (id : token) (st : Env) (e : label_entry)
    (h : findLabelLoop id.value st.global_list = some e) : findLabelValue id st = (e.2, st) := by
  simp [findLabelValue, findLabel, h]

theorem findLabelType_of_some (id : token) (st : Env) (e : label_entry)
    (h : findLabelLoop id.value st.global_list = some e) : findLabelType id st = (e.2.lt, st) := by
  simp [findLabelType, findLabel, h]

theorem findLabelType_of_none (id : token) (st : Env)
    (h : findLabelLoop id.value st.global_list = none) :
    findLabelType id st =
      (UNDEF, printError id ("Reference to unknown variable ".toList ++ id.value)
        SEMANTIC_ERROR st) := by
  simp [findLabelType, findLabel, h]

/-- What `update` does on a name that has an entry: with the `constant` flag set it fails with
the diagnostic; otherwise the value of that entry is replaced. -/
theorem update_of_some (id : token) (v : value) (st : Env) (e : label_entry)
    (h : findLabelLoop id.value st.global_list = some e) :
    (e.2.constant ≠ 0 → update id v st =
      (0, printError id "Cannot modify the loop control variable".toList SEMANTIC_ERROR st)) ∧
    (e.2.constant = 0 → ∃ pre post, st.global_list = pre ++ e :: post ∧
      (∀ x ∈ pre, sameLabel id.value x.1 = false) ∧
      update id v st = (1, { st with global_list := pre ++ (e.1, v) :: post })) := by
  constructor
  · intro hc
    simp [update, isConstant, findLabelValue_of_some id st e h, hc]
  · intro hc
    obtain ⟨pre, post, h1, h2, h3⟩ := findLabelLoop_some _ _ _ h
    refine ⟨pre, post, h1, h3, ?_⟩
    simp only [update, isConstant, findLabelValue_of_some id st e h, hc, if_true, ne_eq,
      not_true_eq_false, if_false, forceUpdate, Prod.mk.injEq, true_and]
    rw [h1, forceUpdateLoop_split _ _ _ _ _ h2 h3]

/-- C11: on a symbol table with an entry for the name, `update` fails and leaves the whole
table unchanged (one diagnostic is written) when the `constant` flag of that entry is set;
otherwise it succeeds, the lookup of the name afterwards returns the new value, and the table
is the old one with the value of that entry replaced. -/
theorem update_contract (id : token) (v : value) (st : Env) (e : label_entry)
    (h : findLabelLoop id.value st.global_list = some e) :
    (e.2.constant ≠ 0 →
      (update id v st).1 = 0 ∧ (update id v st).2.global_list = st.global_list ∧
      (update id v st).2.err = st.err ++
        semanticsErrorText id "Cannot modify the loop control variable".toList SEMANTIC_ERROR) ∧
    (e.2.constant = 0 →
      (update id v st).1 = 1 ∧
      findLabelValue id (update id v st).2 = (v, (update id v st).2) ∧
      ∃ pre post, st.global_list = pre ++ e :: post ∧
        (update id v st).2 = { st with global_list := pre ++ (e.1, v) :: post }) := by
  obtain ⟨h1, h2⟩ := update_of_some id v st e h
  constructor
  · intro hc
    rw [h1 hc]
    exact ⟨rfl, rfl, rfl⟩
  · intro hc
    obtain ⟨pre, post, hl, hpre, hu⟩ := h2 hc
    obtain ⟨_, _, _, hs, _⟩ := findLabelLoop_some _ _ _ h
    rw [hu]
    refine ⟨rfl, ?_, pre, post, hl, rfl⟩
    apply findLabelValue_of_some id _ (e.1, v)
    exact findLabelLoop_split _ _ _ (e.1, v) hs hpre

theorem update_contract_witness :
    findLabelLoop ['x']
        [(['y'], ⟨3, 0, none, 0, 0, 1, INT⟩), (['x'], ⟨1, 0, none, 0, 0, 0, INT⟩)] =
      some (['x'], ⟨1, 0, none, 0, 0, 0, INT⟩) ∧
    ((0 : Int) ≠ 0 →
      (update ⟨TOKEN_IDENTIFIER, ['x'], 2⟩ ⟨7, 0, none, 0, 0, 0, INT⟩
        ⟨[(['y'], ⟨3, 0, none, 0, 0, 1, INT⟩), (['x'], ⟨1, 0, none, 0, 0, 0, INT⟩)],
          [], [], []⟩).1 = 0 ∧
      (update ⟨TOKEN_IDENTIFIER, ['x'], 2⟩ ⟨7, 0, none, 0, 0, 0, INT⟩
        ⟨[(['y'], ⟨3, 0, none, 0, 0, 1, INT⟩), (['x'], ⟨1, 0, none, 0, 0, 0, INT⟩)],
          [], [], []⟩).2.global_list =
        [(['y'], ⟨3, 0, none, 0, 0, 1, INT⟩), (['x'], ⟨1, 0, none, 0, 0, 0, INT⟩)] ∧
      (update ⟨TOKEN_IDENTIFIER, ['x'], 2⟩ ⟨7, 0, none, 0, 0, 0, INT⟩
        ⟨[(['y'], ⟨3, 0, none, 0, 0, 1, INT⟩), (['x'], ⟨1, 0, none, 0, 0, 0, INT⟩)],
          [], [], []⟩).2.err = [] ++
        semanticsErrorText ⟨TOKEN_IDENTIFIER, ['x'], 2⟩
          "Cannot modify the loop control variable".toList SEMANTIC_ERROR) ∧
    ((0 : Int) = 0 →
      (update ⟨TOKEN_IDENTIFIER, ['x'], 2⟩ ⟨7, 0, none, 0, 0, 0, INT⟩
        ⟨[(['y'], ⟨3, 0, none, 0, 0, 1, INT⟩), (['x'], ⟨1, 0, none, 0, 0, 0, INT⟩)],
          [], [], []⟩).1 = 1 ∧
      findLabelValue ⟨TOKEN_IDENTIFIER, ['x'], 2⟩
          (update ⟨TOKEN_IDENTIFIER, ['x'], 2⟩ ⟨7, 0, none, 0, 0, 0, INT⟩
            ⟨[(['y'], ⟨3, 0, none, 0, 0, 1, INT⟩), (['x'], ⟨1, 0, none, 0, 0, 0, INT⟩)],
              [], [], []⟩).2 =
        (⟨7, 0, none, 0, 0, 0, INT⟩,
          (update ⟨TOKEN_IDENTIFIER, ['x'], 2⟩ ⟨7, 0, none, 0, 0, 0, INT⟩
            ⟨[(['y'], ⟨3, 0, none, 0, 0, 1, INT⟩), (['x'], ⟨1, 0, none, 0, 0, 0, INT⟩)],
              [], [], []⟩).2) ∧
      ∃ pre post,
        [((['y'] : List Char), (⟨3, 0, none, 0, 0, 1, INT⟩ : value)),
            (['x'], ⟨1, 0, none, 0, 0, 0, INT⟩)] =
          pre ++ (['x'], ⟨1, 0, none, 0, 0, 0, INT⟩) :: post ∧
        (update ⟨TOKEN_IDENTIFIER, ['x'], 2⟩ ⟨7, 0, none, 0, 0, 0, INT⟩
          ⟨[(['y'], ⟨3, 0, none, 0, 0, 1, INT⟩), (['x'], ⟨1, 0, none, 0, 0, 0, INT⟩)],
            [], [], []⟩).2 =
          { (⟨[(['y'], ⟨3, 0, none, 0, 0, 1, INT⟩), (['x'], ⟨1, 0, none, 0, 0, 0, INT⟩)],
              [], [], []⟩ : Env) with
            global_list := pre ++ ((['x'] : List Char), (⟨7, 0, none, 0, 0, 0, INT⟩ : value)) :: post }) :=
  ⟨by decide,
    update_contract ⟨TOKEN_IDENTIFIER, ['x'], 2⟩ ⟨7, 0, none, 0, 0, 0, INT⟩
      ⟨[(['y'], ⟨3, 0, none, 0, 0, 1, INT⟩), (['x'], ⟨1, 0, none, 0, 0, 0, INT⟩)], [], [], []⟩
      (['x'], ⟨1, 0, none, 0, 0, 0, INT⟩) (by decide)⟩

/-! ## Assignments and declarations -/

theorem insertScan_of_findLabelLoop_none (name : List Char) (l : label_list)
    (h : findLabelLoop name l = none) : insertScan name l = none := by
  induction l with
  | nil => rfl
  | cons a rest ih =>
    by_cases hs : sameLabel name a.1 = true
    · rw [findLabelLoop, if_pos hs] at h; simp at h
    · rw [findLabelLoop, if_neg hs] at h
      rw [sameLabel_comm] at hs
      rw [insertScan, if_neg hs, ih h]

theorem insert_new (id : token) (v : value) (st : Env)
    (h : findLabelLoop id.value st.global_list = none) :
    insert id v st = (1, { st with global_list := (id.value, v) :: st.global_list }) := by
  simp [insert, insertScan_of_findLabelLoop_none _ _ h]

theorem sameLabel_self (a : List Char) : sameLabel a a = true := (sameLabel_iff _ _).2 rfl

theorem findLabelValue_head (id : token) (v : value) (st : Env) (l : label_list) :
    findLabelValue id { st with global_list := (id.value, v) :: l } =
      (v, { st with global_list := (id.value, v) :: l }) := by
  simp [findLabelValue, findLabel, findLabelLoop, sameLabel_self]

/-- The assignment `x := e` outside the string concatenations, whose evaluation never returns
`done`: it fails and leaves the symbol table unchanged when `x` has no entry, and when the
type of the value of `e` differs from the type of the entry of `x`; when `x` has an entry with
a type that is not constant, and `e` evaluates to a value of that type that is neither the
error nor the empty value, the assignment succeeds, the lookup of `x` afterwards returns
exactly that value, and the table is the old one with the value of that entry replaced. -/
theorem assignment_contract (id : token) (assOp : Option token) (expn : expression_node)
    (st : Env) :
    (findLabelLoop id.value st.global_list = none →
      ∃ st2, assignment (.node (some id) assOp expn) st = .done (0, st2) ∧ Frame st st2) ∧
    (∀ e v st1, findLabelLoop id.value st.global_list = some e →
      expression expn st = .done (v, st1) → v.lt ≠ e.2.lt →
      ∃ st2, assignment (.node (some id) assOp expn) st = .done (0, st2) ∧ Frame st st2) ∧
    (∀ e v st1, findLabelLoop id.value st.global_list = some e → e.2.lt ≠ UNDEF →
      e.2.constant = 0 → expression expn st = .done (v, st1) → v.error ≠ 1 → v.empty ≠ 1 →
      v.lt = e.2.lt →
      ∃ pre post, st.global_list = pre ++ e :: post ∧
        assignment (.node (some id) assOp expn) st =
          .done (1, { st1 with global_list := pre ++ (e.1, v) :: post }) ∧
        findLabelValue id { st1 with global_list := pre ++ (e.1, v) :: post } =
          (v, { st1 with global_list := pre ++ (e.1, v) :: post }) ∧
        st1.out = st.out ∧ st1.inp = st.inp) := by
  refine ⟨?_, ?_, ?_⟩
  · intro hn
    rw [assignment]
    simp only [findLabelType_of_none id st hn, if_true]
    exact ⟨_, rfl, (frame_printError _ _ _ _).trans (frame_printError _ _ _ _)⟩
  · intro e v st1 hs he hlt
    rw [assignment]
    simp only [findLabelType_of_some id st e hs]
    by_cases hu : e.2.lt = UNDEF
    · rw [if_pos hu]
      exact ⟨_, rfl, frame_printError _ _ _ _⟩
    · rw [if_neg hu, he]
      simp only [Outcome.bind_done]
      rw [if_pos (fun hh => hlt hh.symm)]
      exact ⟨_, rfl, (expression_frame _ _ _ he).trans (frame_printError _ _ _ _)⟩
  · intro e v st1 hs hu hc he herr hemp hlt
    have hf := expression_frame _ _ _ he
    have hs1 : findLabelLoop id.value st1.global_list = some e := by
      rw [hf.1]; exact hs
    obtain ⟨pre, post, hl, hpre, hupd⟩ := (update_of_some id v st1 e hs1).2 hc
    obtain ⟨_, _, _, hsame, _⟩ := findLabelLoop_some _ _ _ hs
    refine ⟨pre, post, by rw [← hf.1]; exact hl, ?_, ?_, hf.2.1, hf.2.2.1⟩
    · rw [assignment]
      simp only [findLabelType_of_some id st e hs]
      rw [if_neg hu, he]
      simp only [Outcome.bind_done]
      rw [if_neg (fun hh => hh hlt.symm), if_pos ⟨herr, hemp⟩, hupd]
    · apply findLabelValue_of_some id _ (e.1, v)
      exact findLabelLoop_split _ _ _ (e.1, v) hsame hpre

theorem assignment_contract_witness :
    ∃ pre post,
      [((['y'] : List Char), (⟨3, 0, none, 0, 0, 1, INT⟩ : value)),
          (['x'], ⟨1, 0, none, 0, 0, 0, INT⟩)] =
        pre ++ (['x'], ⟨1, 0, none, 0, 0, 0, INT⟩) :: post ∧
      assignment (.node (some (tok TOKEN_IDENTIFIER "x")) none (operandExpr (intOperand "7")))
          ⟨[(['y'], ⟨3, 0, none, 0, 0, 1, INT⟩), (['x'], ⟨1, 0, none, 0, 0, 0, INT⟩)],
            [], [], []⟩ =
        .done (1, { (⟨[(['y'], ⟨3, 0, none, 0, 0, 1, INT⟩), (['x'], ⟨1, 0, none, 0, 0, 0, INT⟩)],
            [], [], []⟩ : Env) with
          global_list := pre ++ ((['x'] : List Char), (⟨7, 0, none, 0, 0, 0, INT⟩ : value)) :: post }) ∧
      findLabelValue (tok TOKEN_IDENTIFIER "x")
          { (⟨[(['y'], ⟨3, 0, none, 0, 0, 1, INT⟩), (['x'], ⟨1, 0, none, 0, 0, 0, INT⟩)],
              [], [], []⟩ : Env) with
            global_list := pre ++ ((['x'] : List Char), (⟨7, 0, none, 0, 0, 0, INT⟩ : value)) :: post } =
        (⟨7, 0, none, 0, 0, 0, INT⟩,
          { (⟨[(['y'], ⟨3, 0, none, 0, 0, 1, INT⟩), (['x'], ⟨1, 0, none, 0, 0, 0, INT⟩)],
              [], [], []⟩ : Env) with
            global_list := pre ++ ((['x'] : List Char), (⟨7, 0, none, 0, 0, 0, INT⟩ : value)) :: post }) ∧
      ([] : List Char) = [] ∧ ([] : List Char) = [] :=
  (assignment_contract (tok TOKEN_IDENTIFIER "x") none (operandExpr (intOperand "7"))
      ⟨[(['y'], ⟨3, 0, none, 0, 0, 1, INT⟩), (['x'], ⟨1, 0, none, 0, 0, 0, INT⟩)],
        [], [], []⟩).2.2
    (['x'], ⟨1, 0, none, 0, 0, 0, INT⟩) ⟨7, 0, none, 0, 0, 0, INT⟩
    ⟨[(['y'], ⟨3, 0, none, 0, 0, 1, INT⟩), (['x'], ⟨1, 0, none, 0, 0, 0, INT⟩)], [], [], []⟩
    (by decide) (by decide) (by decide) (by decide) (by decide) (by decide) (by decide)

/-- A declaration with an initializer outside the string concatenations, whose evaluation
never returns `done`: for a name that has no entry yet, when the initializer evaluates to a
value, the declaration succeeds when the type of the value equals the declared type, and then
the name is bound to that value at the head of the table; when the type of the value differs
from the declared type - in particular when the value is the error value - the declaration
fails with the diagnostic `Incompatible types in declaration` and the symbol table is left
unchanged. -/
theorem declaration_with_initializer (varKey col ass : Option token) (id typeKey : token)
    (expn : expression_node) (st st1 : Env) (v : value)
    (hnew : findLabelLoop id.value st.global_list = none)
    (hty : expectedType typeKey ≠ UNDEF)
    (he : expression expn st = .done (v, st1)) (hv : v.empty = 0) :
    (v.lt = expectedType typeKey →
      declaration (.node varKey (some id) col (some typeKey) (.node ass expn)) st =
        .done (1, { st1 with global_list := (id.value, v) :: st.global_list }) ∧
      findLabelValue id { st1 with global_list := (id.value, v) :: st.global_list } =
        (v, { st1 with global_list := (id.value, v) :: st.global_list }) ∧
      st1.out = st.out ∧ st1.inp = st.inp) ∧
    (v.lt ≠ expectedType typeKey ∨ v = error_value →
      declaration (.node varKey (some id) col (some typeKey) (.node ass expn)) st =
        .done (0, printError id "Incompatible types in declaration".toList SEMANTIC_ERROR st1) ∧
      Frame st
        (printError id "Incompatible types in declaration".toList SEMANTIC_ERROR st1)) := by
  have hf := expression_frame _ _ _ he
  have hnew1 : findLabelLoop id.value st1.global_list = none := by rw [hf.1]; exact hnew
  constructor
  · intro hlt
    refine ⟨?_, findLabelValue_head id v st1 _, hf.2.1, hf.2.2.1⟩
    rw [declaration]
    simp only [declarationSuffix, he, Outcome.bind_done, hv, ne_eq, not_true_eq_false,
      if_false, hlt, insert_new id v st1 hnew1, one_ne_zero]
    rw [hf.1]
  · intro hlt
    have hlt1 : v.lt ≠ expectedType typeKey := by
      rcases hlt with h | h
      · exact h
      · rw [h]; exact fun hh => hty hh.symm
    refine ⟨?_, hf.trans (frame_printError _ _ _ _)⟩
    rw [declaration]
    simp only [declarationSuffix, he, Outcome.bind_done, hv, ne_eq, not_true_eq_false,
      if_false, hlt1, not_false_eq_true, if_true]

theorem declaration_with_initializer_witness :
    findLabelLoop (tok TOKEN_IDENTIFIER "x").value ([] : label_list) = none ∧
    expectedType (tok TOKEN_TYPEKEY "int") ≠ UNDEF ∧
    expression (operandExpr (intOperand "7")) ⟨[], [], [], []⟩ =
      .done (⟨7, 0, none, 0, 0, 0, INT⟩, ⟨[], [], [], []⟩) ∧
    ((INT = expectedType (tok TOKEN_TYPEKEY "int") →
      declaration (.node none (some (tok TOKEN_IDENTIFIER "x")) none
          (some (tok TOKEN_TYPEKEY "int")) (.node none (operandExpr (intOperand "7"))))
          ⟨[], [], [], []⟩ =
        .done (1, ⟨[((tok TOKEN_IDENTIFIER "x").value, ⟨7, 0, none, 0, 0, 0, INT⟩)],
          [], [], []⟩) ∧
      findLabelValue (tok TOKEN_IDENTIFIER "x")
          ⟨[((tok TOKEN_IDENTIFIER "x").value, ⟨7, 0, none, 0, 0, 0, INT⟩)], [], [], []⟩ =
        (⟨7, 0, none, 0, 0, 0, INT⟩,
          ⟨[((tok TOKEN_IDENTIFIER "x").value, ⟨7, 0, none, 0, 0, 0, INT⟩)], [], [], []⟩) ∧
      ([] : List Char) = [] ∧ ([] : List Char) = []) ∧
    (INT ≠ expectedType (tok TOKEN_TYPEKEY "int") ∨
        (⟨7, 0, none, 0, 0, 0, INT⟩ : value) = error_value →
      declaration (.node none (some (tok TOKEN_IDENTIFIER "x")) none
          (some (tok TOKEN_TYPEKEY "int")) (.node none (operandExpr (intOperand "7"))))
          ⟨[], [], [], []⟩ =
        .done (0, printError (tok TOKEN_IDENTIFIER "x")
          "Incompatible types in declaration".toList SEMANTIC_ERROR ⟨[], [], [], []⟩) ∧
      Frame ⟨[], [], [], []⟩
        (printError (tok TOKEN_IDENTIFIER "x")
          "Incompatible types in declaration".toList SEMANTIC_ERROR ⟨[], [], [], []⟩))) :=
  ⟨by decide, by decide, by decide,
    declaration_with_initializer none none none (tok TOKEN_IDENTIFIER "x")
      (tok TOKEN_TYPEKEY "int") (operandExpr (intOperand "7")) ⟨[], [], [], []⟩
      ⟨[], [], [], []⟩ ⟨7, 0, none, 0, 0, 0, INT⟩ (by decide) (by decide) (by decide)
      (by decide)⟩

/-- C15: a declaration without initializer of a name that has no entry yet succeeds and binds
the name to the default of its declared type - the int 0 for `int`, false for `bool`, the
empty string for `string`; the program `var x : int; print x;` prints `0`, and the program
`var s : string; print s;` prints nothing (the programs have no loop, so that no fuel
is needed). -/
theorem declaration_default (varKey col : Option token) (id typeKey : token) (st : Env)
    (hnew : findLabelLoop id.value st.global_list = none)
    (hty : expectedType typeKey ≠ UNDEF) :
    (declaration (.node varKey (some id) col (some typeKey) .NULL) st =
      .done (1, { st with
        global_list := (id.value, specDefault (expectedType typeKey)) :: st.global_list }) ∧
    findLabelValue id { st with
        global_list := (id.value, specDefault (expectedType typeKey)) :: st.global_list } =
      (specDefault (expectedType typeKey), { st with
        global_list := (id.value, specDefault (expectedType typeKey)) :: st.global_list })) ∧
    (expectedType (tok TOKEN_TYPEKEY "int") = INT ∧
      expectedType (tok TOKEN_TYPEKEY "bool") = BOOL ∧
      expectedType (tok TOKEN_TYPEKEY "string") = STRING) ∧
    run 0 (programOf [declStmt "x" "int" .NULL,
        printStmt (operandExpr (idOperand "x"))]) [] =
      .done (1, ⟨[("x".toList, ⟨0, 0, none, 0, 0, 0, INT⟩)], "0".toList, [], []⟩) ∧
    run 0 (programOf [declStmt "s" "string" .NULL,
        printStmt (operandExpr (idOperand "s"))]) [] =
      .done (1, ⟨[("s".toList, ⟨0, 0, some [], 0, 0, 0, STRING⟩)], [], [], []⟩) := by
  refine ⟨⟨?_, findLabelValue_head id _ st _⟩, ⟨by decide, by decide, by decide⟩, ?_, ?_⟩
  · rw [declaration]
    simp only [declarationSuffix, Outcome.bind_done]
    revert hty
    generalize expectedType typeKey = lt
    intro hty
    cases lt <;>
      simp [empty_value, default_value, specDefault, insert_new id _ st hnew]
  · decide
  · decide

theorem declaration_default_witness :
    findLabelLoop (tok TOKEN_IDENTIFIER "b").value
        [((tok TOKEN_IDENTIFIER "x").value, (⟨7, 0, none, 0, 0, 0, INT⟩ : value))] = none ∧
    expectedType (tok TOKEN_TYPEKEY "bool") ≠ UNDEF ∧
    declaration (.node none (some (tok TOKEN_IDENTIFIER "b")) none
        (some (tok TOKEN_TYPEKEY "bool")) .NULL)
        ⟨[((tok TOKEN_IDENTIFIER "x").value, ⟨7, 0, none, 0, 0, 0, INT⟩)], [], [], []⟩ =
      .done (1, ⟨[((tok TOKEN_IDENTIFIER "b").value, ⟨0, 0, none, 0, 0, 0, BOOL⟩),
        ((tok TOKEN_IDENTIFIER "x").value, ⟨7, 0, none, 0, 0, 0, INT⟩)], [], [], []⟩) :=
  ⟨by decide, by decide,
    (declaration_default none none (tok TOKEN_IDENTIFIER "b") (tok TOKEN_TYPEKEY "bool")
      ⟨[((tok TOKEN_IDENTIFIER "x").value, ⟨7, 0, none, 0, 0, 0, INT⟩)], [], [], []⟩
      (by decide) (by decide)).1.1⟩

/-! ## Binary and unary operators -/

/-- The start of `binaryExpression` on two operands that evaluate to values which are neither
empty nor the error value: the suffix is evaluated first, and the operator is applied to the
two values with their `constant` flags cleared. -/
theorem binaryExpression_apply (opern opn : operand_node) (op : token) (st st1 st2 : Env)
    (vl vr : value) (hr : operand opn st = .done (vr, st1))
    (hl : operand opern st1 = .done (vl, st2))
    (hvl : vl.error ≠ 1 ∧ vl.empty ≠ 1) (hvr : vr.error ≠ 1 ∧ vr.empty ≠ 1) :
    binaryExpression (.node opern (.node (some op) opn)) st =
      applyBinary op { vl with constant := 0 } { vr with constant := 0 } st2 := by
  rw [binaryExpression]
  simp only [operandSuffix, hr, hl, Outcome.bind_done]
  rw [if_neg (by simp [hvl.1, hvl.2, hvr.1]), if_pos (by simp [hvr.2])]

/-- C16: for int operands `l` (left) and `r` (right), the right one evaluated first, the binary
expressions `l + r`, `l - r` and `l * r` evaluate to the ints `l + r`, `l - r` and `l * r`
when these fit the machine int, and for `r` other than 0 the expression `l / r` evaluates to
the quotient of `l` by `r` truncated toward zero when it fits. -/
theorem int_arithmetic (opern opn : operand_node) (op : token) (st st1 st2 : Env)
    (vl vr : value) (hr : operand opn st = .done (vr, st1))
    (hl : operand opern st1 = .done (vl, st2))
    (hvl : vl.lt = INT ∧ vl.error = 0 ∧ vl.empty = 0)
    (hvr : vr.lt = INT ∧ vr.error = 0 ∧ vr.empty = 0) :
    (op.value = ['+'] → INT_MIN ≤ vl.i + vr.i → vl.i + vr.i ≤ INT_MAX →
      ∃ v, binaryExpression (.node opern (.node (some op) opn)) st = .done (v, st2) ∧
        v.lt = INT ∧ v.i = vl.i + vr.i ∧ v.error = 0 ∧ v.empty = 0) ∧
    (op.value = ['-'] → INT_MIN ≤ vl.i - vr.i → vl.i - vr.i ≤ INT_MAX →
      ∃ v, binaryExpression (.node opern (.node (some op) opn)) st = .done (v, st2) ∧
        v.lt = INT ∧ v.i = vl.i - vr.i ∧ v.error = 0 ∧ v.empty = 0) ∧
    (op.value = ['*'] → INT_MIN ≤ vl.i * vr.i → vl.i * vr.i ≤ INT_MAX →
      ∃ v, binaryExpression (.node opern (.node (some op) opn)) st = .done (v, st2) ∧
        v.lt = INT ∧ v.i = vl.i * vr.i ∧ v.error = 0 ∧ v.empty = 0) ∧
    (op.value = ['/'] → vr.i ≠ 0 → INT_MIN ≤ Int.tdiv vl.i vr.i →
      Int.tdiv vl.i vr.i ≤ INT_MAX →
      ∃ v, binaryExpression (.node opern (.node (some op) opn)) st = .done (v, st2) ∧
        v.lt = INT ∧ v.i = Int.tdiv vl.i vr.i ∧ v.error = 0 ∧ v.empty = 0) := by
  have hb := binaryExpression_apply opern opn op st st1 st2 vl vr hr hl
    (by simp [hvl.2.1, hvl.2.2]) (by simp [hvr.2.1, hvr.2.2])
  obtain ⟨l1, l2, l3⟩ := hvl
  obtain ⟨r1, r2, r3⟩ := hvr
  have e1 : strncmpEq ['+'] ['+'] 1 = true := by decide
  have e2 : strncmpEq ['-'] ['+'] 1 = false := by decide
  have e3 : strncmpEq ['-'] ['-'] 1 = true := by decide
  have e4 : strncmpEq ['*'] ['+'] 1 = false := by decide
  have e5 : strncmpEq ['*'] ['-'] 1 = false := by decide
  have e6 : strncmpEq ['*'] ['*'] 1 = true := by decide
  have e7 : strncmpEq ['/'] ['+'] 1 = false := by decide
  have e8 : strncmpEq ['/'] ['-'] 1 = false := by decide
  have e9 : strncmpEq ['/'] ['*'] 1 = false := by decide
  have e10 : strncmpEq ['/'] ['/'] 1 = true := by decide
  refine ⟨?_, ?_, ?_, ?_⟩
  · intro hop h1 h2
    rw [hb, applyBinary]
    simp only [l1, r1, hop, e1, ne_eq, not_true_eq_false, if_false, if_true]
    refine ⟨_, rfl, ?_⟩
    simp only [r2, r3, and_self, and_true, true_and]
    rw [wrapInt_of_range _ (by rw [add_comm]; exact h1) (by rw [add_comm]; exact h2)]
    exact add_comm _ _
  · intro hop h1 h2
    rw [hb, applyBinary]
    simp only [l1, r1, hop, e2, e3, ne_eq, not_true_eq_false, if_false, if_true,
      Bool.false_eq_true]
    refine ⟨_, rfl, ?_⟩
    simp only [r2, r3, and_self, and_true, true_and]
    exact wrapInt_of_range _ h1 h2
  · intro hop h1 h2
    rw [hb, applyBinary]
    simp only [l1, r1, hop, e4, e5, e6, ne_eq, not_true_eq_false, if_false, if_true,
      Bool.false_eq_true]
    refine ⟨_, rfl, ?_⟩
    simp only [r2, r3, and_self, and_true, true_and]
    rw [wrapInt_of_range _ (by rw [mul_comm]; exact h1) (by rw [mul_comm]; exact h2)]
    exact mul_comm _ _
  · intro hop hz h1 h2
    rw [hb, applyBinary]
    simp only [l1, r1, hop, e7, e8, e9, e10, hz, ne_eq, not_true_eq_false, if_false, if_true,
      Bool.false_eq_true]
    refine ⟨_, rfl, ?_⟩
    simp only [r2, r3, and_self, and_true, true_and]
    exact wrapInt_of_range _ h1 h2

theorem int_arithmetic_witness :
    Int.tdiv (-7) 2 = -3 ∧
    ∃ v, binaryExpression
        (.node (idOperand "x") (.node (some (tok TOKEN_BIN_OP "/")) (intOperand "2")))
        ⟨[("x".toList, ⟨-7, 0, none, 0, 0, 0, INT⟩)], [], [], []⟩ =
      .done (v, ⟨[("x".toList, ⟨-7, 0, none, 0, 0, 0, INT⟩)], [], [], []⟩) ∧
      v.lt = INT ∧ v.i = Int.tdiv (-7) 2 ∧ v.error = 0 ∧ v.empty = 0 :=
  ⟨by decide, (int_arithmetic (idOperand "x") (intOperand "2") (tok TOKEN_BIN_OP "/")
    ⟨[("x".toList, ⟨-7, 0, none, 0, 0, 0, INT⟩)], [], [], []⟩
    ⟨[("x".toList, ⟨-7, 0, none, 0, 0, 0, INT⟩)], [], [], []⟩
    ⟨[("x".toList, ⟨-7, 0, none, 0, 0, 0, INT⟩)], [], [], []⟩
    ⟨-7, 0, none, 0, 0, 0, INT⟩ ⟨2, 0, none, 0, 0, 0, INT⟩
    (by decide) (by decide) (by decide) (by decide)).2.2.2
    (by decide) (by decide) (by decide) (by decide)⟩

/-- The block that `realloc` returns for the string case of `+` is one byte too short for what
`strcat` stores in it. -/
theorem reallocStrcat_none (a b : List Char) : reallocStrcat a b = none := by
  unfold reallocStrcat
  simp only [List.length_append, List.length_singleton]
  rw [if_neg (by omega)]

/-- C17 on the failing inputs: for all strings `l` and `r`, the evaluation of the binary
expression `l + r` on two string literals stores a byte outside the block that `realloc`
returned - the block has `|l| + |r|` bytes, `strcat` stores `|l| + |r| + 1` - so that it
does not evaluate to the string `l` followed by `r`; for the empty strings the block has no
byte at all. The operator `+` on two boolean operands yields the error value with a
diagnostic. -/
theorem string_concat_writes_past_block :
    (∀ (l r : List Char) (ln1 ln2 ln3 : Int) (st : Env),
      binaryExpression
        (.node (.node none (some ⟨TOKEN_STRING_LITERAL, l, ln1⟩) none .NULL)
          (.node (some ⟨TOKEN_BIN_OP, ['+'], ln2⟩)
            (.node none (some ⟨TOKEN_STRING_LITERAL, r, ln3⟩) none .NULL))) st = .fault) ∧
    (∀ (op : token) (oper suffix : value) (st : Env) (l r : List Char),
      op.value = ['+'] → oper.lt = STRING → suffix.lt = STRING → oper.s = some l →
      suffix.s = some r → applyBinary op oper suffix st = .fault) ∧
    (∀ (op : token) (oper suffix : value) (st : Env),
      op.value = ['+'] → oper.lt = BOOL → suffix.lt = BOOL →
      applyBinary op oper suffix st =
        .done (error_value, printError op
          "Trying to use addition operator with boolean values".toList SEMANTIC_ERROR st)) := by
  have e1 : strncmpEq ['+'] ['+'] 1 = true := by decide
  have key : ∀ (op : token) (oper suffix : value) (st : Env) (l r : List Char),
      op.value = ['+'] → oper.lt = STRING → suffix.lt = STRING → oper.s = some l →
      suffix.s = some r → applyBinary op oper suffix st = .fault := by
    intro op oper suffix st l r hop h1 h2 h3 h4
    rw [applyBinary]
    simp only [h1, h2, h3, h4, hop, e1, ne_eq, not_true_eq_false, if_false, if_true,
      reallocStrcat_none, reduceCtorEq]
  refine ⟨?_, key, ?_⟩
  · intro l r ln1 ln2 ln3 st
    rw [binaryExpression_apply _ _ _ st st st ⟨0, 0, some l, 0, 0, 0, STRING⟩
      ⟨0, 0, some r, 0, 0, 0, STRING⟩ (by simp [operand, enclosedExpression, empty_value,
        default_value]) (by simp [operand, enclosedExpression, empty_value, default_value])
      (by simp) (by simp)]
    exact key _ _ _ _ l r rfl rfl rfl rfl rfl
  · intro op oper suffix st hop h1 h2
    rw [applyBinary]
    simp only [h1, h2, hop, e1, ne_eq, not_true_eq_false, if_false, if_true, reduceCtorEq]

theorem lex_cons_iff (m n : Nat) (l1 l2 : List Nat) :
    List.Lex (fun x y : Nat => x < y) (m :: l1) (n :: l2) ↔
      m < n ∨ (m = n ∧ List.Lex (fun x y : Nat => x < y) l1 l2) := by
  constructor
  · intro h
    cases h with
    | cons h => exact Or.inr ⟨rfl, h⟩
    | rel h => exact Or.inl h
  · rintro (h | ⟨rfl, h⟩)
    · exact List.Lex.rel h
    · exact List.Lex.cons h

/-- The test `strcmp(a, b) < 0` is the bytewise lexicographic order. -/
theorem strcmpLt_iff (a b : List Char) : strcmpLt a b = true ↔ specLexLt a b := by
  unfold specLexLt
  induction a generalizing b with
  | nil =>
    cases b with
    | nil =>
      simp only [strcmpLt, List.map_nil, Bool.false_eq_true, false_iff]
      intro h; cases h
    | cons y ys =>
      simp only [strcmpLt, List.map_nil, List.map_cons, true_iff]
      exact List.Lex.nil
  | cons x xs ih =>
    cases b with
    | nil =>
      simp only [strcmpLt, List.map_nil, List.map_cons, Bool.false_eq_true, false_iff]
      intro h; cases h
    | cons y ys =>
      rw [strcmpLt]
      simp only [List.map_cons]
      rw [lex_cons_iff]
      by_cases h1 : x.toNat < y.toNat
      · rw [if_pos h1]
        simp [h1]
      · rw [if_neg h1]
        by_cases h2 : x.toNat > y.toNat
        · rw [if_pos h2]
          simp only [Bool.false_eq_true, false_iff]
          rintro (h | ⟨h, _⟩) <;> omega
        · rw [if_neg h2]
          have heq : x.toNat = y.toNat := by omega
          rw [ih ys]
          constructor
          · intro h; exact Or.inr ⟨heq, h⟩
          · rintro (h | ⟨_, h⟩)
            · omega
            · exact h

/-- What `applyBinary` does for the operator `<` on two operands of the same type. -/
theorem applyBinary_lt (op : token) (oper suffix : value) (st : Env) (hop : op.value = ['<'])
    (hlt : suffix.lt = oper.lt) :
    applyBinary op oper suffix st =
      match suffix.lt with
      | .UNDEF => .done (error_value,
          printError op "Trying to use boolean operator < with non boolean values".toList
            .SEMANTIC_ERROR st)
      | .INT => .done ({ suffix with b := if oper.i < suffix.i then 1 else 0, lt := .BOOL }, st)
      | .STRING =>
        match oper.s, suffix.s with
        | some a, some b =>
          .done ({ suffix with b := if strcmpLt a b then 1 else 0, lt := .BOOL }, st)
        | _, _ => .fault
      | .BOOL => .done ({ suffix with b := if oper.b < suffix.b then 1 else 0, lt := .BOOL }, st) := by
  have e1 : strncmpEq ['<'] ['+'] 1 = false := by decide
  have e2 : strncmpEq ['<'] ['-'] 1 = false := by decide
  have e3 : strncmpEq ['<'] ['*'] 1 = false := by decide
  have e4 : strncmpEq ['<'] ['/'] 1 = false := by decide
  have e5 : strncmpEq ['<'] ['&'] 1 = false := by decide
  have e6 : strncmpEq ['<'] ['<'] 1 = true := by decide
  rw [applyBinary]
  simp only [hop, e1, e2, e3, e4, e5, e6, hlt, ne_eq, not_true_eq_false, if_false, if_true,
    Bool.false_eq_true]

/-- What `applyBinary` does for the operator `=` on two operands of the same type. -/
theorem applyBinary_eq (op : token) (oper suffix : value) (st : Env) (hop : op.value = ['='])
    (hlt : suffix.lt = oper.lt) :
    applyBinary op oper suffix st =
      match suffix.lt with
      | .UNDEF => .done (error_value,
          printError op "Trying to compare types with undefined types".toList .SEMANTIC_ERROR st)
      | .INT => .done ({ suffix with b := if oper.i = suffix.i then 1 else 0, lt := .BOOL }, st)
      | .STRING =>
        match oper.s, suffix.s with
        | some a, some b => .done ({ suffix with b := if b = a then 1 else 0, lt := .BOOL }, st)
        | _, _ => .fault
      | .BOOL => .done ({ suffix with b := if oper.b = suffix.b then 1 else 0, lt := .BOOL }, st) := by
  have e1 : strncmpEq ['='] ['+'] 1 = false := by decide
  have e2 : strncmpEq ['='] ['-'] 1 = false := by decide
  have e3 : strncmpEq ['='] ['*'] 1 = false := by decide
  have e4 : strncmpEq ['='] ['/'] 1 = false := by decide
  have e5 : strncmpEq ['='] ['&'] 1 = false := by decide
  have e6 : strncmpEq ['='] ['<'] 1 = false := by decide
  have e7 : strncmpEq ['='] ['='] 1 = true := by decide
  rw [applyBinary]
  simp only [hop, e1, e2, e3, e4, e5, e6, e7, hlt, ne_eq, not_true_eq_false, if_false, if_true,
    Bool.false_eq_true]

/-- C18: for two operands that evaluate to values of the same type, the right one first, the
binary expressions `l < r` and `l = r` evaluate to a boolean value: for ints it is true iff
`l < r` (resp. `l = r`), for strings iff `l` precedes `r` in the bytewise lexicographic order
(resp. the strings are equal), for booleans iff `l` is false and `r` is true (resp. they are
equal); for operands of different types every binary operator yields the error value, with the
diagnostic `Mismatched types in expression`. -/
theorem comparison_contract (opern opn : operand_node) (op : token) (st st1 st2 : Env)
    (vl vr : value) (hr : operand opn st = .done (vr, st1))
    (hl : operand opern st1 = .done (vl, st2))
    (hvl : vl.error = 0 ∧ vl.empty = 0) (hvr : vr.error = 0 ∧ vr.empty = 0) :
    (vl.lt = INT → vr.lt = INT →
      (op.value = ['<'] →
        ∃ v, binaryExpression (.node opern (.node (some op) opn)) st = .done (v, st2) ∧
          BoolResult v (vl.i < vr.i)) ∧
      (op.value = ['='] →
        ∃ v, binaryExpression (.node opern (.node (some op) opn)) st = .done (v, st2) ∧
          BoolResult v (vl.i = vr.i))) ∧
    (∀ a b, vl.lt = STRING → vr.lt = STRING → vl.s = some a → vr.s = some b →
      (op.value = ['<'] →
        ∃ v, binaryExpression (.node opern (.node (some op) opn)) st = .done (v, st2) ∧
          BoolResult v (specLexLt a b)) ∧
      (op.value = ['='] →
        ∃ v, binaryExpression (.node opern (.node (some op) opn)) st = .done (v, st2) ∧
          BoolResult v (a = b))) ∧
    (vl.lt = BOOL → vr.lt = BOOL → (vl.b = 0 ∨ vl.b = 1) → (vr.b = 0 ∨ vr.b = 1) →
      (op.value = ['<'] →
        ∃ v, binaryExpression (.node opern (.node (some op) opn)) st = .done (v, st2) ∧
          BoolResult v (vl.b = 0 ∧ vr.b = 1)) ∧
      (op.value = ['='] →
        ∃ v, binaryExpression (.node opern (.node (some op) opn)) st = .done (v, st2) ∧
          BoolResult v (vl.b = vr.b))) ∧
    (vl.lt ≠ vr.lt →
      binaryExpression (.node opern (.node (some op) opn)) st =
        .done (error_value,
          printError op "Mismatched types in expression".toList SEMANTIC_ERROR st2)) := by
  have hb := binaryExpression_apply opern opn op st st1 st2 vl vr hr hl
    (by simp [hvl.1, hvl.2]) (by simp [hvr.1, hvr.2])
  obtain ⟨l2, l3⟩ := hvl
  obtain ⟨r2, r3⟩ := hvr
  refine ⟨?_, ?_, ?_, ?_⟩
  · intro l1 r1
    constructor
    · intro hop
      rw [hb, applyBinary_lt _ _ _ _ hop (by simp [l1, r1])]
      simp only [r1]
      exact ⟨_, rfl, rfl, r2, r3, fun h => if_pos h, fun h => if_neg h⟩
    · intro hop
      rw [hb, applyBinary_eq _ _ _ _ hop (by simp [l1, r1])]
      simp only [r1]
      exact ⟨_, rfl, rfl, r2, r3, fun h => if_pos h, fun h => if_neg h⟩
  · intro a b l1 r1 ha hb1
    constructor
    · intro hop
      rw [hb, applyBinary_lt _ _ _ _ hop (by simp [l1, r1])]
      simp only [r1, ha, hb1]
      refine ⟨_, rfl, rfl, r2, r3, fun h => ?_, fun h => ?_⟩
      · exact if_pos ((strcmpLt_iff a b).2 h)
      · exact if_neg (fun hh => h ((strcmpLt_iff a b).1 hh))
    · intro hop
      rw [hb, applyBinary_eq _ _ _ _ hop (by simp [l1, r1])]
      simp only [r1, ha, hb1]
      exact ⟨_, rfl, rfl, r2, r3, fun h => if_pos h.symm, fun h => if_neg (fun hh => h hh.symm)⟩
  · intro l1 r1 hlb hrb
    constructor
    · intro hop
      rw [hb, applyBinary_lt _ _ _ _ hop (by simp [l1, r1])]
      simp only [r1]
      refine ⟨_, rfl, rfl, r2, r3, fun h => ?_, fun h => ?_⟩
      · exact if_pos (by rw [h.1, h.2]; decide)
      · exact if_neg (fun hh => h (by omega))
    · intro hop
      rw [hb, applyBinary_eq _ _ _ _ hop (by simp [l1, r1])]
      simp only [r1]
      exact ⟨_, rfl, rfl, r2, r3, fun h => if_pos h, fun h => if_neg h⟩
  · intro hne
    rw [hb, applyBinary]
    rw [if_pos (fun hh => hne hh.symm)]

theorem comparison_contract_witness :
    ∃ v, binaryExpression
        (.node (strOperand "ab") (.node (some (tok TOKEN_BIN_OP "<")) (strOperand "b")))
        ⟨[], [], [], []⟩ = .done (v, ⟨[], [], [], []⟩) ∧
      BoolResult v (specLexLt "ab".toList "b".toList) :=
  ((comparison_contract (strOperand "ab") (strOperand "b") (tok TOKEN_BIN_OP "<")
    ⟨[], [], [], []⟩ ⟨[], [], [], []⟩ ⟨[], [], [], []⟩
    ⟨0, 0, some "ab".toList, 0, 0, 0, STRING⟩ ⟨0, 0, some "b".toList, 0, 0, 0, STRING⟩
    (by decide) (by decide) (by decide) (by decide)).2.1 "ab".toList "b".toList
    (by decide) (by decide) (by decide) (by decide)).1 (by decide)

/-- C19: for a boolean operand value `b` the unary expression `! b` evaluates to the negation
of `b`, and for boolean operands `l` and `r` the expression `l & r` evaluates to the logical
and of `l` and `r`; `!` on an int or string operand and `&` on int or string operands yield
the error value with a diagnostic. -/
theorem boolean_operators :
    (∀ (unop : token) (opern : operand_node) (st st1 : Env) (v : value),
      operand opern st = .done (v, st1) →
      (v.lt = BOOL → v.error = 0 → v.empty = 0 → (v.b = 0 ∨ v.b = 1) →
        ∃ w, unaryExpression (.node (some unop) opern) st = .done (w, st1) ∧
          BoolResult w (v.b = 0)) ∧
      (v.lt = INT ∨ v.lt = STRING →
        unaryExpression (.node (some unop) opern) st =
          .done (error_value, printError unop
            "The argument type of unary expression must be bool".toList SEMANTIC_ERROR st1))) ∧
    (∀ (opern opn : operand_node) (op : token) (st st1 st2 : Env) (vl vr : value),
      operand opn st = .done (vr, st1) → operand opern st1 = .done (vl, st2) →
      vl.error = 0 → vl.empty = 0 → vr.error = 0 → vr.empty = 0 → op.value = ['&'] →
      (vl.lt = BOOL → vr.lt = BOOL → (vl.b = 0 ∨ vl.b = 1) → (vr.b = 0 ∨ vr.b = 1) →
        ∃ v, binaryExpression (.node opern (.node (some op) opn)) st = .done (v, st2) ∧
          BoolResult v (vl.b = 1 ∧ vr.b = 1)) ∧
      (vl.lt = INT ∨ vl.lt = STRING → vr.lt = INT ∨ vr.lt = STRING →
        ∃ m, binaryExpression (.node opern (.node (some op) opn)) st =
          .done (error_value, printError op m SEMANTIC_ERROR st2))) := by
  constructor
  · intro unop opern st st1 v ho
    constructor
    · intro h1 h2 h3 h4
      rw [unaryExpression, ho]
      simp only [Outcome.bind_done, h1, ne_eq, not_true_eq_false, if_false]
      refine ⟨_, rfl, rfl, h2, h3, fun h => ?_, fun h => ?_⟩
      · simp only [h]; decide
      · rcases h4 with h4 | h4
        · exact absurd h4 h
        · simp only [h4]; decide
    · intro h1
      rw [unaryExpression, ho]
      simp only [Outcome.bind_done]
      rw [if_pos (by rcases h1 with h | h <;> rw [h] <;> decide)]
  · intro opern opn op st st1 st2 vl vr hr hl l2 l3 r2 r3 hop
    have hb := binaryExpression_apply opern opn op st st1 st2 vl vr hr hl
      (by simp [l2, l3]) (by simp [r2, r3])
    have e1 : strncmpEq ['&'] ['+'] 1 = false := by decide
    have e2 : strncmpEq ['&'] ['-'] 1 = false := by decide
    have e3 : strncmpEq ['&'] ['*'] 1 = false := by decide
    have e4 : strncmpEq ['&'] ['/'] 1 = false := by decide
    have e5 : strncmpEq ['&'] ['&'] 1 = true := by decide
    constructor
    · intro l1 r1 hlb hrb
      rw [hb, applyBinary]
      simp only [hop, e1, e2, e3, e4, e5, l1, r1, ne_eq, not_true_eq_false, if_false, if_true,
        Bool.false_eq_true]
      refine ⟨_, rfl, rfl, r2, r3, fun h => ?_, fun h => ?_⟩
      · simp only [h.1, h.2]; decide
      · rcases hlb with hlb | hlb <;> rcases hrb with hrb | hrb
        · simp only [hlb, hrb]; decide
        · simp only [hlb, hrb]; decide
        · simp only [hlb, hrb]; decide
        · exact absurd ⟨hlb, hrb⟩ h
    · intro l1 r1
      rw [hb, applyBinary]
      by_cases hm : vr.lt = vl.lt
      · have hnb : vr.lt ≠ BOOL := by rcases r1 with h | h <;> rw [h] <;> decide
        simp only [hop, e1, e2, e3, e4, e5, hm, ne_eq, not_true_eq_false, if_false, if_true,
          Bool.false_eq_true]
        rw [← hm, if_neg hnb]
        exact ⟨_, rfl⟩
      · rw [if_pos hm]
        exact ⟨_, rfl⟩

theorem boolean_operators_witness :
    ∃ w, unaryExpression (.node (some (tok TOKEN_UN_OP "!")) (idOperand "t"))
        ⟨[("t".toList, ⟨0, 1, none, 0, 0, 0, BOOL⟩)], [], [], []⟩ =
      .done (w, ⟨[("t".toList, ⟨0, 1, none, 0, 0, 0, BOOL⟩)], [], [], []⟩) ∧
      BoolResult w ((1 : Int) = 0) :=
  (boolean_operators.1 (tok TOKEN_UN_OP "!") (idOperand "t")
    ⟨[("t".toList, ⟨0, 1, none, 0, 0, 0, BOOL⟩)], [], [], []⟩
    ⟨[("t".toList, ⟨0, 1, none, 0, 0, 0, BOOL⟩)], [], [], []⟩
    ⟨0, 1, none, 0, 0, 0, BOOL⟩ (by decide)).1 (by decide) (by decide) (by decide)
    (by decide)

/-! ## Division by zero -/

/-- An expression node with no unary part evaluates as its binary part. -/
theorem expression_binary (ben : binary_expression_node) (st : Env) :
    expression (.node .NULL ben) st = binaryExpression ben st := by
  rw [expression]
  simp [unaryExpression, empty_value]

/-- A statement whose expression evaluates to the error value fails: `print`, `assert`, an
assignment, a declaration of a declared type, and a `for` statement with the expression as
the start of its range. -/
theorem statement_fails_on_error (expn : expression_node) (st st1 : Env)
    (he : expression expn st = .done (error_value, st1)) :
    (∀ printKey, ∃ st2, print (.node (some printKey) expn) st = .done (0, st2)) ∧
    (∀ assertKey lPar rPar,
      ∃ st2, assert (.node (some assertKey) lPar expn rPar) st = .done (0, st2)) ∧
    (∀ varKey id col typeKey ass, expectedType typeKey ≠ UNDEF →
      ∃ st2, declaration (.node varKey (some id) col (some typeKey) (.node ass expn)) st =
        .done (0, st2) ∧ st2.global_list = st.global_list) := by
  refine ⟨?_, ?_, ?_⟩
  · intro printKey
    rw [print, he]
    simp only [Outcome.bind_done]
    rw [if_pos (by decide)]
    exact ⟨_, rfl⟩
  · intro assertKey lPar rPar
    rw [assert, he]
    simp only [Outcome.bind_done]
    rw [if_pos (by decide)]
    exact ⟨_, rfl⟩
  · intro varKey id col typeKey ass hty
    rw [declaration]
    simp only [declarationSuffix, he, Outcome.bind_done]
    have h0 : ¬ (error_value.empty ≠ 0) := by decide
    rw [if_neg h0, if_pos (fun hh => hty hh.symm)]
    exact ⟨_, rfl, (expression_frame _ _ _ he).1⟩

/-- An assignment whose expression evaluates to the error value fails and leaves the symbol
table unchanged. -/
theorem assignment_fails_on_error (id : token) (assOp : Option token) (expn : expression_node)
    (st st1 : Env) (he : expression expn st = .done (error_value, st1)) :
    ∃ st3, assignment (.node (some id) assOp expn) st = .done (0, st3) ∧
      st3.global_list = st.global_list := by
  rw [assignment]
  cases hs : findLabelLoop id.value st.global_list with
  | none =>
    simp only [findLabelType_of_none id st hs, if_true]
    exact ⟨_, rfl, rfl⟩
  | some e =>
    simp only [findLabelType_of_some id st e hs]
    by_cases hu : e.2.lt = UNDEF
    · rw [if_pos hu]
      exact ⟨_, rfl, rfl⟩
    · rw [if_neg hu, he]
      simp only [Outcome.bind_done]
      rw [if_pos (show e.2.lt ≠ error_value.lt from hu)]
      exact ⟨_, rfl, (expression_frame _ _ _ he).1⟩

/-- A `for` statement one of whose range expressions evaluates to the error value fails. -/
theorem for_fails_on_error (expn : expression_node) (st st1 : Env)
    (he : expression expn st = .done (error_value, st1)) :
    (∀ fuel fk id ik rg expn2 dk body ek fe r2, expression expn2 st1 = .done r2 →
      ∃ st3, for_ fuel (.node fk (some id) ik expn rg expn2 dk body ek fe) st =
        .done (0, st3)) ∧
    (∀ fuel fk id ik rg expn1 dk body ek fe st0 r1,
      expression expn1 (findLabelType id st0).2 = .done r1 → r1.2 = st →
      ∃ st3, for_ fuel (.node fk (some id) ik expn1 rg expn dk body ek fe) st0 =
        .done (0, st3)) := by
  constructor
  · intro fuel fk id ik rg expn2 dk body ek fe r2 h2
    rw [for_]
    by_cases c0 : (findLabelType id st).1 ≠ .INT
    · rw [if_pos c0]; exact ⟨_, rfl⟩
    · rw [if_neg c0]
      have hst : (findLabelType id st).2 = st := by
        cases hf : findLabelLoop id.value st.global_list with
        | some e => rw [findLabelType_of_some id st e hf]
        | none =>
          rw [findLabelType_of_none id st hf] at c0
          exact absurd (fun hh => nomatch hh) c0
      rw [hst, he]
      simp only [Outcome.bind_done]
      rw [h2]
      simp only [Outcome.bind_done]
      rw [if_pos (Or.inl (by decide))]
      exact ⟨_, rfl⟩
  · intro fuel fk id ik rg expn1 dk body ek fe st0 r1 h1 hst
    rw [for_]
    by_cases c0 : (findLabelType id st0).1 ≠ .INT
    · rw [if_pos c0]; exact ⟨_, rfl⟩
    · rw [if_neg c0, h1]
      simp only [Outcome.bind_done]
      rw [hst, he]
      simp only [Outcome.bind_done]
      rw [if_pos (Or.inr (by decide))]
      exact ⟨_, rfl⟩

/-- C20: for an int left operand, the binary expression `l / r` whose right operand evaluates
to the int 0 yields the error value and writes the runtime diagnostic `Division by zero`; a
`print`, an `assert`, an assignment or a declaration with this expression fails, and so does
a `for` statement with this expression as a bound of its range; the program
`var x : int := 1 / 0;` fails with the diagnostic and leaves the symbol table empty. -/
theorem division_by_zero (opern opn : operand_node) (op : token) (st st1 st2 : Env)
    (vl vr : value) (hr : operand opn st = .done (vr, st1))
    (hl : operand opern st1 = .done (vl, st2))
    (hvl : vl.lt = INT ∧ vl.error = 0 ∧ vl.empty = 0)
    (hvr : vr.lt = INT ∧ vr.i = 0 ∧ vr.error = 0 ∧ vr.empty = 0)
    (hop : op.value = ['/']) :
    expression (.node .NULL (.node opern (.node (some op) opn))) st =
      .done (error_value, printError op "Division by zero".toList RUNTIME_ERROR st2) ∧
    (∀ printKey, ∃ st3,
      print (.node (some printKey) (.node .NULL (.node opern (.node (some op) opn)))) st =
        .done (0, st3)) ∧
    (∀ assertKey lPar rPar, ∃ st3,
      assert (.node (some assertKey) lPar (.node .NULL (.node opern (.node (some op) opn)))
        rPar) st = .done (0, st3)) ∧
    (∀ id assOp, ∃ st3,
      assignment (.node (some id) assOp (.node .NULL (.node opern (.node (some op) opn)))) st =
        .done (0, st3) ∧ st3.global_list = st.global_list) ∧
    (∀ varKey id col typeKey ass, expectedType typeKey ≠ UNDEF → ∃ st3,
      declaration (.node varKey (some id) col (some typeKey)
        (.node ass (.node .NULL (.node opern (.node (some op) opn))))) st = .done (0, st3) ∧
      st3.global_list = st.global_list) ∧
    (∀ fuel fk id ik rg expn2 dk body ek fe r2,
      expression expn2 (printError op "Division by zero".toList RUNTIME_ERROR st2) = .done r2 →
      ∃ st3, for_ fuel (.node fk (some id) ik (.node .NULL (.node opern (.node (some op) opn)))
        rg expn2 dk body ek fe) st = .done (0, st3)) ∧
    (∀ fuel fk id ik rg expn1 dk body ek fe st0 r1,
      expression expn1 (findLabelType id st0).2 = .done r1 → r1.2 = st →
      ∃ st3, for_ fuel (.node fk (some id) ik expn1 rg
        (.node .NULL (.node opern (.node (some op) opn))) dk body ek fe) st0 = .done (0, st3)) ∧
    run 0 (programOf [declStmt "x" "int"
        (initSuffix (binaryExpr (intOperand "1") "/" (intOperand "0")))]) [] =
      .done (0, ⟨[], [], ("Runtime error  in line   1: Division by zero.\n" ++
        "Semantic error in line   1: Incompatible types in declaration.\n").toList, []⟩) := by
  have hb := binaryExpression_apply opern opn op st st1 st2 vl vr hr hl
    (by simp [hvl.2.1, hvl.2.2]) (by simp [hvr.2.2.1, hvr.2.2.2])
  have e7 : strncmpEq ['/'] ['+'] 1 = false := by decide
  have e8 : strncmpEq ['/'] ['-'] 1 = false := by decide
  have e9 : strncmpEq ['/'] ['*'] 1 = false := by decide
  have e10 : strncmpEq ['/'] ['/'] 1 = true := by decide
  have he : expression (.node .NULL (.node opern (.node (some op) opn))) st =
      .done (error_value, printError op "Division by zero".toList RUNTIME_ERROR st2) := by
    rw [expression_binary, hb, applyBinary]
    simp only [hvl.1, hvr.1, hvr.2.1, hop, e7, e8, e9, e10, ne_eq, not_true_eq_false,
      if_false, if_true, Bool.false_eq_true]
  obtain ⟨p1, p2, p3⟩ := statement_fails_on_error _ _ _ he
  obtain ⟨p4, p5⟩ := for_fails_on_error _ _ _ he
  exact ⟨he, p1, p2, fun id assOp => assignment_fails_on_error id assOp _ _ _ he, p3, p4, p5,
    by decide⟩

theorem division_by_zero_witness :
    expression (.node .NULL (.node (idOperand "x")
        (.node (some (tok TOKEN_BIN_OP "/")) (intOperand "0"))))
      ⟨[("x".toList, ⟨5, 0, none, 0, 0, 0, INT⟩)], [], [], []⟩ =
    .done (error_value, printError (tok TOKEN_BIN_OP "/") "Division by zero".toList RUNTIME_ERROR
      ⟨[("x".toList, ⟨5, 0, none, 0, 0, 0, INT⟩)], [], [], []⟩) :=
  (division_by_zero (idOperand "x") (intOperand "0") (tok TOKEN_BIN_OP "/")
    ⟨[("x".toList, ⟨5, 0, none, 0, 0, 0, INT⟩)], [], [], []⟩
    ⟨[("x".toList, ⟨5, 0, none, 0, 0, 0, INT⟩)], [], [], []⟩
    ⟨[("x".toList, ⟨5, 0, none, 0, 0, 0, INT⟩)], [], [], []⟩
    ⟨5, 0, none, 0, 0, 0, INT⟩ ⟨0, 0, none, 0, 0, 0, INT⟩
    (by decide) (by decide) (by decide) (by decide) (by decide)).1

/-! ## The labels persist -/

theorem KeysPersist.self (st : Env) : KeysPersist st st := fun _ h => h

theorem KeysPersist.step {a b c : Env} (h1 : KeysPersist a b) (h2 : KeysPersist b c) :
    KeysPersist a c := fun k h => h2 k (h1 k h)

theorem KeysPersist.of_eq {a b : Env} (h : b.global_list = a.global_list) : KeysPersist a b := by
  intro k hk
  rw [h]
  exact hk

theorem Frame.keys {a b : Env} (h : Frame a b) : KeysPersist a b := KeysPersist.of_eq h.1

theorem keysPersist_forceUpdate (id : token) (v : value) (st : Env) :
    KeysPersist st (forceUpdate id v st) := by
  intro k hk
  simp only [forceUpdate, labelKeys_forceUpdateLoop]
  exact hk

theorem keysPersist_update (id : token) (v : value) (st : Env) :
    KeysPersist st (update id v st).2 := by
  unfold update isConstant
  have hf := frame_findLabelValue id st
  rcases hx : findLabelValue id st with ⟨w, s1⟩
  rw [hx] at hf
  simp only
  by_cases hc : w.constant = 0
  · simp only [hc, if_true, ne_eq, not_true_eq_false, if_false]
    exact hf.keys.step (keysPersist_forceUpdate _ _ _)
  · simp only [hc, if_false, ne_eq, one_ne_zero, not_false_eq_true, if_true]
    exact hf.keys.step (frame_printError _ _ _ _).keys

theorem keysPersist_insert (id : token) (v : value) (st : Env) :
    KeysPersist st (insert id v st).2 := by
  intro k hk
  unfold insert
  cases hs : insertScan id.value st.global_list with
  | none =>
    simp only [labelKeys, List.map_cons, List.mem_cons]
    exact Or.inr hk
  | some r =>
    obtain ⟨pre, old, post, h1, h2, h3, _⟩ := insertScan_some _ _ _ hs
    have hkey := (sameLabel_iff _ _).1 h3
    rw [h1] at hk
    simp only [labelKeys, List.map_append, List.map_cons, List.mem_append, List.mem_cons] at hk
    simp only [labelKeys, h2, List.map_cons, List.map_append, List.mem_cons, List.mem_append]
    rcases hk with hk | hk | hk
    · exact Or.inr (Or.inl hk)
    · exact Or.inl (by rw [hk, hkey])
    · exact Or.inr (Or.inr hk)

/-- The name has an entry exactly when its key is among the labels of the table. -/
theorem findLabelLoop_isSome_iff (name : List Char) (l : label_list) :
    (∃ e, findLabelLoop name l = some e) ↔ name.take (TOKEN_MAX_LENGTH + 1) ∈ labelKeys l := by
  constructor
  · rintro ⟨e, h⟩
    obtain ⟨pre, post, h1, h2, _⟩ := findLabelLoop_some _ _ _ h
    rw [(sameLabel_iff _ _).1 h2, h1, labelKeys, List.map_append, List.map_cons]
    exact List.mem_append_right _ (List.mem_cons_self _ _)
  · intro h
    cases hf : findLabelLoop name l with
    | some e => exact ⟨e, rfl⟩
    | none =>
      exact absurd h ((insertScan_none _ _).1 (insertScan_of_findLabelLoop_none _ _ hf))

theorem keysPersist_declaration_tail (id : token) (expected : label_type) (v : value)
    (s : Env) (r : Int × Env)
    (h : (if v.lt ≠ expected then
        Outcome.done ((0 : Int), printError id "Incompatible types in declaration".toList
          SEMANTIC_ERROR s)
      else
        if (insert id v s).1 = 0 then
          .done (0, printError id ("Redeclaration of symbol ".toList ++ id.value)
            SEMANTIC_ERROR (insert id v s).2)
        else .done (1, (insert id v s).2)) = .done r) : KeysPersist s r.2 := by
  by_cases h1 : v.lt ≠ expected
  · rw [if_pos h1] at h
    simp only [Outcome.done.injEq] at h; subst h
    exact (frame_printError _ _ _ _).keys
  · rw [if_neg h1] at h
    by_cases h2 : (insert id v s).1 = 0
    · rw [if_pos h2] at h
      simp only [Outcome.done.injEq] at h; subst h
      exact (keysPersist_insert _ _ _).step (frame_printError _ _ _ _).keys
    · rw [if_neg h2] at h
      simp only [Outcome.done.injEq] at h; subst h
      exact keysPersist_insert _ _ _

theorem keysPersist_declaration (n : declaration_node) (st : Env) (r : Int × Env)
    (h : declaration n st = .done r) : KeysPersist st r.2 := by
  cases n with
  | NULL => simp only [declaration, Outcome.done.injEq] at h; subst h; exact KeysPersist.self _
  | error => simp [declaration] at h
  | node varKey id col typeKey asn =>
    cases id with
    | none => simp [declaration] at h
    | some id =>
      cases typeKey with
      | none => simp [declaration] at h
      | some typeKey =>
        rw [declaration] at h
        obtain ⟨r1, h1, h2⟩ := Outcome.bind_eq_done _ _ _ h
        have f1 : Frame st r1.2 := by
          cases asn with
          | NULL =>
            simp only [declarationSuffix, Outcome.done.injEq] at h1; subst h1
            exact Frame.refl _
          | error => simp [declarationSuffix] at h1
          | node ass expn =>
            rw [declarationSuffix] at h1
            exact expression_frame _ _ _ h1
        exact f1.keys.step (keysPersist_declaration_tail _ _ _ _ _ h2)

theorem keysPersist_assignment (n : assignment_node) (st : Env) (r : Int × Env)
    (h : assignment n st = .done r) : KeysPersist st r.2 := by
  cases n with
  | NULL => simp only [assignment, Outcome.done.injEq] at h; subst h; exact KeysPersist.self _
  | error => simp [assignment] at h
  | node id assOp expn =>
    cases id with
    | none => simp [assignment] at h
    | some id =>
      rw [assignment] at h
      have f0 := frame_findLabelType id st
      by_cases hu : (findLabelType id st).1 = UNDEF
      · rw [if_pos hu] at h
        simp only [Outcome.done.injEq] at h; subst h
        exact f0.keys.step (frame_printError _ _ _ _).keys
      · rw [if_neg hu] at h
        obtain ⟨r1, h1, h2⟩ := Outcome.bind_eq_done _ _ _ h
        have f1 := expression_frame _ _ _ h1
        by_cases ht : (findLabelType id st).1 ≠ r1.1.lt
        · rw [if_pos ht] at h2
          simp only [Outcome.done.injEq] at h2; subst h2
          exact f0.keys.step (f1.keys.step (frame_printError _ _ _ _).keys)
        · rw [if_neg ht] at h2
          by_cases he : r1.1.error ≠ 1 ∧ r1.1.empty ≠ 1
          · rw [if_pos he] at h2
            simp only [Outcome.done.injEq] at h2; subst h2
            exact f0.keys.step (f1.keys.step (keysPersist_update _ _ _))
          · rw [if_neg he] at h2
            simp only [Outcome.done.injEq] at h2; subst h2
            exact f0.keys.step f1.keys

theorem keysPersist_assert (n : assert_node) (st : Env) (r : Int × Env)
    (h : assert n st = .done r) : KeysPersist st r.2 := by
  cases n with
  | NULL => simp only [assert, Outcome.done.injEq] at h; subst h; exact KeysPersist.self _
  | error => simp [assert] at h
  | node assertKey lPar expn rPar =>
    rw [assert] at h
    obtain ⟨r1, h1, h2⟩ := Outcome.bind_eq_done _ _ _ h
    have f1 := expression_frame _ _ _ h1
    by_cases hb : r1.1.b ≠ 1
    · rw [if_pos hb] at h2
      cases assertKey with
      | none => simp at h2
      | some t =>
        simp only [Outcome.done.injEq] at h2; subst h2
        exact f1.keys.step (frame_printError _ _ _ _).keys
    · rw [if_neg hb] at h2
      simp only [Outcome.done.injEq] at h2; subst h2
      exact f1.keys

theorem keysPersist_print (n : print_node) (st : Env) (r : Int × Env)
    (h : print n st = .done r) : KeysPersist st r.2 := by
  cases n with
  | NULL => simp only [print, Outcome.done.injEq] at h; subst h; exact KeysPersist.self _
  | error => simp [print] at h
  | node printKey expn =>
    rw [print] at h
    obtain ⟨r1, h1, h2⟩ := Outcome.bind_eq_done _ _ _ h
    have f1 := expression_frame _ _ _ h1
    by_cases hb : r1.1.error = 1 ∨ r1.1.empty = 1 ∨ (r1.1.lt ≠ .STRING ∧ r1.1.lt ≠ .INT)
    · rw [if_pos hb] at h2
      cases printKey with
      | none => simp at h2
      | some t =>
        simp only [Outcome.done.injEq] at h2; subst h2
        exact f1.keys.step (frame_printError _ _ _ _).keys
    · rw [if_neg hb] at h2
      obtain ⟨s2, h3, h4⟩ := Outcome.bind_eq_done _ _ _ h2
      simp only [Outcome.done.injEq] at h4; subst h4
      refine f1.keys.step (KeysPersist.of_eq ?_)
      unfold printValue at h3
      split at h3
      · simp only [Outcome.done.injEq] at h3; subst h3; rfl
      · split at h3
        · simp only [Outcome.done.injEq] at h3; subst h3; rfl
        · simp at h3
      · simp only [Outcome.done.injEq] at h3; subst h3; rfl
      · simp only [Outcome.done.injEq] at h3; subst h3; rfl

theorem keysPersist_update_inp (id : token) (v : value) (st : Env) (rest : List Char) :
    KeysPersist st (update id v { st with inp := rest }).2 :=
  (KeysPersist.of_eq (b := { st with inp := rest }) rfl).step (keysPersist_update _ _ _)

theorem keysPersist_read (n : read_node) (st : Env) (r : Int × Env)
    (h : read n st = .done r) : KeysPersist st r.2 := by
  cases n with
  | NULL => simp only [read, Outcome.done.injEq] at h; subst h; exact KeysPersist.self _
  | error => simp [read] at h
  | node readKey id =>
    cases id with
    | none => simp [read] at h
    | some id =>
      rw [read] at h
      have f0 := frame_findLabelType id st
      simp only at h
      split at h
      · simp only [Outcome.done.injEq] at h; subst h
        exact f0.keys.step (frame_printError _ _ _ _).keys
      · split at h
        · simp only [Outcome.done.injEq] at h; subst h
          exact f0.keys.step (KeysPersist.of_eq rfl)
        · simp only [Outcome.done.injEq] at h; subst h
          exact f0.keys.step (keysPersist_update_inp _ _ _ _)
      · split at h
        · simp only [Outcome.done.injEq] at h; subst h
          exact f0.keys.step (KeysPersist.of_eq rfl)
        · simp only [Outcome.done.injEq] at h; subst h
          exact f0.keys.step (keysPersist_update_inp _ _ _ _)
      · simp only [Outcome.done.injEq] at h; subst h
        exact f0.keys.step (frame_printError _ _ _ _).keys

/-- How the loop of `for_` ends: with success after the counter was written with `constant`
cleared, or with failure in the state a failing round of the body left, in front of which the
counter had been written with the `constant` flag of the start. -/
theorem forLoop_done (body : Env → Outcome (Int × Env)) (id : token) (b : Int)
    (hbody : ∀ s r, body s = .done r → KeysPersist s r.2) :
    ∀ (fuel : Nat) (c : value) (st : Env) (r : Int × Env),
      forLoop body id b fuel c st = .done r →
      KeysPersist st r.2 ∧
      ((r.1 = 1 ∧ ∃ (c1 : value) (st1 : Env), KeysPersist st st1 ∧
          r.2 = forceUpdate id { c1 with constant := 0 } st1) ∨
       (r.1 = 0 ∧ ∃ (c1 : value) (st1 : Env), c1.constant = c.constant ∧
          body (forceUpdate id c1 st1) = .done (0, r.2))) := by
  intro fuel
  induction fuel with
  | zero => intro c st r h; simp [forLoop] at h
  | succ f ih =>
    intro c st r h
    rw [forLoop] at h
    by_cases hc : c.i ≤ b
    · rw [if_pos hc] at h
      cases hb : body (forceUpdate id c st) with
      | fault => rw [hb] at h; simp at h
      | fuel => rw [hb] at h; simp at h
      | done r1 =>
        rw [hb] at h
        simp only at h
        have p1 : KeysPersist st r1.2 :=
          (keysPersist_forceUpdate id c st).step (hbody _ _ hb)
        by_cases h0 : r1.1 = 0
        · rw [if_pos h0] at h
          simp only [Outcome.done.injEq] at h
          subst h
          refine ⟨p1, Or.inr ⟨rfl, c, st, rfl, ?_⟩⟩
          rw [hb, ← h0]
        · rw [if_neg h0] at h
          obtain ⟨q1, q2⟩ := ih _ _ _ h
          refine ⟨p1.step q1, ?_⟩
          rcases q2 with ⟨e1, c1, st1, e2, e3⟩ | ⟨e1, c1, st1, e2, e3⟩
          · exact Or.inl ⟨e1, c1, st1, p1.step e2, e3⟩
          · exact Or.inr ⟨e1, c1, st1, e2, e3⟩
    · rw [if_neg hc] at h
      simp only [Outcome.done.injEq] at h
      subst h
      exact ⟨keysPersist_forceUpdate _ _ _,
        Or.inl ⟨rfl, c, st, KeysPersist.self _, rfl⟩⟩

mutual
theorem keysPersist_stmts (fuel : Nat) : ∀ (n : stmts_node) (st : Env) (r : Int × Env),
    stmts fuel n st = .done r → KeysPersist st r.2
  | .NULL, st, r, h => by
    simp only [stmts, Outcome.done.injEq] at h; subst h; exact KeysPersist.self _
  | .error, st, r, h => by simp [stmts] at h
  | .node stmtn sCol stmtsn, st, r, h => by
    rw [stmts] at h
    obtain ⟨r1, h1, h2⟩ := Outcome.bind_eq_done _ _ _ h
    have p1 := keysPersist_statement fuel stmtn st r1 h1
    by_cases h0 : r1.1 = 0
    · rw [if_pos h0] at h2
      simp only [Outcome.done.injEq] at h2; subst h2
      exact p1
    · rw [if_neg h0] at h2
      exact p1.step (keysPersist_stmts fuel stmtsn r1.2 r h2)
theorem keysPersist_statement (fuel : Nat) : ∀ (n : statement_node) (st : Env)
    (r : Int × Env), statement fuel n st = .done r → KeysPersist st r.2
  | .NULL, st, r, h => by simp [statement] at h
  | .error, st, r, h => by simp [statement] at h
  | .node decn assn forn readn printn assertn, st, r, h => by
    rw [statement] at h
    obtain ⟨r1, h1, h⟩ := Outcome.bind_eq_done _ _ _ h
    have p1 := keysPersist_declaration decn st r1 h1
    by_cases c1 : r1.1 = 0
    · rw [if_pos c1] at h
      simp only [Outcome.done.injEq] at h; subst h; exact p1
    rw [if_neg c1] at h
    obtain ⟨r2, h2, h⟩ := Outcome.bind_eq_done _ _ _ h
    have p2 := p1.step (keysPersist_assignment assn r1.2 r2 h2)
    by_cases c2 : r2.1 = 0
    · rw [if_pos c2] at h
      simp only [Outcome.done.injEq] at h; subst h; exact p2
    rw [if_neg c2] at h
    obtain ⟨r3, h3, h⟩ := Outcome.bind_eq_done _ _ _ h
    have p3 := p2.step (keysPersist_for fuel forn r2.2 r3 h3)
    by_cases c3 : r3.1 = 0
    · rw [if_pos c3] at h
      simp only [Outcome.done.injEq] at h; subst h; exact p3
    rw [if_neg c3] at h
    obtain ⟨r4, h4, h⟩ := Outcome.bind_eq_done _ _ _ h
    have p4 := p3.step (keysPersist_read readn r3.2 r4 h4)
    by_cases c4 : r4.1 = 0
    · rw [if_pos c4] at h
      simp only [Outcome.done.injEq] at h; subst h; exact p4
    rw [if_neg c4] at h
    obtain ⟨r5, h5, h⟩ := Outcome.bind_eq_done _ _ _ h
    have p5 := p4.step (keysPersist_print printn r4.2 r5 h5)
    by_cases c5 : r5.1 = 0
    · rw [if_pos c5] at h
      simp only [Outcome.done.injEq] at h; subst h; exact p5
    rw [if_neg c5] at h
    obtain ⟨r6, h6, h⟩ := Outcome.bind_eq_done _ _ _ h
    have p6 := p5.step (keysPersist_assert assertn r5.2 r6 h6)
    by_cases c6 : r6.1 = 0
    · rw [if_pos c6] at h
      simp only [Outcome.done.injEq] at h; subst h; exact p6
    · rw [if_neg c6] at h
      simp only [Outcome.done.injEq] at h; subst h; exact p6
theorem keysPersist_for (fuel : Nat) : ∀ (n : for_node) (st : Env) (r : Int × Env),
    for_ fuel n st = .done r → KeysPersist st r.2
  | .NULL, st, r, h => by
    simp only [for_, Outcome.done.injEq] at h; subst h; exact KeysPersist.self _
  | .error, st, r, h => by simp [for_] at h
  | .node _ none _ _ _ _ _ _ _ _, st, r, h => by simp [for_] at h
  | .node _ (some id) _ expn1 _ expn2 _ stmtsn _ _, st, r, h => by
    rw [for_] at h
    have f0 := frame_findLabelType id st
    by_cases c0 : (findLabelType id st).1 ≠ .INT
    · rw [if_pos c0] at h
      simp only [Outcome.done.injEq] at h; subst h
      exact f0.keys.step (frame_printError _ _ _ _).keys
    rw [if_neg c0] at h
    obtain ⟨r1, h1, h⟩ := Outcome.bind_eq_done _ _ _ h
    obtain ⟨r2, h2, h⟩ := Outcome.bind_eq_done _ _ _ h
    have f1 := expression_frame _ _ _ h1
    have f2 := expression_frame _ _ _ h2
    by_cases c1 : r1.1.lt ≠ .INT ∨ r2.1.lt ≠ .INT
    · rw [if_pos c1] at h
      simp only [Outcome.done.injEq] at h; subst h
      exact f0.keys.step (f1.keys.step (f2.keys.step (frame_printError _ _ _ _).keys))
    · rw [if_neg c1] at h
      have q := (forLoop_done _ id _ (fun s r hh => keysPersist_stmts fuel stmtsn s r hh)
        _ _ _ _ h).1
      exact f0.keys.step (f1.keys.step (f2.keys.step q))
end

/-! ## The `constant` flag at the end of a `for` statement -/

theorem findLabelLoop_forceUpdateLoop (name : List Char) (v : value) (l : label_list)
    (h : name.take (TOKEN_MAX_LENGTH + 1) ∈ labelKeys l) :
    ∃ e, findLabelLoop name (forceUpdateLoop name v l) = some e ∧ e.2 = v := by
  obtain ⟨e, he⟩ := (findLabelLoop_isSome_iff name l).2 h
  obtain ⟨pre, post, h1, h2, h3⟩ := findLabelLoop_some _ _ _ he
  rw [h1, forceUpdateLoop_split _ _ _ _ _ h2 h3]
  exact ⟨(e.1, v), findLabelLoop_split _ _ _ (e.1, v) h2 h3, rfl⟩

theorem findLabelType_ne_UNDEF (id : token) (st : Env) (h : (findLabelType id st).1 ≠ UNDEF) :
    id.value.take (TOKEN_MAX_LENGTH + 1) ∈ labelKeys st.global_list := by
  apply (findLabelLoop_isSome_iff _ _).1
  cases hf : findLabelLoop id.value st.global_list with
  | some e => exact ⟨e, rfl⟩
  | none => rw [findLabelType_of_none id st hf] at h; exact absurd rfl h

/-- C12 (as amended): when the evaluation of a `for` statement with the control variable `x`
returns with success, `x` has an entry in the symbol table and the `constant` flag of that
entry is cleared; when it returns with failure, either no round was started (the variable or
a bound is not an int, and the symbol table is the one of the start), or the state is exactly
the one the failing round of the body left, at the start of which `x` had been written with
the `constant` flag set: `for_` does not clear the flag then. -/
theorem for_clears_constant_on_success (fuel : Nat) (fk ik rg dk ek fe : Option token)
    (id : token) (expn1 expn2 : expression_node) (body : stmts_node) (st st1 : Env) (r : Int)
    (h : for_ fuel (.node fk (some id) ik expn1 rg expn2 dk body ek fe) st = .done (r, st1)) :
    (r = 1 → ∃ e, findLabelLoop id.value st1.global_list = some e ∧ e.2.constant = 0) ∧
    (r = 0 → Frame st st1 ∨
      ∃ (counter : value) (st2 : Env), counter.constant = 1 ∧
        stmts fuel body (forceUpdate id counter st2) = .done (0, st1)) ∧
    (r = 0 ∨ r = 1) := by
  rw [for_] at h
  have f0 := frame_findLabelType id st
  by_cases c0 : (findLabelType id st).1 ≠ .INT
  · rw [if_pos c0] at h
    simp only [Outcome.done.injEq, Prod.mk.injEq] at h
    obtain ⟨rfl, rfl⟩ := h
    exact ⟨fun hh => absurd hh (by decide),
      fun _ => Or.inl (f0.trans (frame_printError _ _ _ _)), Or.inl rfl⟩
  rw [if_neg c0] at h
  have hint : (findLabelType id st).1 = INT := not_not.1 c0
  have hkey := findLabelType_ne_UNDEF id st (by rw [hint]; decide)
  obtain ⟨r1, h1, h⟩ := Outcome.bind_eq_done _ _ _ h
  obtain ⟨r2, h2, h⟩ := Outcome.bind_eq_done _ _ _ h
  have f1 := expression_frame _ _ _ h1
  have f2 := expression_frame _ _ _ h2
  have f012 : Frame st r2.2 := f0.trans (f1.trans f2)
  by_cases c1 : r1.1.lt ≠ .INT ∨ r2.1.lt ≠ .INT
  · rw [if_pos c1] at h
    simp only [Outcome.done.injEq, Prod.mk.injEq] at h
    obtain ⟨rfl, rfl⟩ := h
    exact ⟨fun hh => absurd hh (by decide),
      fun _ => Or.inl (f012.trans (frame_printError _ _ _ _)), Or.inl rfl⟩
  rw [if_neg c1] at h
  obtain ⟨_, q⟩ := forLoop_done _ id _ (fun s r hh => keysPersist_stmts fuel body s r hh)
    _ _ _ _ h
  rcases q with ⟨e1, c, s, e2, e3⟩ | ⟨e1, c, s, e2, e3⟩
  · simp only at e1 e3
    refine ⟨fun _ => ?_, fun hh => absurd (e1.symm.trans hh) (by decide), Or.inr e1⟩
    have hk : id.value.take (TOKEN_MAX_LENGTH + 1) ∈ labelKeys s.global_list :=
      e2 _ (f012.keys _ hkey)
    obtain ⟨e, he1, he2⟩ := findLabelLoop_forceUpdateLoop id.value { c with constant := 0 } _ hk
    rw [e3]
    exact ⟨e, he1, by rw [he2]⟩
  · simp only at e1 e3
    exact ⟨fun hh => absurd (e1.symm.trans hh) (by decide),
      fun _ => Or.inr ⟨c, s, e2, e3⟩, Or.inl e1⟩

theorem for_clears_constant_on_success_witness :
    ∃ e, findLabelLoop (tok TOKEN_IDENTIFIER "i").value
        [("i".toList, (⟨1, 0, none, 0, 0, 0, INT⟩ : value))] = some e ∧ e.2.constant = 0 :=
  (for_clears_constant_on_success 2 none none none none none none (tok TOKEN_IDENTIFIER "i")
    (operandExpr (intOperand "0")) (operandExpr (intOperand "0")) .NULL
    ⟨[("i".toList, ⟨7, 0, none, 0, 0, 0, INT⟩)], [], [], []⟩
    ⟨[("i".toList, ⟨1, 0, none, 0, 0, 0, INT⟩)], [], [], []⟩ 1 (by decide)).1 rfl

/-- C12 (as stated) fails: in `var i : int; for i in 0..0 do assert (1 = 2); end for;` the body
fails in its first round, the `for` statement returns with failure, and the entry of `i` still
has its `constant` flag set. -/
theorem for_failure_keeps_constant_counterexample :
    run 1 failingBodyProgram [] =
      .done (0, ⟨[("i".toList, ⟨0, 0, none, 0, 0, 1, INT⟩)], [],
        "Semantic error in line   1: Assertion failed.\n".toList, []⟩) ∧
    (findLabelValue (tok TOKEN_IDENTIFIER "i")
      ⟨[("i".toList, ⟨0, 0, none, 0, 0, 1, INT⟩)], [],
        "Semantic error in line   1: Assertion failed.\n".toList, []⟩).1.constant = 1 := by
  decide

/-! ## The loop of `handleErrors` and the array `buffer2` -/

theorem handleErrorsLoop_append (w rest : List Char) :
    ∀ (buffer : List Char) (read : Nat),
      (∀ c ∈ w, ¬ (c = ' ' ∨ c = '\n' ∨ c = '\t')) →
      buffer.length + w.length ≤ TOKEN_MAX_LENGTH + 1 →
      handleErrorsLoop buffer read (w ++ rest) =
        handleErrorsLoop (buffer ++ w) (read + w.length) rest := by
  induction w with
  | nil => intro buffer read _ _; simp
  | cons c w ih =>
    intro buffer read hw hlen
    simp only [List.length_cons] at hlen
    have h1 : buffer.length ≤ TOKEN_MAX_LENGTH := by omega
    have h2 : ¬ (c = ' ' ∨ c = '\n' ∨ c = '\t') := hw c (List.mem_cons_self _ _)
    rw [List.cons_append, handleErrorsLoop, if_pos h1, if_neg h2,
      ih (buffer ++ [c]) (read + 1) (fun x hx => hw x (List.mem_cons_of_mem _ hx))
        (by simp only [List.length_append, List.length_singleton]; omega)]
    simp only [List.append_assoc, List.singleton_append, List.length_cons]
    congr 1
    omega

theorem handleErrorsLoop_prefix (l : List Char) :
    ∀ (buffer : List Char) (read : Nat),
      buffer <+: (handleErrorsLoop buffer read l).1.buffer := by
  induction l with
  | nil => intro buffer read; simp [handleErrorsLoop]
  | cons c rest ih =>
    intro buffer read
    rw [handleErrorsLoop]
    split_ifs
    · exact List.prefix_refl _
    · exact (List.prefix_append _ _).trans (ih _ _)
    · exact List.prefix_refl _

theorem cstr_length_of_prefix (w l : List Char) (hw : ∀ c ∈ w, c ≠ NUL) (h : w <+: l) :
    w.length ≤ (cstr l).length := by
  obtain ⟨t, rfl⟩ := h
  unfold cstr
  rw [List.takeWhile_append_of_pos (by intro c hc; simpa using hw c hc)]
  simp

theorem handleErrorsOverflow_of_run (st : LexState) (w rest : List Char)
    (hun : st.unread = w ++ rest)
    (hw : ∀ c ∈ w, ¬ (c = ' ' ∨ c = '\n' ∨ c = '\t') ∧ c ≠ NUL)
    (hlen : w.length = 1005) : handleErrorsOverflow st = true := by
  unfold handleErrorsOverflow
  simp only [hun]
  rw [handleErrorsLoop_append w rest [] 0 (fun c hc => (hw c hc).1)
    (by simp only [List.length_nil, TOKEN_MAX_LENGTH]; omega)]
  have hp := handleErrorsLoop_prefix rest ([] ++ w) (0 + w.length)
  have hl := cstr_length_of_prefix _ _ (by simpa using fun c hc => (hw c hc).2) hp
  simp only [List.nil_append] at hl ⊢
  simp only [List.length_append, decide_eq_true_eq, TOKEN_MAX_LENGTH]
  have : "Unidentified token: ".toList.length = 20 := by decide
  omega

theorem handleErrorsLoop_buffer_length (l : List Char) :
    ∀ (buffer : List Char) (read : Nat),
      (handleErrorsLoop buffer read l).1.buffer.length ≤ buffer.length + l.length := by
  induction l with
  | nil => intro buffer read; simp [handleErrorsLoop]
  | cons c rest ih =>
    intro buffer read
    rw [handleErrorsLoop]
    split_ifs
    · simp
    · refine (ih _ _).trans ?_
      simp only [List.length_append, List.length_singleton, List.length_cons, List.length_nil]
      omega
    · simp

theorem cstr_length_le (l : List Char) : (cstr l).length ≤ l.length := by
  unfold cstr
  exact (List.takeWhile_sublist _).length_le

/-- An input of fewer than 1005 bytes cannot make `sprintf` leave `buffer2`. -/
theorem noOverflow_of_length (input : List Char) (h : input.length < 1005) :
    NoOverflow input := by
  intro st hst
  unfold handleErrorsOverflow
  have h1 := handleErrorsLoop_buffer_length st.unread [] 0
  have h2 := cstr_length_le (handleErrorsLoop [] 0 st.unread).1.buffer
  have h3 : st.unread.length ≤ input.length := by
    rw [LexState.unread, hst, List.length_drop]; omega
  have h4 : "Unidentified token: ".toList.length = 20 := by decide
  simp only [List.length_nil, Nat.zero_add] at h1
  simp only [List.length_append, decide_eq_false_iff_not, TOKEN_MAX_LENGTH, h4]
  omega

theorem lexLoop_fault (fuel : Nat) (st : LexState) (c : Char)
    (h : st.input[st.pos]? = some c)
    (hc : lexCase fuel c { st with pos := st.pos + 1 } = .fault) :
    lexLoop (fuel + 1) st = .fault := by
  rw [lexLoop]
  simp only [h, hc]

/-- C7 on the failing inputs: when the input starts with the byte `#` followed by 1004 bytes
that are neither whitespace nor NUL, the message of `handleErrors` does not fit into
`buffer2`, and `lex` does not return a token stream at all: its outcome is `fault`. -/
theorem lex_faults_on_long_unidentified_run (under : Char) (w rest : List Char)
    (hw : ∀ c ∈ w, ¬ (c = ' ' ∨ c = '\n' ∨ c = '\t') ∧ c ≠ NUL)
    (hlen : w.length = 1004) :
    lex under ('#' :: w ++ rest) = .fault := by
  have hov : handleErrorsOverflow (ungetc ⟨'#' :: w ++ rest, 0 + 1, 1, [], under⟩) = true := by
    apply handleErrorsOverflow_of_run _ ('#' :: w) rest
    · simp [ungetc, LexState.unread]
    · intro c hc
      rcases List.mem_cons.1 hc with rfl | hc
      · decide
      · exact hw c hc
    · simp [hlen]
  have hcase : lexCase (('#' :: w ++ rest).length) '#'
      { (⟨'#' :: w ++ rest, 0, 1, [], under⟩ : LexState) with pos := 0 + 1 } = .fault := by
    unfold lexCase
    rw [if_neg (by decide), if_neg (by decide), if_neg (by decide), if_neg (by decide),
      if_neg (by decide), if_neg (by decide), if_neg (by decide), if_neg (by decide),
      if_neg (by decide), if_neg (by decide), if_neg (by decide), if_neg (by decide), if_pos hov]
  rw [lex, lexFuel, lexLoop_fault _ ⟨'#' :: w ++ rest, 0, 1, [], under⟩ '#' (by simp) hcase]
  rfl

theorem lex_faults_on_long_unidentified_run_witness :
    lex 'x' ('#' :: List.replicate 1004 '#' ++ []) = .fault :=
  lex_faults_on_long_unidentified_run 'x' (List.replicate 1004 '#') []
    (fun c hc => by rw [List.eq_of_mem_replicate hc]; decide) (List.length_replicate _ _)

/-! ## Line numbers -/

/-- C25 on the failing inputs: a newline inside a block comment or inside a string literal
does not advance `line_number`. In the source made of a block comment that holds a newline
and the identifier `y`, and in the source made of a string literal that holds a newline and
the identifier `y`, the identifier begins on line 2 and its token carries line 1. -/
theorem newlines_in_comments_and_strings_not_counted :
    lex 'x' ['/', '*', '\n', '*', '/', 'y'] =
      .done [⟨TOKEN_IDENTIFIER, ['y'], 1⟩, ⟨TOKEN_EOF, ['E', 'O', 'F'], 1⟩] ∧
    specLine ['/', '*', '\n', '*', '/', 'y'] 5 = 2 ∧
    lex 'x' ['"', '\n', '"', 'y'] =
      .done [⟨TOKEN_STRING_LITERAL, ['\n'], 1⟩, ⟨TOKEN_IDENTIFIER, ['y'], 1⟩,
        ⟨TOKEN_EOF, ['E', 'O', 'F'], 1⟩] ∧
    specLine ['"', '\n', '"', 'y'] 3 = 2 ∧
    lex 'x' ['/', '/', '\n', 'y'] =
      .done [⟨TOKEN_IDENTIFIER, ['y'], 2⟩, ⟨TOKEN_EOF, ['E', 'O', 'F'], 2⟩] := by
  decide

/-! ## The re-entry of the string-literal handler -/

/-- C30 on the failing input: the literal `"Undefined"` is well formed and is followed by a
semicolon, whose own token stream is the semicolon token; but the value of the string token
begins with `Undefined`, the test of `isLastTokenControlError` holds for it, the handler is
entered once more and takes the semicolon for the body of an unterminated literal. -/
theorem string_handler_reentered_after_string_token :
    lex 'x' ['"', 'U', 'n', 'd', 'e', 'f', 'i', 'n', 'e', 'd', '"', ';'] =
      .done [⟨TOKEN_STRING_LITERAL, ['U', 'n', 'd', 'e', 'f', 'i', 'n', 'e', 'd'], 1⟩,
        ⟨TOKEN_ERROR, "Unterminated string literal.".toList, 1⟩,
        ⟨TOKEN_EOF, ['E', 'O', 'F'], 1⟩] ∧
    lex 'x' [';'] = .done [⟨TOKEN_SCOL, [';'], 1⟩, ⟨TOKEN_EOF, ['E', 'O', 'F'], 1⟩] ∧
    isLastTokenControlError
      [⟨TOKEN_STRING_LITERAL, ['U', 'n', 'd', 'e', 'f', 'i', 'n', 'e', 'd'], 1⟩] = true := by
  decide

/-! ## The loops of `handleIntLiterals` and `handleOthers` -/

theorem handleIntLiteralsLoop_append (w rest : List Char) :
    ∀ (buffer : List Char) (read : Nat),
      (∀ c ∈ w, c.isDigit = true) →
      buffer.length + w.length ≤ TOKEN_MAX_LENGTH + 1 →
      handleIntLiteralsLoop buffer read (w ++ rest) =
        handleIntLiteralsLoop (buffer ++ w) (read + w.length) rest := by
  induction w with
  | nil => intro buffer read _ _; simp
  | cons c w ih =>
    intro buffer read hw hlen
    simp only [List.length_cons] at hlen
    have h1 : buffer.length ≤ TOKEN_MAX_LENGTH := by omega
    have h2 : c.isDigit = true := hw c (List.mem_cons_self _ _)
    rw [List.cons_append, handleIntLiteralsLoop, if_pos h1, if_pos h2,
      ih (buffer ++ [c]) (read + 1) (fun x hx => hw x (List.mem_cons_of_mem _ hx))
        (by simp only [List.length_append, List.length_singleton]; omega)]
    simp only [List.append_assoc, List.singleton_append, List.length_cons]
    congr 1
    omega

theorem handleIntLiteralsLoop_full (buffer : List Char) (read : Nat) (l : List Char)
    (h : TOKEN_MAX_LENGTH < buffer.length) :
    handleIntLiteralsLoop buffer read l = ⟨buffer, read, 0⟩ := by
  have h1 : ¬ buffer.length ≤ TOKEN_MAX_LENGTH := by omega
  cases l with
  | nil => rw [handleIntLiteralsLoop, if_neg h1]
  | cons c rest => rw [handleIntLiteralsLoop, if_neg h1]

theorem digit_ne_NUL (c : Char) (h : c.isDigit = true) : c ≠ NUL := by
  rintro rfl
  exact absurd h (by decide)

/-- A run of `TOKEN_MAX_LENGTH + 1` digits: `handleIntLiterals`, entered after the first of
them was read, stores them all and adds an integer-literal token whose value has
`TOKEN_MAX_LENGTH + 1` characters; the file is left on the last digit of the run. -/
theorem handleIntLiterals_long (st : LexState) (w rest : List Char)
    (hun : st.unread = w ++ rest) (hw : ∀ c ∈ w, c.isDigit = true)
    (hlen : w.length = TOKEN_MAX_LENGTH + 1) :
    handleIntLiterals { st with pos := st.pos + 1 } =
      { st with pos := st.pos + TOKEN_MAX_LENGTH,
                tl := st.tl ++ [⟨TOKEN_INT_LITERAL, w, st.line_number⟩] } := by
  have hu : (ungetc { st with pos := st.pos + 1 }).unread = w ++ rest := by
    simpa [ungetc, LexState.unread] using hun
  have hloop : handleIntLiteralsLoop [] 0 (w ++ rest) = ⟨w, w.length, 0⟩ := by
    rw [handleIntLiteralsLoop_append w rest [] 0 hw (by simp only [List.length_nil]; omega),
      handleIntLiteralsLoop_full _ _ _ (by simp only [List.nil_append]; omega)]
    simp
  have htok : newToken TOKEN_INT_LITERAL w st.line_number =
      ⟨TOKEN_INT_LITERAL, w, st.line_number⟩ := by
    rw [newToken, cstr_eq_self w (fun c hc => digit_ne_NUL c (hw c hc)),
      List.take_of_length_le (by omega)]
  unfold handleIntLiterals
  simp only [hu, hloop, addToken, htok, hlen]
  simp [ungetc, noBacktrack, TOKEN_MAX_LENGTH, htok]

/-- C26 on a failing input: on a source made of 1025 digits `lex` returns a token stream
whose first token has a lexeme of 1025 characters, one more than the bound of 1024; the last
digit is read again and makes a second token. -/
theorem long_digit_run_exceeds_lexeme_bound (under : Char) :
    lex under (List.replicate 1025 '7') =
      .done [⟨TOKEN_INT_LITERAL, List.replicate 1025 '7', 1⟩, ⟨TOKEN_INT_LITERAL, ['7'], 1⟩,
        ⟨TOKEN_EOF, ['E', 'O', 'F'], 1⟩] ∧
    (List.replicate 1025 '7').length = 1025 := by
  refine ⟨?_, List.length_replicate _ _⟩
  have h1 := handleIntLiterals_long ⟨List.replicate 1025 '7', 0, 1, [], under⟩
    (List.replicate 1025 '7') [] (by rw [List.append_nil]; rfl)
    (fun c hc => by rw [List.eq_of_mem_replicate hc]; decide) (List.length_replicate _ _)
  have hc1 : lexCase 1025 '7' { (⟨List.replicate 1025 '7', 0, 1, [], under⟩ : LexState) with
      pos := 0 + 1 } = .done ⟨List.replicate 1025 '7', 1024, 1,
        [⟨TOKEN_INT_LITERAL, List.replicate 1025 '7', 1⟩], under⟩ := by
    unfold lexCase
    rw [if_neg (by decide), if_neg (by decide), if_neg (by decide), if_neg (by decide),
      if_neg (by decide), if_neg (by decide), if_neg (by decide), if_neg (by decide),
      if_neg (by decide), if_neg (by decide), if_pos (by decide), h1]
    rfl
  have h2 : handleIntLiterals { (⟨List.replicate 1025 '7', 1024, 1,
        [⟨TOKEN_INT_LITERAL, List.replicate 1025 '7', 1⟩], under⟩ : LexState) with
      pos := 1024 + 1 } = ⟨List.replicate 1025 '7', 1025, 1,
        [⟨TOKEN_INT_LITERAL, List.replicate 1025 '7', 1⟩, ⟨TOKEN_INT_LITERAL, ['7'], 1⟩],
        under⟩ := by
    have hd : List.drop 1024 (List.replicate 1025 '7') = ['7'] := by
      rw [List.drop_replicate]; rfl
    unfold handleIntLiterals
    simp only [ungetc, LexState.unread, Nat.add_sub_cancel, hd]
    rfl
  have hc2 : lexCase 1024 '7' { (⟨List.replicate 1025 '7', 1024, 1,
        [⟨TOKEN_INT_LITERAL, List.replicate 1025 '7', 1⟩], under⟩ : LexState) with
      pos := 1024 + 1 } = .done ⟨List.replicate 1025 '7', 1025, 1,
        [⟨TOKEN_INT_LITERAL, List.replicate 1025 '7', 1⟩, ⟨TOKEN_INT_LITERAL, ['7'], 1⟩],
        under⟩ := by
    unfold lexCase
    rw [if_neg (by decide), if_neg (by decide), if_neg (by decide), if_neg (by decide),
      if_neg (by decide), if_neg (by decide), if_neg (by decide), if_neg (by decide),
      if_neg (by decide), if_neg (by decide), if_pos (by decide), h2]
  have hg0 : (List.replicate 1025 '7')[0]? = some '7' := by
    rw [List.getElem?_replicate, if_pos (by decide)]
  have hg1 : (List.replicate 1025 '7')[1024]? = some '7' := by
    rw [List.getElem?_replicate, if_pos (by decide)]
  have hg2 : (List.replicate 1025 '7')[1025]? = none := by
    rw [List.getElem?_replicate, if_neg (by decide)]
  rw [lex, lexFuel, List.length_replicate]
  rw [lexLoop]
  simp only [hg0, hc1]
  rw [lexLoop]
  simp only [hg1, hc2]
  rw [lexLoop]
  simp only [hg2]
  rfl

/-! ## Identifiers and keywords -/

theorem handleOthersLoop_append (w rest : List Char) :
    ∀ (buffer : List Char) (read : Nat),
      (∀ c ∈ w, (c.isAlphanum || c == '_') = true) →
      buffer.length + w.length ≤ TOKEN_MAX_LENGTH + 1 →
      handleOthersLoop buffer read (w ++ rest) =
        handleOthersLoop (buffer ++ w) (read + w.length) rest := by
  induction w with
  | nil => intro buffer read _ _; simp
  | cons c w ih =>
    intro buffer read hw hlen
    simp only [List.length_cons] at hlen
    have h1 : buffer.length ≤ TOKEN_MAX_LENGTH := by omega
    have h2 : (c.isAlphanum || c == '_') = true := hw c (List.mem_cons_self _ _)
    rw [List.cons_append, handleOthersLoop, if_pos h1, if_pos h2,
      ih (buffer ++ [c]) (read + 1) (fun x hx => hw x (List.mem_cons_of_mem _ hx))
        (by simp only [List.length_append, List.length_singleton]; omega)]
    simp only [List.append_assoc, List.singleton_append, List.length_cons]
    congr 1
    omega

theorem handleOthersLoop_full (buffer : List Char) (read : Nat) (l : List Char)
    (h : TOKEN_MAX_LENGTH < buffer.length) :
    handleOthersLoop buffer read l = ⟨buffer, read, 0⟩ := by
  have h1 : ¬ buffer.length ≤ TOKEN_MAX_LENGTH := by omega
  cases l with
  | nil => rw [handleOthersLoop, if_neg h1]
  | cons c rest => rw [handleOthersLoop, if_neg h1]

/-- At the end of a word that fits into the buffer the loop has read one character more than
the word, or has met the end of the input and skipped one character. -/
theorem handleOthersLoop_end (buffer : List Char) (read : Nat) (rest : List Char)
    (h : buffer.length ≤ TOKEN_MAX_LENGTH)
    (hmax : ∀ d ∈ rest.head?, (d.isAlphanum || d == '_') = false) :
    (handleOthersLoop buffer read rest).buffer = buffer ∧
    (handleOthersLoop buffer read rest).read + (handleOthersLoop buffer read rest).skip =
      read + 1 := by
  cases rest with
  | nil => rw [handleOthersLoop, if_pos h]; exact ⟨rfl, rfl⟩
  | cons d r =>
    have hd : ¬ (d.isAlphanum || d == '_') = true := by
      rw [hmax d (by simp)]; decide
    rw [handleOthersLoop, if_pos h, if_neg hd]
    exact ⟨rfl, rfl⟩

theorem wordChar_ne_NUL (c : Char) (h : (c.isAlphanum || c == '_') = true) : c ≠ NUL := by
  rintro rfl
  exact absurd h (by decide)

theorem strncmpEq_short (a b : List Char) (n : Nat) (ha : a.length ≤ n) (hb : b.length ≤ n) :
    strncmpEq a b n = decide (a = b) := by
  unfold strncmpEq
  rw [List.take_of_length_le ha, List.take_of_length_le hb]
  by_cases h : a = b
  · simp [h]
  · simp [h]

/-- On a word that fits into a lexeme the chain of keyword tests gives the kind of the
specification. -/
theorem keywordType_eq_spec (w : List Char) (h : w.length ≤ TOKEN_MAX_LENGTH) :
    keywordType w = specWordKind w := by
  have e : ∀ k : List Char, k.length ≤ TOKEN_MAX_LENGTH →
      strncmpEq w k TOKEN_MAX_LENGTH = decide (w = k) :=
    fun k hk => strncmpEq_short w k _ h hk
  unfold keywordType specWordKind isAssertKey isPrintKey isTypeKey isReadKey isForKey isVarKey
    isEndKey isInKey isDoKey equals
  rw [e _ (by decide), e _ (by decide), e _ (by decide), e _ (by decide), e _ (by decide),
    e _ (by decide), e _ (by decide), e _ (by decide), e _ (by decide), e _ (by decide),
    e _ (by decide)]
  simp only [Bool.or_eq_true, decide_eq_true_eq]
  by_cases h1 : w = "assert".toList
  · subst h1; decide
  by_cases h2 : w = "print".toList
  · subst h2; decide
  by_cases h3 : w = "int".toList
  · subst h3; decide
  by_cases h4 : w = "string".toList
  · subst h4; decide
  by_cases h5 : w = "bool".toList
  · subst h5; decide
  by_cases h6 : w = "read".toList
  · subst h6; decide
  by_cases h7 : w = "for".toList
  · subst h7; decide
  by_cases h8 : w = "var".toList
  · subst h8; decide
  by_cases h9 : w = "end".toList
  · subst h9; decide
  by_cases h10 : w = "in".toList
  · subst h10; decide
  by_cases h11 : w = "do".toList
  · subst h11; decide
  simp only [h1, h2, h3, h4, h5, h6, h7, h8, h9, h10, h11, if_false, or_self]

theorem lexCase_alpha (fuel : Nat) (c : Char) (st : LexState) (h : c.isAlpha = true) :
    lexCase fuel c st = .done (handleOthers st) := by
  unfold lexCase
  rw [if_neg (by rintro (rfl | rfl | rfl | rfl | rfl | rfl) <;> exact absurd h (by decide)),
    if_neg (by rintro rfl; exact absurd h (by decide)),
    if_neg (by rintro rfl; exact absurd h (by decide)),
    if_neg (by rintro rfl; exact absurd h (by decide)),
    if_neg (by rintro rfl; exact absurd h (by decide)),
    if_neg (by rintro rfl; exact absurd h (by decide)),
    if_neg (by rintro rfl; exact absurd h (by decide)),
    if_neg (by rintro rfl; exact absurd h (by decide)),
    if_neg (by rintro (rfl | rfl | rfl) <;> exact absurd h (by decide)),
    if_pos h]

/-- A word of fewer than `TOKEN_MAX_LENGTH` characters: `handleOthers`, entered after its
first character was read, adds one token with the word as its value and leaves the file
behind the word. -/
theorem handleOthers_word (st : LexState) (w rest : List Char)
    (hun : st.unread = w ++ rest)
    (hw : ∀ c ∈ w, (c.isAlphanum || c == '_') = true)
    (hmax : ∀ d ∈ rest.head?, (d.isAlphanum || d == '_') = false)
    (hlen : w.length < TOKEN_MAX_LENGTH) :
    handleOthers { st with pos := st.pos + 1 } =
      { st with pos := st.pos + w.length,
                tl := st.tl ++ [⟨keywordType w, w, st.line_number⟩] } := by
  have hu : (ungetc { st with pos := st.pos + 1 }).unread = w ++ rest := by
    simpa [ungetc, LexState.unread] using hun
  have hloop : handleOthersLoop [] 0 (w ++ rest) = handleOthersLoop w w.length rest := by
    rw [handleOthersLoop_append w rest [] 0 hw (by simp only [List.length_nil]; omega)]
    simp
  obtain ⟨hb, hr⟩ := handleOthersLoop_end w w.length rest (by omega) hmax
  have hc : cstr w = w := cstr_eq_self w (fun c hc => wordChar_ne_NUL c (hw c hc))
  have htok : newToken (keywordType w) w st.line_number = ⟨keywordType w, w, st.line_number⟩ := by
    rw [newToken, hc, List.take_of_length_le (by omega)]
  have hnb : noBacktrack (keywordType w) = false := by
    unfold keywordType
    split_ifs <;> rfl
  unfold handleOthers
  simp only [hu, hloop, hb, hc]
  rw [if_neg (by omega)]
  simp only [addToken, hnb, Bool.false_eq_true, if_false, ungetc, htok, Nat.add_sub_cancel]
  have : st.pos + (handleOthersLoop w w.length rest).read +
      (handleOthersLoop w w.length rest).skip - 1 = st.pos + w.length := by omega
  rw [this]

/-- A word of `TOKEN_MAX_LENGTH` characters or more: `handleOthers` adds the error token
`Ignoring too long identifier.` and leaves the file `TOKEN_MAX_LENGTH + 1` characters behind
the start of the word. -/
theorem handleOthers_too_long (st : LexState) (w rest : List Char)
    (hun : st.unread = w ++ rest)
    (hw : ∀ c ∈ w, (c.isAlphanum || c == '_') = true)
    (hmax : ∀ d ∈ rest.head?, (d.isAlphanum || d == '_') = false)
    (hlen : TOKEN_MAX_LENGTH ≤ w.length) :
    handleOthers { st with pos := st.pos + 1 } =
      { st with pos := st.pos + (TOKEN_MAX_LENGTH + 1),
                tl := st.tl ++ [⟨TOKEN_ERROR, "Ignoring too long identifier.".toList,
                  st.line_number⟩] } := by
  have hu : (ungetc { st with pos := st.pos + 1 }).unread = w ++ rest := by
    simpa [ungetc, LexState.unread] using hun
  have htok : newToken TOKEN_ERROR "Ignoring too long identifier.".toList st.line_number =
      ⟨TOKEN_ERROR, "Ignoring too long identifier.".toList, st.line_number⟩ := by
    rw [newToken]
    congr 1
  have hres : TOKEN_MAX_LENGTH ≤ (handleOthersLoop [] 0 (w ++ rest)).buffer.length ∧
      (handleOthersLoop [] 0 (w ++ rest)).read + (handleOthersLoop [] 0 (w ++ rest)).skip =
        TOKEN_MAX_LENGTH + 1 := by
    by_cases hl : w.length = TOKEN_MAX_LENGTH
    · rw [handleOthersLoop_append w rest [] 0 hw (by simp only [List.length_nil]; omega)]
      simp only [List.nil_append, Nat.zero_add]
      obtain ⟨hb, hr⟩ := handleOthersLoop_end w w.length rest (by omega) hmax
      rw [hb, hr]
      exact ⟨by omega, by omega⟩
    · have hsplit : w ++ rest = w.take (TOKEN_MAX_LENGTH + 1) ++
          (w.drop (TOKEN_MAX_LENGTH + 1) ++ rest) := by
        rw [← List.append_assoc, List.take_append_drop]
      have hlt : (w.take (TOKEN_MAX_LENGTH + 1)).length = TOKEN_MAX_LENGTH + 1 := by
        rw [List.length_take]; omega
      rw [hsplit, handleOthersLoop_append _ _ [] 0
        (fun c hc => hw c (List.mem_of_mem_take hc)) (by simp only [List.length_nil]; omega),
        handleOthersLoop_full _ _ _ (by simp only [List.nil_append]; omega)]
      simp only [List.nil_append, Nat.zero_add, hlt]
      exact ⟨by omega, trivial⟩
  unfold handleOthers
  simp only [hu]
  rw [if_pos hres.1]
  simp only [addToken, noBacktrack, ungetc, htok, Nat.add_sub_cancel]
  have hp : st.pos + (handleOthersLoop [] 0 (w ++ rest)).read +
      (handleOthersLoop [] 0 (w ++ rest)).skip = st.pos + (TOKEN_MAX_LENGTH + 1) := by
    have := hres.2; omega
  rw [hp]
  rfl

theorem lexLoop_step (fuel : Nat) (st st1 : LexState) (c : Char)
    (h : st.input[st.pos]? = some c)
    (hc : lexCase fuel c { st with pos := st.pos + 1 } = .done st1) :
    lexLoop (fuel + 1) st = lexLoop fuel st1 := by
  rw [lexLoop]
  simp only [h, hc]

theorem lexLoop_end (fuel : Nat) (st : LexState) (h : st.input.length ≤ st.pos) :
    lexLoop (fuel + 1) st = .done st := by
  rw [lexLoop]
  have : st.input[st.pos]? = none := List.getElem?_eq_none_iff.2 h
  simp only [this]

/-- A source made of a word of exactly `TOKEN_MAX_LENGTH` characters and one more character
that does not belong to a word: the token stream holds the error token only. -/
theorem lex_word_of_max_length (under c d : Char) (w : List Char)
    (hc : c.isAlpha = true) (hw : ∀ x ∈ w, (x.isAlphanum || x == '_') = true)
    (hd : (d.isAlphanum || d == '_') = false) (hlen : w.length + 1 = TOKEN_MAX_LENGTH) :
    lex under (c :: w ++ [d]) =
      .done [⟨TOKEN_ERROR, "Ignoring too long identifier.".toList, 1⟩,
        ⟨TOKEN_EOF, ['E', 'O', 'F'], 1⟩] := by
  have hcw : ∀ x ∈ c :: w, (x.isAlphanum || x == '_') = true := by
    intro x hx
    rcases List.mem_cons.1 hx with rfl | hx
    · simp [Char.isAlphanum, hc]
    · exact hw x hx
  have h1 := handleOthers_too_long ⟨c :: w ++ [d], 0, 1, [], under⟩ (c :: w) [d] rfl hcw
    (by intro x hx; simp at hx; subst hx; exact hd)
    (by simp only [List.length_cons]; omega)
  have hlen2 : (c :: w ++ [d]).length = TOKEN_MAX_LENGTH + 1 := by
    simp only [List.length_cons, List.length_append, List.length_nil]; omega
  rw [lex, lexFuel, hlen2,
    lexLoop_step _ ⟨c :: w ++ [d], 0, 1, [], under⟩ _ c (by simp)
      ((lexCase_alpha _ c _ hc).trans (congrArg Outcome.done h1)),
    lexLoop_end _ _ (by simp only [hlen2]; omega)]
  rfl

/-- C27 (as amended): a maximal run `c :: w` of letters, digits and underscores that starts
with a letter at a token boundary. When the run has fewer than 1024 characters, the scanner
adds exactly one token, with the run as its lexeme and with the kind the specification gives
to the word, and goes on right behind the run; when the run has 1024 characters or more, the
scanner adds the error token `Ignoring too long identifier.` and no token with the run as its
lexeme. -/
theorem word_token (fuel : Nat) (st : LexState) (c : Char) (w rest : List Char)
    (hun : st.unread = c :: w ++ rest) (hc : c.isAlpha = true)
    (hw : ∀ x ∈ w, (x.isAlphanum || x == '_') = true)
    (hmax : ∀ d ∈ rest.head?, (d.isAlphanum || d == '_') = false) :
    ((c :: w).length < TOKEN_MAX_LENGTH →
      lexCase fuel c { st with pos := st.pos + 1 } =
        .done { st with pos := st.pos + (c :: w).length,
                        tl := st.tl ++ [⟨specWordKind (c :: w), c :: w, st.line_number⟩] }) ∧
    (TOKEN_MAX_LENGTH ≤ (c :: w).length →
      ∃ st1, lexCase fuel c { st with pos := st.pos + 1 } = .done st1 ∧
        st1.tl = st.tl ++ [⟨TOKEN_ERROR, "Ignoring too long identifier.".toList,
          st.line_number⟩]) := by
  have hcw : ∀ x ∈ c :: w, (x.isAlphanum || x == '_') = true := by
    intro x hx
    rcases List.mem_cons.1 hx with rfl | hx
    · simp [Char.isAlphanum, hc]
    · exact hw x hx
  refine ⟨fun hlen => ?_, fun hlen => ?_⟩
  · rw [lexCase_alpha _ c _ hc, handleOthers_word st (c :: w) rest hun hcw hmax hlen,
      keywordType_eq_spec _ (by omega)]
  · rw [lexCase_alpha _ c _ hc, handleOthers_too_long st (c :: w) rest hun hcw hmax hlen]
    exact ⟨_, rfl, rfl⟩

theorem word_token_witness :
    lexCase 0 'v' ⟨['v', 'a', 'r', ' ', 'x'], 1, 1, [], 'x'⟩ =
      .done ⟨['v', 'a', 'r', ' ', 'x'], 3, 1, [⟨TOKEN_VARKEY, ['v', 'a', 'r'], 1⟩], 'x'⟩ :=
  (word_token 0 ⟨['v', 'a', 'r', ' ', 'x'], 0, 1, [], 'x'⟩ 'v' ['a', 'r'] [' ', 'x'] rfl
    (by decide) (by decide) (by intro d hd; simp at hd; subst hd; decide)).1 (by decide)

/-- C27 (as stated) fails: a run of 1024 letters `a` in front of a semicolon is within the
bound of 1024 characters, yet the scanner adds the error token
`Ignoring too long identifier.` and no identifier; the semicolon is read by the handler and
gives no token. -/
theorem word_of_max_length_counterexample :
    lex 'x' ('a' :: List.replicate 1023 'a' ++ [';']) =
      .done [⟨TOKEN_ERROR, "Ignoring too long identifier.".toList, 1⟩,
        ⟨TOKEN_EOF, ['E', 'O', 'F'], 1⟩] ∧
    ('a' :: List.replicate 1023 'a').length ≤ 1024 :=
  ⟨lex_word_of_max_length 'x' 'a' ';' (List.replicate 1023 'a') (by decide)
      (fun x hx => by rw [List.eq_of_mem_replicate hx]; decide) (by decide)
      (by rw [List.length_replicate]; rfl),
    by rw [List.length_cons, List.length_replicate]⟩

/-! ## The length cap of string literals -/

/-- The loop of the handler on a body of allowed elements that fits below the cap, followed
by anything: the loop goes on behind the body with the decoded body in the buffer. -/
theorem handleStringLoop_prefix (under : Char) (rest : List Char) (items : List StrItem) :
    ∀ (rbuf : List Char) (lr : Bool) (read : Nat),
      (∀ x ∈ items, x.Allowed) → StrClean under rbuf lr →
      rbuf.length + items.length < TOKEN_MAX_LENGTH →
      ∃ lr2, StrClean under ((decodedBody items).reverse ++ rbuf) lr2 ∧
        handleStringLoop under rbuf lr read (rawBody items ++ rest) =
          handleStringLoop under ((decodedBody items).reverse ++ rbuf) lr2
            (read + (rawBody items).length) rest := by
  induction items with
  | nil =>
    intro rbuf lr read _ hc _
    exact ⟨lr, by simpa [decodedBody] using hc, by simp [rawBody, decodedBody]⟩
  | cons x xs ih =>
    intro rbuf lr read hall hc hlen
    have hx := hall x (List.mem_cons_self _ _)
    have hxs : ∀ y ∈ xs, y.Allowed := fun y hy => hall y (List.mem_cons_of_mem _ hy)
    simp only [List.length_cons] at hlen
    have hl1 : rbuf.length < TOKEN_MAX_LENGTH := by omega
    cases x with
    | ordinary c =>
      simp only [StrItem.Allowed] at hx
      have hstep := handleStringCase_ordinary under rbuf lr c hc hx.1 hx.2
      have hclean : StrClean under (c :: rbuf) false := by
        simp [StrClean, hx.2]
      have hraw : rawBody (.ordinary c :: xs) ++ rest = c :: (rawBody xs ++ rest) := by
        simp [rawBody, StrItem.raw]
      have hrl : (rawBody (.ordinary c :: xs)).length = (rawBody xs).length + 1 := by
        simp [rawBody, StrItem.raw]
      obtain ⟨lr2, h1, h2⟩ := ih (c :: rbuf) false (read + 1) hxs hclean
        (by simp only [List.length_cons]; omega)
      refine ⟨lr2, ?_, ?_⟩
      · simpa [decodedBody, StrItem.decoded] using h1
      · rw [hraw, handleStringLoop, if_pos hl1, hstep]
        simp only
        rw [h2, hrl]
        simp only [decodedBody, List.map_cons, StrItem.decoded, List.reverse_cons,
          List.append_assoc, List.singleton_append]
        congr 1
        omega
    | escape c =>
      simp only [StrItem.Allowed] at hx
      have hstep1 := handleStringCase_backslash under rbuf lr hc
      have hstep2 := handleStringCase_escaped under rbuf c hx
      have hclean := strClean_escaped under rbuf c hx
      have hl2 : ('\\' :: rbuf).length < TOKEN_MAX_LENGTH := by
        simp only [List.length_cons]; omega
      have hraw : rawBody (.escape c :: xs) ++ rest = '\\' :: c :: (rawBody xs ++ rest) := by
        simp [rawBody, StrItem.raw]
      have hrl : (rawBody (.escape c :: xs)).length = (rawBody xs).length + 2 := by
        simp [rawBody, StrItem.raw]
      obtain ⟨lr2, h1, h2⟩ := ih (specEscape c :: rbuf) (c == '\\') (read + 1 + 1) hxs hclean
        (by simp only [List.length_cons]; omega)
      refine ⟨lr2, ?_, ?_⟩
      · simpa [decodedBody, StrItem.decoded] using h1
      · rw [hraw, handleStringLoop, if_pos hl1, hstep1]
        simp only
        rw [handleStringLoop, if_pos hl2, hstep2]
        simp only
        rw [h2, hrl]
        simp only [decodedBody, List.map_cons, StrItem.decoded, List.reverse_cons,
          List.append_assoc, List.singleton_append]
        congr 1
        omega

theorem handleStringLoop_full (under : Char) (rbuf : List Char) (lr : Bool) (read : Nat)
    (l : List Char) (h : TOKEN_MAX_LENGTH ≤ rbuf.length) :
    handleStringLoop under rbuf lr read l =
      ⟨TOKEN_ERROR, "String literal is too long.".toList, read, 0, under⟩ := by
  have h1 : ¬ rbuf.length < TOKEN_MAX_LENGTH := by omega
  cases l with
  | nil => rw [handleStringLoop, if_neg h1]
  | cons c rest => rw [handleStringLoop, if_neg h1]

/-- The loop on a buffer with one free place and one more allowed element: the element fills
the buffer, and the loop ends with the error of the too long literal. -/
theorem handleStringLoop_last (under : Char) (rbuf : List Char) (lr : Bool) (read : Nat)
    (x : StrItem) (l : List Char) (hx : x.Allowed) (hc : StrClean under rbuf lr)
    (hlen : rbuf.length + 1 = TOKEN_MAX_LENGTH) :
    handleStringLoop under rbuf lr read (x.raw ++ l) =
      ⟨TOKEN_ERROR, "String literal is too long.".toList, read + 1, 0, under⟩ := by
  have hl1 : rbuf.length < TOKEN_MAX_LENGTH := by omega
  cases x with
  | ordinary c =>
    simp only [StrItem.Allowed] at hx
    have hstep := handleStringCase_ordinary under rbuf lr c hc hx.1 hx.2
    simp only [StrItem.raw, List.singleton_append]
    rw [handleStringLoop, if_pos hl1, hstep]
    simp only
    rw [handleStringLoop_full _ _ _ _ _ (by simp only [List.length_cons]; omega)]
  | escape c =>
    have hstep1 := handleStringCase_backslash under rbuf lr hc
    simp only [StrItem.raw, List.cons_append, List.nil_append]
    rw [handleStringLoop, if_pos hl1, hstep1]
    simp only
    rw [handleStringLoop_full _ _ _ _ _ (by simp only [List.length_cons]; omega)]

/-- A body of allowed elements whose decoded length reaches the cap: the handler started
after the opening quote adds the error token `String literal is too long.`. -/
theorem handleStringLiterals_too_long (st : LexState) (items : List StrItem)
    (rest : List Char) (hunread : st.unread = rawBody items ++ rest)
    (hall : ∀ x ∈ items, x.Allowed)
    (hlen : TOKEN_MAX_LENGTH ≤ (decodedBody items).length)
    (hunder : st.under ≠ '\\') :
    (handleStringLiterals st).tl =
      st.tl ++ [⟨TOKEN_ERROR, "String literal is too long.".toList, st.line_number⟩] := by
  have hclean : StrClean st.under [] false := by
    simp [StrClean, hunder]
  have hil : TOKEN_MAX_LENGTH ≤ items.length := by simpa [decodedBody] using hlen
  have hsplit : items = items.take (TOKEN_MAX_LENGTH - 1) ++ items.drop (TOKEN_MAX_LENGTH - 1) :=
    (List.take_append_drop _ _).symm
  have hT : TOKEN_MAX_LENGTH = 1024 := rfl
  cases hd : items.drop (TOKEN_MAX_LENGTH - 1) with
  | nil =>
    have := List.drop_eq_nil_iff.1 hd
    omega
  | cons x post =>
    rw [hd] at hsplit
    have hpre : ∀ y ∈ items.take (TOKEN_MAX_LENGTH - 1), y.Allowed :=
      fun y hy => hall y (List.mem_of_mem_take hy)
    have hx : x.Allowed := hall x (by rw [hsplit]; simp)
    have hpl : (items.take (TOKEN_MAX_LENGTH - 1)).length = TOKEN_MAX_LENGTH - 1 := by
      rw [List.length_take]; omega
    have hraw : rawBody items ++ rest =
        rawBody (items.take (TOKEN_MAX_LENGTH - 1)) ++ (x.raw ++ (rawBody post ++ rest)) := by
      conv_lhs => rw [hsplit]
      simp [rawBody]
    obtain ⟨lr2, h1, h2⟩ := handleStringLoop_prefix st.under (x.raw ++ (rawBody post ++ rest))
      (items.take (TOKEN_MAX_LENGTH - 1)) [] false 0 hpre hclean
      (by simp only [List.length_nil]; omega)
    have h3 := handleStringLoop_last st.under
      ((decodedBody (items.take (TOKEN_MAX_LENGTH - 1))).reverse ++ [])
      lr2 (0 + (rawBody (items.take (TOKEN_MAX_LENGTH - 1))).length) x (rawBody post ++ rest)
      hx h1 (by simp only [List.append_nil, List.length_reverse, decodedBody, List.length_map]; omega)
    have htok : newToken TOKEN_ERROR "String literal is too long.".toList st.line_number =
        ⟨TOKEN_ERROR, "String literal is too long.".toList, st.line_number⟩ := by
      rw [newToken]
      congr 1
    simp only [handleStringLiterals, hunread, hraw, h2, h3, addToken, noBacktrack, htok]
    rfl

/-- C28 (as amended): a properly closed string literal made of ordinary bytes other than NUL
and of the nine escape sequences, read with no backslash in front of the buffer. When its
decoded content has at most 1023 characters, the handler adds a string-literal token that
carries the content; when the decoded content has 1024 characters or more, the handler adds
the error token `String literal is too long.`. -/
theorem string_literal_length_cap (st : LexState) (items : List StrItem) (rest : List Char)
    (hunread : st.unread = rawBody items ++ '"' :: rest)
    (hall : ∀ x ∈ items, x.Allowed)
    (hnul : StrItem.ordinary NUL ∉ items)
    (hunder : st.under ≠ '\\') :
    ((decodedBody items).length < TOKEN_MAX_LENGTH →
      handleStringLiterals st =
        { st with pos := st.pos + (rawBody items).length + 1,
                  tl := st.tl ++ [⟨TOKEN_STRING_LITERAL, decodedBody items,
                    st.line_number⟩] }) ∧
    (TOKEN_MAX_LENGTH ≤ (decodedBody items).length →
      (handleStringLiterals st).tl =
        st.tl ++ [⟨TOKEN_ERROR, "String literal is too long.".toList, st.line_number⟩]) := by
  refine ⟨fun hlen => ?_, fun hlen => ?_⟩
  · have hnn : ∀ c ∈ decodedBody items, c ≠ NUL := by
      intro c hc
      simp only [decodedBody, List.mem_map] at hc
      obtain ⟨x, hx, hd⟩ := hc
      cases x with
      | ordinary d =>
        simp only [StrItem.decoded] at hd
        subst hd
        exact fun h => hnul (h ▸ hx)
      | escape d => exact hd ▸ specEscape_ne_NUL d (hall _ hx)
    have htake : (decodedBody items).take (TOKEN_MAX_LENGTH + 1) = decodedBody items :=
      List.take_of_length_le (by omega)
    rw [handleStringLiterals_body st items rest hunread hall hlen hunder, newToken,
      cstr_eq_self _ hnn, htake]
  · exact handleStringLiterals_too_long st items ('"' :: rest) hunread hall hlen hunder

theorem string_literal_length_cap_witness :
    handleStringLiterals ⟨['"', 'a', '\\', 'n', '"', ';'], 1, 1, [], 'x'⟩ =
      ⟨['"', 'a', '\\', 'n', '"', ';'], 5, 1, [⟨TOKEN_STRING_LITERAL, ['a', '\n'], 1⟩], 'x'⟩ :=
  (string_literal_length_cap ⟨['"', 'a', '\\', 'n', '"', ';'], 1, 1, [], 'x'⟩
    [.ordinary 'a', .escape 'n'] [';'] (by decide) (by decide) (by decide) (by decide)).1
    (by decide)

theorem rawBody_ordinary (l : List Char) : rawBody (l.map StrItem.ordinary) = l := by
  induction l with
  | nil => rfl
  | cons c l ih =>
    have : rawBody ((c :: l).map StrItem.ordinary) = c :: rawBody (l.map StrItem.ordinary) := by
      simp [rawBody, StrItem.raw]
    rw [this, ih]

/-- C28 (as stated) fails: the literal whose content is 1024 letters `a` is properly closed
and its decoded content has 1024 bytes, within the bound of 1024, yet the handler adds the
error token `String literal is too long.` and no string-literal token. -/
theorem string_of_max_length_counterexample :
    (handleStringLiterals ⟨'"' :: (List.replicate 1024 'a' ++ ['"']), 1, 1, [], 'x'⟩).tl =
      [⟨TOKEN_ERROR, "String literal is too long.".toList, 1⟩] ∧
    (decodedBody ((List.replicate 1024 'a').map StrItem.ordinary)).length = 1024 ∧
    rawBody ((List.replicate 1024 'a').map StrItem.ordinary) = List.replicate 1024 'a' := by
  have hlen : (decodedBody ((List.replicate 1024 'a').map StrItem.ordinary)).length = 1024 := by
    rw [decodedBody, List.length_map, List.length_map, List.length_replicate]
  refine ⟨?_, hlen, rawBody_ordinary _⟩
  exact handleStringLiterals_too_long
    ⟨'"' :: (List.replicate 1024 'a' ++ ['"']), 1, 1, [], 'x'⟩
    ((List.replicate 1024 'a').map StrItem.ordinary) ['"']
    (by rw [rawBody_ordinary]; rfl)
    (by
      intro x hx
      obtain ⟨c, hc, rfl⟩ := List.mem_map.1 hx
      rw [List.eq_of_mem_replicate hc]
      decide)
    (by rw [hlen]; decide) (by decide)

/-! ## Block comments -/

theorem not_infix_tail (p : List Char) (c : Char) (body : List Char)
    (h : ¬ p <:+: c :: body) : ¬ p <:+: body :=
  fun hi => h (hi.trans (List.suffix_cons c body).isInfix)

theorem blockCommentLoop_other (c : Char) (rest : List Char) (h1 : c ≠ NUL)
    (h2 : charIsEOF c = false) (h3 : c ≠ '*') :
    blockCommentLoop (c :: rest) =
      ((blockCommentLoop rest).1 + 1, (blockCommentLoop rest).2) := by
  cases rest <;> simp [blockCommentLoop, h1, h2, h3]

theorem blockCommentLoop_star (d : Char) (rest : List Char) (hd : d ≠ '/') :
    blockCommentLoop ('*' :: d :: rest) =
      ((blockCommentLoop (d :: rest)).1 + 1, (blockCommentLoop (d :: rest)).2) := by
  rw [blockCommentLoop, if_neg (by decide), if_neg (by decide), if_neg (by decide), if_neg hd]

/-- The loop of the multiline comment on a body without NUL, without the byte 255 and
without `*/`, followed by `*/`: everything through the `*/` is read and no error token is
asked for. -/
theorem blockCommentLoop_closed (rest : List Char) (body : List Char) :
    (∀ c ∈ body, c ≠ NUL ∧ charIsEOF c = false) → ¬ ['*', '/'] <:+: body →
    blockCommentLoop (body ++ '*' :: '/' :: rest) = (body.length + 2, false) := by
  induction body with
  | nil =>
    intro _ _
    rw [List.nil_append, blockCommentLoop, if_neg (by decide), if_neg (by decide),
      if_neg (by decide)]
    rfl
  | cons c body ih =>
    intro hb hin
    have hc := hb c (List.mem_cons_self _ _)
    have ih2 := ih (fun x hx => hb x (List.mem_cons_of_mem _ hx)) (not_infix_tail _ c body hin)
    by_cases hs : c = '*'
    · subst hs
      cases body with
      | nil =>
        rw [List.nil_append] at ih2
        rw [List.cons_append, List.nil_append, blockCommentLoop_star _ _ (by decide), ih2]
        rfl
      | cons d body2 =>
        have hd : d ≠ '/' := by
          rintro rfl
          exact hin ⟨[], body2, rfl⟩
        rw [List.cons_append] at ih2
        rw [List.cons_append, List.cons_append, blockCommentLoop_star _ _ hd, ih2]
        simp only [List.length_cons]
    · rw [List.cons_append, blockCommentLoop_other c _ hc.1 hc.2 hs, ih2]
      simp only [List.length_cons]

/-- The loop of the multiline comment on a body without NUL, without the byte 255 and
without `*/` that reaches the end of the input: the whole body is read and the error token is
asked for. -/
theorem blockCommentLoop_open (body : List Char) :
    (∀ c ∈ body, c ≠ NUL ∧ charIsEOF c = false) → ¬ ['*', '/'] <:+: body →
    blockCommentLoop body = (body.length, true) := by
  induction body with
  | nil => intro _ _; rfl
  | cons c body ih =>
    intro hb hin
    have hc := hb c (List.mem_cons_self _ _)
    have ih2 := ih (fun x hx => hb x (List.mem_cons_of_mem _ hx)) (not_infix_tail _ c body hin)
    by_cases hs : c = '*'
    · subst hs
      cases body with
      | nil => rfl
      | cons d body2 =>
        have hd : d ≠ '/' := by
          rintro rfl
          exact hin ⟨[], body2, rfl⟩
        rw [blockCommentLoop_star _ _ hd, ih2]
        simp only [List.length_cons]
    · rw [blockCommentLoop_other c _ hc.1 hc.2 hs, ih2]
      simp only [List.length_cons]

theorem lexCase_slash (fuel : Nat) (st : LexState) :
    lexCase fuel '/' st = .done (handleSlash st ['/']) := by
  unfold lexCase
  rw [if_neg (by decide), if_neg (by decide), if_neg (by decide), if_neg (by decide),
    if_neg (by decide), if_neg (by decide), if_pos rfl]

theorem handleSlash_block (st : LexState) (buffer body : List Char)
    (hun : st.unread = '*' :: body) :
    handleSlash st buffer =
      if (blockCommentLoop body).2 then
        addToken { st with pos := st.pos + 1 + (blockCommentLoop body).1 } TOKEN_ERROR buffer
          st.line_number
      else { st with pos := st.pos + 1 + (blockCommentLoop body).1 } := by
  unfold handleSlash
  rw [hun]
  simp only [show ¬ ('*' : Char) = '/' from by decide, if_false, if_true]

theorem addToken_error (st : LexState) (buffer : List Char) (line : Int) :
    addToken st TOKEN_ERROR buffer line =
      { st with tl := st.tl ++ [newToken TOKEN_ERROR buffer line] } := rfl

/-- The multiline comment outside the failing inputs: `/*` at a token boundary, followed by a
body that holds no NUL byte, no byte 255 and no `*/`. When `*/` follows the body, the scanner
discards everything through that `*/`: it adds no token, and goes on right behind it, also
when the body holds `/*`. When the input ends with the body, the scanner adds an error token,
with the lexeme `/`. -/
theorem block_comment_skipped (fuel : Nat) (st : LexState) (body rest : List Char)
    (hb : ∀ c ∈ body, c ≠ NUL ∧ charIsEOF c = false) (hin : ¬ ['*', '/'] <:+: body) :
    (st.unread = '/' :: '*' :: (body ++ '*' :: '/' :: rest) →
      lexCase fuel '/' { st with pos := st.pos + 1 } =
        .done { st with pos := st.pos + (body.length + 4) }) ∧
    (st.unread = '/' :: '*' :: body →
      lexCase fuel '/' { st with pos := st.pos + 1 } =
        .done { st with pos := st.pos + (body.length + 2),
                        tl := st.tl ++ [⟨TOKEN_ERROR, ['/'], st.line_number⟩] }) := by
  have hdrop : ∀ l : List Char, st.unread = '/' :: l →
      ({ st with pos := st.pos + 1 } : LexState).unread = l := by
    intro l h
    simp only [LexState.unread] at h ⊢
    rw [← List.drop_drop, h]
    rfl
  refine ⟨fun hun => ?_, fun hun => ?_⟩
  · have hp : st.pos + 1 + 1 + (body.length + 2) = st.pos + (body.length + 4) := by omega
    rw [lexCase_slash, handleSlash_block _ _ _ (hdrop _ hun),
      blockCommentLoop_closed rest body hb hin]
    simp only [Bool.false_eq_true, if_false, hp]
  · have hp : st.pos + 1 + 1 + body.length = st.pos + (body.length + 2) := by omega
    have ht : newToken TOKEN_ERROR ['/'] st.line_number = ⟨TOKEN_ERROR, ['/'], st.line_number⟩ := by
      rw [newToken]
      congr 1
    rw [lexCase_slash, handleSlash_block _ _ _ (hdrop _ hun), blockCommentLoop_open body hb hin]
    simp only [if_true, hp, addToken_error, ht]

theorem block_comment_skipped_witness :
    lexCase 0 '/'
        ⟨['/', '*', ' ', 'a', ' ', '/', '*', ' ', 'b', ' ', '*', '/', 'y'], 1, 1, [], 'x'⟩ =
      .done ⟨['/', '*', ' ', 'a', ' ', '/', '*', ' ', 'b', ' ', '*', '/', 'y'], 12, 1, [], 'x'⟩ :=
  (block_comment_skipped 0
    ⟨['/', '*', ' ', 'a', ' ', '/', '*', ' ', 'b', ' ', '*', '/', 'y'], 0, 1, [], 'x'⟩
    [' ', 'a', ' ', '/', '*', ' ', 'b', ' '] ['y'] (by decide) (by decide)).1 rfl

/-- C29 on the failing inputs: the loop of the multiline comment is
`while((c = fgetc(input)))` on a `char`. A NUL byte inside the comment ends the loop and the
comment, so that the bytes between it and the `*/` that follows are not discarded: they are
scanned as tokens. A byte 255 inside the comment compares equal to `EOF` and gives the error
token of the unterminated comment although `*/` follows, and the rest of the comment is
scanned as tokens too. -/
theorem block_comment_cut_by_nul_or_255 :
    lex 'x' ['/', '*', NUL, 'y', '*', '/'] =
      .done [⟨TOKEN_IDENTIFIER, ['y'], 1⟩, ⟨TOKEN_BIN_OP, ['*'], 1⟩, ⟨TOKEN_BIN_OP, ['/'], 1⟩,
        ⟨TOKEN_EOF, ['E', 'O', 'F'], 1⟩] ∧
    lex 'x' ['/', '*', Char.ofNat 255, '*', '/', 'y'] =
      .done [⟨TOKEN_ERROR, ['/'], 1⟩, ⟨TOKEN_BIN_OP, ['*'], 1⟩, ⟨TOKEN_BIN_OP, ['/'], 1⟩,
        ⟨TOKEN_IDENTIFIER, ['y'], 1⟩, ⟨TOKEN_EOF, ['E', 'O', 'F'], 1⟩] := by
  decide

/-! ## The shape of the values of a run -/

theorem goodValue_error : GoodValue error_value := by
  unfold GoodValue error_value
  simp

theorem goodValue_empty : GoodValue empty_value := by
  unfold GoodValue empty_value
  simp

theorem goodValue_bool (v : value) (x : Int) (hv : GoodValue v) (h1 : v.error ≠ 1)
    (h2 : v.empty ≠ 1) (hx : x = 0 ∨ x = 1) : GoodValue { v with b := x, lt := .BOOL } := by
  obtain ⟨a, b, _, _⟩ := hv
  refine ⟨a, b, fun _ => ⟨hx, ?_, ?_⟩, fun h => (h rfl).elim⟩
  · rcases a with a | a
    · exact a
    · exact (h1 a).elim
  · rcases b with b | b
    · exact b
    · exact (h2 b).elim

theorem ite_zero_one (p : Prop) [Decidable p] :
    (if p then (1 : Int) else 0) = 0 ∨ (if p then (1 : Int) else 0) = 1 := by
  split_ifs
  · exact Or.inr rfl
  · exact Or.inl rfl

theorem land_zero_one (a b : Int) (ha : a = 0 ∨ a = 1) (hb : b = 0 ∨ b = 1) :
    Int.land a b = 0 ∨ Int.land a b = 1 := by
  rcases ha with rfl | rfl <;> rcases hb with rfl | rfl <;> decide

/-- The value `applyBinary` returns has the shape of the values of a run when its operands
have it. -/
theorem applyBinary_good (op : token) (oper suffix : value) (st : Env) (r : value × Env)
    (h : applyBinary op oper suffix st = .done r) (ho : GoodValue oper) (hs : GoodValue suffix)
    (h1 : suffix.error ≠ 1) (h2 : suffix.empty ≠ 1) : GoodValue r.1 := by
  unfold applyBinary at h
  have dn : ∀ (v : value) (s : Env), Outcome.done (v, s) = Outcome.done r → GoodValue v →
      GoodValue r.1 := by
    intro v s e hv
    simp only [Outcome.done.injEq] at e
    subst e
    exact hv
  have de : ∀ s : Env, Outcome.done (error_value, s) = Outcome.done r → GoodValue r.1 :=
    fun s e => dn _ s e goodValue_error
  by_cases c0 : suffix.lt ≠ oper.lt
  · rw [if_pos c0] at h; exact de _ h
  rw [if_neg c0] at h
  have hlt : suffix.lt = oper.lt := not_not.1 c0
  by_cases c1 : strncmpEq op.value ['+'] 1 = true
  · rw [if_pos c1] at h
    by_cases d1 : suffix.lt = .INT
    · rw [if_pos d1] at h; exact dn _ _ h hs
    rw [if_neg d1] at h
    by_cases d2 : suffix.lt = .STRING
    · rw [if_pos d2] at h
      split at h
      · split at h
        · exact dn _ _ h ho
        · simp at h
      · simp at h
    rw [if_neg d2] at h
    exact de _ h
  rw [if_neg c1] at h
  by_cases c2 : strncmpEq op.value ['-'] 1 = true
  · rw [if_pos c2] at h
    by_cases d1 : suffix.lt = .INT
    · rw [if_pos d1] at h; exact dn _ _ h hs
    rw [if_neg d1] at h
    exact de _ h
  rw [if_neg c2] at h
  by_cases c3 : strncmpEq op.value ['*'] 1 = true
  · rw [if_pos c3] at h
    by_cases d1 : suffix.lt = .INT
    · rw [if_pos d1] at h; exact dn _ _ h hs
    rw [if_neg d1] at h
    exact de _ h
  rw [if_neg c3] at h
  by_cases c4 : strncmpEq op.value ['/'] 1 = true
  · rw [if_pos c4] at h
    by_cases d0 : suffix.i = 0
    · rw [if_pos d0] at h; exact de _ h
    rw [if_neg d0] at h
    by_cases d1 : suffix.lt = .INT
    · rw [if_pos d1] at h; exact dn _ _ h hs
    rw [if_neg d1] at h
    exact de _ h
  rw [if_neg c4] at h
  by_cases c5 : strncmpEq op.value ['&'] 1 = true
  · rw [if_pos c5] at h
    by_cases d1 : suffix.lt = .BOOL
    · rw [if_pos d1] at h
      have hbs := (hs.2.2.1 d1).1
      have hbo := (ho.2.2.1 (hlt ▸ d1)).1
      refine dn _ _ h ?_
      refine ⟨hs.1, hs.2.1, fun _ => ⟨land_zero_one _ _ hbs hbo, (hs.2.2.1 d1).2⟩,
        fun hne => (hne d1).elim⟩
    rw [if_neg d1] at h
    exact de _ h
  rw [if_neg c5] at h
  by_cases c6 : strncmpEq op.value ['<'] 1 = true
  · rw [if_pos c6] at h
    split at h
    · exact de _ h
    · exact dn _ _ h (goodValue_bool _ _ hs h1 h2 (ite_zero_one _))
    · split at h
      · exact dn _ _ h (goodValue_bool _ _ hs h1 h2 (ite_zero_one _))
      · simp at h
    · exact dn _ _ h (goodValue_bool _ _ hs h1 h2 (ite_zero_one _))
  rw [if_neg c6] at h
  by_cases c7 : strncmpEq op.value ['='] 1 = true
  · rw [if_pos c7] at h
    split at h
    · exact de _ h
    · exact dn _ _ h (goodValue_bool _ _ hs h1 h2 (ite_zero_one _))
    · split at h
      · exact dn _ _ h (goodValue_bool _ _ hs h1 h2 (ite_zero_one _))
      · simp at h
    · exact dn _ _ h (goodValue_bool _ _ hs h1 h2 (ite_zero_one _))
  rw [if_neg c7] at h
  exact dn _ _ h ho

theorem findLabelLoop_mem (name : List Char) (l : label_list) (e : label_entry)
    (h : findLabelLoop name l = some e) : e ∈ l := by
  obtain ⟨pre, post, h1, _, _⟩ := findLabelLoop_some name l e h
  rw [h1]
  simp

theorem findLabelValue_good (id : token) (st : Env) (hg : GoodTable st.global_list) :
    GoodValue (findLabelValue id st).1 := by
  unfold findLabelValue findLabel
  cases hf : findLabelLoop id.value st.global_list with
  | none => exact goodValue_empty
  | some e => exact hg e (findLabelLoop_mem _ _ _ hf)

theorem xorOne_zero_one (b : Int) (h : b = 0 ∨ b = 1) : xorOne b = 0 ∨ xorOne b = 1 := by
  rcases h with rfl | rfl <;> decide

mutual
theorem expression_good : ∀ (n : expression_node) (st : Env) (r : value × Env),
    expression n st = .done r → GoodTable st.global_list → GoodValue r.1
  | .NULL, st, r, h, _ => by
    simp only [expression, Outcome.done.injEq] at h; subst h; exact goodValue_empty
  | .error, st, r, h, _ => by simp [expression] at h
  | .node u b, st, r, h, hg => by
    rw [expression] at h
    obtain ⟨r1, h1, h2⟩ := Outcome.bind_eq_done _ _ _ h
    have g1 := unaryExpression_good u st r1 h1 hg
    have f1 := unaryExpression_frame u st r1 h1
    split_ifs at h2
    · simp only [Outcome.done.injEq] at h2; subst h2; exact g1
    · exact binaryExpression_good b r1.2 r h2 (by rw [f1.1]; exact hg)
theorem unaryExpression_good : ∀ (n : unary_expression_node) (st : Env) (r : value × Env),
    unaryExpression n st = .done r → GoodTable st.global_list → GoodValue r.1
  | .NULL, st, r, h, _ => by
    simp only [unaryExpression, Outcome.done.injEq] at h; subst h; exact goodValue_empty
  | .error, st, r, h, _ => by simp [unaryExpression] at h
  | .node (some unop) opern, st, r, h, hg => by
    rw [unaryExpression] at h
    obtain ⟨r1, h1, h2⟩ := Outcome.bind_eq_done _ _ _ h
    have g1 := operand_good opern st r1 h1 hg
    by_cases hb : r1.1.lt ≠ .BOOL
    · rw [if_pos hb] at h2
      simp only [Outcome.done.injEq] at h2; subst h2
      exact goodValue_error
    · rw [if_neg hb] at h2
      simp only [Outcome.done.injEq] at h2; subst h2
      have hb2 : r1.1.lt = .BOOL := not_not.1 hb
      exact ⟨g1.1, g1.2.1, fun _ => ⟨xorOne_zero_one _ (g1.2.2.1 hb2).1, (g1.2.2.1 hb2).2⟩,
        fun hne => (hne hb2).elim⟩
  | .node none opern, st, r, h, hg => by
    rw [unaryExpression] at h
    exact operand_good opern st r h hg
theorem binaryExpression_good : ∀ (n : binary_expression_node) (st : Env) (r : value × Env),
    binaryExpression n st = .done r → GoodTable st.global_list → GoodValue r.1
  | .NULL, st, r, h, _ => by
    simp only [binaryExpression, Outcome.done.injEq] at h; subst h; exact goodValue_empty
  | .error, st, r, h, _ => by simp [binaryExpression] at h
  | .node opern osn, st, r, h, hg => by
    rw [binaryExpression] at h
    obtain ⟨rs, h1, h2⟩ := Outcome.bind_eq_done _ _ _ h
    obtain ⟨ro, h3, h4⟩ := Outcome.bind_eq_done _ _ _ h2
    have f1 := operandSuffix_frame osn st rs h1
    have g1 := operandSuffix_good osn st rs h1 hg
    have g2 := operand_good opern rs.2 ro h3 (by rw [f1.1]; exact hg)
    simp only at h4
    by_cases c1 : ro.1.empty = 1 ∨ rs.1.error = 1 ∨ ro.1.error = 1
    · rw [if_pos c1] at h4
      simp only [Outcome.done.injEq] at h4; subst h4; exact goodValue_error
    · rw [if_neg c1] at h4
      by_cases c2 : rs.1.empty ≠ 1
      · rw [if_pos c2] at h4
        split at h4
        · exact applyBinary_good _ _ _ _ _ h4 g2 g1 (fun e => c1 (Or.inr (Or.inl e))) c2
        · simp at h4
      · rw [if_neg c2] at h4
        simp only [Outcome.done.injEq] at h4; subst h4; exact g2
theorem operandSuffix_good : ∀ (n : operand_suffix_node) (st : Env) (r : value × Env),
    operandSuffix n st = .done r → GoodTable st.global_list → GoodValue r.1
  | .NULL, st, r, h, _ => by
    simp only [operandSuffix, Outcome.done.injEq] at h; subst h; exact goodValue_empty
  | .error, st, r, h, _ => by simp [operandSuffix] at h
  | .node _ opn, st, r, h, hg => by
    rw [operandSuffix] at h
    exact operand_good opn st r h hg
theorem operand_good : ∀ (n : operand_node) (st : Env) (r : value × Env),
    operand n st = .done r → GoodTable st.global_list → GoodValue r.1
  | .NULL, st, r, h, _ => by simp [operand] at h
  | .error, st, r, h, _ => by simp [operand] at h
  | .node intLit strLit id expren, st, r, h, hg => by
    rw [operand] at h
    obtain ⟨r1, h1, h2⟩ := Outcome.bind_eq_done _ _ _ h
    have g1 := enclosedExpression_good expren st r1 h1 hg
    have f1 := enclosedExpression_frame expren st r1 h1
    split_ifs at h2
    · simp only [Outcome.done.injEq] at h2; subst h2; exact g1
    · split at h2
      · simp only [Outcome.done.injEq] at h2; subst h2
        simp [GoodValue, default_value]
      · simp only [Outcome.done.injEq] at h2; subst h2
        simp [GoodValue, default_value]
      · simp only at h2
        split_ifs at h2
        · simp only [Outcome.done.injEq] at h2; subst h2
          exact goodValue_error
        · simp only [Outcome.done.injEq] at h2; subst h2
          exact findLabelValue_good _ _ (by rw [f1.1]; exact hg)
      · simp at h2
theorem enclosedExpression_good : ∀ (n : enclosed_expression_node) (st : Env)
    (r : value × Env), enclosedExpression n st = .done r → GoodTable st.global_list →
    GoodValue r.1
  | .NULL, st, r, h, _ => by
    simp only [enclosedExpression, Outcome.done.injEq] at h; subst h; exact goodValue_empty
  | .error, st, r, h, _ => by simp [enclosedExpression] at h
  | .node _ expn _, st, r, h, hg => by
    rw [enclosedExpression] at h
    exact expression_good expn st r h hg
end

/-! ## The shape of the values is kept by the statements -/

theorem goodValue_default (lt : label_type) (s : Option (List Char)) (i c : Int) :
    GoodValue { default_value with lt := lt, s := s, i := i, constant := c } := by
  simp [GoodValue, default_value]

theorem forceUpdateLoop_good (name : List Char) (v : value) (hv : GoodValue v) :
    ∀ l : label_list, GoodTable l → GoodTable (forceUpdateLoop name v l) := by
  intro l
  induction l with
  | nil => intro h; exact h
  | cons e rest ih =>
    intro hg
    have he : GoodValue e.2 := hg e (List.mem_cons_self _ _)
    have hr : GoodTable rest := fun x hx => hg x (List.mem_cons_of_mem _ hx)
    rw [forceUpdateLoop]
    split_ifs
    · intro x hx
      rcases List.mem_cons.1 hx with rfl | hx
      · exact hv
      · exact hr x hx
    · intro x hx
      rcases List.mem_cons.1 hx with rfl | hx
      · exact he
      · exact ih hr x hx

theorem forceUpdate_good (id : token) (v : value) (st : Env) (hv : GoodValue v)
    (hg : GoodTable st.global_list) : GoodTable (forceUpdate id v st).global_list :=
  forceUpdateLoop_good _ _ hv _ hg

theorem update_good (id : token) (v : value) (st : Env) (hv : GoodValue v)
    (hg : GoodTable st.global_list) : GoodTable (update id v st).2.global_list := by
  unfold update isConstant
  have hf := frame_findLabelValue id st
  rcases hx : findLabelValue id st with ⟨w, s1⟩
  rw [hx] at hf
  simp only
  have hg1 : GoodTable s1.global_list := by rw [hf.1]; exact hg
  by_cases hc : w.constant = 0
  · simp only [hc, if_true, ne_eq, not_true_eq_false, if_false]
    exact forceUpdate_good _ _ _ hv hg1
  · simp only [hc, if_false, ne_eq, one_ne_zero, not_false_eq_true, if_true]
    exact hg1

theorem insert_good (id : token) (v : value) (st : Env) (hv : GoodValue v)
    (hg : GoodTable st.global_list) : GoodTable (insert id v st).2.global_list := by
  unfold insert
  cases hs : insertScan id.value st.global_list with
  | none =>
    intro x hx
    rcases List.mem_cons.1 hx with rfl | hx
    · exact hv
    · exact hg x hx
  | some r =>
    obtain ⟨pre, old, post, h1, h2, _, _⟩ := insertScan_some _ _ _ hs
    intro x hx
    simp only [h2, List.mem_cons, List.mem_append] at hx
    rcases hx with rfl | hx | hx
    · exact hv
    · exact hg x (by rw [h1]; simp [hx])
    · exact hg x (by rw [h1]; simp [hx])

theorem declaration_good_tail (id : token) (expected : label_type) (v : value)
    (s : Env) (r : Int × Env) (hv : GoodValue v) (hg : GoodTable s.global_list)
    (h : (if v.lt ≠ expected then
        Outcome.done ((0 : Int), printError id "Incompatible types in declaration".toList
          SEMANTIC_ERROR s)
      else
        if (insert id v s).1 = 0 then
          .done (0, printError id ("Redeclaration of symbol ".toList ++ id.value)
            SEMANTIC_ERROR (insert id v s).2)
        else .done (1, (insert id v s).2)) = .done r) : GoodTable r.2.global_list := by
  by_cases h1 : v.lt ≠ expected
  · rw [if_pos h1] at h
    simp only [Outcome.done.injEq] at h; subst h
    exact hg
  · rw [if_neg h1] at h
    by_cases h2 : (insert id v s).1 = 0
    · rw [if_pos h2] at h
      simp only [Outcome.done.injEq] at h; subst h
      exact insert_good _ _ _ hv hg
    · rw [if_neg h2] at h
      simp only [Outcome.done.injEq] at h; subst h
      exact insert_good _ _ _ hv hg

theorem declaration_good (n : declaration_node) (st : Env) (r : Int × Env)
    (h : declaration n st = .done r) (hg : GoodTable st.global_list) :
    GoodTable r.2.global_list := by
  cases n with
  | NULL => simp only [declaration, Outcome.done.injEq] at h; subst h; exact hg
  | error => simp [declaration] at h
  | node varKey id col typeKey asn =>
    cases id with
    | none => simp [declaration] at h
    | some id =>
      cases typeKey with
      | none => simp [declaration] at h
      | some typeKey =>
        rw [declaration] at h
        obtain ⟨r1, h1, h2⟩ := Outcome.bind_eq_done _ _ _ h
        have f1 : Frame st r1.2 ∧ GoodValue r1.1 := by
          cases asn with
          | NULL =>
            simp only [declarationSuffix, Outcome.done.injEq] at h1; subst h1
            exact ⟨Frame.refl _, goodValue_empty⟩
          | error => simp [declarationSuffix] at h1
          | node ass expn =>
            rw [declarationSuffix] at h1
            exact ⟨expression_frame _ _ _ h1, expression_good _ _ _ h1 hg⟩
        have hv : GoodValue (if r1.1.empty ≠ 0 then
            ({ default_value with
                lt := expectedType typeKey,
                s := if expectedType typeKey = .STRING then some [] else none } : value)
            else r1.1) := by
          by_cases he : r1.1.empty ≠ 0
          · rw [if_pos he]; exact goodValue_default _ _ 0 0
          · rw [if_neg he]; exact f1.2
        exact declaration_good_tail _ _ _ _ _ hv (by rw [f1.1.1]; exact hg) h2

theorem assignment_good (n : assignment_node) (st : Env) (r : Int × Env)
    (h : assignment n st = .done r) (hg : GoodTable st.global_list) :
    GoodTable r.2.global_list := by
  cases n with
  | NULL => simp only [assignment, Outcome.done.injEq] at h; subst h; exact hg
  | error => simp [assignment] at h
  | node id assOp expn =>
    cases id with
    | none => simp [assignment] at h
    | some id =>
      rw [assignment] at h
      have f0 := frame_findLabelType id st
      have hg0 : GoodTable (findLabelType id st).2.global_list := by rw [f0.1]; exact hg
      by_cases hu : (findLabelType id st).1 = UNDEF
      · rw [if_pos hu] at h
        simp only [Outcome.done.injEq] at h; subst h
        exact hg0
      · rw [if_neg hu] at h
        obtain ⟨r1, h1, h2⟩ := Outcome.bind_eq_done _ _ _ h
        have f1 := expression_frame _ _ _ h1
        have g1 := expression_good _ _ _ h1 hg0
        have hg1 : GoodTable r1.2.global_list := by rw [f1.1]; exact hg0
        by_cases ht : (findLabelType id st).1 ≠ r1.1.lt
        · rw [if_pos ht] at h2
          simp only [Outcome.done.injEq] at h2; subst h2
          exact hg1
        · rw [if_neg ht] at h2
          by_cases he : r1.1.error ≠ 1 ∧ r1.1.empty ≠ 1
          · rw [if_pos he] at h2
            simp only [Outcome.done.injEq] at h2; subst h2
            exact update_good _ _ _ g1 hg1
          · rw [if_neg he] at h2
            simp only [Outcome.done.injEq] at h2; subst h2
            exact hg1

theorem assert_table (n : assert_node) (st : Env) (r : Int × Env)
    (h : assert n st = .done r) : r.2.global_list = st.global_list := by
  cases n with
  | NULL => simp only [assert, Outcome.done.injEq] at h; subst h; rfl
  | error => simp [assert] at h
  | node assertKey lPar expn rPar =>
    rw [assert] at h
    obtain ⟨r1, h1, h2⟩ := Outcome.bind_eq_done _ _ _ h
    have f1 := expression_frame _ _ _ h1
    by_cases hb : r1.1.b ≠ 1
    · rw [if_pos hb] at h2
      cases assertKey with
      | none => simp at h2
      | some t =>
        simp only [Outcome.done.injEq] at h2; subst h2
        exact f1.1
    · rw [if_neg hb] at h2
      simp only [Outcome.done.injEq] at h2; subst h2
      exact f1.1

theorem printValue_table (v : value) (st st1 : Env) (h : printValue v st = .done st1) :
    st1.global_list = st.global_list ∧ st1.err = st.err ∧ st1.inp = st.inp := by
  unfold printValue at h
  split at h
  · simp only [Outcome.done.injEq] at h; subst h; exact ⟨rfl, rfl, rfl⟩
  · split at h
    · simp only [Outcome.done.injEq] at h; subst h; exact ⟨rfl, rfl, rfl⟩
    · simp at h
  · simp only [Outcome.done.injEq] at h; subst h; exact ⟨rfl, rfl, rfl⟩
  · simp only [Outcome.done.injEq] at h; subst h; exact ⟨rfl, rfl, rfl⟩

theorem print_table (n : print_node) (st : Env) (r : Int × Env)
    (h : print n st = .done r) : r.2.global_list = st.global_list := by
  cases n with
  | NULL => simp only [print, Outcome.done.injEq] at h; subst h; rfl
  | error => simp [print] at h
  | node printKey expn =>
    rw [print] at h
    obtain ⟨r1, h1, h2⟩ := Outcome.bind_eq_done _ _ _ h
    have f1 := expression_frame _ _ _ h1
    by_cases hb : r1.1.error = 1 ∨ r1.1.empty = 1 ∨ (r1.1.lt ≠ .STRING ∧ r1.1.lt ≠ .INT)
    · rw [if_pos hb] at h2
      cases printKey with
      | none => simp at h2
      | some t =>
        simp only [Outcome.done.injEq] at h2; subst h2
        exact f1.1
    · rw [if_neg hb] at h2
      obtain ⟨s2, h3, h4⟩ := Outcome.bind_eq_done _ _ _ h2
      simp only [Outcome.done.injEq] at h4; subst h4
      exact (printValue_table _ _ _ h3).1.trans f1.1

theorem read_good (n : read_node) (st : Env) (r : Int × Env)
    (h : read n st = .done r) (hg : GoodTable st.global_list) :
    GoodTable r.2.global_list := by
  cases n with
  | NULL => simp only [read, Outcome.done.injEq] at h; subst h; exact hg
  | error => simp [read] at h
  | node readKey id =>
    cases id with
    | none => simp [read] at h
    | some id =>
      rw [read] at h
      have f0 := frame_findLabelType id st
      have hg0 : GoodTable (findLabelType id st).2.global_list := by rw [f0.1]; exact hg
      simp only at h
      split at h
      · simp only [Outcome.done.injEq] at h; subst h
        exact hg0
      · split at h
        · simp only [Outcome.done.injEq] at h; subst h
          exact hg0
        · simp only [Outcome.done.injEq] at h; subst h
          exact update_good _ _ _ (goodValue_default _ _ _ 0) hg0
      · split at h
        · simp only [Outcome.done.injEq] at h; subst h
          exact hg0
        · simp only [Outcome.done.injEq] at h; subst h
          exact update_good _ _ _ (goodValue_default _ _ 0 0) hg0
      · simp only [Outcome.done.injEq] at h; subst h
        exact hg0

theorem forLoop_good (body : Env → Outcome (Int × Env)) (id : token) (b : Int)
    (hbody : ∀ s r, body s = .done r → GoodTable s.global_list → GoodTable r.2.global_list) :
    ∀ (fuel : Nat) (c : value) (st : Env) (r : Int × Env),
      forLoop body id b fuel c st = .done r → GoodValue c → GoodTable st.global_list →
      GoodTable r.2.global_list := by
  intro fuel
  induction fuel with
  | zero => intro c st r h; simp [forLoop] at h
  | succ f ih =>
    intro c st r h hc hg
    rw [forLoop] at h
    by_cases hle : c.i ≤ b
    · rw [if_pos hle] at h
      cases hb : body (forceUpdate id c st) with
      | fault => rw [hb] at h; simp at h
      | fuel => rw [hb] at h; simp at h
      | done r1 =>
        rw [hb] at h
        simp only at h
        have p1 : GoodTable r1.2.global_list := hbody _ _ hb (forceUpdate_good _ _ _ hc hg)
        by_cases h0 : r1.1 = 0
        · rw [if_pos h0] at h
          simp only [Outcome.done.injEq] at h
          subst h
          exact p1
        · rw [if_neg h0] at h
          exact ih _ _ _ h hc p1
    · rw [if_neg hle] at h
      simp only [Outcome.done.injEq] at h
      subst h
      exact forceUpdate_good _ _ _ hc hg

mutual
theorem stmts_good (fuel : Nat) : ∀ (n : stmts_node) (st : Env) (r : Int × Env),
    stmts fuel n st = .done r → GoodTable st.global_list → GoodTable r.2.global_list
  | .NULL, st, r, h, hg => by
    simp only [stmts, Outcome.done.injEq] at h; subst h; exact hg
  | .error, st, r, h, _ => by simp [stmts] at h
  | .node stmtn sCol stmtsn, st, r, h, hg => by
    rw [stmts] at h
    obtain ⟨r1, h1, h2⟩ := Outcome.bind_eq_done _ _ _ h
    have p1 := statement_good fuel stmtn st r1 h1 hg
    by_cases h0 : r1.1 = 0
    · rw [if_pos h0] at h2
      simp only [Outcome.done.injEq] at h2; subst h2
      exact p1
    · rw [if_neg h0] at h2
      exact stmts_good fuel stmtsn r1.2 r h2 p1
theorem statement_good (fuel : Nat) : ∀ (n : statement_node) (st : Env)
    (r : Int × Env), statement fuel n st = .done r → GoodTable st.global_list →
    GoodTable r.2.global_list
  | .NULL, st, r, h, _ => by simp [statement] at h
  | .error, st, r, h, _ => by simp [statement] at h
  | .node decn assn forn readn printn assertn, st, r, h, hg => by
    rw [statement] at h
    obtain ⟨r1, h1, h⟩ := Outcome.bind_eq_done _ _ _ h
    have p1 := declaration_good decn st r1 h1 hg
    by_cases c1 : r1.1 = 0
    · rw [if_pos c1] at h
      simp only [Outcome.done.injEq] at h; subst h; exact p1
    rw [if_neg c1] at h
    obtain ⟨r2, h2, h⟩ := Outcome.bind_eq_done _ _ _ h
    have p2 := assignment_good assn r1.2 r2 h2 p1
    by_cases c2 : r2.1 = 0
    · rw [if_pos c2] at h
      simp only [Outcome.done.injEq] at h; subst h; exact p2
    rw [if_neg c2] at h
    obtain ⟨r3, h3, h⟩ := Outcome.bind_eq_done _ _ _ h
    have p3 := for_good fuel forn r2.2 r3 h3 p2
    by_cases c3 : r3.1 = 0
    · rw [if_pos c3] at h
      simp only [Outcome.done.injEq] at h; subst h; exact p3
    rw [if_neg c3] at h
    obtain ⟨r4, h4, h⟩ := Outcome.bind_eq_done _ _ _ h
    have p4 := read_good readn r3.2 r4 h4 p3
    by_cases c4 : r4.1 = 0
    · rw [if_pos c4] at h
      simp only [Outcome.done.injEq] at h; subst h; exact p4
    rw [if_neg c4] at h
    obtain ⟨r5, h5, h⟩ := Outcome.bind_eq_done _ _ _ h
    have p5 : GoodTable r5.2.global_list := by rw [print_table printn r4.2 r5 h5]; exact p4
    by_cases c5 : r5.1 = 0
    · rw [if_pos c5] at h
      simp only [Outcome.done.injEq] at h; subst h; exact p5
    rw [if_neg c5] at h
    obtain ⟨r6, h6, h⟩ := Outcome.bind_eq_done _ _ _ h
    have p6 : GoodTable r6.2.global_list := by rw [assert_table assertn r5.2 r6 h6]; exact p5
    by_cases c6 : r6.1 = 0
    · rw [if_pos c6] at h
      simp only [Outcome.done.injEq] at h; subst h; exact p6
    · rw [if_neg c6] at h
      simp only [Outcome.done.injEq] at h; subst h; exact p6
theorem for_good (fuel : Nat) : ∀ (n : for_node) (st : Env) (r : Int × Env),
    for_ fuel n st = .done r → GoodTable st.global_list → GoodTable r.2.global_list
  | .NULL, st, r, h, hg => by
    simp only [for_, Outcome.done.injEq] at h; subst h; exact hg
  | .error, st, r, h, _ => by simp [for_] at h
  | .node _ none _ _ _ _ _ _ _ _, st, r, h, _ => by simp [for_] at h
  | .node _ (some id) _ expn1 _ expn2 _ stmtsn _ _, st, r, h, hg => by
    rw [for_] at h
    have f0 := frame_findLabelType id st
    have hg0 : GoodTable (findLabelType id st).2.global_list := by rw [f0.1]; exact hg
    by_cases ht : (findLabelType id st).1 ≠ INT
    · rw [if_pos ht] at h
      simp only [Outcome.done.injEq] at h; subst h
      exact hg0
    · rw [if_neg ht] at h
      obtain ⟨r1, h1, h⟩ := Outcome.bind_eq_done _ _ _ h
      obtain ⟨r2, h2, h⟩ := Outcome.bind_eq_done _ _ _ h
      have f1 := expression_frame _ _ _ h1
      have f2 := expression_frame _ _ _ h2
      have hg2 : GoodTable r2.2.global_list := by rw [f2.1, f1.1]; exact hg0
      by_cases hr : r1.1.lt ≠ INT ∨ r2.1.lt ≠ INT
      · rw [if_pos hr] at h
        simp only [Outcome.done.injEq] at h; subst h
        exact hg2
      · rw [if_neg hr] at h
        exact forLoop_good _ id _ (fun s r hb hs => stmts_good fuel stmtsn s r hb hs) fuel _ _ _ h
          (goodValue_default _ _ _ 1) hg2
end

/-- Every state of a run has a symbol table whose values have the shape of the values the
evaluator builds. -/
theorem reachable_good (st : Env) (h : Reachable st) : GoodTable st.global_list := by
  induction h with
  | start inp => intro e he; simp [initialEnv] at he
  | statement fuel n st r _ hs ih => exact statement_good fuel n st r hs ih
  | expression n st r _ he ih => rw [(expression_frame n st r he).1]; exact ih
  | lookup id st _ ih => rw [(frame_findLabelType id st).1]; exact ih
  | round id k st _ ih => exact forceUpdate_good _ _ _ (goodValue_default _ _ _ 1) ih

/-! ## The statements `assert` and `print` -/

/-- C21: in every state of a run, for an expression `e` that evaluates to a value, the
statement `assert (e)` succeeds if and only if the value is the boolean true, without error;
in every other case, that is when the value is the boolean false, an int, a string or the
error value of an expression that does not evaluate, the statement fails with the diagnostic
`Assertion failed`. A boolean value is false or true. -/
theorem assert_contract (t : token) (lPar rPar : Option token) (e : expression_node)
    (st st1 : Env) (v : value) (hr : Reachable st) (he : expression e st = .done (v, st1)) :
    (assert (.node (some t) lPar e rPar) st = .done (1, st1) ↔
      (v.lt = BOOL ∧ v.b = 1 ∧ v.error = 0 ∧ v.empty = 0)) ∧
    ((v.lt = BOOL ∧ v.b = 0) ∨ v.lt = INT ∨ v.lt = STRING ∨ v.error = 1 ∨ v.empty = 1 →
      assert (.node (some t) lPar e rPar) st =
        .done (0, printError t "Assertion failed".toList SEMANTIC_ERROR st1)) ∧
    (v.lt = BOOL → v.b = 0 ∨ v.b = 1) := by
  have gv := expression_good e st (v, st1) he (reachable_good st hr)
  obtain ⟨g1, g2, g3, g4⟩ := gv
  simp only at g1 g2 g3 g4
  have hrun : assert (.node (some t) lPar e rPar) st =
      if v.b ≠ 1 then .done (0, printError t "Assertion failed".toList SEMANTIC_ERROR st1)
      else .done (1, st1) := by
    rw [assert, he]
    rfl
  have hbool : v.b = 1 → v.lt = BOOL := by
    intro hb
    by_contra hne
    rw [g4 hne] at hb
    exact absurd hb (by decide)
  refine ⟨⟨fun h => ?_, fun h => ?_⟩, fun h => ?_, fun h => (g3 h).1⟩
  · rw [hrun] at h
    by_cases hb : v.b ≠ 1
    · rw [if_pos hb] at h
      simp at h
    · have hb1 : v.b = 1 := not_not.1 hb
      exact ⟨hbool hb1, hb1, (g3 (hbool hb1)).2.1, (g3 (hbool hb1)).2.2⟩
  · rw [hrun, if_neg (by simp [h.2.1])]
  · have hb : v.b ≠ 1 := by
      intro hb
      have hlt := hbool hb
      rcases h with h | h | h | h | h
      · rw [h.2] at hb; exact absurd hb (by decide)
      · rw [hlt] at h; exact absurd h (by decide)
      · rw [hlt] at h; exact absurd h (by decide)
      · rw [(g3 hlt).2.1] at h; exact absurd h (by decide)
      · rw [(g3 hlt).2.2] at h; exact absurd h (by decide)
    rw [hrun, if_pos hb]

theorem assert_contract_witness :
    assert (.node (some (tok TOKEN_ASSERTKEY "assert")) none
        (binaryExpr (intOperand "1") "=" (intOperand "1")) none) (initialEnv []) =
      .done (1, initialEnv []) :=
  (assert_contract (tok TOKEN_ASSERTKEY "assert") none none
    (binaryExpr (intOperand "1") "=" (intOperand "1")) (initialEnv []) (initialEnv [])
    ⟨1, 1, none, 0, 0, 0, BOOL⟩ (Reachable.start []) (by decide)).1.2 ⟨rfl, rfl, rfl, rfl⟩

/-- C22: for an expression `e` that evaluates to a value, `print e` succeeds and appends to
standard output exactly the decimal representation of the value when it is an int, and
exactly the characters of the value when it is a string, with nothing added; when the value
is a boolean or the error value, `print` fails and standard output is as it was before the
statement. The example `var x : int := 4 + 5; print x;` writes `9`. -/
theorem print_contract (t : token) (e : expression_node) (st st1 : Env) (v : value)
    (he : expression e st = .done (v, st1)) :
    (v.lt = INT → v.error ≠ 1 → v.empty ≠ 1 →
      print (.node (some t) e) st = .done (1, { st1 with out := st.out ++ fmtD v.i })) ∧
    (∀ s, v.lt = STRING → v.s = some s → v.error ≠ 1 → v.empty ≠ 1 →
      print (.node (some t) e) st = .done (1, { st1 with out := st.out ++ s })) ∧
    (v.lt = BOOL ∨ v.error = 1 →
      ∃ st2, print (.node (some t) e) st = .done (0, st2) ∧ st2.out = st.out) ∧
    run 0 printExampleProgram [] =
      .done (1, ⟨[("x".toList, ⟨9, 0, none, 0, 0, 0, INT⟩)], ['9'], [], []⟩) := by
  have f1 := expression_frame e st (v, st1) he
  have hout : st1.out = st.out := f1.2.1
  refine ⟨fun h1 h2 h3 => ?_, fun s h1 hs h2 h3 => ?_, fun h => ?_, by decide⟩
  · rw [print, he]
    simp only [Outcome.bind_done]
    rw [if_neg (by simp [h1, h2, h3])]
    simp only [printValue, h1, Outcome.bind_done, hout]
  · rw [print, he]
    simp only [Outcome.bind_done]
    rw [if_neg (by simp [h1, h2, h3])]
    simp only [printValue, h1, hs, Outcome.bind_done, hout]
  · refine ⟨printError t "Invalid value in printable expression".toList RUNTIME_ERROR st1,
      ?_, hout⟩
    rw [print, he]
    simp only [Outcome.bind_done]
    rw [if_pos]
    rcases h with h | h
    · exact Or.inr (Or.inr (by rw [h]; exact ⟨by decide, by decide⟩))
    · exact Or.inl h

theorem print_contract_witness :
    print (.node (some (tok TOKEN_PRINTKEY "print")) (operandExpr (strOperand "ab")))
        ⟨[], ['x'], [], []⟩ = .done (1, ⟨[], ['x', 'a', 'b'], [], []⟩) :=
  (print_contract (tok TOKEN_PRINTKEY "print") (operandExpr (strOperand "ab"))
    ⟨[], ['x'], [], []⟩ ⟨[], ['x'], [], []⟩ ⟨0, 0, some ['a', 'b'], 0, 0, 0, STRING⟩
    (by decide)).2.1 ['a', 'b'] rfl rfl (by decide) (by decide)

/-! ## The order of evaluation in a binary expression -/

/-- C23: in a binary expression `l op r` the suffix operand `r` is evaluated first, in the
state in front of the expression, and the left operand `l` is evaluated in the state `r`
leaves: what `r` writes on standard error stands in front of what `l` writes. When one of the
operands gives the error value, the result is the error value and both diagnostics are
there, the one of `r` first; when both give values, the operator is applied with the value of
`l` on the left and the value of `r` on the right, so that `l - r` is the difference of `l`
and `r`. -/
theorem suffix_operand_evaluated_first (opern opn : operand_node) (op : token)
    (st st1 st2 : Env) (vl vr : value) (hr : operand opn st = .done (vr, st1))
    (hl : operand opern st1 = .done (vl, st2)) :
    (∃ dr dl, st1.err = st.err ++ dr ∧ st2.err = st.err ++ dr ++ dl) ∧
    (vl.error = 1 ∨ vr.error = 1 →
      binaryExpression (.node opern (.node (some op) opn)) st = .done (error_value, st2)) ∧
    (vl.error ≠ 1 → vl.empty ≠ 1 → vr.error ≠ 1 → vr.empty ≠ 1 →
      binaryExpression (.node opern (.node (some op) opn)) st =
        applyBinary op { vl with constant := 0 } { vr with constant := 0 } st2) ∧
    (vl.error ≠ 1 → vl.empty ≠ 1 → vr.error ≠ 1 → vr.empty ≠ 1 →
      vl.lt = INT → vr.lt = INT → op.value = ['-'] →
      ∃ v, binaryExpression (.node opern (.node (some op) opn)) st = .done (v, st2) ∧
        v.lt = INT ∧ v.i = wrapInt (vl.i - vr.i)) := by
  have f1 := operand_frame opn st (vr, st1) hr
  have f2 := operand_frame opern st1 (vl, st2) hl
  obtain ⟨dr, hdr⟩ := f1.2.2.2
  obtain ⟨dl, hdl⟩ := f2.2.2.2
  simp only at hdr hdl
  refine ⟨⟨dr, dl, hdr, by rw [hdl, hdr]⟩, fun h => ?_, fun a b c d => ?_,
    fun a b c d e1 e2 e3 => ?_⟩
  · rw [binaryExpression]
    simp only [operandSuffix, hr, hl, Outcome.bind_done]
    rw [if_pos]
    rcases h with h | h
    · exact Or.inr (Or.inr h)
    · exact Or.inr (Or.inl h)
  · exact binaryExpression_apply opern opn op st st1 st2 vl vr hr hl ⟨a, b⟩ ⟨c, d⟩
  · rw [binaryExpression_apply opern opn op st st1 st2 vl vr hr hl ⟨a, b⟩ ⟨c, d⟩]
    have k1 : strncmpEq ['-'] ['+'] 1 = false := by decide
    have k2 : strncmpEq ['-'] ['-'] 1 = true := by decide
    refine ⟨{ vr with constant := 0, i := wrapInt (vl.i - vr.i) }, ?_, e2, rfl⟩
    unfold applyBinary
    simp [e1, e2, e3, k1, k2]

theorem suffix_operand_evaluated_first_witness :
    binaryExpression (.node (idOperand "y") (.node (some (tok TOKEN_BIN_OP "-")) (idOperand "x")))
        ⟨[], [], [], []⟩ =
      .done (error_value, ⟨[], [],
        ("Semantic error in line   1: Reference to unknown variable x.\n" ++
         "Semantic error in line   1: Reference to unknown variable y.\n").toList, []⟩) :=
  (suffix_operand_evaluated_first (idOperand "y") (idOperand "x") (tok TOKEN_BIN_OP "-")
    ⟨[], [], [], []⟩
    ⟨[], [], "Semantic error in line   1: Reference to unknown variable x.\n".toList, []⟩
    ⟨[], [], ("Semantic error in line   1: Reference to unknown variable x.\n" ++
      "Semantic error in line   1: Reference to unknown variable y.\n").toList, []⟩
    error_value error_value (by decide) (by decide)).2.1 (Or.inl rfl)

namespace Parser
open consumption_type discard_option

/-! ## One binary operator, and then a second one -/

/-- The tokens of `a op b`, for two operands `a` and `b`, are accepted by `operandSuffix`
from the operator on, in front of any token list. -/
theorem operandSuffix_pair (B T : token_list) (op : token) (hB : Derives .operand (kinds B))
    (hop : op.type = TOKEN_BIN_OP) (fuel : Nat) :
    Accepts (operandSuffix fuel) (fun x => x = .error) (op :: B) T := by
  intro ef err r st1 h
  cases fuel with
  | zero => simp [operandSuffix] at h
  | succ f =>
    rw [operandSuffix] at h
    simp only [List.cons_append, match_cons_pos _ _ _ _ _ hop] at h
    obtain ⟨⟨o, s⟩, h1, h2⟩ := Outcome.bind_eq_done _ _ _ h
    obtain ⟨hne, rfl⟩ := derives_complete _ _ hB f B T rfl trivial ef err o s h1
    cases o with
    | error => exact (hne rfl).elim
    | _ =>
      simp only [Outcome.done.injEq, Prod.mk.injEq] at h2
      obtain ⟨rfl, rfl⟩ := h2
      exact ⟨by simp, rfl⟩

theorem binaryExpression_pair (A B T : token_list) (op : token)
    (hA : Derives .operand (kinds A)) (hB : Derives .operand (kinds B))
    (hop : op.type = TOKEN_BIN_OP) (fuel : Nat) :
    Accepts (binaryExpression fuel) (fun x => x = .error) (A ++ op :: B) T := by
  intro ef err r st1 h
  cases fuel with
  | zero => simp [binaryExpression] at h
  | succ f =>
    rw [binaryExpression, List.append_assoc] at h
    obtain ⟨⟨o, s⟩, h1, h2⟩ := Outcome.bind_eq_done _ _ _ h
    obtain ⟨hne, rfl⟩ := derives_complete _ _ hA f A ((op :: B) ++ T) rfl trivial ef err o s h1
    cases o with
    | error => exact (hne rfl).elim
    | _ =>
      simp only at h2
      obtain ⟨⟨o2, s2⟩, h3, h4⟩ := Outcome.bind_eq_done _ _ _ h2
      obtain ⟨hne2, rfl⟩ := operandSuffix_pair B T op hB hop f ef err o2 s2 h3
      cases o2 with
      | error => exact (hne2 rfl).elim
      | _ =>
        simp only [Outcome.done.injEq, Prod.mk.injEq] at h4
        obtain ⟨rfl, rfl⟩ := h4
        exact ⟨by simp, rfl⟩

/-- The tokens of `a op b` are accepted by `expression` in front of any token list, also in
front of a second binary operator. -/
theorem expression_pair (A B T : token_list) (op : token)
    (hA : Derives .operand (kinds A)) (hB : Derives .operand (kinds B))
    (hop : op.type = TOKEN_BIN_OP) (fuel : Nat) :
    Accepts (expression fuel) (fun x => x = .error) (A ++ op :: B) T := by
  intro ef err r st1 h
  obtain ⟨a, w1, hw, ha⟩ := first_operand _ hA
  obtain ⟨t, A1, rfl, ht, _⟩ := kinds_eq_cons _ _ _ hw
  have hun : t.type ≠ TOKEN_UN_OP := by
    rw [ht]; rcases ha with rfl | rfl | rfl | rfl <;> decide
  cases fuel with
  | zero => simp [expression] at h
  | succ f =>
    rw [expression] at h
    simp only [List.cons_append, match_cons_neg TOKEN_UN_OP _ _ _ _ _ hun,
      Option.isSome_none, Bool.false_eq_true, if_false] at h
    obtain ⟨⟨o, s⟩, h1, h2⟩ := Outcome.bind_eq_done _ _ _ h
    obtain ⟨hne, rfl⟩ := binaryExpression_pair (t :: A1) B T op hA hB hop f ef err o s h1
    cases o with
    | error => exact (hne rfl).elim
    | _ =>
      simp only [Outcome.done.injEq, Prod.mk.injEq] at h2
      obtain ⟨rfl, rfl⟩ := h2
      exact ⟨by simp, rfl⟩

/-- The statement `x := a op b` is accepted by `statement` in front of any token list. -/
theorem statement_assignment_pair (A B T : token_list) (x asg op : token)
    (hA : Derives .operand (kinds A)) (hB : Derives .operand (kinds B))
    (hx : x.type = TOKEN_IDENTIFIER) (hasg : asg.type = TOKEN_ASSIGN)
    (hop : op.type = TOKEN_BIN_OP) (fuel : Nat) :
    Accepts (statement fuel) (fun x => x = .error) (x :: asg :: (A ++ op :: B)) T := by
  intro ef err r st1 h
  cases fuel with
  | zero => simp [statement] at h
  | succ f =>
    rw [statement] at h
    simp only [List.cons_append,
      match_cons_neg TOKEN_VARKEY _ _ _ _ _ (by rw [hx]; decide),
      match_cons_peek _ _ _ _ _ hx, Option.isSome_some, Option.isSome_none,
      Bool.false_eq_true, if_true, if_false] at h
    obtain ⟨⟨o, s⟩, h1, h2⟩ := Outcome.bind_eq_done _ _ _ h
    rw [assignment] at h1
    simp only [match_cons_pos _ _ _ _ _ hx, match_cons_pos _ _ _ _ _ hasg] at h1
    obtain ⟨⟨o1, s1⟩, h3, h4⟩ := Outcome.bind_eq_done _ _ _ h1
    obtain ⟨hne, rfl⟩ := expression_pair A B T op hA hB hop f ef err o1 s1 h3
    cases o1 with
    | error => exact (hne rfl).elim
    | _ =>
      simp only [Outcome.done.injEq, Prod.mk.injEq] at h4
      obtain ⟨rfl, rfl⟩ := h4
      simp only [Outcome.done.injEq, Prod.mk.injEq] at h2
      obtain ⟨rfl, rfl⟩ := h2
      exact ⟨by simp, rfl⟩

/-- The statement `print a op b` is accepted by `statement` in front of any token list. -/
theorem statement_print_pair (A B T : token_list) (pk op : token)
    (hA : Derives .operand (kinds A)) (hB : Derives .operand (kinds B))
    (hpk : pk.type = TOKEN_PRINTKEY) (hop : op.type = TOKEN_BIN_OP) (fuel : Nat) :
    Accepts (statement fuel) (fun x => x = .error) (pk :: (A ++ op :: B)) T := by
  intro ef err r st1 h
  cases fuel with
  | zero => simp [statement] at h
  | succ f =>
    rw [statement] at h
    simp only [List.cons_append,
      match_cons_neg TOKEN_VARKEY _ _ _ _ _ (by rw [hpk]; decide),
      match_cons_neg TOKEN_IDENTIFIER _ _ _ _ _ (by rw [hpk]; decide),
      match_cons_neg TOKEN_FORKEY _ _ _ _ _ (by rw [hpk]; decide),
      match_cons_neg TOKEN_READKEY _ _ _ _ _ (by rw [hpk]; decide),
      match_cons_peek _ _ _ _ _ hpk, Option.isSome_some, Option.isSome_none,
      Bool.false_eq_true, if_true, if_false] at h
    obtain ⟨⟨o, s⟩, h1, h2⟩ := Outcome.bind_eq_done _ _ _ h
    rw [print] at h1
    simp only [match_cons_pos _ _ _ _ _ hpk] at h1
    obtain ⟨⟨o1, s1⟩, h3, h4⟩ := Outcome.bind_eq_done _ _ _ h1
    obtain ⟨hne, rfl⟩ := expression_pair A B T op hA hB hop f ef err o1 s1 h3
    cases o1 with
    | error => exact (hne rfl).elim
    | _ =>
      simp only [Outcome.done.injEq, Prod.mk.injEq] at h4
      obtain ⟨rfl, rfl⟩ := h4
      simp only [Outcome.done.injEq, Prod.mk.injEq] at h2
      obtain ⟨rfl, rfl⟩ := h2
      exact ⟨by simp, rfl⟩

/-- A statement that is accepted in front of a token list which does not start with a
semicolon: `stmts` misses the semicolon and sets `errors_found`, and the flag is still set
when `stmts` returns. -/
theorem stmts_missing_semicolon (S T : token_list) (t0 : token) (S1 : token_list)
    (hS : S = t0 :: S1)
    (hstart : t0.type = TOKEN_VARKEY ∨ t0.type = TOKEN_IDENTIFIER ∨ t0.type = TOKEN_FORKEY ∨
      t0.type = TOKEN_READKEY ∨ t0.type = TOKEN_PRINTKEY ∨ t0.type = TOKEN_ASSERTKEY)
    (hacc : ∀ fuel, Accepts (statement fuel) (fun x => x = .error) S T)
    (hT : NotStart TOKEN_SCOL T) (fuel : Nat) (ef : Int) (err : List Char)
    (r : stmts_node × ParseState) (h : stmts fuel ⟨S ++ T, ef, err⟩ = .done r) :
    r.2.errors_found ≠ 0 := by
  subst hS
  cases fuel with
  | zero => simp [stmts] at h
  | succ f =>
    rw [stmts] at h
    simp only [List.cons_append, stmtsStarter_cons_some t0 _ ef err hstart] at h
    obtain ⟨⟨rs, s1⟩, h1, h2⟩ := Outcome.bind_eq_done _ _ _ h
    obtain ⟨hne1, rfl⟩ := hacc f ef err rs s1 h1
    cases rs with
    | error => exact (hne1 rfl).elim
    | _ =>
      simp only [Outcome.bind_done, match_notStart _ _ _ _ _ hT] at h2
      obtain ⟨m, h3, h4⟩ := Outcome.bind_eq_done _ _ _ h2
      obtain ⟨s3, h5, h6⟩ := Outcome.bind_eq_done _ _ _ h3
      have he3 := recoverSemicolon_errors_found _ _ _ h5
      simp only [Outcome.done.injEq] at h6
      subst h6
      obtain ⟨⟨rr, s4⟩, h7, h8⟩ := Outcome.bind_eq_done _ _ _ h4
      have hmono := ((statement_family_sound f).1 _ rr s4 h7).1
      have he4 : s4.errors_found ≠ 0 := by
        intro h0
        have := hmono h0
        simp only at this
        rw [he3] at this
        exact absurd this (by decide)
      cases rr with
      | error =>
        simp only [Outcome.done.injEq] at h8
        subst h8; exact he4
      | _ =>
        simp only [Outcome.done.injEq] at h8
        subst h8; exact he4

/-- Statements in front: when `stmts` cannot return with the flag clear from the token list
`T`, it cannot either from a derivable list of statements followed by `T`. -/
theorem stmts_prefix_errors (T : token_list)
    (hT : ∀ fuel ef err r, stmts fuel ⟨T, ef, err⟩ = .done r → r.2.errors_found ≠ 0) :
    ∀ (n : Nat) (P : token_list), P.length ≤ n → Derives .stmts (kinds P) →
      ∀ fuel ef err r, stmts fuel ⟨P ++ T, ef, err⟩ = .done r → r.2.errors_found ≠ 0 := by
  intro n
  induction n with
  | zero =>
    intro P hl _ fuel ef err r h
    have : P = [] := List.eq_nil_of_length_eq_zero (by omega)
    subst this
    exact hT fuel ef err r h
  | succ n ih =>
    intro P hl hd fuel ef err r h
    generalize hw : kinds P = w at hd
    cases hd with
    | stmts_eps =>
      have := kinds_eq_nil _ hw
      subst this
      exact hT fuel ef err r h
    | stmts_cons hs hv =>
      rename_i w1 v
      obtain ⟨a, w2, rfl, ha⟩ := first_statement _ hs
      obtain ⟨ts1, l1, rfl, hts1, hk1⟩ := kinds_eq_append _ _ _ hw
      obtain ⟨sc, ts2, rfl, hsc, hts2⟩ := kinds_eq_cons _ _ _ hk1
      obtain ⟨t, ts0, rfl, ht, hk0⟩ := kinds_eq_cons _ _ _ hts1
      cases fuel with
      | zero => simp [stmts] at h
      | succ f =>
        rw [stmts] at h
        simp only [List.cons_append, List.append_assoc,
          stmtsStarter_cons_some t _ ef err (by rw [ht]; exact ha)] at h
        obtain ⟨⟨rs, s1⟩, h1, h2⟩ := Outcome.bind_eq_done _ _ _ h
        have hfol1 : Follow .statement (sc :: (ts2 ++ T)) :=
          ⟨notStart_cons _ _ _ (by rw [hsc]; decide), notStart_cons _ _ _ (by rw [hsc]; decide)⟩
        obtain ⟨hne1, rfl⟩ := derives_complete _ _ hs f (t :: ts0) _ hts1 hfol1 ef err rs s1 h1
        have hlen : ts2.length ≤ n := by
          simp only [List.length_cons, List.length_append] at hl
          omega
        cases rs with
        | error => exact (hne1 rfl).elim
        | _ =>
          simp only [Outcome.bind_done, match_cons_pos _ _ _ _ _ hsc] at h2
          obtain ⟨⟨rr, s2⟩, h3, h4⟩ := Outcome.bind_eq_done _ _ _ h2
          have he := ih ts2 hlen (hts2 ▸ hv) f ef err (rr, s2) h3
          cases rr with
          | error =>
            simp only [Outcome.done.injEq] at h4
            subst h4; exact he
          | _ =>
            simp only [Outcome.done.injEq] at h4
            subst h4; exact he

/-- When `program` returns a tree, `stmts` has returned with the flag `errors_found` clear. -/
theorem program_tree_flag (fuel : Nat) (st st1 : ParseState) (sln : stmts_node)
    (e : Option token) (h : program fuel st = .done (.node sln e, st1)) :
    ∃ r, stmts fuel st = .done r ∧ r.2.errors_found = 0 := by
  rw [program] at h
  obtain ⟨⟨b, s⟩, h1, h2⟩ := Outcome.bind_eq_done _ _ _ h
  refine ⟨(b, s), h1, ?_⟩
  have key : (match match_ TOKEN_EOF CONSUME s with
      | (some eof, st1) =>
        if st1.errors_found ≠ 0 then Outcome.done (program_node.NULL, st1)
        else .done (.node b (some eof), st1)
      | (none, st1) => unexpectedToken st1) = .done (.node sln e, st1) →
      s.errors_found = 0 := by
    intro h3
    cases hm : match_ TOKEN_EOF CONSUME s with
    | mk o s2 =>
      rw [hm] at h3
      cases o with
      | none => exact absurd (unexpectedToken_result _ _ _ h3) (by simp)
      | some t =>
        simp only at h3
        by_cases hef : s2.errors_found ≠ 0
        · rw [if_pos hef] at h3
          simp at h3
        · obtain ⟨m1, m2, m3, _⟩ := match_consume_some _ _ _ _ hm
          rw [← m3]; exact not_not.1 hef
  cases b with
  | error => exact absurd (unexpectedToken_result _ _ _ h2) (by simp)
  | NULL => exact key h2
  | node a b c => exact key h2

/-- A token list from which `stmts` cannot return with the flag clear makes `parse` return
the nil pointer. -/
theorem parse_nil_of_flag (ts : token_list) (err : List Char) (he : HasEOF ts)
    (hT : ∀ fuel ef err r, stmts fuel ⟨ts, ef, err⟩ = .done r → r.2.errors_found ≠ 0) :
    ∃ st1, parse ts 0 err = .done (.NULL, st1) := by
  obtain ⟨pn, st1, h⟩ := program_returns (6 * ts.length + 6) ⟨ts, 0, err⟩ he
    (by simp only; omega)
  rcases program_result _ _ _ _ h with h1 | ⟨sln, e, h1⟩
  · subst h1; exact ⟨st1, h⟩
  · subst h1
    obtain ⟨r, hr, h0⟩ := program_tree_flag _ _ _ _ _ h
    exact absurd h0 (hT _ _ _ _ hr)

theorem derives_stmts_append (v : List token_type) (hv : Derives .stmts v) :
    ∀ (n : Nat) (w : List token_type), w.length ≤ n → Derives .stmts w →
      Derives .stmts (w ++ v) := by
  intro n
  induction n with
  | zero =>
    intro w hl _
    have : w = [] := List.eq_nil_of_length_eq_zero (by omega)
    subst this
    exact hv
  | succ n ih =>
    intro w hl hd
    cases hd with
    | stmts_eps => exact hv
    | stmts_cons hs hw =>
      rename_i w1 w2
      have hlen : w2.length ≤ n := by
        simp only [List.length_cons, List.length_append] at hl
        omega
      have := Derives.stmts_cons hs (ih w2 hlen hw)
      simpa [List.append_assoc] using this

end Parser

namespace Parser

/-- A token list whose types in front of its last token, an end-of-input token, are derivable
from `stmts` makes `parse` return a tree. -/
theorem parse_tree_of_derives (ts : token_list) (eof : token) (err : List Char)
    (heof : eof.type = TOKEN_EOF) (hd : Derives .stmts (kinds ts)) :
    ∃ sln e st1, parse (ts ++ [eof]) 0 err = .done (.node sln e, st1) := by
  have he : HasEOF (ts ++ [eof]) := ⟨eof, by simp, heof⟩
  obtain ⟨pn, st1, h⟩ := program_returns (6 * (ts ++ [eof]).length + 6)
    ⟨ts ++ [eof], 0, err⟩ he (by simp only; omega)
  have hc := derives_complete _ _ (Derives.program hd) (6 * (ts ++ [eof]).length + 6)
    (ts ++ [eof]) err pn st1 (kinds_append_EOF ts eof heof) h
  cases pn with
  | node sln e => exact ⟨sln, e, st1, h⟩
  | NULL => simp [program_node.isTree] at hc
  | error => simp [program_node.isTree] at hc

theorem kinds_append (a b : token_list) : kinds (a ++ b) = kinds a ++ kinds b := by
  simp [kinds]

theorem kinds_cons (t : token) (l : token_list) : kinds (t :: l) = t.type :: kinds l := rfl

theorem derives_paren_pair (A B C : token_list) (lp rp op1 op2 : token)
    (hA : Derives .operand (kinds A)) (hB : Derives .operand (kinds B))
    (hC : Derives .operand (kinds C)) (h1 : op1.type = TOKEN_BIN_OP)
    (h2 : op2.type = TOKEN_BIN_OP) (hlp : lp.type = TOKEN_LPAR) (hrp : rp.type = TOKEN_RPAR) :
    Derives .expression (kinds ((lp :: (A ++ op1 :: B) ++ [rp]) ++ op2 :: C)) := by
  have hk : kinds ((lp :: (A ++ op1 :: B) ++ [rp]) ++ op2 :: C) =
      (TOKEN_LPAR :: (kinds A ++ TOKEN_BIN_OP :: kinds B) ++ [TOKEN_RPAR]) ++
        TOKEN_BIN_OP :: kinds C := by
    simp [kinds, h1, h2, hlp, hrp]
  rw [hk]
  exact Derives.expression_binary (Derives.binary_expression
    (Derives.operand_paren (Derives.expression_binary
      (Derives.binary_expression hA (Derives.operand_suffix_op hB))))
    (Derives.operand_suffix_op hC))

end Parser

/-- C24: for operands `a`, `b`, `c` and binary operators `op1`, `op2`, a token list that
holds, behind well-formed statements, the statement `x := a op1 b op2 c ;` or the statement
`print a op1 b op2 c ;` makes `parse` return the nil pointer, whatever follows the statement;
with `( a op1 b ) op2 c` in the place of the expression, and well-formed statements behind
the statement, `parse` returns a tree. -/
theorem chained_operators_rejected (P A B C R Q : token_list)
    (x asg pk op1 op2 sc lp rp eof : token) (err : List Char)
    (hP : Derives .stmts (kinds P)) (hQ : Derives .stmts (kinds Q))
    (hA : Derives .operand (kinds A)) (hB : Derives .operand (kinds B))
    (hC : Derives .operand (kinds C))
    (hx : x.type = TOKEN_IDENTIFIER) (hasg : asg.type = TOKEN_ASSIGN)
    (hpk : pk.type = TOKEN_PRINTKEY) (h1 : op1.type = TOKEN_BIN_OP)
    (h2 : op2.type = TOKEN_BIN_OP) (hsc : sc.type = TOKEN_SCOL) (hlp : lp.type = TOKEN_LPAR)
    (hrp : rp.type = TOKEN_RPAR) (heof : eof.type = TOKEN_EOF) (hR : Parser.HasEOF R) :
    (∃ st1, Parser.parse (P ++ ((x :: asg :: (A ++ op1 :: B)) ++ op2 :: (C ++ sc :: R))) 0 err =
      .done (.NULL, st1)) ∧
    (∃ st1, Parser.parse (P ++ ((pk :: (A ++ op1 :: B)) ++ op2 :: (C ++ sc :: R))) 0 err =
      .done (.NULL, st1)) ∧
    (∃ sln e st1, Parser.parse
      ((P ++ ((x :: asg :: ((lp :: (A ++ op1 :: B) ++ [rp]) ++ op2 :: C)) ++ sc :: Q)) ++ [eof])
      0 err = .done (.node sln e, st1)) ∧
    (∃ sln e st1, Parser.parse
      ((P ++ ((pk :: ((lp :: (A ++ op1 :: B) ++ [rp]) ++ op2 :: C)) ++ sc :: Q)) ++ [eof])
      0 err = .done (.node sln e, st1)) := by
  have hT : Parser.NotStart TOKEN_SCOL (op2 :: (C ++ sc :: R)) :=
    Parser.notStart_cons _ _ _ (by rw [h2]; decide)
  have hE : ∀ S : token_list, Parser.HasEOF (P ++ (S ++ op2 :: (C ++ sc :: R))) := by
    intro S
    obtain ⟨t, ht, hty⟩ := hR
    exact ⟨t, by simp [ht], hty⟩
  have hpe := Parser.derives_paren_pair A B C lp rp op1 op2 hA hB hC h1 h2 hlp hrp
  refine ⟨?_, ?_, ?_, ?_⟩
  · apply Parser.parse_nil_of_flag _ _ (hE _)
    apply Parser.stmts_prefix_errors _ _ P.length P (le_refl _) hP
    intro fuel ef err r h
    exact Parser.stmts_missing_semicolon _ _ x _ rfl (Or.inr (Or.inl hx))
      (Parser.statement_assignment_pair A B _ x asg op1 hA hB hx hasg h1) hT fuel ef err r h
  · apply Parser.parse_nil_of_flag _ _ (hE _)
    apply Parser.stmts_prefix_errors _ _ P.length P (le_refl _) hP
    intro fuel ef err r h
    exact Parser.stmts_missing_semicolon _ _ pk _ rfl (Or.inr (Or.inr (Or.inr (Or.inr (Or.inl hpk)))))
      (Parser.statement_print_pair A B _ pk op1 hA hB hpk h1) hT fuel ef err r h
  · apply Parser.parse_tree_of_derives _ _ _ heof
    rw [Parser.kinds_append]
    apply Parser.derives_stmts_append _ _ (kinds P).length _ (le_refl _) hP
    rw [Parser.kinds_append, Parser.kinds_cons sc, hsc]
    refine Derives.stmts_cons (Derives.statement_assignment ?_) hQ
    rw [Parser.kinds_cons, Parser.kinds_cons, hx, hasg]
    exact Derives.assignment hpe
  · apply Parser.parse_tree_of_derives _ _ _ heof
    rw [Parser.kinds_append]
    apply Parser.derives_stmts_append _ _ (kinds P).length _ (le_refl _) hP
    rw [Parser.kinds_append, Parser.kinds_cons sc, hsc]
    refine Derives.stmts_cons (Derives.statement_print ?_) hQ
    rw [Parser.kinds_cons, hpk]
    exact Derives.print hpe

theorem chained_operators_rejected_witness :
    ∃ st1, Parser.parse [tok TOKEN_IDENTIFIER "x", tok TOKEN_ASSIGN ":=",
        tok TOKEN_INT_LITERAL "1", tok TOKEN_BIN_OP "+", tok TOKEN_INT_LITERAL "2",
        tok TOKEN_BIN_OP "+", tok TOKEN_INT_LITERAL "3", tok TOKEN_SCOL ";",
        tok TOKEN_EOF "EOF"] 0 [] = .done (.NULL, st1) :=
  (chained_operators_rejected [] [tok TOKEN_INT_LITERAL "1"] [tok TOKEN_INT_LITERAL "2"]
    [tok TOKEN_INT_LITERAL "3"] [tok TOKEN_EOF "EOF"] []
    (tok TOKEN_IDENTIFIER "x") (tok TOKEN_ASSIGN ":=") (tok TOKEN_PRINTKEY "print")
    (tok TOKEN_BIN_OP "+") (tok TOKEN_BIN_OP "+") (tok TOKEN_SCOL ";") (tok TOKEN_LPAR "(")
    (tok TOKEN_RPAR ")") (tok TOKEN_EOF "EOF") []
    Derives.stmts_eps Derives.stmts_eps Derives.operand_int Derives.operand_int
    Derives.operand_int rfl rfl rfl rfl rfl rfl rfl rfl rfl
    ⟨tok TOKEN_EOF "EOF", by simp, rfl⟩).1

/-! ## The function `main` -/

theorem stmts_result (fuel : Nat) : ∀ (n : stmts_node) (st : Env) (r : Int × Env),
    stmts fuel n st = .done r → r.1 = 0 ∨ r.1 = 1
  | .NULL, st, r, h => by
    simp only [stmts, Outcome.done.injEq] at h; subst h; exact Or.inr rfl
  | .error, st, r, h => by simp [stmts] at h
  | .node stmtn sCol stmtsn, st, r, h => by
    rw [stmts] at h
    obtain ⟨r1, h1, h2⟩ := Outcome.bind_eq_done _ _ _ h
    by_cases h0 : r1.1 = 0
    · rw [if_pos h0] at h2
      simp only [Outcome.done.injEq] at h2; subst h2
      exact Or.inl rfl
    · rw [if_neg h0] at h2
      exact stmts_result fuel stmtsn r1.2 r h2

theorem run_result (fuel : Nat) (pn : program_node) (inp : List Char) (r : Int × Env)
    (h : run fuel pn inp = .done r) : r.1 = 0 ∨ r.1 = 1 := by
  unfold run at h
  cases pn with
  | NULL => simp [program] at h
  | error => simp [program] at h
  | node sln e =>
    rw [program] at h
    exact stmts_result fuel sln _ r h

/-- The value of `main` when the three stages before `run` return and `parse` gives a tree. -/
theorem main_of_tree (fuel : Nat) (under : Char) (source inp : List Char) (tl : token_list)
    (sln : stmts_node) (e : Option token) (st : Parser.ParseState) (r : Int × Env)
    (h1 : lex under source = .done tl)
    (h2 : Parser.parse (correctTokenList tl []).1 0 (correctTokenList tl []).2 =
      .done (.node sln e, st))
    (h3 : run fuel (.node sln e) inp = .done r) :
    main fuel under source inp = .done ⟨r.1, r.2.out, st.err ++ r.2.err, true⟩ := by
  rw [main, h1]
  simp only [Outcome.bind_done, h2, h3]

/-- The value of `main` when `parse` returns the nil pointer. -/
theorem main_of_nil (fuel : Nat) (under : Char) (source inp : List Char) (tl : token_list)
    (st : Parser.ParseState) (h1 : lex under source = .done tl)
    (h2 : Parser.parse (correctTokenList tl []).1 0 (correctTokenList tl []).2 =
      .done (.NULL, st)) :
    main fuel under source inp = .done ⟨0, [], st.err, false⟩ := by
  rw [main, h1]
  simp only [Outcome.bind_done, h2]

theorem main_print_one :
    main 0 'x' "print 1;".toList [] = .done ⟨1, ['1'], [], true⟩ := by
  have h1 : lex 'x' "print 1;".toList =
      .done [⟨TOKEN_PRINTKEY, "print".toList, 1⟩, ⟨TOKEN_INT_LITERAL, ['1'], 1⟩,
        ⟨TOKEN_SCOL, [';'], 1⟩, ⟨TOKEN_EOF, "EOF".toList, 1⟩] := by decide
  have h2 : Parser.parse (correctTokenList [⟨TOKEN_PRINTKEY, "print".toList, 1⟩,
        ⟨TOKEN_INT_LITERAL, ['1'], 1⟩, ⟨TOKEN_SCOL, [';'], 1⟩, ⟨TOKEN_EOF, "EOF".toList, 1⟩] []).1 0
      (correctTokenList [⟨TOKEN_PRINTKEY, "print".toList, 1⟩,
        ⟨TOKEN_INT_LITERAL, ['1'], 1⟩, ⟨TOKEN_SCOL, [';'], 1⟩, ⟨TOKEN_EOF, "EOF".toList, 1⟩] []).2 =
      .done (programOf [printStmt (operandExpr (intOperand "1"))], ⟨[], 0, []⟩) := by rfl
  have h3 : run 0 (programOf [printStmt (operandExpr (intOperand "1"))]) [] =
      .done (1, ⟨[], ['1'], [], []⟩) := by decide
  exact main_of_tree 0 'x' _ [] _ _ _ _ _ h1 h2 h3

namespace Parser

/-- When `program` returns a tree, the flag `errors_found` is clear. -/
theorem program_tree_final_flag (fuel : Nat) (st st1 : ParseState) (sln : stmts_node)
    (e : Option token) (h : program fuel st = .done (.node sln e, st1)) :
    st1.errors_found = 0 := by
  rw [program] at h
  obtain ⟨⟨b, s⟩, h1, h2⟩ := Outcome.bind_eq_done _ _ _ h
  have key : (match match_ TOKEN_EOF consumption_type.CONSUME s with
      | (some eof, st1) =>
        if st1.errors_found ≠ 0 then Outcome.done (program_node.NULL, st1)
        else .done (.node b (some eof), st1)
      | (none, st1) => unexpectedToken st1) = .done (.node sln e, st1) →
      st1.errors_found = 0 := by
    intro h3
    cases hm : match_ TOKEN_EOF consumption_type.CONSUME s with
    | mk o s2 =>
      rw [hm] at h3
      cases o with
      | none => exact absurd (unexpectedToken_result _ _ _ h3) (by simp)
      | some t =>
        simp only at h3
        by_cases hef : s2.errors_found ≠ 0
        · rw [if_pos hef] at h3
          simp at h3
        · rw [if_neg hef] at h3
          simp only [Outcome.done.injEq, Prod.mk.injEq] at h3
          rw [← h3.2]; exact not_not.1 hef
  cases b with
  | error => exact absurd (unexpectedToken_result _ _ _ h2) (by simp)
  | NULL => exact key h2
  | node a b c => exact key h2

end Parser

/-- When the parser has recorded a syntax error, `main` does not call `run`: it returns 0 and
nothing is written on standard output. -/
theorem main_not_launched_after_syntax_error (fuel : Nat) (under : Char)
    (source inp : List Char) (tl : token_list) (pn : program_node) (st : Parser.ParseState)
    (h1 : lex under source = .done tl)
    (h2 : Parser.parse (correctTokenList tl []).1 0 (correctTokenList tl []).2 = .done (pn, st))
    (h3 : st.errors_found ≠ 0) :
    main fuel under source inp = .done ⟨0, [], st.err, false⟩ := by
  rcases Parser.program_result _ _ _ _ h2 with h | ⟨sln, e, h⟩
  · subst h
    exact main_of_nil fuel under source inp tl st h1 h2
  · subst h
    exact absurd (Parser.program_tree_final_flag _ _ _ _ _ h2) h3

/-- C31 on the failing input: the source `# print 1;` makes the scanner produce an error
token, the lexical error is written on standard error, and still `run` is called: the
statement is executed, `1` is written on standard output and `main` returns 1. -/
theorem lexical_error_does_not_stop_run :
    lex 'x' "# print 1;".toList =
      .done [⟨TOKEN_ERROR, "Unidentified token: #".toList, 1⟩,
        ⟨TOKEN_PRINTKEY, "print".toList, 1⟩, ⟨TOKEN_INT_LITERAL, ['1'], 1⟩,
        ⟨TOKEN_SCOL, [';'], 1⟩, ⟨TOKEN_EOF, "EOF".toList, 1⟩] ∧
    main 0 'x' "# print 1;".toList [] =
      .done ⟨1, ['1'], "Lexical error in line   1: Unidentified token: #\n".toList, true⟩ := by
  have h1 : lex 'x' "# print 1;".toList =
      .done [⟨TOKEN_ERROR, "Unidentified token: #".toList, 1⟩,
        ⟨TOKEN_PRINTKEY, "print".toList, 1⟩, ⟨TOKEN_INT_LITERAL, ['1'], 1⟩,
        ⟨TOKEN_SCOL, [';'], 1⟩, ⟨TOKEN_EOF, "EOF".toList, 1⟩] := by decide
  have h2 : Parser.parse (correctTokenList [⟨TOKEN_ERROR, "Unidentified token: #".toList, 1⟩,
        ⟨TOKEN_PRINTKEY, "print".toList, 1⟩, ⟨TOKEN_INT_LITERAL, ['1'], 1⟩,
        ⟨TOKEN_SCOL, [';'], 1⟩, ⟨TOKEN_EOF, "EOF".toList, 1⟩] []).1 0
      (correctTokenList [⟨TOKEN_ERROR, "Unidentified token: #".toList, 1⟩,
        ⟨TOKEN_PRINTKEY, "print".toList, 1⟩, ⟨TOKEN_INT_LITERAL, ['1'], 1⟩,
        ⟨TOKEN_SCOL, [';'], 1⟩, ⟨TOKEN_EOF, "EOF".toList, 1⟩] []).2 =
      .done (programOf [printStmt (operandExpr (intOperand "1"))],
        ⟨[], 0, "Lexical error in line   1: Unidentified token: #\n".toList⟩) := by rfl
  have h3 : run 0 (programOf [printStmt (operandExpr (intOperand "1"))]) [] =
      .done (1, ⟨[], ['1'], [], []⟩) := by decide
  exact ⟨h1, main_of_tree 0 'x' _ [] _ _ _ _ _ h1 h2 h3⟩

/-- C32 (as amended): when `main` returns on a source file that could be opened, it returns
0 or 1; it returns 1 exactly when the parser returned a tree and the evaluation of the tree
succeeded, and 0 when `run` was not called or the evaluation failed. -/
theorem main_exit_code (fuel : Nat) (under : Char) (source inp : List Char) (r : MainResult)
    (h : main fuel under source inp = .done r) :
    (r.code = 0 ∨ r.code = 1) ∧
    (r.launched = false → r.code = 0) ∧
    (r.code = 1 ↔ ∃ tl sln e st rr, lex under source = .done tl ∧
      Parser.parse (correctTokenList tl []).1 0 (correctTokenList tl []).2 =
        .done (.node sln e, st) ∧
      run fuel (.node sln e) inp = .done rr ∧ rr.1 = 1) := by
  rw [main] at h
  obtain ⟨tl, h1, h2⟩ := Outcome.bind_eq_done _ _ _ h
  obtain ⟨⟨pn, st⟩, h3, h4⟩ := Outcome.bind_eq_done _ _ _ h2
  cases pn with
  | NULL =>
    simp only [Outcome.done.injEq] at h4
    subst h4
    refine ⟨Or.inl rfl, fun _ => rfl, ⟨fun hc => absurd (show (0 : Int) = 1 from hc) (by decide), ?_⟩⟩
    rintro ⟨tl1, sln, e, st1, rr, k1, k2, _, _⟩
    rw [h1] at k1
    simp only [Outcome.done.injEq] at k1
    subst k1
    rw [h3] at k2
    simp at k2
  | error =>
    simp only [run, program, Outcome.bind_fault] at h4
    simp at h4
  | node sln e =>
    simp only at h4
    obtain ⟨rr, h5, h6⟩ := Outcome.bind_eq_done _ _ _ h4
    simp only [Outcome.done.injEq] at h6
    subst h6
    refine ⟨run_result _ _ _ _ h5, fun hl => absurd (show true = false from hl) (by decide),
      ⟨fun hc => ?_, ?_⟩⟩
    · exact ⟨tl, sln, e, st, rr, h1, h3, h5, hc⟩
    · rintro ⟨tl1, sln1, e1, st1, rr1, k1, k2, k3, k4⟩
      rw [h1] at k1
      simp only [Outcome.done.injEq] at k1
      subst k1
      rw [h3] at k2
      simp only [Outcome.done.injEq, Prod.mk.injEq, program_node.node.injEq] at k2
      obtain ⟨⟨rfl, rfl⟩, rfl⟩ := k2
      rw [h5] at k3
      simp only [Outcome.done.injEq] at k3
      subst k3
      exact k4

theorem main_exit_code_witness :
    (⟨1, ['1'], [], true⟩ : MainResult).code = 0 ∨ (⟨1, ['1'], [], true⟩ : MainResult).code = 1 :=
  (main_exit_code 0 'x' "print 1;".toList [] ⟨1, ['1'], [], true⟩ main_print_one).1

/-- C32 (as stated) fails: on the source `print 1;`, which runs to completion successfully,
`main` returns 1, not 0. -/
theorem main_exit_code_counterexample :
    main 0 'x' "print 1;".toList [] = .done ⟨1, ['1'], [], true⟩ ∧
    (⟨1, ['1'], [], true⟩ : MainResult).code ≠ 0 :=
  ⟨main_print_one, by decide⟩

/-! ## The operator `/` -/

/-- C35 on the failing inputs: for two operands of one type, whatever the type, whose right
value holds 0 in its field `i`, the expression `l / r` gives the error value with the runtime
diagnostic `Division by zero`: the test `suffix.i == 0` stands in front of the test of the
type. String values always hold 0 in `i`, so that `/` on two strings is reported as a
division by zero. -/
theorem division_by_zero_reported_for_non_ints (opern opn : operand_node) (op : token)
    (st st1 st2 : Env) (vl vr : value) (hr : operand opn st = .done (vr, st1))
    (hl : operand opern st1 = .done (vl, st2))
    (hvl : vl.error ≠ 1 ∧ vl.empty ≠ 1) (hvr : vr.error ≠ 1 ∧ vr.empty ≠ 1)
    (hop : op.value = ['/']) (hlt : vr.lt = vl.lt) (hi : vr.i = 0) :
    binaryExpression (.node opern (.node (some op) opn)) st =
      .done (error_value, printError op "Division by zero".toList RUNTIME_ERROR st2) := by
  rw [binaryExpression_apply opern opn op st st1 st2 vl vr hr hl hvl hvr]
  have k1 : strncmpEq ['/'] ['+'] 1 = false := by decide
  have k2 : strncmpEq ['/'] ['-'] 1 = false := by decide
  have k3 : strncmpEq ['/'] ['*'] 1 = false := by decide
  have k4 : strncmpEq ['/'] ['/'] 1 = true := by decide
  unfold applyBinary
  simp [hop, hlt, hi, k1, k2, k3, k4]

theorem division_by_zero_reported_for_non_ints_witness :
    binaryExpression (.node (strOperand "a") (.node (some (tok TOKEN_BIN_OP "/")) (strOperand "b")))
        ⟨[], [], [], []⟩ =
      .done (error_value, printError (tok TOKEN_BIN_OP "/") "Division by zero".toList
        RUNTIME_ERROR ⟨[], [], [], []⟩) :=
  division_by_zero_reported_for_non_ints (strOperand "a") (strOperand "b") (tok TOKEN_BIN_OP "/")
    ⟨[], [], [], []⟩ ⟨[], [], [], []⟩ ⟨[], [], [], []⟩
    ⟨0, 0, some ['a'], 0, 0, 0, STRING⟩ ⟨0, 0, some ['b'], 0, 0, 0, STRING⟩
    (by decide) (by decide) (by decide) (by decide) rfl rfl rfl

namespace Parser
open consumption_type discard_option

/-! ## The nullable nonterminals and the error pointer -/

theorem stmts_never_error : ∀ (fuel : Nat) (st : ParseState) (r : stmts_node)
    (st1 : ParseState), stmts fuel st = .done (r, st1) → r ≠ .error := by
  intro fuel
  induction fuel with
  | zero => intro st r st1 h; simp [stmts] at h
  | succ f ih =>
    intro st r st1 h
    rw [stmts] at h
    cases hs : stmtsStarter st with
    | none =>
      rw [hs] at h
      simp only [Outcome.done.injEq, Prod.mk.injEq] at h
      rw [← h.1]; simp
    | some t =>
      rw [hs] at h
      simp only at h
      obtain ⟨rs, _, h⟩ := Outcome.bind_eq_done _ _ _ h
      obtain ⟨s1, _, h⟩ := Outcome.bind_eq_done _ _ _ h
      obtain ⟨m, _, h⟩ := Outcome.bind_eq_done _ _ _ h
      obtain ⟨⟨rr, s2⟩, h3, h⟩ := Outcome.bind_eq_done _ _ _ h
      have hne := ih _ _ _ h3
      cases rr with
      | error => exact (hne rfl).elim
      | NULL =>
        simp only [Outcome.done.injEq, Prod.mk.injEq] at h
        rw [← h.1]; simp
      | node a b c =>
        simp only [Outcome.done.injEq, Prod.mk.injEq] at h
        rw [← h.1]; simp

end Parser

/-- C36 (as amended): `stmts` never returns the error pointer. `declarationSuffix` and
`operandSuffix` return the nil pointer when the next token is not their first token (`:=`,
a binary operator); when it is, they return the error pointer exactly when the expression,
or the operand, behind that token is returned as the error pointer. -/
theorem nullable_error_pointer :
    (∀ fuel st r st1, Parser.stmts fuel st = .done (r, st1) → r ≠ .error) ∧
    (∀ fuel ts ef err r st1,
      Parser.declarationSuffix fuel ⟨ts, ef, err⟩ = .done (r, st1) →
      ((∀ t rest, ts = t :: rest → t.type ≠ TOKEN_ASSIGN) → r = .NULL) ∧
      (r = .error ↔ ∃ t rest, ts = t :: rest ∧ t.type = TOKEN_ASSIGN ∧
        Parser.expression fuel ⟨rest, ef, err⟩ = .done (.error, st1))) ∧
    (∀ fuel ts ef err r st1,
      Parser.operandSuffix (fuel + 1) ⟨ts, ef, err⟩ = .done (r, st1) →
      ((∀ t rest, ts = t :: rest → t.type ≠ TOKEN_BIN_OP) → r = .NULL) ∧
      (r = .error ↔ ∃ t rest, ts = t :: rest ∧ t.type = TOKEN_BIN_OP ∧
        Parser.operand fuel ⟨rest, ef, err⟩ = .done (.error, st1))) := by
  refine ⟨Parser.stmts_never_error, ?_, ?_⟩
  · intro fuel ts ef err r st1 h
    rw [Parser.declarationSuffix] at h
    cases ts with
    | nil =>
      simp only [Parser.match_, Outcome.done.injEq, Prod.mk.injEq] at h
      refine ⟨fun _ => h.1.symm, ⟨fun hr => ?_, ?_⟩⟩
      · rw [← h.1] at hr; simp at hr
      · rintro ⟨t, rest, hh, _⟩; simp at hh
    | cons t rest =>
      by_cases ht : t.type = TOKEN_ASSIGN
      · rw [Parser.match_cons_pos _ _ _ _ _ ht] at h
        simp only at h
        obtain ⟨⟨o, s⟩, h1, h2⟩ := Outcome.bind_eq_done _ _ _ h
        refine ⟨fun hn => absurd ht (hn t rest rfl), ?_⟩
        cases o with
        | error =>
          simp only [Outcome.done.injEq, Prod.mk.injEq] at h2
          obtain ⟨rfl, rfl⟩ := h2
          exact ⟨fun _ => ⟨t, rest, rfl, ht, h1⟩, fun _ => rfl⟩
        | NULL =>
          simp only [Outcome.done.injEq, Prod.mk.injEq] at h2
          obtain ⟨rfl, rfl⟩ := h2
          refine ⟨fun hr => by simp at hr, ?_⟩
          rintro ⟨t1, rest1, hh, _, he⟩
          simp only [List.cons.injEq] at hh
          rw [← hh.2, h1] at he
          simp at he
        | node a b =>
          simp only [Outcome.done.injEq, Prod.mk.injEq] at h2
          obtain ⟨rfl, rfl⟩ := h2
          refine ⟨fun hr => by simp at hr, ?_⟩
          rintro ⟨t1, rest1, hh, _, he⟩
          simp only [List.cons.injEq] at hh
          rw [← hh.2, h1] at he
          simp at he
      · rw [Parser.match_cons_neg _ _ _ _ _ _ ht] at h
        simp only [Outcome.done.injEq, Prod.mk.injEq] at h
        refine ⟨fun _ => h.1.symm, ⟨fun hr => ?_, ?_⟩⟩
        · rw [← h.1] at hr; simp at hr
        · rintro ⟨t1, rest1, hh, ht1, _⟩
          simp only [List.cons.injEq] at hh
          rw [← hh.1] at ht1
          exact absurd ht1 ht
  · intro fuel ts ef err r st1 h
    rw [Parser.operandSuffix] at h
    cases ts with
    | nil =>
      simp only [Parser.match_, Outcome.done.injEq, Prod.mk.injEq] at h
      refine ⟨fun _ => h.1.symm, ⟨fun hr => ?_, ?_⟩⟩
      · rw [← h.1] at hr; simp at hr
      · rintro ⟨t, rest, hh, _⟩; simp at hh
    | cons t rest =>
      by_cases ht : t.type = TOKEN_BIN_OP
      · rw [Parser.match_cons_pos _ _ _ _ _ ht] at h
        simp only at h
        obtain ⟨⟨o, s⟩, h1, h2⟩ := Outcome.bind_eq_done _ _ _ h
        refine ⟨fun hn => absurd ht (hn t rest rfl), ?_⟩
        cases o with
        | error =>
          simp only [Outcome.done.injEq, Prod.mk.injEq] at h2
          obtain ⟨rfl, rfl⟩ := h2
          exact ⟨fun _ => ⟨t, rest, rfl, ht, h1⟩, fun _ => rfl⟩
        | NULL =>
          simp only [Outcome.done.injEq, Prod.mk.injEq] at h2
          obtain ⟨rfl, rfl⟩ := h2
          refine ⟨fun hr => by simp at hr, ?_⟩
          rintro ⟨t1, rest1, hh, _, he⟩
          simp only [List.cons.injEq] at hh
          rw [← hh.2, h1] at he
          simp at he
        | node a b c d =>
          simp only [Outcome.done.injEq, Prod.mk.injEq] at h2
          obtain ⟨rfl, rfl⟩ := h2
          refine ⟨fun hr => by simp at hr, ?_⟩
          rintro ⟨t1, rest1, hh, _, he⟩
          simp only [List.cons.injEq] at hh
          rw [← hh.2, h1] at he
          simp at he
      · rw [Parser.match_cons_neg _ _ _ _ _ _ ht] at h
        simp only [Outcome.done.injEq, Prod.mk.injEq] at h
        refine ⟨fun _ => h.1.symm, ⟨fun hr => ?_, ?_⟩⟩
        · rw [← h.1] at hr; simp at hr
        · rintro ⟨t1, rest1, hh, ht1, _⟩
          simp only [List.cons.injEq] at hh
          rw [← hh.1] at ht1
          exact absurd ht1 ht

theorem nullable_error_pointer_witness :
    (∃ st1, Parser.stmts 6
        ⟨[tok TOKEN_PRINTKEY "print", tok TOKEN_RPAR ")", tok TOKEN_EOF "EOF"], 0, []⟩ =
      .done (.node .error none .NULL, st1)) ∧
    (stmts_node.node .error none .NULL) ≠ .error :=
  ⟨⟨_, rfl⟩, nullable_error_pointer.1 6
    ⟨[tok TOKEN_PRINTKEY "print", tok TOKEN_RPAR ")", tok TOKEN_EOF "EOF"], 0, []⟩ _ _ rfl⟩

/-- C36 (as stated) fails: behind a binary operator that is followed by a semicolon
`operandSuffix` returns the error pointer, and so does `declarationSuffix` behind `:=`
followed by a semicolon. -/
theorem nullable_error_pointer_counterexample :
    Parser.operandSuffix 3
        ⟨[tok TOKEN_BIN_OP "+", tok TOKEN_SCOL ";", tok TOKEN_EOF "EOF"], 0, []⟩ =
      .done (.error, ⟨[tok TOKEN_SCOL ";", tok TOKEN_EOF "EOF"], 0, []⟩) ∧
    Parser.declarationSuffix 4
        ⟨[tok TOKEN_ASSIGN ":=", tok TOKEN_SCOL ";", tok TOKEN_EOF "EOF"], 0, []⟩ =
      .done (.error, ⟨[tok TOKEN_SCOL ";", tok TOKEN_EOF "EOF"], 0, []⟩) :=
  ⟨rfl, rfl⟩

/-- C39: on every token list that holds an end-of-input token `parse` returns: it neither
runs out of fuel nor reads a token that does not exist. The cursor that `stmts` leaves still
has an end-of-input token in front of it, `program` moves it over that one token at most, and
`discardTokens` called in front of an end-of-input token returns in front of one. -/
theorem parse_stays_within_token_list (ts : token_list) (ef : Int) (err : List Char)
    (h : Parser.HasEOF ts) :
    (∃ b s pn st1,
      Parser.stmts (6 * ts.length + 6) ⟨ts, ef, err⟩ = .done (b, s) ∧
      Parser.HasEOF s.global_tlist ∧
      Parser.parse ts ef err = .done (pn, st1) ∧
      (st1.global_tlist = s.global_tlist ∨
        ∃ eof, eof.type = TOKEN_EOF ∧ s.global_tlist = eof :: st1.global_tlist)) ∧
    (∀ o, ∃ st1, Parser.discardTokens o ⟨ts, ef, err⟩ = .done st1 ∧
      Parser.HasEOF st1.global_tlist) := by
  constructor
  · obtain ⟨b, s, h1, he1, _⟩ :=
      (Parser.statement_family_returns (6 * ts.length + 6)).1 ⟨ts, ef, err⟩ h
        (by simp only; omega)
    refine ⟨b, s, ?_⟩
    suffices hq : ∃ pn st1, Parser.parse ts ef err = .done (pn, st1) ∧
        (st1.global_tlist = s.global_tlist ∨
          ∃ eof, eof.type = TOKEN_EOF ∧ s.global_tlist = eof :: st1.global_tlist) by
      obtain ⟨pn, st1, h2, h3⟩ := hq
      exact ⟨pn, st1, h1, he1, h2, h3⟩
    unfold Parser.parse Parser.parseFuel
    rw [Parser.program, h1]
    simp only [Outcome.bind_done]
    have hun : ∀ s2 : Parser.ParseState, s2 = s → ∃ pn st1,
        Parser.unexpectedToken s2 = .done (pn, st1) ∧ st1.global_tlist = s.global_tlist := by
      intro s2 hs2
      subst hs2
      unfold Parser.unexpectedToken
      cases hl : s2.global_tlist with
      | nil => obtain ⟨e, he, _⟩ := he1; rw [hl] at he; simp at he
      | cons t0 rest => exact ⟨_, _, rfl, rfl⟩
    have key : ∃ pn st1, (match Parser.match_ TOKEN_EOF Parser.consumption_type.CONSUME s with
        | (some eof, st1) =>
          if st1.errors_found ≠ 0 then Outcome.done (program_node.NULL, st1)
          else .done (.node b (some eof), st1)
        | (none, st1) => Parser.unexpectedToken st1) = .done (pn, st1) ∧
        (st1.global_tlist = s.global_tlist ∨
          ∃ eof, eof.type = TOKEN_EOF ∧ s.global_tlist = eof :: st1.global_tlist) := by
      cases hm : Parser.match_ TOKEN_EOF Parser.consumption_type.CONSUME s with
      | mk o s2 =>
        cases o with
        | none =>
          obtain ⟨pn, st1, h2, h3⟩ := hun s2 (Parser.match_none _ _ _ _ hm).1
          exact ⟨pn, st1, h2, Or.inl h3⟩
        | some e =>
          obtain ⟨m1, m2, _, _⟩ := Parser.match_consume_some _ _ _ _ hm
          simp only
          by_cases hef : s2.errors_found ≠ 0
          · rw [if_pos hef]; exact ⟨_, _, rfl, Or.inr ⟨e, m2, m1⟩⟩
          · rw [if_neg hef]; exact ⟨_, _, rfl, Or.inr ⟨e, m2, m1⟩⟩
    cases b with
    | error =>
      obtain ⟨pn, st1, h2, h3⟩ := hun s rfl
      exact ⟨pn, st1, h2, Or.inl h3⟩
    | NULL =>
      obtain ⟨pn, st1, h2, h3⟩ := key
      exact ⟨pn, st1, h2, h3⟩
    | node a b c =>
      obtain ⟨pn, st1, h2, h3⟩ := key
      exact ⟨pn, st1, h2, h3⟩
  · intro o
    obtain ⟨st1, h1, h2, _⟩ := Parser.discardTokens_returns o ⟨ts, ef, err⟩ h
    exact ⟨st1, h1, h2⟩

theorem parse_stays_within_token_list_witness :
    Parser.HasEOF [tok TOKEN_PRINTKEY "print", tok TOKEN_RPAR ")", tok TOKEN_EOF "EOF"] ∧
    ((∃ b s pn st1,
      Parser.stmts (6 * [tok TOKEN_PRINTKEY "print", tok TOKEN_RPAR ")",
          tok TOKEN_EOF "EOF"].length + 6)
        ⟨[tok TOKEN_PRINTKEY "print", tok TOKEN_RPAR ")", tok TOKEN_EOF "EOF"], 0, []⟩ =
          .done (b, s) ∧
      Parser.HasEOF s.global_tlist ∧
      Parser.parse [tok TOKEN_PRINTKEY "print", tok TOKEN_RPAR ")", tok TOKEN_EOF "EOF"] 0 [] =
        .done (pn, st1) ∧
      (st1.global_tlist = s.global_tlist ∨
        ∃ eof, eof.type = TOKEN_EOF ∧ s.global_tlist = eof :: st1.global_tlist)) ∧
    (∀ o, ∃ st1, Parser.discardTokens o
        ⟨[tok TOKEN_PRINTKEY "print", tok TOKEN_RPAR ")", tok TOKEN_EOF "EOF"], 0, []⟩ =
          .done st1 ∧
      Parser.HasEOF st1.global_tlist)) :=
  ⟨⟨tok TOKEN_EOF "EOF", by simp, rfl⟩,
    parse_stays_within_token_list _ 0 [] ⟨tok TOKEN_EOF "EOF", by simp, rfl⟩⟩

namespace Parser
open consumption_type discard_option

/-! ## One round of recovery in `stmts` -/

theorem discardToSemicolon_skip (junk : token_list) (x : token) (rest : token_list)
    (hj : ∀ y ∈ junk, y.type ≠ TOKEN_SCOL ∧ y.type ≠ TOKEN_EOF)
    (hx : x.type = TOKEN_SCOL ∨ x.type = TOKEN_EOF) :
    discardToSemicolon (junk ++ x :: rest) = some (x :: rest) := by
  induction junk with
  | nil =>
    rw [List.nil_append, discardToSemicolon, if_neg]
    rintro ⟨h1, h2⟩
    rcases hx with hx | hx
    · exact h1 hx
    · exact h2 hx
  | cons y l ih =>
    rw [List.cons_append, discardToSemicolon, if_pos (hj y (List.mem_cons_self _ _))]
    exact ih (fun z hz => hj z (List.mem_cons_of_mem _ hz))

theorem discardSemicolons_skip (scs : token_list) (x : token) (rest : token_list)
    (hs : ∀ y ∈ scs, y.type = TOKEN_SCOL) (hx : x.type ≠ TOKEN_SCOL) :
    discardSemicolons (scs ++ x :: rest) = some (x :: rest) := by
  induction scs with
  | nil => rw [List.nil_append, discardSemicolons, if_neg hx]
  | cons y l ih =>
    rw [List.cons_append, discardSemicolons, if_pos (hs y (List.mem_cons_self _ _))]
    exact ih (fun z hz => hs z (List.mem_cons_of_mem _ hz))

theorem stmts_bind_node (fuel : Nat) (st : ParseState) (a : statement_node)
    (b : Option token) :
    ((stmts fuel st).bind fun rr =>
      match rr.1 with
      | .error => Outcome.done (stmts_node.error, rr.2)
      | stmtsn => .done (.node a b stmtsn, rr.2)) =
    (stmts fuel st).bind fun rr => .done (.node a b rr.1, rr.2) := by
  cases h : stmts fuel st with
  | fault => rfl
  | fuel => rfl
  | done p =>
    obtain ⟨r, s⟩ := p
    have hne := stmts_never_error _ _ _ _ h
    cases r with
    | error => exact (hne rfl).elim
    | NULL => rfl
    | node x y z => rfl

end Parser

/-- C33 (as amended): one round of `stmts` in front of a token `t` that starts a statement.
When the statement fails and a semicolon follows before the end of input, the round writes
the one diagnostic `Invalid <kind> statement` and the list goes on behind that semicolon.
When the statement is parsed and no semicolon follows it, the round writes the one diagnostic
`Expected semicolon` and the list goes on behind the next run of semicolons, or at the end of
input when that comes first. When the statement fails and no semicolon follows before the end
of input, the round writes both diagnostics and the list goes on at the end of input. In each
case the error flag is set. -/
theorem stmts_recovery_round (fuel : Nat) (st : Parser.ParseState) (t : token)
    (hs : Parser.stmtsStarter st = some t) :
    (∀ s1 junk sc rest, Parser.statement fuel st = .done (.error, s1) →
      s1.global_tlist = junk ++ sc :: rest →
      (∀ y ∈ junk, y.type ≠ TOKEN_SCOL ∧ y.type ≠ TOKEN_EOF) → sc.type = TOKEN_SCOL →
      Parser.stmts (fuel + 1) st =
        (Parser.stmts fuel ⟨rest, 1, s1.err ++ Parser.syntaxErrorText t⟩).bind fun rr =>
          .done (.node .error (some sc) rr.1, rr.2)) ∧
    (∀ n s1 junk scs x rest, Parser.statement fuel st = .done (n, s1) → n ≠ .error →
      s1.global_tlist = junk ++ (scs ++ x :: rest) →
      (∀ y ∈ junk, y.type ≠ TOKEN_SCOL ∧ y.type ≠ TOKEN_EOF) →
      (∀ y ∈ scs, y.type = TOKEN_SCOL) → x.type ≠ TOKEN_SCOL →
      (junk = [] → scs = []) → (scs = [] → x.type = TOKEN_EOF) →
      Parser.stmts (fuel + 1) st =
        (Parser.stmts fuel ⟨x :: rest, 1,
            s1.err ++ "Syntax  error in line ".toList ++ fmt3D t.line_number ++
              ": Expected semicolon.\n".toList⟩).bind fun rr =>
          .done (.node n none rr.1, rr.2)) ∧
    (∀ s1 junk eof rest, Parser.statement fuel st = .done (.error, s1) →
      s1.global_tlist = junk ++ eof :: rest →
      (∀ y ∈ junk, y.type ≠ TOKEN_SCOL ∧ y.type ≠ TOKEN_EOF) → eof.type = TOKEN_EOF →
      Parser.stmts (fuel + 1) st =
        (Parser.stmts fuel ⟨eof :: rest, 1,
            s1.err ++ Parser.syntaxErrorText t ++ "Syntax  error in line ".toList ++
              fmt3D t.line_number ++ ": Expected semicolon.\n".toList⟩).bind fun rr =>
          .done (.node .error none rr.1, rr.2)) := by
  refine ⟨?_, ?_, ?_⟩
  · intro s1 junk sc rest h1 hl hj hsc
    rw [Parser.stmts]
    simp only [hs, h1, Outcome.bind_done]
    have hd : Parser.recoverStatement t s1 =
        .done ⟨sc :: rest, 1, s1.err ++ Parser.syntaxErrorText t⟩ := by
      unfold Parser.recoverStatement Parser.discardTokens Parser.printError
      simp only [hl, Parser.discardToSemicolon_skip junk sc rest hj (Or.inl hsc)]
      rfl
    rw [hd]
    simp only [Outcome.bind_done, Parser.match_cons_pos _ _ _ _ _ hsc]
    exact Parser.stmts_bind_node _ _ _ _
  · intro n s1 junk scs x rest h1 hn hl hj hsc hx hjs hstop
    rw [Parser.stmts]
    simp only [hs, h1, Outcome.bind_done]
    have hm : Parser.match_ TOKEN_SCOL Parser.consumption_type.CONSUME s1 = (none, s1) := by
      unfold Parser.match_
      rw [hl]
      cases junk with
      | nil =>
        rw [hjs rfl] at hstop ⊢
        simp only [List.nil_append]
        rw [if_neg hx]
      | cons y l =>
        simp only [List.cons_append]
        rw [if_neg (hj y (List.mem_cons_self _ _)).1]
    rw [hm]
    have hd : Parser.recoverSemicolon t s1 =
        .done ⟨x :: rest, 1, s1.err ++ "Syntax  error in line ".toList ++
          fmt3D t.line_number ++ ": Expected semicolon.\n".toList⟩ := by
      unfold Parser.recoverSemicolon Parser.discardTokens
      simp only [hl]
      cases scs with
      | nil =>
        have hxe := hstop rfl
        simp only [List.nil_append,
          Parser.discardToSemicolon_skip junk x rest hj (Or.inr hxe)]
        first | rw [if_pos rfl] | rw [if_pos trivial]
        have := Parser.discardSemicolons_skip [] x rest (by simp) hx
        simp only [List.nil_append] at this
        simp only [this]
      | cons s l =>
        simp only [List.cons_append,
          Parser.discardToSemicolon_skip junk s (l ++ x :: rest) hj
            (Or.inl (hsc s (List.mem_cons_self _ _)))]
        first | rw [if_pos rfl] | rw [if_pos trivial]
        have := Parser.discardSemicolons_skip (s :: l) x rest hsc hx
        simp only [List.cons_append] at this
        simp only [this]
    simp only [hd, Outcome.bind_done]
    exact Parser.stmts_bind_node _ _ _ _
  · intro s1 junk eof rest h1 hl hj he
    rw [Parser.stmts]
    simp only [hs, h1, Outcome.bind_done]
    have hd : Parser.recoverStatement t s1 =
        .done ⟨eof :: rest, 1, s1.err ++ Parser.syntaxErrorText t⟩ := by
      unfold Parser.recoverStatement Parser.discardTokens Parser.printError
      simp only [hl, Parser.discardToSemicolon_skip junk eof rest hj (Or.inr he)]
      rfl
    rw [hd]
    have hne : eof.type ≠ TOKEN_SCOL := by rw [he]; decide
    simp only [Outcome.bind_done, Parser.match_cons_neg _ _ _ _ _ _ hne]
    have hd2 : Parser.recoverSemicolon t
          ⟨eof :: rest, 1, s1.err ++ Parser.syntaxErrorText t⟩ =
        .done ⟨eof :: rest, 1, s1.err ++ Parser.syntaxErrorText t ++
          "Syntax  error in line ".toList ++ fmt3D t.line_number ++
            ": Expected semicolon.\n".toList⟩ := by
      unfold Parser.recoverSemicolon Parser.discardTokens
      have h1 := Parser.discardToSemicolon_skip [] eof rest (by simp) (Or.inr he)
      have h2 := Parser.discardSemicolons_skip [] eof rest (by simp) hne
      simp only [List.nil_append] at h1 h2
      simp only [h1, h2]
      first | rw [if_pos rfl] | rw [if_pos trivial]
    simp only [hd2, Outcome.bind_done]
    exact Parser.stmts_bind_node _ _ _ _

theorem stmts_recovery_round_witness :
    Parser.stmtsStarter ⟨[tok TOKEN_PRINTKEY "print", tok TOKEN_RPAR ")", tok TOKEN_SCOL ";",
        tok TOKEN_EOF "EOF"], 0, []⟩ = some (tok TOKEN_PRINTKEY "print") ∧
    Parser.stmts (5 + 1) ⟨[tok TOKEN_PRINTKEY "print", tok TOKEN_RPAR ")", tok TOKEN_SCOL ";",
        tok TOKEN_EOF "EOF"], 0, []⟩ =
      (Parser.stmts 5 ⟨[tok TOKEN_EOF "EOF"], 1,
          [] ++ Parser.syntaxErrorText (tok TOKEN_PRINTKEY "print")⟩).bind fun rr =>
        .done (.node .error (some (tok TOKEN_SCOL ";")) rr.1, rr.2) :=
  ⟨rfl, (stmts_recovery_round 5 ⟨[tok TOKEN_PRINTKEY "print", tok TOKEN_RPAR ")",
      tok TOKEN_SCOL ";", tok TOKEN_EOF "EOF"], 0, []⟩ (tok TOKEN_PRINTKEY "print") rfl).1
    ⟨[tok TOKEN_RPAR ")", tok TOKEN_SCOL ";", tok TOKEN_EOF "EOF"], 0, []⟩
    [tok TOKEN_RPAR ")"] (tok TOKEN_SCOL ";") [tok TOKEN_EOF "EOF"] rfl rfl
    (by intro y hy; rw [List.mem_singleton] at hy; subst hy; exact ⟨by decide, by decide⟩)
    rfl⟩

/-- C33 (as stated) fails: for the one statement of `print )` the parser writes both
diagnostics, `Invalid print statement` and `Expected semicolon`. -/
theorem stmts_recovery_round_counterexample :
    Parser.parse [tok TOKEN_PRINTKEY "print", tok TOKEN_RPAR ")", tok TOKEN_EOF "EOF"] 0 [] =
      .done (.NULL, ⟨[], 1,
        "Syntax  error in line   1: Invalid print statement.\n".toList ++
        "Syntax  error in line   1: Expected semicolon.\n".toList⟩) := by
  rfl

/-! ## The type tags persist -/

theorem typesPersist_same (st : Env) : TypesPersist st st :=
  ⟨⟨[], rfl⟩, fun _ e h => ⟨e, h, rfl⟩⟩

theorem typesPersist_chain {a b c : Env} (h1 : TypesPersist a b) (h2 : TypesPersist b c) :
    TypesPersist a c := by
  obtain ⟨⟨p1, t1⟩, l1⟩ := h1
  obtain ⟨⟨p2, t2⟩, l2⟩ := h2
  refine ⟨⟨p2 ++ p1, by rw [t2, t1, List.append_assoc]⟩, ?_⟩
  intro name e he
  obtain ⟨e1, he1, hl1⟩ := l1 name e he
  obtain ⟨e2, he2, hl2⟩ := l2 name e1 he1
  exact ⟨e2, he2, hl2.trans hl1⟩

theorem typesPersist_of_eq {a b : Env} (h : b.global_list = a.global_list) :
    TypesPersist a b :=
  ⟨⟨[], by rw [h]; rfl⟩, fun _ e he => ⟨e, by rw [h]; exact he, rfl⟩⟩

theorem typesPersist_of_frame {a b : Env} (h : Frame a b) : TypesPersist a b :=
  typesPersist_of_eq h.1

theorem typeTags_forceUpdateLoop (name : List Char) (v : value) (l : label_list)
    (h : ∀ e, findLabelLoop name l = some e → e.2.lt = v.lt) :
    typeTags (forceUpdateLoop name v l) = typeTags l := by
  induction l with
  | nil => rfl
  | cons a rest ih =>
    by_cases hs : sameLabel a.1 name = true
    · have ha : a.2.lt = v.lt := by
        apply h a
        rw [findLabelLoop, if_pos (by rw [sameLabel_comm]; exact hs)]
      rw [forceUpdateLoop, if_pos hs]
      simp only [typeTags, List.map_cons, ha]
    · have hs2 : ¬ sameLabel name a.1 = true := by rw [sameLabel_comm]; exact hs
      rw [forceUpdateLoop, if_neg hs]
      have ih2 := ih (fun e he => h e (by rw [findLabelLoop, if_neg hs2]; exact he))
      simp only [typeTags, List.map_cons] at ih2 ⊢
      rw [ih2]

theorem findLabelLoop_forceUpdateLoop_type (name : List Char) (v : value) (l : label_list)
    (h : ∀ e, findLabelLoop name l = some e → e.2.lt = v.lt) :
    ∀ n e, findLabelLoop n l = some e →
      ∃ e1, findLabelLoop n (forceUpdateLoop name v l) = some e1 ∧ e1.2.lt = e.2.lt := by
  induction l with
  | nil => intro n e he; simp [findLabelLoop] at he
  | cons a rest ih =>
    intro n e he
    by_cases hs : sameLabel a.1 name = true
    · have ha : a.2.lt = v.lt := by
        apply h a
        rw [findLabelLoop, if_pos (by rw [sameLabel_comm]; exact hs)]
      rw [forceUpdateLoop, if_pos hs]
      by_cases hn : sameLabel n a.1 = true
      · rw [findLabelLoop, if_pos hn] at he
        simp only [Option.some.injEq] at he
        subst he
        refine ⟨(a.1, v), ?_, ha.symm⟩
        rw [findLabelLoop, if_pos hn]
      · rw [findLabelLoop, if_neg hn] at he
        refine ⟨e, ?_, rfl⟩
        rw [findLabelLoop, if_neg hn]
        exact he
    · have hs2 : ¬ sameLabel name a.1 = true := by rw [sameLabel_comm]; exact hs
      rw [forceUpdateLoop, if_neg hs]
      by_cases hn : sameLabel n a.1 = true
      · rw [findLabelLoop, if_pos hn] at he
        refine ⟨a, ?_, by simp only [Option.some.injEq] at he; rw [he]⟩
        rw [findLabelLoop, if_pos hn]
      · rw [findLabelLoop, if_neg hn] at he
        obtain ⟨e1, h1, h2⟩ :=
          ih (fun e he => h e (by rw [findLabelLoop, if_neg hs2]; exact he)) n e he
        refine ⟨e1, ?_, h2⟩
        rw [findLabelLoop, if_neg hn]
        exact h1

theorem typesPersist_forceUpdate (id : token) (v : value) (st : Env)
    (h : ∀ e, findLabelLoop id.value st.global_list = some e → e.2.lt = v.lt) :
    TypesPersist st (forceUpdate id v st) :=
  ⟨⟨[], by
      simp only [forceUpdate, List.nil_append]
      exact typeTags_forceUpdateLoop _ _ _ h⟩,
    fun n e he => findLabelLoop_forceUpdateLoop_type _ _ _ h n e he⟩

theorem typesPersist_update (id : token) (v : value) (st : Env)
    (h : ∀ e, findLabelLoop id.value st.global_list = some e → e.2.lt = v.lt) :
    TypesPersist st (update id v st).2 := by
  unfold update isConstant
  have hf := frame_findLabelValue id st
  rcases hx : findLabelValue id st with ⟨w, s1⟩
  rw [hx] at hf
  simp only
  by_cases hc : w.constant = 0
  · simp only [hc, if_true, ne_eq, not_true_eq_false, if_false]
    refine typesPersist_chain (typesPersist_of_frame hf) (typesPersist_forceUpdate _ _ _ ?_)
    intro e he
    have h1 : s1.global_list = st.global_list := hf.1
    rw [h1] at he
    exact h e he
  · simp only [hc, if_false, ne_eq, one_ne_zero, not_false_eq_true, if_true]
    exact typesPersist_chain (typesPersist_of_frame hf)
      (typesPersist_of_frame (frame_printError _ _ _ _))

theorem typesPersist_insert (id : token) (v : value) (st : Env)
    (h : (insert id v st).1 ≠ 0) : TypesPersist st (insert id v st).2 := by
  unfold insert at h ⊢
  cases hs : insertScan id.value st.global_list with
  | some r => rw [hs] at h; simp at h
  | none =>
    simp only
    refine ⟨⟨[(id.value, v.lt)], rfl⟩, ?_⟩
    intro name e he
    refine ⟨e, ?_, rfl⟩
    obtain ⟨pre, post, h1, h2, _⟩ := findLabelLoop_some _ _ _ he
    have hk : id.value.take (TOKEN_MAX_LENGTH + 1) ∉ labelKeys st.global_list :=
      (insertScan_none _ _).1 hs
    have hn : ¬ sameLabel name id.value = true := by
      intro hc
      apply hk
      rw [← (sameLabel_iff _ _).1 hc, (sameLabel_iff _ _).1 h2, h1, labelKeys, List.map_append,
        List.map_cons]
      exact List.mem_append_right _ (List.mem_cons_self _ _)
    show findLabelLoop name ((id.value, v) :: st.global_list) = some e
    rw [findLabelLoop, if_neg hn]
    exact he

theorem typesPersist_declaration_tail (id : token) (expected : label_type) (v : value)
    (s : Env) (r : Int × Env)
    (h : (if v.lt ≠ expected then
        Outcome.done ((0 : Int), printError id "Incompatible types in declaration".toList
          SEMANTIC_ERROR s)
      else
        if (insert id v s).1 = 0 then
          .done (0, printError id ("Redeclaration of symbol ".toList ++ id.value)
            SEMANTIC_ERROR (insert id v s).2)
        else .done (1, (insert id v s).2)) = .done r) (hr : r.1 ≠ 0) :
    TypesPersist s r.2 := by
  by_cases h1 : v.lt ≠ expected
  · rw [if_pos h1] at h
    simp only [Outcome.done.injEq] at h; subst h
    exact (hr rfl).elim
  · rw [if_neg h1] at h
    by_cases h2 : (insert id v s).1 = 0
    · rw [if_pos h2] at h
      simp only [Outcome.done.injEq] at h; subst h
      exact (hr rfl).elim
    · rw [if_neg h2] at h
      simp only [Outcome.done.injEq] at h; subst h
      exact typesPersist_insert _ _ _ h2

theorem typesPersist_declaration (n : declaration_node) (st : Env) (r : Int × Env)
    (h : declaration n st = .done r) (hr : r.1 ≠ 0) : TypesPersist st r.2 := by
  cases n with
  | NULL => simp only [declaration, Outcome.done.injEq] at h; subst h; exact typesPersist_same _
  | error => simp [declaration] at h
  | node varKey id col typeKey asn =>
    cases id with
    | none => simp [declaration] at h
    | some id =>
      cases typeKey with
      | none => simp [declaration] at h
      | some typeKey =>
        rw [declaration] at h
        obtain ⟨r1, h1, h2⟩ := Outcome.bind_eq_done _ _ _ h
        have f1 : Frame st r1.2 := by
          cases asn with
          | NULL =>
            simp only [declarationSuffix, Outcome.done.injEq] at h1; subst h1
            exact Frame.refl _
          | error => simp [declarationSuffix] at h1
          | node ass expn =>
            rw [declarationSuffix] at h1
            exact expression_frame _ _ _ h1
        exact typesPersist_chain (typesPersist_of_frame f1)
          (typesPersist_declaration_tail _ _ _ _ _ h2 hr)

theorem typesPersist_assignment (n : assignment_node) (st : Env) (r : Int × Env)
    (h : assignment n st = .done r) : TypesPersist st r.2 := by
  cases n with
  | NULL => simp only [assignment, Outcome.done.injEq] at h; subst h; exact typesPersist_same _
  | error => simp [assignment] at h
  | node id assOp expn =>
    cases id with
    | none => simp [assignment] at h
    | some id =>
      rw [assignment] at h
      have f0 := frame_findLabelType id st
      by_cases hu : (findLabelType id st).1 = UNDEF
      · rw [if_pos hu] at h
        simp only [Outcome.done.injEq] at h; subst h
        exact typesPersist_of_frame (f0.trans (frame_printError _ _ _ _))
      · rw [if_neg hu] at h
        obtain ⟨r1, h1, h2⟩ := Outcome.bind_eq_done _ _ _ h
        have f1 := expression_frame _ _ _ h1
        by_cases ht : (findLabelType id st).1 ≠ r1.1.lt
        · rw [if_pos ht] at h2
          simp only [Outcome.done.injEq] at h2; subst h2
          exact typesPersist_of_frame (f0.trans (f1.trans (frame_printError _ _ _ _)))
        · rw [if_neg ht] at h2
          by_cases he : r1.1.error ≠ 1 ∧ r1.1.empty ≠ 1
          · rw [if_pos he] at h2
            simp only [Outcome.done.injEq] at h2; subst h2
            refine typesPersist_chain (typesPersist_of_frame (f0.trans f1))
              (typesPersist_update _ _ _ ?_)
            intro e hl
            have hg : r1.2.global_list = st.global_list := (f0.trans f1).1
            rw [hg] at hl
            rw [findLabelType_of_some id st e hl] at ht
            simp only [ne_eq, not_not] at ht
            exact ht
          · rw [if_neg he] at h2
            simp only [Outcome.done.injEq] at h2; subst h2
            exact typesPersist_of_frame (f0.trans f1)

theorem typesPersist_read (n : read_node) (st : Env) (r : Int × Env)
    (h : read n st = .done r) : TypesPersist st r.2 := by
  cases n with
  | NULL => simp only [read, Outcome.done.injEq] at h; subst h; exact typesPersist_same _
  | error => simp [read] at h
  | node readKey id =>
    cases id with
    | none => simp [read] at h
    | some id =>
      rw [read] at h
      have f0 := frame_findLabelType id st
      have hty : ∀ e, findLabelLoop id.value st.global_list = some e →
          e.2.lt = (findLabelType id st).1 := by
        intro e he; rw [findLabelType_of_some id st e he]
      rcases hx : findLabelType id st with ⟨ty, s1⟩
      rw [hx] at h f0 hty
      simp only at h f0 hty
      have hg : s1.global_list = st.global_list := f0.1
      have hup : ∀ (v : value) (rest : List Char), v.lt = ty →
          TypesPersist st (update id v { s1 with inp := rest }).2 := by
        intro v rest hv
        refine typesPersist_chain
          (typesPersist_of_eq (b := { s1 with inp := rest }) hg) (typesPersist_update _ _ _ ?_)
        intro e he
        have he2 : findLabelLoop id.value st.global_list = some e := by rw [← hg]; exact he
        rw [hty e he2, hv]
      cases ty with
      | UNDEF =>
        simp only [Outcome.done.injEq] at h; subst h
        exact typesPersist_of_frame (f0.trans (frame_printError _ _ _ _))
      | INT =>
        simp only at h
        split at h
        · simp only [Outcome.done.injEq] at h; subst h
          exact typesPersist_of_eq hg
        · simp only [Outcome.done.injEq] at h; subst h
          exact hup _ _ rfl
      | STRING =>
        simp only at h
        split at h
        · simp only [Outcome.done.injEq] at h; subst h
          exact typesPersist_of_eq hg
        · simp only [Outcome.done.injEq] at h; subst h
          exact hup _ _ rfl
      | BOOL =>
        simp only [Outcome.done.injEq] at h; subst h
        exact typesPersist_of_frame (f0.trans (frame_printError _ _ _ _))

theorem typesPersist_assert (n : assert_node) (st : Env) (r : Int × Env)
    (h : assert n st = .done r) : TypesPersist st r.2 :=
  typesPersist_of_eq (assert_table n st r h)

theorem typesPersist_print (n : print_node) (st : Env) (r : Int × Env)
    (h : print n st = .done r) : TypesPersist st r.2 :=
  typesPersist_of_eq (print_table n st r h)

theorem forLoop_types (body : Env → Outcome (Int × Env)) (id : token) (b : Int)
    (hbody : ∀ s r, body s = .done r → r.1 ≠ 0 → TypesPersist s r.2) :
    ∀ (fuel : Nat) (c : value) (st : Env) (r : Int × Env),
      forLoop body id b fuel c st = .done r → r.1 ≠ 0 → c.lt = INT →
      (∃ e, findLabelLoop id.value st.global_list = some e ∧ e.2.lt = INT) →
      TypesPersist st r.2 := by
  intro fuel
  induction fuel with
  | zero => intro c st r h; simp [forLoop] at h
  | succ f ih =>
    intro c st r h hr hc he
    obtain ⟨e0, he0, ht0⟩ := he
    have hw : ∀ v : value, v.lt = INT → TypesPersist st (forceUpdate id v st) := by
      intro v hv
      apply typesPersist_forceUpdate
      intro e he
      rw [he0] at he
      simp only [Option.some.injEq] at he
      rw [← he, ht0, hv]
    rw [forLoop] at h
    by_cases hle : c.i ≤ b
    · rw [if_pos hle] at h
      cases hb : body (forceUpdate id c st) with
      | fault => rw [hb] at h; simp at h
      | fuel => rw [hb] at h; simp at h
      | done r1 =>
        rw [hb] at h
        simp only at h
        by_cases h0 : r1.1 = 0
        · rw [if_pos h0] at h
          simp only [Outcome.done.injEq] at h
          subst h
          exact (hr rfl).elim
        · rw [if_neg h0] at h
          have p1 : TypesPersist st r1.2 :=
            typesPersist_chain (hw c hc) (hbody _ _ hb h0)
          obtain ⟨e1, he1, ht1⟩ := p1.2 _ _ he0
          exact typesPersist_chain p1 (ih _ _ _ h hr hc ⟨e1, he1, ht1.trans ht0⟩)
    · rw [if_neg hle] at h
      simp only [Outcome.done.injEq] at h
      subst h
      exact hw _ hc

mutual
theorem typesPersist_stmts (fuel : Nat) : ∀ (n : stmts_node) (st : Env) (r : Int × Env),
    stmts fuel n st = .done r → r.1 ≠ 0 → TypesPersist st r.2
  | .NULL, st, r, h, _ => by
    simp only [stmts, Outcome.done.injEq] at h; subst h; exact typesPersist_same _
  | .error, st, r, h, _ => by simp [stmts] at h
  | .node stmtn sCol stmtsn, st, r, h, hr => by
    rw [stmts] at h
    obtain ⟨r1, h1, h2⟩ := Outcome.bind_eq_done _ _ _ h
    by_cases h0 : r1.1 = 0
    · rw [if_pos h0] at h2
      simp only [Outcome.done.injEq] at h2; subst h2
      exact (hr rfl).elim
    · rw [if_neg h0] at h2
      exact typesPersist_chain (typesPersist_statement fuel stmtn st r1 h1 h0)
        (typesPersist_stmts fuel stmtsn r1.2 r h2 hr)
theorem typesPersist_statement (fuel : Nat) : ∀ (n : statement_node) (st : Env)
    (r : Int × Env), statement fuel n st = .done r → r.1 ≠ 0 → TypesPersist st r.2
  | .NULL, st, r, h, _ => by simp [statement] at h
  | .error, st, r, h, _ => by simp [statement] at h
  | .node decn assn forn readn printn assertn, st, r, h, hr => by
    rw [statement] at h
    obtain ⟨r1, h1, h⟩ := Outcome.bind_eq_done _ _ _ h
    by_cases c1 : r1.1 = 0
    · rw [if_pos c1] at h
      simp only [Outcome.done.injEq] at h; subst h; exact (hr rfl).elim
    rw [if_neg c1] at h
    have p1 := typesPersist_declaration decn st r1 h1 c1
    obtain ⟨r2, h2, h⟩ := Outcome.bind_eq_done _ _ _ h
    have p2 := typesPersist_chain p1 (typesPersist_assignment assn r1.2 r2 h2)
    by_cases c2 : r2.1 = 0
    · rw [if_pos c2] at h
      simp only [Outcome.done.injEq] at h; subst h; exact (hr rfl).elim
    rw [if_neg c2] at h
    obtain ⟨r3, h3, h⟩ := Outcome.bind_eq_done _ _ _ h
    by_cases c3 : r3.1 = 0
    · rw [if_pos c3] at h
      simp only [Outcome.done.injEq] at h; subst h; exact (hr rfl).elim
    rw [if_neg c3] at h
    have p3 := typesPersist_chain p2 (typesPersist_for fuel forn r2.2 r3 h3 c3)
    obtain ⟨r4, h4, h⟩ := Outcome.bind_eq_done _ _ _ h
    have p4 := typesPersist_chain p3 (typesPersist_read readn r3.2 r4 h4)
    by_cases c4 : r4.1 = 0
    · rw [if_pos c4] at h
      simp only [Outcome.done.injEq] at h; subst h; exact (hr rfl).elim
    rw [if_neg c4] at h
    obtain ⟨r5, h5, h⟩ := Outcome.bind_eq_done _ _ _ h
    have p5 := typesPersist_chain p4 (typesPersist_print printn r4.2 r5 h5)
    by_cases c5 : r5.1 = 0
    · rw [if_pos c5] at h
      simp only [Outcome.done.injEq] at h; subst h; exact (hr rfl).elim
    rw [if_neg c5] at h
    obtain ⟨r6, h6, h⟩ := Outcome.bind_eq_done _ _ _ h
    have p6 := typesPersist_chain p5 (typesPersist_assert assertn r5.2 r6 h6)
    by_cases c6 : r6.1 = 0
    · rw [if_pos c6] at h
      simp only [Outcome.done.injEq] at h; subst h; exact p6
    · rw [if_neg c6] at h
      simp only [Outcome.done.injEq] at h; subst h; exact p6
theorem typesPersist_for (fuel : Nat) : ∀ (n : for_node) (st : Env) (r : Int × Env),
    for_ fuel n st = .done r → r.1 ≠ 0 → TypesPersist st r.2
  | .NULL, st, r, h, _ => by
    simp only [for_, Outcome.done.injEq] at h; subst h; exact typesPersist_same _
  | .error, st, r, h, _ => by simp [for_] at h
  | .node _ none _ _ _ _ _ _ _ _, st, r, h, _ => by simp [for_] at h
  | .node _ (some id) _ expn1 _ expn2 _ stmtsn _ _, st, r, h, hr => by
    rw [for_] at h
    have f0 := frame_findLabelType id st
    by_cases c0 : (findLabelType id st).1 ≠ .INT
    · rw [if_pos c0] at h
      simp only [Outcome.done.injEq] at h; subst h
      exact (hr rfl).elim
    rw [if_neg c0] at h
    obtain ⟨r1, h1, h⟩ := Outcome.bind_eq_done _ _ _ h
    obtain ⟨r2, h2, h⟩ := Outcome.bind_eq_done _ _ _ h
    have f1 := expression_frame _ _ _ h1
    have f2 := expression_frame _ _ _ h2
    have f : Frame st r2.2 := f0.trans (f1.trans f2)
    by_cases c1 : r1.1.lt ≠ .INT ∨ r2.1.lt ≠ .INT
    · rw [if_pos c1] at h
      simp only [Outcome.done.injEq] at h; subst h
      exact (hr rfl).elim
    · rw [if_neg c1] at h
      have he : ∃ e, findLabelLoop id.value r2.2.global_list = some e ∧ e.2.lt = INT := by
        rw [f.1]
        cases hl : findLabelLoop id.value st.global_list with
        | none =>
          rw [findLabelType_of_none id st hl] at c0
          exact absurd c0 (by simp)
        | some e =>
          rw [findLabelType_of_some id st e hl] at c0
          simp only [ne_eq, not_not] at c0
          exact ⟨e, rfl, c0⟩
      exact typesPersist_chain (typesPersist_of_frame f)
        (forLoop_types _ id _ (fun s r hh hr => typesPersist_stmts fuel stmtsn s r hh hr)
          _ _ _ _ h hr rfl he)
end

/-- C40: every assignment and every `read`, and every `for` statement and statement list that
is executed with success, leaves the entries of the symbol table in place with their labels
and their type tags, new entries standing in front of them only; and a name that had an entry
before is still found afterwards, with an entry of the same type tag. -/
theorem type_tags_persist :
    (∀ n st r, assignment n st = .done r → TypesPersist st r.2) ∧
    (∀ n st r, read n st = .done r → TypesPersist st r.2) ∧
    (∀ fuel n st r, for_ fuel n st = .done r → r.1 ≠ 0 → TypesPersist st r.2) ∧
    (∀ fuel n st r, stmts fuel n st = .done r → r.1 ≠ 0 → TypesPersist st r.2) :=
  ⟨typesPersist_assignment, typesPersist_read, typesPersist_for, typesPersist_stmts⟩

theorem type_tags_persist_witness :
    assignment (.node (some (tok TOKEN_IDENTIFIER "x")) none (operandExpr (intOperand "7")))
        ⟨[(['y'], ⟨3, 0, none, 0, 0, 1, INT⟩), (['x'], ⟨1, 0, none, 0, 0, 0, INT⟩)],
          [], [], []⟩ =
      .done (1, ⟨[(['y'], ⟨3, 0, none, 0, 0, 1, INT⟩), (['x'], ⟨7, 0, none, 0, 0, 0, INT⟩)],
          [], [], []⟩) ∧
    TypesPersist
      ⟨[(['y'], ⟨3, 0, none, 0, 0, 1, INT⟩), (['x'], ⟨1, 0, none, 0, 0, 0, INT⟩)], [], [], []⟩
      ⟨[(['y'], ⟨3, 0, none, 0, 0, 1, INT⟩), (['x'], ⟨7, 0, none, 0, 0, 0, INT⟩)], [], [], []⟩ :=
  ⟨by decide, type_tags_persist.1
    (.node (some (tok TOKEN_IDENTIFIER "x")) none (operandExpr (intOperand "7")))
    ⟨[(['y'], ⟨3, 0, none, 0, 0, 1, INT⟩), (['x'], ⟨1, 0, none, 0, 0, 0, INT⟩)], [], [], []⟩
    (1, ⟨[(['y'], ⟨3, 0, none, 0, 0, 1, INT⟩), (['x'], ⟨7, 0, none, 0, 0, 0, INT⟩)],
      [], [], []⟩) (by decide)⟩

/-! ## Typed values: expressions -/

theorem typedResult_error : TypedResult error_value := by
  unfold TypedResult error_value
  simp

theorem typedResult_empty : TypedResult empty_value := by
  unfold TypedResult empty_value
  simp

theorem typedResult_of_stored (v : value) (h : Stored v) : TypedResult v :=
  ⟨h.2.1, h.2.2, h.1.2.1, h.1.2.2, fun _ _ => h.1.1⟩

theorem stored_of_typedResult (v : value) (h : TypedResult v) (hl : v.lt ≠ .UNDEF) :
    Stored v :=
  ⟨⟨hl, h.2.2.1, h.2.2.2.1⟩, h.1, h.2.1⟩

theorem typedResult_bool (v : value) (x : Int) (hv : TypedResult v) (hx : x = 0 ∨ x = 1) :
    TypedResult { v with b := x, lt := .BOOL } :=
  ⟨hv.1, hv.2.1, fun h => absurd (show label_type.BOOL = .STRING from h) (by decide),
    fun _ => hx, fun _ _ => show label_type.BOOL ≠ .UNDEF by decide⟩

theorem applyBinary_typed (op : token) (oper suffix : value) (st : Env) (r : value × Env)
    (h : applyBinary op oper suffix st = .done r) (ho : TypedResult oper)
    (hs : TypedResult suffix) : TypedResult r.1 := by
  unfold applyBinary at h
  have dn : ∀ (v : value) (s : Env), Outcome.done (v, s) = Outcome.done r → TypedResult v →
      TypedResult r.1 := by
    intro v s e hv
    simp only [Outcome.done.injEq] at e
    subst e
    exact hv
  have de : ∀ s : Env, Outcome.done (error_value, s) = Outcome.done r → TypedResult r.1 :=
    fun s e => dn _ s e typedResult_error
  by_cases c0 : suffix.lt ≠ oper.lt
  · rw [if_pos c0] at h; exact de _ h
  rw [if_neg c0] at h
  have hlt : suffix.lt = oper.lt := not_not.1 c0
  by_cases c1 : strncmpEq op.value ['+'] 1 = true
  · rw [if_pos c1] at h
    by_cases d1 : suffix.lt = .INT
    · rw [if_pos d1] at h; exact dn _ _ h hs
    rw [if_neg d1] at h
    by_cases d2 : suffix.lt = .STRING
    · rw [if_pos d2] at h
      split at h
      · split at h
        · exact dn _ _ h ⟨ho.1, ho.2.1, fun _ => by simp, ho.2.2.2.1, ho.2.2.2.2⟩
        · simp at h
      · simp at h
    rw [if_neg d2] at h
    exact de _ h
  rw [if_neg c1] at h
  by_cases c2 : strncmpEq op.value ['-'] 1 = true
  · rw [if_pos c2] at h
    by_cases d1 : suffix.lt = .INT
    · rw [if_pos d1] at h; exact dn _ _ h hs
    rw [if_neg d1] at h
    exact de _ h
  rw [if_neg c2] at h
  by_cases c3 : strncmpEq op.value ['*'] 1 = true
  · rw [if_pos c3] at h
    by_cases d1 : suffix.lt = .INT
    · rw [if_pos d1] at h; exact dn _ _ h hs
    rw [if_neg d1] at h
    exact de _ h
  rw [if_neg c3] at h
  by_cases c4 : strncmpEq op.value ['/'] 1 = true
  · rw [if_pos c4] at h
    by_cases d0 : suffix.i = 0
    · rw [if_pos d0] at h; exact de _ h
    rw [if_neg d0] at h
    by_cases d1 : suffix.lt = .INT
    · rw [if_pos d1] at h; exact dn _ _ h hs
    rw [if_neg d1] at h
    exact de _ h
  rw [if_neg c4] at h
  by_cases c5 : strncmpEq op.value ['&'] 1 = true
  · rw [if_pos c5] at h
    by_cases d1 : suffix.lt = .BOOL
    · rw [if_pos d1] at h
      have hbs := hs.2.2.2.1 d1
      have hbo := ho.2.2.2.1 (hlt ▸ d1)
      exact dn _ _ h ⟨hs.1, hs.2.1, hs.2.2.1, fun _ => land_zero_one _ _ hbs hbo, hs.2.2.2.2⟩
    rw [if_neg d1] at h
    exact de _ h
  rw [if_neg c5] at h
  by_cases c6 : strncmpEq op.value ['<'] 1 = true
  · rw [if_pos c6] at h
    split at h
    · exact de _ h
    · exact dn _ _ h (typedResult_bool _ _ hs (ite_zero_one _))
    · split at h
      · exact dn _ _ h (typedResult_bool _ _ hs (ite_zero_one _))
      · simp at h
    · exact dn _ _ h (typedResult_bool _ _ hs (ite_zero_one _))
  rw [if_neg c6] at h
  by_cases c7 : strncmpEq op.value ['='] 1 = true
  · rw [if_pos c7] at h
    split at h
    · exact de _ h
    · exact dn _ _ h (typedResult_bool _ _ hs (ite_zero_one _))
    · split at h
      · exact dn _ _ h (typedResult_bool _ _ hs (ite_zero_one _))
      · simp at h
    · exact dn _ _ h (typedResult_bool _ _ hs (ite_zero_one _))
  rw [if_neg c7] at h
  exact dn _ _ h ho

theorem findLabelValue_typed (id : token) (st : Env) (hg : TypedTable st.global_list) :
    TypedResult (findLabelValue id st).1 := by
  unfold findLabelValue findLabel
  cases hf : findLabelLoop id.value st.global_list with
  | none => exact typedResult_empty
  | some e => exact typedResult_of_stored _ (hg e (findLabelLoop_mem _ _ _ hf))

mutual
theorem expression_typed : ∀ (n : expression_node) (st : Env) (r : value × Env),
    expression n st = .done r → TypedTable st.global_list → TypedResult r.1
  | .NULL, st, r, h, _ => by
    simp only [expression, Outcome.done.injEq] at h; subst h; exact typedResult_empty
  | .error, st, r, h, _ => by simp [expression] at h
  | .node u b, st, r, h, hg => by
    rw [expression] at h
    obtain ⟨r1, h1, h2⟩ := Outcome.bind_eq_done _ _ _ h
    have g1 := unaryExpression_typed u st r1 h1 hg
    have f1 := unaryExpression_frame u st r1 h1
    split_ifs at h2
    · simp only [Outcome.done.injEq] at h2; subst h2; exact g1
    · exact binaryExpression_typed b r1.2 r h2 (by rw [f1.1]; exact hg)
theorem unaryExpression_typed : ∀ (n : unary_expression_node) (st : Env) (r : value × Env),
    unaryExpression n st = .done r → TypedTable st.global_list → TypedResult r.1
  | .NULL, st, r, h, _ => by
    simp only [unaryExpression, Outcome.done.injEq] at h; subst h; exact typedResult_empty
  | .error, st, r, h, _ => by simp [unaryExpression] at h
  | .node (some unop) opern, st, r, h, hg => by
    rw [unaryExpression] at h
    obtain ⟨r1, h1, h2⟩ := Outcome.bind_eq_done _ _ _ h
    have g1 := operand_typed opern st r1 h1 hg
    by_cases hb : r1.1.lt ≠ .BOOL
    · rw [if_pos hb] at h2
      simp only [Outcome.done.injEq] at h2; subst h2
      exact typedResult_error
    · rw [if_neg hb] at h2
      simp only [Outcome.done.injEq] at h2; subst h2
      have hb2 : r1.1.lt = .BOOL := not_not.1 hb
      exact ⟨g1.1, g1.2.1, g1.2.2.1, fun _ => xorOne_zero_one _ (g1.2.2.2.1 hb2), g1.2.2.2.2⟩
  | .node none opern, st, r, h, hg => by
    rw [unaryExpression] at h
    exact operand_typed opern st r h hg
theorem binaryExpression_typed : ∀ (n : binary_expression_node) (st : Env) (r : value × Env),
    binaryExpression n st = .done r → TypedTable st.global_list → TypedResult r.1
  | .NULL, st, r, h, _ => by
    simp only [binaryExpression, Outcome.done.injEq] at h; subst h; exact typedResult_empty
  | .error, st, r, h, _ => by simp [binaryExpression] at h
  | .node opern osn, st, r, h, hg => by
    rw [binaryExpression] at h
    obtain ⟨rs, h1, h2⟩ := Outcome.bind_eq_done _ _ _ h
    obtain ⟨ro, h3, h4⟩ := Outcome.bind_eq_done _ _ _ h2
    have f1 := operandSuffix_frame osn st rs h1
    have g1 := operandSuffix_typed osn st rs h1 hg
    have g2 := operand_typed opern rs.2 ro h3 (by rw [f1.1]; exact hg)
    simp only at h4
    by_cases c1 : ro.1.empty = 1 ∨ rs.1.error = 1 ∨ ro.1.error = 1
    · rw [if_pos c1] at h4
      simp only [Outcome.done.injEq] at h4; subst h4; exact typedResult_error
    · rw [if_neg c1] at h4
      by_cases c2 : rs.1.empty ≠ 1
      · rw [if_pos c2] at h4
        split at h4
        · exact applyBinary_typed _ _ _ _ _ h4 g2 g1
        · simp at h4
      · rw [if_neg c2] at h4
        simp only [Outcome.done.injEq] at h4; subst h4; exact g2
theorem operandSuffix_typed : ∀ (n : operand_suffix_node) (st : Env) (r : value × Env),
    operandSuffix n st = .done r → TypedTable st.global_list → TypedResult r.1
  | .NULL, st, r, h, _ => by
    simp only [operandSuffix, Outcome.done.injEq] at h; subst h; exact typedResult_empty
  | .error, st, r, h, _ => by simp [operandSuffix] at h
  | .node _ opn, st, r, h, hg => by
    rw [operandSuffix] at h
    exact operand_typed opn st r h hg
theorem operand_typed : ∀ (n : operand_node) (st : Env) (r : value × Env),
    operand n st = .done r → TypedTable st.global_list → TypedResult r.1
  | .NULL, st, r, h, _ => by simp [operand] at h
  | .error, st, r, h, _ => by simp [operand] at h
  | .node intLit strLit id expren, st, r, h, hg => by
    rw [operand] at h
    obtain ⟨r1, h1, h2⟩ := Outcome.bind_eq_done _ _ _ h
    have g1 := enclosedExpression_typed expren st r1 h1 hg
    have f1 := enclosedExpression_frame expren st r1 h1
    split_ifs at h2
    · simp only [Outcome.done.injEq] at h2; subst h2; exact g1
    · split at h2
      · simp only [Outcome.done.injEq] at h2; subst h2
        simp [TypedResult, default_value]
      · simp only [Outcome.done.injEq] at h2; subst h2
        simp [TypedResult, default_value]
      · simp only at h2
        split_ifs at h2
        · simp only [Outcome.done.injEq] at h2; subst h2
          exact typedResult_error
        · simp only [Outcome.done.injEq] at h2; subst h2
          exact findLabelValue_typed _ _ (by rw [f1.1]; exact hg)
      · simp at h2
theorem enclosedExpression_typed : ∀ (n : enclosed_expression_node) (st : Env)
    (r : value × Env), enclosedExpression n st = .done r → TypedTable st.global_list →
    TypedResult r.1
  | .NULL, st, r, h, _ => by
    simp only [enclosedExpression, Outcome.done.injEq] at h; subst h; exact typedResult_empty
  | .error, st, r, h, _ => by simp [enclosedExpression] at h
  | .node _ expn _, st, r, h, hg => by
    rw [enclosedExpression] at h
    exact expression_typed expn st r h hg
end

/-! ## Typed values: the symbol table -/

theorem forceUpdateLoop_typed (name : List Char) (v : value) (hv : Stored v) :
    ∀ l : label_list, TypedTable l → TypedTable (forceUpdateLoop name v l) := by
  intro l
  induction l with
  | nil => intro h; exact h
  | cons e rest ih =>
    intro hg
    have he : Stored e.2 := hg e (List.mem_cons_self _ _)
    have hr : TypedTable rest := fun x hx => hg x (List.mem_cons_of_mem _ hx)
    rw [forceUpdateLoop]
    split_ifs
    · intro x hx
      rcases List.mem_cons.1 hx with rfl | hx
      · exact hv
      · exact hr x hx
    · intro x hx
      rcases List.mem_cons.1 hx with rfl | hx
      · exact he
      · exact ih hr x hx

theorem forceUpdate_typed (id : token) (v : value) (st : Env) (hv : Stored v)
    (hg : TypedTable st.global_list) : TypedTable (forceUpdate id v st).global_list :=
  forceUpdateLoop_typed _ _ hv _ hg

theorem update_typed (id : token) (v : value) (st : Env) (hv : Stored v)
    (hg : TypedTable st.global_list) : TypedTable (update id v st).2.global_list := by
  unfold update isConstant
  have hf := frame_findLabelValue id st
  rcases hx : findLabelValue id st with ⟨w, s1⟩
  rw [hx] at hf
  simp only
  have hg1 : TypedTable s1.global_list := by rw [hf.1]; exact hg
  by_cases hc : w.constant = 0
  · simp only [hc, if_true, ne_eq, not_true_eq_false, if_false]
    exact forceUpdate_typed _ _ _ hv hg1
  · simp only [hc, if_false, ne_eq, one_ne_zero, not_false_eq_true, if_true]
    exact hg1

theorem insert_typed (id : token) (v : value) (st : Env) (hv : Stored v)
    (hg : TypedTable st.global_list) : TypedTable (insert id v st).2.global_list := by
  unfold insert
  cases hs : insertScan id.value st.global_list with
  | none =>
    intro x hx
    rcases List.mem_cons.1 hx with rfl | hx
    · exact hv
    · exact hg x hx
  | some r =>
    obtain ⟨pre, old, post, h1, h2, _, _⟩ := insertScan_some _ _ _ hs
    intro x hx
    simp only [h2, List.mem_cons, List.mem_append] at hx
    rcases hx with rfl | hx | hx
    · exact hv
    · exact hg x (by rw [h1]; simp [hx])
    · exact hg x (by rw [h1]; simp [hx])

theorem stored_default (lt : label_type) (s : Option (List Char)) (i c : Int)
    (h1 : lt ≠ .UNDEF) (h2 : lt = .STRING → s ≠ none) :
    Stored { default_value with lt := lt, s := s, i := i, constant := c } :=
  ⟨⟨h1, h2, fun _ => Or.inl rfl⟩, Or.inl rfl, Or.inl rfl⟩

theorem declaration_typed_tail (id : token) (expected : label_type) (v : value)
    (s : Env) (r : Int × Env) (hv : v.lt = expected → Stored v)
    (hg : TypedTable s.global_list)
    (h : (if v.lt ≠ expected then
        Outcome.done ((0 : Int), printError id "Incompatible types in declaration".toList
          SEMANTIC_ERROR s)
      else
        if (insert id v s).1 = 0 then
          .done (0, printError id ("Redeclaration of symbol ".toList ++ id.value)
            SEMANTIC_ERROR (insert id v s).2)
        else .done (1, (insert id v s).2)) = .done r) : TypedTable r.2.global_list := by
  by_cases h1 : v.lt ≠ expected
  · rw [if_pos h1] at h
    simp only [Outcome.done.injEq] at h; subst h
    exact hg
  · rw [if_neg h1] at h
    have hv2 := hv (not_not.1 h1)
    by_cases h2 : (insert id v s).1 = 0
    · rw [if_pos h2] at h
      simp only [Outcome.done.injEq] at h; subst h
      exact insert_typed _ _ _ hv2 hg
    · rw [if_neg h2] at h
      simp only [Outcome.done.injEq] at h; subst h
      exact insert_typed _ _ _ hv2 hg

theorem declaration_typed (n : declaration_node) (st : Env) (r : Int × Env)
    (hk : declarationTypeKnown n = true)
    (h : declaration n st = .done r) (hg : TypedTable st.global_list) :
    TypedTable r.2.global_list := by
  cases n with
  | NULL => simp only [declaration, Outcome.done.injEq] at h; subst h; exact hg
  | error => simp [declaration] at h
  | node varKey id col typeKey asn =>
    cases id with
    | none => simp [declaration] at h
    | some id =>
      cases typeKey with
      | none => simp [declaration] at h
      | some typeKey =>
        have hne : expectedType typeKey ≠ .UNDEF := by
          simpa [declarationTypeKnown] using hk
        rw [declaration] at h
        obtain ⟨r1, h1, h2⟩ := Outcome.bind_eq_done _ _ _ h
        have f1 : Frame st r1.2 ∧ TypedResult r1.1 := by
          cases asn with
          | NULL =>
            simp only [declarationSuffix, Outcome.done.injEq] at h1; subst h1
            exact ⟨Frame.refl _, typedResult_empty⟩
          | error => simp [declarationSuffix] at h1
          | node ass expn =>
            rw [declarationSuffix] at h1
            exact ⟨expression_frame _ _ _ h1, expression_typed _ _ _ h1 hg⟩
        have hv : (if r1.1.empty ≠ 0 then
            ({ default_value with
                lt := expectedType typeKey,
                s := if expectedType typeKey = .STRING then some [] else none } : value)
            else r1.1).lt = expectedType typeKey →
            Stored (if r1.1.empty ≠ 0 then
            ({ default_value with
                lt := expectedType typeKey,
                s := if expectedType typeKey = .STRING then some [] else none } : value)
            else r1.1) := by
          by_cases he : r1.1.empty ≠ 0
          · rw [if_pos he]
            intro _
            exact stored_default _ _ 0 0 hne (fun hs => by rw [if_pos hs]; simp)
          · rw [if_neg he]
            intro hl
            exact stored_of_typedResult _ f1.2 (by rw [hl]; exact hne)
        exact declaration_typed_tail _ _ _ _ _ hv (by rw [f1.1.1]; exact hg) h2

theorem assignment_typed (n : assignment_node) (st : Env) (r : Int × Env)
    (h : assignment n st = .done r) (hg : TypedTable st.global_list) :
    TypedTable r.2.global_list := by
  cases n with
  | NULL => simp only [assignment, Outcome.done.injEq] at h; subst h; exact hg
  | error => simp [assignment] at h
  | node id assOp expn =>
    cases id with
    | none => simp [assignment] at h
    | some id =>
      rw [assignment] at h
      have f0 := frame_findLabelType id st
      have hg0 : TypedTable (findLabelType id st).2.global_list := by rw [f0.1]; exact hg
      by_cases hu : (findLabelType id st).1 = UNDEF
      · rw [if_pos hu] at h
        simp only [Outcome.done.injEq] at h; subst h
        exact hg0
      · rw [if_neg hu] at h
        obtain ⟨r1, h1, h2⟩ := Outcome.bind_eq_done _ _ _ h
        have f1 := expression_frame _ _ _ h1
        have g1 := expression_typed _ _ _ h1 hg0
        have hg1 : TypedTable r1.2.global_list := by rw [f1.1]; exact hg0
        by_cases ht : (findLabelType id st).1 ≠ r1.1.lt
        · rw [if_pos ht] at h2
          simp only [Outcome.done.injEq] at h2; subst h2
          exact hg1
        · rw [if_neg ht] at h2
          have hl : r1.1.lt ≠ UNDEF := by rw [← not_not.1 ht]; exact hu
          by_cases he : r1.1.error ≠ 1 ∧ r1.1.empty ≠ 1
          · rw [if_pos he] at h2
            simp only [Outcome.done.injEq] at h2; subst h2
            exact update_typed _ _ _ (stored_of_typedResult _ g1 hl) hg1
          · rw [if_neg he] at h2
            simp only [Outcome.done.injEq] at h2; subst h2
            exact hg1

theorem read_typed (n : read_node) (st : Env) (r : Int × Env)
    (h : read n st = .done r) (hg : TypedTable st.global_list) :
    TypedTable r.2.global_list := by
  cases n with
  | NULL => simp only [read, Outcome.done.injEq] at h; subst h; exact hg
  | error => simp [read] at h
  | node readKey id =>
    cases id with
    | none => simp [read] at h
    | some id =>
      rw [read] at h
      have f0 := frame_findLabelType id st
      have hg0 : TypedTable (findLabelType id st).2.global_list := by rw [f0.1]; exact hg
      simp only at h
      split at h
      · simp only [Outcome.done.injEq] at h; subst h
        exact hg0
      · split at h
        · simp only [Outcome.done.injEq] at h; subst h
          exact hg0
        · simp only [Outcome.done.injEq] at h; subst h
          exact update_typed _ _ _ (stored_default _ _ _ 0 (by decide) (by simp)) hg0
      · split at h
        · simp only [Outcome.done.injEq] at h; subst h
          exact hg0
        · simp only [Outcome.done.injEq] at h; subst h
          exact update_typed _ _ _ (stored_default _ _ 0 0 (by decide) (by simp)) hg0
      · simp only [Outcome.done.injEq] at h; subst h
        exact hg0

theorem forLoop_typed (body : Env → Outcome (Int × Env)) (id : token) (b : Int)
    (hbody : ∀ s r, body s = .done r → TypedTable s.global_list → TypedTable r.2.global_list) :
    ∀ (fuel : Nat) (c : value) (st : Env) (r : Int × Env),
      forLoop body id b fuel c st = .done r → Stored c → TypedTable st.global_list →
      TypedTable r.2.global_list := by
  intro fuel
  induction fuel with
  | zero => intro c st r h; simp [forLoop] at h
  | succ f ih =>
    intro c st r h hc hg
    rw [forLoop] at h
    by_cases hle : c.i ≤ b
    · rw [if_pos hle] at h
      cases hb : body (forceUpdate id c st) with
      | fault => rw [hb] at h; simp at h
      | fuel => rw [hb] at h; simp at h
      | done r1 =>
        rw [hb] at h
        simp only at h
        have p1 : TypedTable r1.2.global_list := hbody _ _ hb (forceUpdate_typed _ _ _ hc hg)
        by_cases h0 : r1.1 = 0
        · rw [if_pos h0] at h
          simp only [Outcome.done.injEq] at h
          subst h
          exact p1
        · rw [if_neg h0] at h
          exact ih _ _ _ h hc p1
    · rw [if_neg hle] at h
      simp only [Outcome.done.injEq] at h
      subst h
      exact forceUpdate_typed _ _ _ hc hg

mutual
theorem stmts_typed (fuel : Nat) : ∀ (n : stmts_node) (st : Env) (r : Int × Env),
    stmtsTypesKnown n = true → stmts fuel n st = .done r → TypedTable st.global_list →
    TypedTable r.2.global_list
  | .NULL, st, r, _, h, hg => by
    simp only [stmts, Outcome.done.injEq] at h; subst h; exact hg
  | .error, st, r, _, h, _ => by simp [stmts] at h
  | .node stmtn sCol stmtsn, st, r, hk, h, hg => by
    simp only [stmtsTypesKnown, Bool.and_eq_true] at hk
    rw [stmts] at h
    obtain ⟨r1, h1, h2⟩ := Outcome.bind_eq_done _ _ _ h
    have p1 := statement_typed fuel stmtn st r1 hk.1 h1 hg
    by_cases h0 : r1.1 = 0
    · rw [if_pos h0] at h2
      simp only [Outcome.done.injEq] at h2; subst h2
      exact p1
    · rw [if_neg h0] at h2
      exact stmts_typed fuel stmtsn r1.2 r hk.2 h2 p1
theorem statement_typed (fuel : Nat) : ∀ (n : statement_node) (st : Env)
    (r : Int × Env), statementTypesKnown n = true → statement fuel n st = .done r →
    TypedTable st.global_list → TypedTable r.2.global_list
  | .NULL, st, r, _, h, _ => by simp [statement] at h
  | .error, st, r, _, h, _ => by simp [statement] at h
  | .node decn assn forn readn printn assertn, st, r, hk, h, hg => by
    simp only [statementTypesKnown, Bool.and_eq_true] at hk
    rw [statement] at h
    obtain ⟨r1, h1, h⟩ := Outcome.bind_eq_done _ _ _ h
    have p1 := declaration_typed decn st r1 hk.1 h1 hg
    by_cases c1 : r1.1 = 0
    · rw [if_pos c1] at h
      simp only [Outcome.done.injEq] at h; subst h; exact p1
    rw [if_neg c1] at h
    obtain ⟨r2, h2, h⟩ := Outcome.bind_eq_done _ _ _ h
    have p2 := assignment_typed assn r1.2 r2 h2 p1
    by_cases c2 : r2.1 = 0
    · rw [if_pos c2] at h
      simp only [Outcome.done.injEq] at h; subst h; exact p2
    rw [if_neg c2] at h
    obtain ⟨r3, h3, h⟩ := Outcome.bind_eq_done _ _ _ h
    have p3 := for_typed fuel forn r2.2 r3 hk.2 h3 p2
    by_cases c3 : r3.1 = 0
    · rw [if_pos c3] at h
      simp only [Outcome.done.injEq] at h; subst h; exact p3
    rw [if_neg c3] at h
    obtain ⟨r4, h4, h⟩ := Outcome.bind_eq_done _ _ _ h
    have p4 := read_typed readn r3.2 r4 h4 p3
    by_cases c4 : r4.1 = 0
    · rw [if_pos c4] at h
      simp only [Outcome.done.injEq] at h; subst h; exact p4
    rw [if_neg c4] at h
    obtain ⟨r5, h5, h⟩ := Outcome.bind_eq_done _ _ _ h
    have p5 : TypedTable r5.2.global_list := by rw [print_table printn r4.2 r5 h5]; exact p4
    by_cases c5 : r5.1 = 0
    · rw [if_pos c5] at h
      simp only [Outcome.done.injEq] at h; subst h; exact p5
    rw [if_neg c5] at h
    obtain ⟨r6, h6, h⟩ := Outcome.bind_eq_done _ _ _ h
    have p6 : TypedTable r6.2.global_list := by rw [assert_table assertn r5.2 r6 h6]; exact p5
    by_cases c6 : r6.1 = 0
    · rw [if_pos c6] at h
      simp only [Outcome.done.injEq] at h; subst h; exact p6
    · rw [if_neg c6] at h
      simp only [Outcome.done.injEq] at h; subst h; exact p6
theorem for_typed (fuel : Nat) : ∀ (n : for_node) (st : Env) (r : Int × Env),
    forTypesKnown n = true → for_ fuel n st = .done r → TypedTable st.global_list →
    TypedTable r.2.global_list
  | .NULL, st, r, _, h, hg => by
    simp only [for_, Outcome.done.injEq] at h; subst h; exact hg
  | .error, st, r, _, h, _ => by simp [for_] at h
  | .node _ none _ _ _ _ _ _ _ _, st, r, _, h, _ => by simp [for_] at h
  | .node _ (some id) _ expn1 _ expn2 _ stmtsn _ _, st, r, hk, h, hg => by
    simp only [forTypesKnown] at hk
    rw [for_] at h
    have f0 := frame_findLabelType id st
    have hg0 : TypedTable (findLabelType id st).2.global_list := by rw [f0.1]; exact hg
    by_cases c0 : (findLabelType id st).1 ≠ .INT
    · rw [if_pos c0] at h
      simp only [Outcome.done.injEq] at h; subst h
      exact hg0
    rw [if_neg c0] at h
    obtain ⟨r1, h1, h⟩ := Outcome.bind_eq_done _ _ _ h
    obtain ⟨r2, h2, h⟩ := Outcome.bind_eq_done _ _ _ h
    have f1 := expression_frame _ _ _ h1
    have f2 := expression_frame _ _ _ h2
    have hg2 : TypedTable r2.2.global_list := by rw [f2.1, f1.1]; exact hg0
    by_cases c1 : r1.1.lt ≠ .INT ∨ r2.1.lt ≠ .INT
    · rw [if_pos c1] at h
      simp only [Outcome.done.injEq] at h; subst h
      exact hg2
    · rw [if_neg c1] at h
      exact forLoop_typed _ id _ (fun s r hh hs => stmts_typed fuel stmtsn s r hk hh hs)
        _ _ _ _ h (stored_default _ _ _ 1 (by decide) (by simp)) hg2
end

theorem reachableKnown_typed (st : Env) (h : ReachableKnown st) :
    TypedTable st.global_list := by
  induction h with
  | start inp => intro e he; simp [initialEnv] at he
  | statement fuel n st r _ hk hs ih => exact statement_typed fuel n st r hk hs ih
  | expression n st r _ he ih =>
    rw [(expression_frame n st r he).1]; exact ih
  | lookup id st _ ih =>
    rw [(frame_findLabelType id st).1]; exact ih
  | round id k st _ ih =>
    exact forceUpdate_typed _ _ _
      (stored_default _ _ _ 1 (by decide) (by simp)) ih

theorem isTypeKey_expectedType (t : token) (h : isTypeKey t.value = true) :
    expectedType t ≠ .UNDEF := by
  unfold isTypeKey at h
  unfold expectedType
  simp only [Bool.or_eq_true] at h
  split_ifs with h1 h2 h3
  · decide
  · decide
  · decide
  · rcases h with (h | h) | h
    · exact absurd h h1
    · exact absurd h h2
    · exact absurd h h3

namespace Parser
open consumption_type discard_option

/-! ## The parser: the tokens of the list and the leaves of the tree -/

theorem behind_self (l : token_list) : Behind l l := ⟨[], rfl⟩

theorem behind_cons {l l1 : token_list} {t : token} (h : l = t :: l1) : Behind l l1 :=
  ⟨[t], h⟩

theorem behind_chain {a b c : token_list} (h1 : Behind a b) (h2 : Behind b c) : Behind a c := by
  obtain ⟨p1, rfl⟩ := h1
  obtain ⟨p2, rfl⟩ := h2
  exact ⟨p1 ++ p2, by rw [List.append_assoc]⟩

theorem expression_family_keeps : ∀ fuel : Nat,
    (∀ st r st1, expression fuel st = .done (r, st1) →
      Keeps expressionLeaves (fun x => x = .error) st r st1) ∧
    (∀ st r st1, unaryExpression fuel st = .done (r, st1) →
      Keeps unaryExpressionLeaves (fun x => x = .error) st r st1) ∧
    (∀ st r st1, binaryExpression fuel st = .done (r, st1) →
      Keeps binaryExpressionLeaves (fun x => x = .error) st r st1) ∧
    (∀ st r st1, operand fuel st = .done (r, st1) →
      Keeps operandLeaves (fun x => x = .error) st r st1) ∧
    (∀ st r st1, operandSuffix fuel st = .done (r, st1) →
      Keeps operandSuffixLeaves (fun x => x = .error) st r st1) ∧
    (∀ st r st1, enclosedExpression fuel st = .done (r, st1) →
      Keeps enclosedExpressionLeaves (fun x => x = .error) st r st1) := by
  intro fuel
  induction fuel with
  | zero =>
    refine ⟨?_, ?_, ?_, ?_, ?_, ?_⟩ <;> intro st r st1 h
    · simp [expression] at h
    · simp [unaryExpression] at h
    · simp [binaryExpression] at h
    · simp [operand] at h
    · simp [operandSuffix] at h
    · simp [enclosedExpression] at h
  | succ f ih =>
    obtain ⟨ihE, ihU, ihB, ihO, ihS, ihP⟩ := ih
    refine ⟨?_, ?_, ?_, ?_, ?_, ?_⟩ <;> intro st r st1 h
    · -- expression
      rw [expression] at h
      split_ifs at h
      · obtain ⟨⟨u, st2⟩, h1, h2⟩ := Outcome.bind_eq_done _ _ _ h
        obtain ⟨e1, e3⟩ := ihU st u st2 h1
        simp only at h2
        split at h2
        · simp only [Outcome.done.injEq, Prod.mk.injEq] at h2
          obtain ⟨rfl, rfl⟩ := h2
          exact ⟨e1, fun hh => absurd rfl hh⟩
        · rename_i hne
          simp only [Outcome.done.injEq, Prod.mk.injEq] at h2
          obtain ⟨rfl, rfl⟩ := h2
          refine ⟨e1, fun _ => ?_⟩
          have h3 := e3 (fun hh => hne hh)
          simp only [expressionLeaves, binaryExpressionLeaves, List.append_nil]
          exact h3
      · obtain ⟨⟨u, st2⟩, h1, h2⟩ := Outcome.bind_eq_done _ _ _ h
        obtain ⟨e1, e3⟩ := ihB st u st2 h1
        simp only at h2
        split at h2
        · simp only [Outcome.done.injEq, Prod.mk.injEq] at h2
          obtain ⟨rfl, rfl⟩ := h2
          exact ⟨e1, fun hh => absurd rfl hh⟩
        · rename_i hne
          simp only [Outcome.done.injEq, Prod.mk.injEq] at h2
          obtain ⟨rfl, rfl⟩ := h2
          refine ⟨e1, fun _ => ?_⟩
          have h3 := e3 (fun hh => hne hh)
          simp only [expressionLeaves, unaryExpressionLeaves, List.nil_append]
          exact h3
    · -- unaryExpression
      rw [unaryExpression] at h
      split at h
      · rename_i st2 hm
        simp only [Outcome.done.injEq, Prod.mk.injEq] at h
        obtain ⟨rfl, rfl⟩ := h
        obtain ⟨rfl, _⟩ := match_none _ _ _ _ hm
        exact ⟨behind_self _, fun hh => absurd rfl hh⟩
      · rename_i unop st2 hm
        obtain ⟨m1, m2, m3, m4⟩ := match_consume_some _ _ _ _ hm
        obtain ⟨⟨u, st3⟩, h1, h2⟩ := Outcome.bind_eq_done _ _ _ h
        obtain ⟨e1, e3⟩ := ihO st2 u st3 h1
        have s1 := behind_chain (behind_cons m1) e1
        simp only at h2
        split at h2
        · simp only [Outcome.done.injEq, Prod.mk.injEq] at h2
          obtain ⟨rfl, rfl⟩ := h2
          exact ⟨s1, fun hh => absurd rfl hh⟩
        · rename_i hne
          simp only [Outcome.done.injEq, Prod.mk.injEq] at h2
          obtain ⟨rfl, rfl⟩ := h2
          refine ⟨s1, fun _ => ?_⟩
          have h3 := e3 (fun hh => hne hh)
          rw [m1, h3]
          simp [unaryExpressionLeaves]
    · -- binaryExpression
      rw [binaryExpression] at h
      obtain ⟨⟨o, st2⟩, h1, h2⟩ := Outcome.bind_eq_done _ _ _ h
      obtain ⟨e1, e3⟩ := ihO st o st2 h1
      simp only at h2
      split at h2
      · simp only [Outcome.done.injEq, Prod.mk.injEq] at h2
        obtain ⟨rfl, rfl⟩ := h2
        exact ⟨e1, fun hh => absurd rfl hh⟩
      · rename_i hne
        obtain ⟨⟨s, st3⟩, h3, h4⟩ := Outcome.bind_eq_done _ _ _ h2
        obtain ⟨f1, f3⟩ := ihS st2 s st3 h3
        have s1 := behind_chain e1 f1
        simp only at h4
        split at h4
        · simp only [Outcome.done.injEq, Prod.mk.injEq] at h4
          obtain ⟨rfl, rfl⟩ := h4
          exact ⟨s1, fun hh => absurd rfl hh⟩
        · rename_i hne2
          simp only [Outcome.done.injEq, Prod.mk.injEq] at h4
          obtain ⟨rfl, rfl⟩ := h4
          refine ⟨s1, fun _ => ?_⟩
          have h5 := e3 (fun hh => hne hh)
          have h7 := f3 (fun hh => hne2 hh)
          rw [h5, h7]
          simp [binaryExpressionLeaves]
    · -- operand
      rw [operand] at h
      split at h
      · rename_i intLit st2 hm
        obtain ⟨m1, m2, m3, m4⟩ := match_consume_some _ _ _ _ hm
        simp only [Outcome.done.injEq, Prod.mk.injEq] at h
        obtain ⟨rfl, rfl⟩ := h
        refine ⟨behind_cons m1, fun _ => ?_⟩
        rw [m1]
        simp [operandLeaves, enclosedExpressionLeaves]
      · rename_i st2 hm
        obtain ⟨rfl, _⟩ := match_none _ _ _ _ hm
        split at h
        · rename_i strLit st3 hm2
          obtain ⟨m1, m2, m3, m4⟩ := match_consume_some _ _ _ _ hm2
          simp only [Outcome.done.injEq, Prod.mk.injEq] at h
          obtain ⟨rfl, rfl⟩ := h
          refine ⟨behind_cons m1, fun _ => ?_⟩
          rw [m1]
          simp [operandLeaves, enclosedExpressionLeaves]
        · rename_i st3 hm2
          obtain ⟨rfl, _⟩ := match_none _ _ _ _ hm2
          split at h
          · rename_i id st4 hm3
            obtain ⟨m1, m2, m3, m4⟩ := match_consume_some _ _ _ _ hm3
            simp only [Outcome.done.injEq, Prod.mk.injEq] at h
            obtain ⟨rfl, rfl⟩ := h
            refine ⟨behind_cons m1, fun _ => ?_⟩
            rw [m1]
            simp [operandLeaves, enclosedExpressionLeaves]
          · rename_i st4 hm3
            obtain ⟨rfl, _⟩ := match_none _ _ _ _ hm3
            obtain ⟨⟨p, st5⟩, h1, h2⟩ := Outcome.bind_eq_done _ _ _ h
            obtain ⟨e1, e3⟩ := ihP _ p st5 h1
            simp only at h2
            split at h2
            · simp only [Outcome.done.injEq, Prod.mk.injEq] at h2
              obtain ⟨rfl, rfl⟩ := h2
              exact ⟨e1, fun hh => absurd rfl hh⟩
            · rename_i hne
              simp only [Outcome.done.injEq, Prod.mk.injEq] at h2
              obtain ⟨rfl, rfl⟩ := h2
              refine ⟨e1, fun _ => ?_⟩
              have h3 := e3 (fun hh => hne hh)
              simp only [operandLeaves, Option.toList, List.nil_append]
              exact h3
    · -- operandSuffix
      rw [operandSuffix] at h
      split at h
      · rename_i op st2 hm
        obtain ⟨m1, m2, m3, m4⟩ := match_consume_some _ _ _ _ hm
        obtain ⟨⟨o, st3⟩, h1, h2⟩ := Outcome.bind_eq_done _ _ _ h
        obtain ⟨e1, e3⟩ := ihO st2 o st3 h1
        have s1 := behind_chain (behind_cons m1) e1
        simp only at h2
        split at h2
        · simp only [Outcome.done.injEq, Prod.mk.injEq] at h2
          obtain ⟨rfl, rfl⟩ := h2
          exact ⟨s1, fun hh => absurd rfl hh⟩
        · rename_i hne
          simp only [Outcome.done.injEq, Prod.mk.injEq] at h2
          obtain ⟨rfl, rfl⟩ := h2
          refine ⟨s1, fun _ => ?_⟩
          have h3 := e3 (fun hh => hne hh)
          rw [m1, h3]
          simp [operandSuffixLeaves]
      · rename_i st2 hm
        obtain ⟨rfl, _⟩ := match_none _ _ _ _ hm
        simp only [Outcome.done.injEq, Prod.mk.injEq] at h
        obtain ⟨rfl, rfl⟩ := h
        exact ⟨behind_self _, fun _ => by simp [operandSuffixLeaves]⟩
    · -- enclosedExpression
      rw [enclosedExpression] at h
      split at h
      · rename_i st2 hm
        obtain ⟨rfl, _⟩ := match_none _ _ _ _ hm
        simp only [Outcome.done.injEq, Prod.mk.injEq] at h
        obtain ⟨rfl, rfl⟩ := h
        exact ⟨behind_self _, fun hh => absurd rfl hh⟩
      · rename_i lPar st2 hm
        obtain ⟨m1, m2, m3, m4⟩ := match_consume_some _ _ _ _ hm
        obtain ⟨⟨e, st3⟩, h1, h2⟩ := Outcome.bind_eq_done _ _ _ h
        obtain ⟨e1, e3⟩ := ihE st2 e st3 h1
        have s1 := behind_chain (behind_cons m1) e1
        simp only at h2
        split at h2
        · simp only [Outcome.done.injEq, Prod.mk.injEq] at h2
          obtain ⟨rfl, rfl⟩ := h2
          exact ⟨s1, fun hh => absurd rfl hh⟩
        · rename_i hne
          split at h2
          · rename_i st4 hm2
            obtain ⟨rfl, _⟩ := match_none _ _ _ _ hm2
            simp only [Outcome.done.injEq, Prod.mk.injEq] at h2
            obtain ⟨rfl, rfl⟩ := h2
            exact ⟨s1, fun hh => absurd rfl hh⟩
          · rename_i rPar st4 hm2
            obtain ⟨n1, n2, n3, n4⟩ := match_consume_some _ _ _ _ hm2
            simp only [Outcome.done.injEq, Prod.mk.injEq] at h2
            obtain ⟨rfl, rfl⟩ := h2
            refine ⟨behind_chain s1 (behind_cons n1), fun _ => ?_⟩
            have h3 := e3 (fun hh => hne hh)
            rw [m1, h3, n1]
            simp [enclosedExpressionLeaves]

end Parser

namespace Parser
open consumption_type discard_option

theorem typeKeysOk_behind {l l1 : token_list} (h : Behind l l1) (hk : TypeKeysOk l) :
    TypeKeysOk l1 := by
  obtain ⟨pre, rfl⟩ := h
  exact fun t ht => hk t (List.mem_append_right _ ht)

theorem declarationSuffix_keeps (fuel : Nat) (st : ParseState) (r : declaration_suffix_node)
    (st1 : ParseState) (h : declarationSuffix fuel st = .done (r, st1)) :
    Keeps declarationSuffixLeaves (fun x => x = .error) st r st1 := by
  rw [declarationSuffix] at h
  split at h
  · rename_i ass st2 hm
    obtain ⟨m1, m2, m3, m4⟩ := match_consume_some _ _ _ _ hm
    obtain ⟨⟨e, st3⟩, h1, h2⟩ := Outcome.bind_eq_done _ _ _ h
    obtain ⟨e1, e3⟩ := (expression_family_keeps fuel).1 st2 e st3 h1
    have s1 := behind_chain (behind_cons m1) e1
    simp only at h2
    split at h2
    · simp only [Outcome.done.injEq, Prod.mk.injEq] at h2
      obtain ⟨rfl, rfl⟩ := h2
      exact ⟨s1, fun hh => absurd rfl hh⟩
    · rename_i hne
      simp only [Outcome.done.injEq, Prod.mk.injEq] at h2
      obtain ⟨rfl, rfl⟩ := h2
      refine ⟨s1, fun _ => ?_⟩
      have h3 := e3 (fun hh => hne hh)
      rw [m1, h3]
      simp [declarationSuffixLeaves]
  · rename_i st2 hm
    obtain ⟨rfl, _⟩ := match_none _ _ _ _ hm
    simp only [Outcome.done.injEq, Prod.mk.injEq] at h
    obtain ⟨rfl, rfl⟩ := h
    exact ⟨behind_self _, fun _ => by simp [declarationSuffixLeaves]⟩

theorem declaration_keeps (fuel : Nat) (st : ParseState) (r : declaration_node)
    (st1 : ParseState) (h : declaration fuel st = .done (r, st1)) :
    Keeps declarationLeaves (fun x => x = .error) st r st1 ∧
    (TypeKeysOk st.global_tlist → declarationTypeKnown r = true) := by
  rw [declaration] at h
  split at h
  · rename_i st2 hm
    obtain ⟨rfl, _⟩ := match_none _ _ _ _ hm
    simp only [Outcome.done.injEq, Prod.mk.injEq] at h
    obtain ⟨rfl, rfl⟩ := h
    exact ⟨⟨behind_self _, fun hh => absurd rfl hh⟩, fun _ => rfl⟩
  rename_i varKey sa ha
  obtain ⟨a1, a2, a3, a4⟩ := match_consume_some _ _ _ _ ha
  have sa1 : Behind st.global_tlist sa.global_tlist := behind_cons a1
  split at h
  · rename_i st2 hm
    obtain ⟨rfl, _⟩ := match_none _ _ _ _ hm
    simp only [Outcome.done.injEq, Prod.mk.injEq] at h
    obtain ⟨rfl, rfl⟩ := h
    exact ⟨⟨sa1, fun hh => absurd rfl hh⟩, fun _ => rfl⟩
  rename_i id sb hb
  obtain ⟨b1, b2, b3, b4⟩ := match_consume_some _ _ _ _ hb
  have sb1 : Behind st.global_tlist sb.global_tlist := behind_chain sa1 (behind_cons b1)
  split at h
  · rename_i st2 hm
    obtain ⟨rfl, _⟩ := match_none _ _ _ _ hm
    simp only [Outcome.done.injEq, Prod.mk.injEq] at h
    obtain ⟨rfl, rfl⟩ := h
    exact ⟨⟨sb1, fun hh => absurd rfl hh⟩, fun _ => rfl⟩
  rename_i col sc hc
  obtain ⟨c1, c2, c3, c4⟩ := match_consume_some _ _ _ _ hc
  have sc1 : Behind st.global_tlist sc.global_tlist := behind_chain sb1 (behind_cons c1)
  split at h
  · rename_i st2 hm
    obtain ⟨rfl, _⟩ := match_none _ _ _ _ hm
    simp only [Outcome.done.injEq, Prod.mk.injEq] at h
    obtain ⟨rfl, rfl⟩ := h
    exact ⟨⟨sc1, fun hh => absurd rfl hh⟩, fun _ => rfl⟩
  rename_i typeKey sd hd
  obtain ⟨d1, d2, d3, d4⟩ := match_consume_some _ _ _ _ hd
  have sd1 : Behind st.global_tlist sd.global_tlist := behind_chain sc1 (behind_cons d1)
  obtain ⟨⟨e, st3⟩, h1, h2⟩ := Outcome.bind_eq_done _ _ _ h
  obtain ⟨e1, e3⟩ := declarationSuffix_keeps fuel sd e st3 h1
  have s1 := behind_chain sd1 e1
  simp only at h2
  split at h2
  · simp only [Outcome.done.injEq, Prod.mk.injEq] at h2
    obtain ⟨rfl, rfl⟩ := h2
    exact ⟨⟨s1, fun hh => absurd rfl hh⟩, fun _ => rfl⟩
  · rename_i hne
    simp only [Outcome.done.injEq, Prod.mk.injEq] at h2
    obtain ⟨rfl, rfl⟩ := h2
    refine ⟨⟨s1, fun _ => ?_⟩, fun hk => ?_⟩
    · have h3 := e3 (fun hh => hne hh)
      rw [a1, b1, c1, d1, h3]
      simp [declarationLeaves]
    · have hmem : typeKey ∈ sc.global_tlist := by rw [d1]; exact List.mem_cons_self _ _
      have hk2 := typeKeysOk_behind sc1 hk typeKey hmem d2
      simp only [declarationTypeKnown, decide_eq_true_eq]
      exact hk2

theorem assignment_keeps (fuel : Nat) (st : ParseState) (r : assignment_node)
    (st1 : ParseState) (h : assignment fuel st = .done (r, st1)) :
    Keeps assignmentLeaves (fun x => x = .error) st r st1 := by
  rw [assignment] at h
  split at h
  · rename_i st2 hm
    obtain ⟨rfl, _⟩ := match_none _ _ _ _ hm
    simp only [Outcome.done.injEq, Prod.mk.injEq] at h
    obtain ⟨rfl, rfl⟩ := h
    exact ⟨behind_self _, fun hh => absurd rfl hh⟩
  rename_i id sa ha
  obtain ⟨a1, a2, a3, a4⟩ := match_consume_some _ _ _ _ ha
  have sa1 : Behind st.global_tlist sa.global_tlist := behind_cons a1
  split at h
  · rename_i st2 hm
    obtain ⟨rfl, _⟩ := match_none _ _ _ _ hm
    simp only [Outcome.done.injEq, Prod.mk.injEq] at h
    obtain ⟨rfl, rfl⟩ := h
    exact ⟨sa1, fun hh => absurd rfl hh⟩
  rename_i assOp sb hb
  obtain ⟨b1, b2, b3, b4⟩ := match_consume_some _ _ _ _ hb
  have sb1 : Behind st.global_tlist sb.global_tlist := behind_chain sa1 (behind_cons b1)
  obtain ⟨⟨e, st3⟩, h1, h2⟩ := Outcome.bind_eq_done _ _ _ h
  obtain ⟨e1, e3⟩ := (expression_family_keeps fuel).1 sb e st3 h1
  have s1 := behind_chain sb1 e1
  simp only at h2
  split at h2
  · simp only [Outcome.done.injEq, Prod.mk.injEq] at h2
    obtain ⟨rfl, rfl⟩ := h2
    exact ⟨s1, fun hh => absurd rfl hh⟩
  · rename_i hne
    simp only [Outcome.done.injEq, Prod.mk.injEq] at h2
    obtain ⟨rfl, rfl⟩ := h2
    refine ⟨s1, fun _ => ?_⟩
    have h3 := e3 (fun hh => hne hh)
    rw [a1, b1, h3]
    simp [assignmentLeaves]

theorem assert_keeps (fuel : Nat) (st : ParseState) (r : assert_node)
    (st1 : ParseState) (h : assert fuel st = .done (r, st1)) :
    Keeps assertLeaves (fun x => x = .error) st r st1 := by
  rw [assert] at h
  split at h
  · rename_i st2 hm
    obtain ⟨rfl, _⟩ := match_none _ _ _ _ hm
    simp only [Outcome.done.injEq, Prod.mk.injEq] at h
    obtain ⟨rfl, rfl⟩ := h
    exact ⟨behind_self _, fun hh => absurd rfl hh⟩
  rename_i assertKey sa ha
  obtain ⟨a1, a2, a3, a4⟩ := match_consume_some _ _ _ _ ha
  have sa1 : Behind st.global_tlist sa.global_tlist := behind_cons a1
  split at h
  · rename_i st2 hm
    obtain ⟨rfl, _⟩ := match_none _ _ _ _ hm
    simp only [Outcome.done.injEq, Prod.mk.injEq] at h
    obtain ⟨rfl, rfl⟩ := h
    exact ⟨sa1, fun hh => absurd rfl hh⟩
  rename_i lPar sb hb
  obtain ⟨b1, b2, b3, b4⟩ := match_consume_some _ _ _ _ hb
  have sb1 : Behind st.global_tlist sb.global_tlist := behind_chain sa1 (behind_cons b1)
  obtain ⟨⟨e, st3⟩, h1, h2⟩ := Outcome.bind_eq_done _ _ _ h
  obtain ⟨e1, e3⟩ := (expression_family_keeps fuel).1 sb e st3 h1
  have s1 := behind_chain sb1 e1
  simp only at h2
  split at h2
  · simp only [Outcome.done.injEq, Prod.mk.injEq] at h2
    obtain ⟨rfl, rfl⟩ := h2
    exact ⟨s1, fun hh => absurd rfl hh⟩
  rename_i hne
  split at h2
  · rename_i st4 hm2
    obtain ⟨rfl, _⟩ := match_none _ _ _ _ hm2
    simp only [Outcome.done.injEq, Prod.mk.injEq] at h2
    obtain ⟨rfl, rfl⟩ := h2
    exact ⟨s1, fun hh => absurd rfl hh⟩
  · rename_i rPar st4 hm2
    obtain ⟨n1, n2, n3, n4⟩ := match_consume_some _ _ _ _ hm2
    simp only [Outcome.done.injEq, Prod.mk.injEq] at h2
    obtain ⟨rfl, rfl⟩ := h2
    refine ⟨behind_chain s1 (behind_cons n1), fun _ => ?_⟩
    have h3 := e3 (fun hh => hne hh)
    rw [a1, b1, h3, n1]
    simp [assertLeaves]

theorem read_keeps (st : ParseState) (r : read_node)
    (st1 : ParseState) (h : read st = .done (r, st1)) :
    Keeps readLeaves (fun x => x = .error) st r st1 := by
  rw [read] at h
  split at h
  · rename_i st2 hm
    obtain ⟨rfl, _⟩ := match_none _ _ _ _ hm
    simp only [Outcome.done.injEq, Prod.mk.injEq] at h
    obtain ⟨rfl, rfl⟩ := h
    exact ⟨behind_self _, fun hh => absurd rfl hh⟩
  rename_i readKey sa ha
  obtain ⟨a1, a2, a3, a4⟩ := match_consume_some _ _ _ _ ha
  have sa1 : Behind st.global_tlist sa.global_tlist := behind_cons a1
  split at h
  · rename_i st2 hm
    obtain ⟨rfl, _⟩ := match_none _ _ _ _ hm
    simp only [Outcome.done.injEq, Prod.mk.injEq] at h
    obtain ⟨rfl, rfl⟩ := h
    exact ⟨sa1, fun hh => absurd rfl hh⟩
  rename_i id sb hb
  obtain ⟨b1, b2, b3, b4⟩ := match_consume_some _ _ _ _ hb
  simp only [Outcome.done.injEq, Prod.mk.injEq] at h
  obtain ⟨rfl, rfl⟩ := h
  refine ⟨behind_chain sa1 (behind_cons b1), fun _ => ?_⟩
  rw [a1, b1]
  simp [readLeaves]

theorem print_keeps (fuel : Nat) (st : ParseState) (r : print_node)
    (st1 : ParseState) (h : print fuel st = .done (r, st1)) :
    Keeps printLeaves (fun x => x = .error) st r st1 := by
  rw [print] at h
  split at h
  · rename_i st2 hm
    obtain ⟨rfl, _⟩ := match_none _ _ _ _ hm
    simp only [Outcome.done.injEq, Prod.mk.injEq] at h
    obtain ⟨rfl, rfl⟩ := h
    exact ⟨behind_self _, fun hh => absurd rfl hh⟩
  rename_i printKey sa ha
  obtain ⟨a1, a2, a3, a4⟩ := match_consume_some _ _ _ _ ha
  obtain ⟨⟨e, st3⟩, h1, h2⟩ := Outcome.bind_eq_done _ _ _ h
  obtain ⟨e1, e3⟩ := (expression_family_keeps fuel).1 sa e st3 h1
  have s1 := behind_chain (behind_cons a1) e1
  simp only at h2
  split at h2
  · simp only [Outcome.done.injEq, Prod.mk.injEq] at h2
    obtain ⟨rfl, rfl⟩ := h2
    exact ⟨s1, fun hh => absurd rfl hh⟩
  · rename_i hne
    simp only [Outcome.done.injEq, Prod.mk.injEq] at h2
    obtain ⟨rfl, rfl⟩ := h2
    refine ⟨s1, fun _ => ?_⟩
    have h3 := e3 (fun hh => hne hh)
    rw [a1, h3]
    simp [printLeaves]

theorem discardToSemicolon_behind (l l1 : token_list) (h : discardToSemicolon l = some l1) :
    Behind l l1 := by
  induction l with
  | nil => simp [discardToSemicolon] at h
  | cons t rest ih =>
    rw [discardToSemicolon] at h
    split_ifs at h with hc
    · exact behind_chain (behind_cons rfl) (ih h)
    · simp only [Option.some.injEq] at h
      rw [← h]; exact behind_self _

theorem discardSemicolons_behind (l l1 : token_list) (h : discardSemicolons l = some l1) :
    Behind l l1 := by
  induction l with
  | nil => simp [discardSemicolons] at h
  | cons t rest ih =>
    rw [discardSemicolons] at h
    split_ifs at h with hc
    · exact behind_chain (behind_cons rfl) (ih h)
    · simp only [Option.some.injEq] at h
      rw [← h]; exact behind_self _

theorem discardTokens_behind (o : discard_option) (st st1 : ParseState)
    (h : discardTokens o st = .done st1) : Behind st.global_tlist st1.global_tlist := by
  unfold discardTokens at h
  cases h1 : discardToSemicolon st.global_tlist with
  | none => rw [h1] at h; simp at h
  | some l =>
    rw [h1] at h
    simp only at h
    have b1 := discardToSemicolon_behind _ _ h1
    split_ifs at h
    · cases h2 : discardSemicolons l with
      | none => rw [h2] at h; simp at h
      | some l2 =>
        rw [h2] at h
        simp only [Outcome.done.injEq] at h
        rw [← h]
        exact behind_chain b1 (discardSemicolons_behind _ _ h2)
    · simp only [Outcome.done.injEq] at h
      rw [← h]
      exact b1

end Parser

namespace Parser
open consumption_type discard_option

theorem statement_family_keeps : ∀ fuel : Nat,
    (∀ st r st1, stmts fuel st = .done (r, st1) →
      KeepsStmt stmtsLeaves (fun x => x = .error) stmtsTypesKnown st r st1) ∧
    (∀ st r st1, statement fuel st = .done (r, st1) →
      KeepsStmt statementLeaves (fun x => x = .error) statementTypesKnown st r st1) ∧
    (∀ st r st1, for_ fuel st = .done (r, st1) →
      KeepsStmt forLeaves (fun x => x = .error) forTypesKnown st r st1) := by
  intro fuel
  induction fuel with
  | zero =>
    refine ⟨?_, ?_, ?_⟩ <;> intro st r st1 h
    · simp [stmts] at h
    · simp [statement] at h
    · simp [for_] at h
  | succ f ih =>
    obtain ⟨ihS, ihT, ihF⟩ := ih
    refine ⟨?_, ?_, ?_⟩ <;> intro st r st1 h
    · -- stmts
      rw [stmts] at h
      split at h
      · simp only [Outcome.done.injEq, Prod.mk.injEq] at h
        obtain ⟨rfl, rfl⟩ := h
        exact ⟨behind_self _, fun _ _ => by simp [stmtsLeaves], fun _ => rfl⟩
      · rename_i t hstart
        obtain ⟨rs, h1, h⟩ := Outcome.bind_eq_done _ _ _ h
        obtain ⟨sta, h2, h⟩ := Outcome.bind_eq_done _ _ _ h
        obtain ⟨m, h3, h⟩ := Outcome.bind_eq_done _ _ _ h
        obtain ⟨rr, h4, h⟩ := Outcome.bind_eq_done _ _ _ h
        obtain ⟨t1, t2, t3⟩ := ihT st rs.1 rs.2 h1
        obtain ⟨s1, s2, s3⟩ := ihS m.2 rr.1 rr.2 h4
        have smono := ((statement_family_sound f).1 m.2 rr.1 rr.2 h4).1
        -- the state behind the statement and its recovery
        have ha : sta.errors_found = 0 → rs.1 ≠ .error ∧ sta = rs.2 := by
          intro h0
          split at h2
          · exact absurd (recoverStatement_errors_found _ _ _ h2) (by rw [h0]; decide)
          · rename_i hne
            simp only [Outcome.done.injEq] at h2
            exact ⟨fun hh => hne hh, h2.symm⟩
        have ba : Behind rs.2.global_tlist sta.global_tlist := by
          split at h2
          · unfold recoverStatement at h2
            exact discardTokens_behind _ (printError t { rs.2 with errors_found := 1 }) _ h2
          · simp only [Outcome.done.injEq] at h2
            rw [← h2]; exact behind_self _
        -- the semicolon
        have hb : m.2.errors_found = 0 →
            sta.errors_found = 0 ∧ ∃ sCol, m.1 = some sCol ∧ sCol.type = TOKEN_SCOL ∧
              sta.global_tlist = sCol :: m.2.global_tlist := by
          intro h0
          split at h3
          · rename_i st2 hm
            obtain ⟨st3, h5, h6⟩ := Outcome.bind_eq_done _ _ _ h3
            simp only [Outcome.done.injEq] at h6
            rw [← h6] at h0
            exact absurd (recoverSemicolon_errors_found _ _ _ h5) (by rw [h0]; decide)
          · rename_i sCol st2 hm
            obtain ⟨m1, m2, m3, _⟩ := match_consume_some _ _ _ _ hm
            simp only [Outcome.done.injEq] at h3
            rw [← h3] at h0 ⊢
            exact ⟨m3 ▸ h0, sCol, rfl, m2, m1⟩
        have bb : Behind sta.global_tlist m.2.global_tlist := by
          split at h3
          · rename_i st2 hm
            obtain ⟨st3, h5, h6⟩ := Outcome.bind_eq_done _ _ _ h3
            simp only [Outcome.done.injEq] at h6
            rw [← h6]
            obtain ⟨rfl, _⟩ := match_none _ _ _ _ hm
            unfold recoverSemicolon at h5
            have hd := discardTokens_behind _ _ _ h5
            exact hd
          · rename_i sCol st2 hm
            obtain ⟨m1, _, _, _⟩ := match_consume_some _ _ _ _ hm
            simp only [Outcome.done.injEq] at h3
            rw [← h3]
            exact behind_cons m1
        have bm : Behind st.global_tlist m.2.global_tlist :=
          behind_chain t1 (behind_chain ba bb)
        have bt : Behind st.global_tlist rr.2.global_tlist := behind_chain bm s1
        have hleaves : rr.1 ≠ .error → rr.2.errors_found = 0 →
            st.global_tlist =
              stmtsLeaves (.node rs.1 m.1 rr.1) ++ rr.2.global_tlist := by
          intro hne h0
          obtain ⟨h5, sCol, h6, _, h8⟩ := hb (smono h0)
          obtain ⟨h9, h10⟩ := ha h5
          have h11 := t2 h9 (h10 ▸ h5)
          have h13 := s2 hne h0
          rw [h11, ← h10, h8, h13, h6]
          simp [stmtsLeaves]
        have hknown : TypeKeysOk st.global_tlist →
            stmtsTypesKnown (.node rs.1 m.1 rr.1) = true := by
          intro hk
          simp only [stmtsTypesKnown, Bool.and_eq_true]
          exact ⟨t3 hk, s3 (typeKeysOk_behind bm hk)⟩
        split at h
        · simp only [Outcome.done.injEq, Prod.mk.injEq] at h
          obtain ⟨rfl, rfl⟩ := h
          exact ⟨bt, fun hh => absurd rfl hh, fun _ => rfl⟩
        · rename_i hne
          simp only [Outcome.done.injEq, Prod.mk.injEq] at h
          obtain ⟨rfl, rfl⟩ := h
          exact ⟨bt, fun _ h0 => hleaves (fun hh => hne hh) h0, hknown⟩
    · -- statement
      rw [statement] at h
      split_ifs at h
      · obtain ⟨⟨u, st2⟩, h1, h2⟩ := Outcome.bind_eq_done _ _ _ h
        obtain ⟨⟨e1, e3⟩, ek⟩ := declaration_keeps f st u st2 h1
        simp only at h2
        split at h2
        · simp only [Outcome.done.injEq, Prod.mk.injEq] at h2
          obtain ⟨rfl, rfl⟩ := h2
          exact ⟨e1, fun hh => absurd rfl hh, fun _ => rfl⟩
        · rename_i hne
          simp only [Outcome.done.injEq, Prod.mk.injEq] at h2
          obtain ⟨rfl, rfl⟩ := h2
          refine ⟨e1, fun _ _ => ?_, fun hk => ?_⟩
          · rw [e3 (fun hh => hne hh)]
            simp [statementLeaves, assignmentLeaves, forLeaves, readLeaves, printLeaves,
              assertLeaves]
          · simp only [statementTypesKnown, forTypesKnown, Bool.and_true]
            exact ek hk
      · obtain ⟨⟨u, st2⟩, h1, h2⟩ := Outcome.bind_eq_done _ _ _ h
        obtain ⟨e1, e3⟩ := assignment_keeps f st u st2 h1
        simp only at h2
        split at h2
        · simp only [Outcome.done.injEq, Prod.mk.injEq] at h2
          obtain ⟨rfl, rfl⟩ := h2
          exact ⟨e1, fun hh => absurd rfl hh, fun _ => rfl⟩
        · rename_i hne
          simp only [Outcome.done.injEq, Prod.mk.injEq] at h2
          obtain ⟨rfl, rfl⟩ := h2
          refine ⟨e1, fun _ _ => ?_, fun _ => rfl⟩
          rw [e3 (fun hh => hne hh)]
          simp [statementLeaves, declarationLeaves, forLeaves, readLeaves, printLeaves,
            assertLeaves]
      · obtain ⟨⟨u, st2⟩, h1, h2⟩ := Outcome.bind_eq_done _ _ _ h
        obtain ⟨e1, e3, ek⟩ := ihF st u st2 h1
        simp only at h2
        split at h2
        · simp only [Outcome.done.injEq, Prod.mk.injEq] at h2
          obtain ⟨rfl, rfl⟩ := h2
          exact ⟨e1, fun hh => absurd rfl hh, fun _ => rfl⟩
        · rename_i hne
          simp only [Outcome.done.injEq, Prod.mk.injEq] at h2
          obtain ⟨rfl, rfl⟩ := h2
          refine ⟨e1, fun _ h0 => ?_, fun hk => ?_⟩
          · rw [e3 (fun hh => hne hh) h0]
            simp [statementLeaves, declarationLeaves, assignmentLeaves, readLeaves,
              printLeaves, assertLeaves]
          · simp only [statementTypesKnown, declarationTypeKnown, Bool.true_and]
            exact ek hk
      · obtain ⟨⟨u, st2⟩, h1, h2⟩ := Outcome.bind_eq_done _ _ _ h
        obtain ⟨e1, e3⟩ := read_keeps st u st2 h1
        simp only at h2
        split at h2
        · simp only [Outcome.done.injEq, Prod.mk.injEq] at h2
          obtain ⟨rfl, rfl⟩ := h2
          exact ⟨e1, fun hh => absurd rfl hh, fun _ => rfl⟩
        · rename_i hne
          simp only [Outcome.done.injEq, Prod.mk.injEq] at h2
          obtain ⟨rfl, rfl⟩ := h2
          refine ⟨e1, fun _ _ => ?_, fun _ => rfl⟩
          rw [e3 (fun hh => hne hh)]
          simp [statementLeaves, declarationLeaves, assignmentLeaves, forLeaves, printLeaves,
            assertLeaves]
      · obtain ⟨⟨u, st2⟩, h1, h2⟩ := Outcome.bind_eq_done _ _ _ h
        obtain ⟨e1, e3⟩ := print_keeps f st u st2 h1
        simp only at h2
        split at h2
        · simp only [Outcome.done.injEq, Prod.mk.injEq] at h2
          obtain ⟨rfl, rfl⟩ := h2
          exact ⟨e1, fun hh => absurd rfl hh, fun _ => rfl⟩
        · rename_i hne
          simp only [Outcome.done.injEq, Prod.mk.injEq] at h2
          obtain ⟨rfl, rfl⟩ := h2
          refine ⟨e1, fun _ _ => ?_, fun _ => rfl⟩
          rw [e3 (fun hh => hne hh)]
          simp [statementLeaves, declarationLeaves, assignmentLeaves, forLeaves, readLeaves,
            assertLeaves]
      · obtain ⟨⟨u, st2⟩, h1, h2⟩ := Outcome.bind_eq_done _ _ _ h
        obtain ⟨e1, e3⟩ := assert_keeps f st u st2 h1
        simp only at h2
        split at h2
        · simp only [Outcome.done.injEq, Prod.mk.injEq] at h2
          obtain ⟨rfl, rfl⟩ := h2
          exact ⟨e1, fun hh => absurd rfl hh, fun _ => rfl⟩
        · rename_i hne
          simp only [Outcome.done.injEq, Prod.mk.injEq] at h2
          obtain ⟨rfl, rfl⟩ := h2
          refine ⟨e1, fun _ _ => ?_, fun _ => rfl⟩
          rw [e3 (fun hh => hne hh)]
          simp [statementLeaves, declarationLeaves, assignmentLeaves, forLeaves, readLeaves,
            printLeaves]
      · simp only [Outcome.done.injEq, Prod.mk.injEq] at h
        obtain ⟨rfl, rfl⟩ := h
        exact ⟨behind_self _, fun hh => absurd rfl hh, fun _ => rfl⟩
    · -- for_
      rw [for_] at h
      split at h
      · rename_i st2 hm
        obtain ⟨rfl, _⟩ := match_none _ _ _ _ hm
        simp only [Outcome.done.injEq, Prod.mk.injEq] at h
        obtain ⟨rfl, rfl⟩ := h
        exact ⟨behind_self _, fun hh => absurd rfl hh, fun _ => rfl⟩
      rename_i forKeyStart sa ha
      obtain ⟨a1, a2, a3, _⟩ := match_consume_some _ _ _ _ ha
      have ba : Behind st.global_tlist sa.global_tlist := behind_cons a1
      split at h
      · rename_i st2 hm
        obtain ⟨rfl, _⟩ := match_none _ _ _ _ hm
        simp only [Outcome.done.injEq, Prod.mk.injEq] at h
        obtain ⟨rfl, rfl⟩ := h
        exact ⟨ba, fun hh => absurd rfl hh, fun _ => rfl⟩
      rename_i id sb hb
      obtain ⟨b1, b2, b3, _⟩ := match_consume_some _ _ _ _ hb
      have bb : Behind st.global_tlist sb.global_tlist := behind_chain ba (behind_cons b1)
      split at h
      · rename_i st2 hm
        obtain ⟨rfl, _⟩ := match_none _ _ _ _ hm
        simp only [Outcome.done.injEq, Prod.mk.injEq] at h
        obtain ⟨rfl, rfl⟩ := h
        exact ⟨bb, fun hh => absurd rfl hh, fun _ => rfl⟩
      rename_i inKey sc hc
      obtain ⟨c1, c2, c3, _⟩ := match_consume_some _ _ _ _ hc
      have bc : Behind st.global_tlist sc.global_tlist := behind_chain bb (behind_cons c1)
      obtain ⟨⟨x1, sd⟩, hx1, h⟩ := Outcome.bind_eq_done _ _ _ h
      obtain ⟨d3, d5⟩ := (expression_family_keeps f).1 sc x1 sd hx1
      have bd : Behind st.global_tlist sd.global_tlist := behind_chain bc d3
      simp only at h
      split at h
      · simp only [Outcome.done.injEq, Prod.mk.injEq] at h
        obtain ⟨rfl, rfl⟩ := h
        exact ⟨bd, fun hh => absurd rfl hh, fun _ => rfl⟩
      rename_i hne1
      split at h
      · rename_i st2 hm
        obtain ⟨rfl, _⟩ := match_none _ _ _ _ hm
        simp only [Outcome.done.injEq, Prod.mk.injEq] at h
        obtain ⟨rfl, rfl⟩ := h
        exact ⟨bd, fun hh => absurd rfl hh, fun _ => rfl⟩
      rename_i range se he
      obtain ⟨e1, e2, e3, _⟩ := match_consume_some _ _ _ _ he
      have be : Behind st.global_tlist se.global_tlist := behind_chain bd (behind_cons e1)
      obtain ⟨⟨x2, sg⟩, hx2, h⟩ := Outcome.bind_eq_done _ _ _ h
      obtain ⟨g3, g5⟩ := (expression_family_keeps f).1 se x2 sg hx2
      have bg : Behind st.global_tlist sg.global_tlist := behind_chain be g3
      simp only at h
      split at h
      · simp only [Outcome.done.injEq, Prod.mk.injEq] at h
        obtain ⟨rfl, rfl⟩ := h
        exact ⟨bg, fun hh => absurd rfl hh, fun _ => rfl⟩
      rename_i hne2
      split at h
      · rename_i st2 hm
        obtain ⟨rfl, _⟩ := match_none _ _ _ _ hm
        simp only [Outcome.done.injEq, Prod.mk.injEq] at h
        obtain ⟨rfl, rfl⟩ := h
        exact ⟨bg, fun hh => absurd rfl hh, fun _ => rfl⟩
      rename_i doKey sk hk
      obtain ⟨k1, k2, k3, _⟩ := match_consume_some _ _ _ _ hk
      have bk : Behind st.global_tlist sk.global_tlist := behind_chain bg (behind_cons k1)
      obtain ⟨⟨x3, sl⟩, hx3, h⟩ := Outcome.bind_eq_done _ _ _ h
      obtain ⟨l3, l5, l7⟩ := ihS sk x3 sl hx3
      have bl : Behind st.global_tlist sl.global_tlist := behind_chain bk l3
      simp only at h
      split at h
      · simp only [Outcome.done.injEq, Prod.mk.injEq] at h
        obtain ⟨rfl, rfl⟩ := h
        exact ⟨bl, fun hh => absurd rfl hh, fun _ => rfl⟩
      rename_i hne3
      split at h
      · rename_i st2 hm
        obtain ⟨rfl, _⟩ := match_none _ _ _ _ hm
        simp only [Outcome.done.injEq, Prod.mk.injEq] at h
        obtain ⟨rfl, rfl⟩ := h
        exact ⟨bl, fun hh => absurd rfl hh, fun _ => rfl⟩
      rename_i endKey sm hm
      obtain ⟨m1, m2, m3, _⟩ := match_consume_some _ _ _ _ hm
      have bm : Behind st.global_tlist sm.global_tlist := behind_chain bl (behind_cons m1)
      split at h
      · rename_i st2 hm2
        obtain ⟨rfl, _⟩ := match_none _ _ _ _ hm2
        simp only [Outcome.done.injEq, Prod.mk.injEq] at h
        obtain ⟨rfl, rfl⟩ := h
        exact ⟨bm, fun hh => absurd rfl hh, fun _ => rfl⟩
      rename_i forKeyEnd sn hn
      obtain ⟨n1, n2, n3, _⟩ := match_consume_some _ _ _ _ hn
      simp only [Outcome.done.injEq, Prod.mk.injEq] at h
      obtain ⟨rfl, rfl⟩ := h
      refine ⟨behind_chain bm (behind_cons n1), fun _ h0 => ?_, fun hk => ?_⟩
      · have h0l : sl.errors_found = 0 := m3 ▸ n3 ▸ h0
        have p1 := d5 (fun hh => hne1 hh)
        have p3 := g5 (fun hh => hne2 hh)
        have p5 := l5 (fun hh => hne3 hh) h0l
        rw [a1, b1, c1, p1, e1, p3, k1, p5, m1, n1]
        simp [forLeaves]
      · simp only [forTypesKnown]
        exact l7 (typeKeysOk_behind bk hk)

/-- When `program` returns a tree, the token list is the leaves of the tree followed by the
tokens behind the cursor, the last leaf is the end-of-input token, and no leaf in front of it
is one. -/
theorem program_keeps (fuel : Nat) (st st1 : ParseState) (sln : stmts_node)
    (e : Option token) (h : program fuel st = .done (.node sln e, st1)) :
    st.global_tlist = programLeaves (.node sln e) ++ st1.global_tlist ∧
    (∃ eof, e = some eof ∧ eof.type = TOKEN_EOF) ∧
    (TypeKeysOk st.global_tlist → programTypesKnown (.node sln e) = true) := by
  have hflag := program_tree_flag fuel st st1 sln e h
  rw [program] at h
  obtain ⟨⟨b, s⟩, h1, h2⟩ := Outcome.bind_eq_done _ _ _ h
  obtain ⟨r, hr1, hr2⟩ := hflag
  rw [h1] at hr1
  simp only [Outcome.done.injEq] at hr1
  subst hr1
  obtain ⟨k1, k2, k3⟩ := (statement_family_keeps fuel).1 st b s h1
  have key : b ≠ .error → (match match_ TOKEN_EOF CONSUME s with
      | (some eof, st1) =>
        if st1.errors_found ≠ 0 then Outcome.done (program_node.NULL, st1)
        else .done (.node b (some eof), st1)
      | (none, st1) => unexpectedToken st1) = .done (.node sln e, st1) →
      st.global_tlist = programLeaves (.node sln e) ++ st1.global_tlist ∧
      (∃ eof, e = some eof ∧ eof.type = TOKEN_EOF) ∧
      (TypeKeysOk st.global_tlist → programTypesKnown (.node sln e) = true) := by
    intro hb h3
    cases hm : match_ TOKEN_EOF CONSUME s with
    | mk o s2 =>
      rw [hm] at h3
      cases o with
      | none => exact absurd (unexpectedToken_result _ _ _ h3) (by simp)
      | some eof =>
        obtain ⟨m1, m2, _, _⟩ := match_consume_some _ _ _ _ hm
        simp only at h3
        by_cases hef : s2.errors_found ≠ 0
        · rw [if_pos hef] at h3; simp at h3
        · rw [if_neg hef] at h3
          simp only [Outcome.done.injEq, Prod.mk.injEq, program_node.node.injEq] at h3
          obtain ⟨⟨rfl, rfl⟩, rfl⟩ := h3
          refine ⟨?_, ⟨eof, rfl, m2⟩, fun hk => k3 hk⟩
          rw [k2 hb hr2, m1]
          simp [programLeaves]
  cases b with
  | error => exact absurd (unexpectedToken_result _ _ _ h2) (by simp)
  | NULL => exact key (by simp) h2
  | node x y z => exact key (by simp) h2

end Parser

theorem derives_no_EOF (X : NT) (w : List token_type) (h : Derives X w) :
    X ≠ .program → TOKEN_EOF ∉ w := by
  induction h with
  | program _ _ => intro hx; exact absurd rfl hx
  | stmts_cons _ _ ih1 ih2 =>
    intro _
    have a := ih1 (by decide)
    have b := ih2 (by decide)
    simp [a, b]
  | stmts_eps => intro _; simp
  | statement_declaration _ ih => intro _; exact ih (by decide)
  | statement_assignment _ ih => intro _; exact ih (by decide)
  | statement_for _ ih => intro _; exact ih (by decide)
  | statement_read _ ih => intro _; exact ih (by decide)
  | statement_print _ ih => intro _; exact ih (by decide)
  | statement_assert _ ih => intro _; exact ih (by decide)
  | declaration _ ih => intro _; have a := ih (by decide); simp [a]
  | declaration_suffix_init _ ih => intro _; have a := ih (by decide); simp [a]
  | declaration_suffix_eps => intro _; simp
  | assignment _ ih => intro _; have a := ih (by decide); simp [a]
  | for_ _ _ _ ih1 ih2 ih3 =>
    intro _
    have a := ih1 (by decide)
    have b := ih2 (by decide)
    have c := ih3 (by decide)
    simp [a, b, c]
  | read => intro _; simp
  | print _ ih => intro _; have a := ih (by decide); simp [a]
  | assert _ ih => intro _; have a := ih (by decide); simp [a]
  | expression_unary _ ih => intro _; exact ih (by decide)
  | expression_binary _ ih => intro _; exact ih (by decide)
  | unary_expression _ ih => intro _; have a := ih (by decide); simp [a]
  | binary_expression _ _ ih1 ih2 =>
    intro _
    have a := ih1 (by decide)
    have b := ih2 (by decide)
    simp [a, b]
  | operand_int => intro _; simp
  | operand_string => intro _; simp
  | operand_id => intro _; simp
  | operand_paren _ ih => intro _; have a := ih (by decide); simp [a]
  | operand_suffix_op _ ih => intro _; have a := ih (by decide); simp [a]
  | operand_suffix_eps => intro _; simp

namespace Parser
open consumption_type discard_option

/-- The leaves of the statement list of a tree that `program` returns hold no end-of-input
token. -/
theorem program_stmts_leaves_noEOF (fuel : Nat) (st st1 : ParseState) (sln : stmts_node)
    (e : Option token) (h : program fuel st = .done (.node sln e, st1)) :
    ∀ t ∈ stmtsLeaves sln, t.type ≠ TOKEN_EOF := by
  obtain ⟨r, hr1, hr2⟩ := program_tree_flag fuel st st1 sln e h
  obtain ⟨b, s⟩ := r
  have hb : b = sln ∧ b ≠ .error := by
    rw [program, hr1] at h
    simp only [Outcome.bind_done] at h
    cases b with
    | error => exact absurd (unexpectedToken_result _ _ _ h) (by simp)
    | NULL =>
      simp only at h
      cases hm : match_ TOKEN_EOF CONSUME s with
      | mk o s2 =>
        rw [hm] at h
        cases o with
        | none => exact absurd (unexpectedToken_result _ _ _ h) (by simp)
        | some eof =>
          simp only at h
          split_ifs at h
          · simp at h
          · simp only [Outcome.done.injEq, Prod.mk.injEq, program_node.node.injEq] at h
            exact ⟨h.1.1, by simp⟩
    | node x y z =>
      simp only at h
      cases hm : match_ TOKEN_EOF CONSUME s with
      | mk o s2 =>
        rw [hm] at h
        cases o with
        | none => exact absurd (unexpectedToken_result _ _ _ h) (by simp)
        | some eof =>
          simp only at h
          split_ifs at h
          · simp at h
          · simp only [Outcome.done.injEq, Prod.mk.injEq, program_node.node.injEq] at h
            exact ⟨h.1.1, by simp⟩
  obtain ⟨rfl, hne⟩ := hb
  obtain ⟨_, k2, _⟩ := (statement_family_keeps fuel).1 st b s hr1
  obtain ⟨ts, q1, q2⟩ := ((statement_family_sound fuel).1 st b s hr1).2 hne hr2
  have heq : ts = stmtsLeaves b := by
    have := k2 hne hr2
    rw [q1] at this
    exact List.append_cancel_right this
  subst heq
  intro t ht hte
  apply derives_no_EOF _ _ q2 (by decide)
  rw [← hte]
  exact List.mem_map_of_mem _ ht

end Parser

/-- C37: whenever `parse` returns a tree, the token list is the sequence of the leaves of the
tree, from left to right, followed by the tokens behind the cursor: the last leaf is the
end-of-input token that was matched, and no leaf in front of it is an end-of-input token. -/
theorem parse_tree_leaves (ts : token_list) (ef : Int) (err : List Char) (sln : stmts_node)
    (e : Option token) (st1 : Parser.ParseState)
    (h : Parser.parse ts ef err = .done (.node sln e, st1)) :
    ts = programLeaves (.node sln e) ++ st1.global_tlist ∧
    ∃ eof, e = some eof ∧ eof.type = TOKEN_EOF ∧
      programLeaves (.node sln e) = stmtsLeaves sln ++ [eof] ∧
      ∀ t ∈ stmtsLeaves sln, t.type ≠ TOKEN_EOF := by
  unfold Parser.parse Parser.parseFuel at h
  obtain ⟨k1, ⟨eof, k2, k3⟩, _⟩ := Parser.program_keeps _ _ _ _ _ h
  refine ⟨k1, eof, k2, k3, ?_, Parser.program_stmts_leaves_noEOF _ _ _ _ _ h⟩
  rw [k2]
  rfl

theorem parse_tree_leaves_witness :
    Parser.parse [tok TOKEN_PRINTKEY "print", tok TOKEN_INT_LITERAL "1", tok TOKEN_SCOL ";",
        tok TOKEN_EOF "EOF"] 0 [] =
      .done (programOf [printStmt (operandExpr (intOperand "1"))], ⟨[], 0, []⟩) ∧
    [tok TOKEN_PRINTKEY "print", tok TOKEN_INT_LITERAL "1", tok TOKEN_SCOL ";",
        tok TOKEN_EOF "EOF"] =
      programLeaves (programOf [printStmt (operandExpr (intOperand "1"))]) ++ [] :=
  ⟨rfl, (parse_tree_leaves
    [tok TOKEN_PRINTKEY "print", tok TOKEN_INT_LITERAL "1", tok TOKEN_SCOL ";",
      tok TOKEN_EOF "EOF"] 0 []
    (stmtList [printStmt (operandExpr (intOperand "1"))]) (some (tok TOKEN_EOF "EOF"))
    ⟨[], 0, []⟩ rfl).1⟩

/-! ## The scanner on lexemes joined by single spaces -/

theorem lexCase_binop (fuel : Nat) (c : Char) (st : LexState)
    (h : c = '+' ∨ c = '-' ∨ c = '*' ∨ c = '=' ∨ c = '<' ∨ c = '&') :
    lexCase fuel c st =
      .done { st with tl := st.tl ++ [⟨TOKEN_BIN_OP, [c], st.line_number⟩] } := by
  rcases h with rfl | rfl | rfl | rfl | rfl | rfl <;> rfl

theorem lexCase_lpar (fuel : Nat) (st : LexState) :
    lexCase fuel '(' st =
      .done { st with tl := st.tl ++ [⟨TOKEN_LPAR, ['('], st.line_number⟩] } := rfl

theorem lexCase_rpar (fuel : Nat) (st : LexState) :
    lexCase fuel ')' st =
      .done { st with tl := st.tl ++ [⟨TOKEN_RPAR, [')'], st.line_number⟩] } := rfl

theorem lexCase_scol (fuel : Nat) (st : LexState) :
    lexCase fuel ';' st =
      .done { st with tl := st.tl ++ [⟨TOKEN_SCOL, [';'], st.line_number⟩] } := rfl

theorem lexCase_unop (fuel : Nat) (st : LexState) :
    lexCase fuel '!' st =
      .done { st with tl := st.tl ++ [⟨TOKEN_UN_OP, ['!'], st.line_number⟩] } := rfl

theorem lexCase_space (fuel : Nat) (st : LexState) : lexCase fuel ' ' st = .done st := rfl

theorem lexCase_period (fuel : Nat) (st : LexState) :
    lexCase fuel '.' st = .done (handlePeriod st ['.']) := rfl

theorem lexCase_colon (fuel : Nat) (st : LexState) :
    lexCase fuel ':' st = .done (handleCol st [':']) := rfl

theorem lexCase_digit (fuel : Nat) (c : Char) (st : LexState) (h : c.isDigit = true) :
    lexCase fuel c st = .done (handleIntLiterals st) := by
  unfold lexCase
  rw [if_neg (by rintro (rfl | rfl | rfl | rfl | rfl | rfl) <;> exact absurd h (by decide)),
    if_neg (by rintro rfl; exact absurd h (by decide)),
    if_neg (by rintro rfl; exact absurd h (by decide)),
    if_neg (by rintro rfl; exact absurd h (by decide)),
    if_neg (by rintro rfl; exact absurd h (by decide)),
    if_neg (by rintro rfl; exact absurd h (by decide)),
    if_neg (by rintro rfl; exact absurd h (by decide)),
    if_neg (by rintro rfl; exact absurd h (by decide)),
    if_neg (by rintro (rfl | rfl | rfl) <;> exact absurd h (by decide)),
    if_neg (by
      intro ha
      simp only [Char.isDigit, Char.isAlpha, Char.isUpper, Char.isLower, Bool.or_eq_true,
        Bool.and_eq_true, decide_eq_true_eq] at h ha
      have h2 : c.val.toNat ≤ 57 := h.2
      rcases ha with ha | ha
      · have h3 : 65 ≤ c.val.toNat := ha.1
        omega
      · have h3 : 97 ≤ c.val.toNat := ha.1
        omega),
    if_pos h]

theorem handleIntLiteralsLoop_end (buffer : List Char) (read : Nat) (rest : List Char)
    (h : buffer.length ≤ TOKEN_MAX_LENGTH)
    (hmax : ∀ d ∈ rest.head?, d.isDigit = false) :
    (handleIntLiteralsLoop buffer read rest).buffer = buffer ∧
    (handleIntLiteralsLoop buffer read rest).read +
      (handleIntLiteralsLoop buffer read rest).skip = read + 1 := by
  cases rest with
  | nil => rw [handleIntLiteralsLoop, if_pos h]; exact ⟨rfl, rfl⟩
  | cons d r =>
    have hd : ¬ d.isDigit = true := by
      rw [hmax d (by simp)]; decide
    rw [handleIntLiteralsLoop, if_pos h, if_neg hd]
    exact ⟨rfl, rfl⟩

/-- A run of fewer than `TOKEN_MAX_LENGTH` digits: `handleIntLiterals`, entered after the
first digit was read, adds one integer-literal token with the run as its value and leaves the
file behind the run. -/
theorem handleIntLiterals_short (st : LexState) (w rest : List Char)
    (hun : st.unread = w ++ rest) (hw : ∀ c ∈ w, c.isDigit = true)
    (hmax : ∀ d ∈ rest.head?, d.isDigit = false)
    (hlen : w.length < TOKEN_MAX_LENGTH) :
    handleIntLiterals { st with pos := st.pos + 1 } =
      { st with pos := st.pos + w.length,
                tl := st.tl ++ [⟨TOKEN_INT_LITERAL, w, st.line_number⟩] } := by
  have hu : (ungetc { st with pos := st.pos + 1 }).unread = w ++ rest := by
    simpa [ungetc, LexState.unread] using hun
  have hloop : handleIntLiteralsLoop [] 0 (w ++ rest) =
      handleIntLiteralsLoop w w.length rest := by
    rw [handleIntLiteralsLoop_append w rest [] 0 hw (by simp only [List.length_nil]; omega)]
    simp
  obtain ⟨hb, hr⟩ := handleIntLiteralsLoop_end w w.length rest (by omega) hmax
  have hc : cstr w = w := cstr_eq_self w (fun c hc => digit_ne_NUL c (hw c hc))
  have htok : newToken TOKEN_INT_LITERAL w st.line_number =
      ⟨TOKEN_INT_LITERAL, w, st.line_number⟩ := by
    rw [newToken, hc, List.take_of_length_le (by omega)]
  have hnb : noBacktrack TOKEN_INT_LITERAL = false := rfl
  unfold handleIntLiterals
  simp only [hu, hloop, hb]
  simp only [addToken, hnb, Bool.false_eq_true, if_false, ungetc, htok, Nat.add_sub_cancel]
  have : st.pos + (handleIntLiteralsLoop w w.length rest).read +
      (handleIntLiteralsLoop w w.length rest).skip - 1 = st.pos + w.length := by omega
  rw [this]

theorem getElem?_of_unread (st : LexState) (c : Char) (r : List Char)
    (h : st.unread = c :: r) : st.input[st.pos]? = some c := by
  have h1 : (st.input.drop st.pos)[0]? = some c := by
    rw [show st.input.drop st.pos = c :: r from h]; simp
  rw [List.getElem?_drop] at h1
  simpa using h1

theorem length_of_unread (st : LexState) (h : st.unread ≠ []) :
    st.input.length = st.pos + st.unread.length := by
  unfold LexState.unread at h ⊢
  rw [List.length_drop]
  have : st.pos < st.input.length := by
    by_contra hc
    exact h (List.drop_eq_nil_iff.2 (by omega))
  omega

theorem validLexeme_cases (ty : token_type) (w : List Char)
    (h : validLexeme ty w = true) :
    w.length < TOKEN_MAX_LENGTH ∧
    ((∃ c, w = [c] ∧ isSimpleSign ty c = true) ∨
     (ty = TOKEN_BIN_OP ∧ w = ['/']) ∨
     (ty = TOKEN_COL ∧ w = [':']) ∨
     (ty = TOKEN_ASSIGN ∧ w = [':', '=']) ∨
     (ty = TOKEN_RANGE ∧ w = ['.', '.']) ∨
     (ty = TOKEN_INT_LITERAL ∧ w ≠ [] ∧ ∀ c ∈ w, c.isDigit = true) ∨
     (isWord w = true ∧ specWordKind w = ty)) := by
  unfold validLexeme at h
  rw [Bool.and_eq_true, decide_eq_true_eq] at h
  obtain ⟨hl, h⟩ := h
  refine ⟨hl, ?_⟩
  have sign : ∀ c, w = [c] → isSimpleSign ty c = true →
      ((∃ c, w = [c] ∧ isSimpleSign ty c = true) ∨
       (ty = TOKEN_BIN_OP ∧ w = ['/']) ∨
       (ty = TOKEN_COL ∧ w = [':']) ∨
       (ty = TOKEN_ASSIGN ∧ w = [':', '=']) ∨
       (ty = TOKEN_RANGE ∧ w = ['.', '.']) ∨
       (ty = TOKEN_INT_LITERAL ∧ w ≠ [] ∧ ∀ c ∈ w, c.isDigit = true) ∨
       (isWord w = true ∧ specWordKind w = ty)) :=
    fun c hw hs => Or.inl ⟨c, hw, hs⟩
  cases ty with
  | TOKEN_BIN_OP =>
    simp only [decide_eq_true_eq] at h
    rcases h with h | h | h | h | h | h | h
    · exact sign '+' h rfl
    · exact sign '-' h rfl
    · exact sign '*' h rfl
    · exact Or.inr (Or.inl ⟨rfl, h⟩)
    · exact sign '=' h rfl
    · exact sign '<' h rfl
    · exact sign '&' h rfl
  | TOKEN_UN_OP =>
    simp only [decide_eq_true_eq] at h
    exact sign '!' h rfl
  | TOKEN_LPAR =>
    simp only [decide_eq_true_eq] at h
    exact sign '(' h rfl
  | TOKEN_RPAR =>
    simp only [decide_eq_true_eq] at h
    exact sign ')' h rfl
  | TOKEN_SCOL =>
    simp only [decide_eq_true_eq] at h
    exact sign ';' h rfl
  | TOKEN_COL =>
    simp only [decide_eq_true_eq] at h
    exact Or.inr (Or.inr (Or.inl ⟨rfl, h⟩))
  | TOKEN_ASSIGN =>
    simp only [decide_eq_true_eq] at h
    exact Or.inr (Or.inr (Or.inr (Or.inl ⟨rfl, h⟩)))
  | TOKEN_RANGE =>
    simp only [decide_eq_true_eq] at h
    exact Or.inr (Or.inr (Or.inr (Or.inr (Or.inl ⟨rfl, h⟩))))
  | TOKEN_INT_LITERAL =>
    simp only [Bool.and_eq_true, Bool.not_eq_true', List.isEmpty_eq_false,
      List.all_eq_true] at h
    exact Or.inr (Or.inr (Or.inr (Or.inr (Or.inr (Or.inl ⟨rfl, h.1, h.2⟩)))))
  | TOKEN_STRING_LITERAL => simp at h
  | TOKEN_ERROR => simp at h
  | TOKEN_EOF => simp at h
  | _ =>
    simp only [Bool.and_eq_true, decide_eq_true_eq] at h
    exact Or.inr (Or.inr (Or.inr (Or.inr (Or.inr (Or.inr h)))))

/-- A sign that the main loop turns into a token by itself: the token is added and the file
stays behind the sign. -/
theorem lexCase_simpleSign (fuel : Nat) (ty : token_type) (c : Char) (st : LexState)
    (h : isSimpleSign ty c = true) :
    lexCase fuel c st =
      .done { st with tl := st.tl ++ [⟨ty, [c], st.line_number⟩] } := by
  unfold isSimpleSign at h
  simp only [Bool.or_eq_true, Bool.and_eq_true, beq_iff_eq] at h
  rcases h with (((h | h) | h) | h) | h
  · obtain ⟨rfl, hc⟩ := h
    exact lexCase_binop fuel c st (by
      rcases hc with ((((hc | hc) | hc) | hc) | hc) | hc
      · exact Or.inl hc
      · exact Or.inr (Or.inl hc)
      · exact Or.inr (Or.inr (Or.inl hc))
      · exact Or.inr (Or.inr (Or.inr (Or.inl hc)))
      · exact Or.inr (Or.inr (Or.inr (Or.inr (Or.inl hc))))
      · exact Or.inr (Or.inr (Or.inr (Or.inr (Or.inr hc)))))
  · obtain ⟨rfl, rfl⟩ := h; exact lexCase_unop fuel st
  · obtain ⟨rfl, rfl⟩ := h; exact lexCase_lpar fuel st
  · obtain ⟨rfl, rfl⟩ := h; exact lexCase_rpar fuel st
  · obtain ⟨rfl, rfl⟩ := h; exact lexCase_scol fuel st

theorem unread_succ (st : LexState) (c : Char) (r : List Char) (h : st.unread = c :: r) :
    (({ st with pos := st.pos + 1 } : LexState)).unread = r := by
  have h1 := unread_of_getElem? st c (getElem?_of_unread st c r h)
  unfold LexState.unread at h ⊢
  rw [h1] at h
  simp only [List.cons.injEq, true_and] at h
  exact h

theorem tail_not_word (tail : List Char) (h : tail = [] ∨ ∃ more, tail = ' ' :: more) :
    (∀ d ∈ tail.head?, (d.isAlphanum || d == '_') = false) ∧
    (∀ d ∈ tail.head?, d.isDigit = false) := by
  rcases h with rfl | ⟨more, rfl⟩
  · exact ⟨fun d hd => by simp at hd, fun d hd => by simp at hd⟩
  · refine ⟨fun d hd => ?_, fun d hd => ?_⟩
    · simp only [List.head?_cons, Option.mem_def, Option.some.injEq] at hd
      subst hd; decide
    · simp only [List.head?_cons, Option.mem_def, Option.some.injEq] at hd
      subst hd; decide

/-- One token of a text of lexemes joined by single spaces: on a valid lexeme followed by the
end of the input or by a space, the case of the main loop for its first character adds the
token of that kind and lexeme, and leaves the file behind the lexeme. -/
theorem token_step (fuel : Nat) (st : LexState) (ty : token_type) (w tail : List Char)
    (hv : validLexeme ty w = true) (hun : st.unread = w ++ tail)
    (htail : tail = [] ∨ ∃ more, tail = ' ' :: more) :
    ∃ c st1, st.input[st.pos]? = some c ∧
      lexCase fuel c { st with pos := st.pos + 1 } = .done st1 ∧
      st1.input = st.input ∧ st1.line_number = st.line_number ∧
      st1.tl = st.tl ++ [⟨ty, w, st.line_number⟩] ∧
      1 ≤ w.length ∧ st.pos + w.length ≤ st1.pos ∧
      (tail ≠ [] → st1.pos = st.pos + w.length) := by
  obtain ⟨hlen, hc⟩ := validLexeme_cases ty w hv
  obtain ⟨hmaxw, hmaxd⟩ := tail_not_word tail htail
  have single : ∀ (c : Char) (st1 : LexState), w = [c] →
      lexCase fuel c { st with pos := st.pos + 1 } = .done st1 →
      st1.input = st.input → st1.line_number = st.line_number →
      st1.tl = st.tl ++ [⟨ty, w, st.line_number⟩] →
      st.pos + 1 ≤ st1.pos → (tail ≠ [] → st1.pos = st.pos + 1) →
      ∃ c st1, st.input[st.pos]? = some c ∧
        lexCase fuel c { st with pos := st.pos + 1 } = .done st1 ∧
        st1.input = st.input ∧ st1.line_number = st.line_number ∧
        st1.tl = st.tl ++ [⟨ty, w, st.line_number⟩] ∧
        1 ≤ w.length ∧ st.pos + w.length ≤ st1.pos ∧
        (tail ≠ [] → st1.pos = st.pos + w.length) := by
    intro c st1 hw h1 h2 h3 h4 h5 h6
    refine ⟨c, st1, getElem?_of_unread st c tail (by rw [hun, hw]; rfl), h1, h2, h3, h4, ?_, ?_,
      ?_⟩
    · rw [hw]; simp
    · rw [hw]; exact h5
    · rw [hw]; exact h6
  rcases hc with ⟨c, hw, hs⟩ | ⟨hty, hw⟩ | ⟨hty, hw⟩ | ⟨hty, hw⟩ | ⟨hty, hw⟩ | ⟨hty, hne, hd⟩ |
    ⟨hw, hk⟩
  · -- a sign that makes a token by itself
    refine single c _ hw (lexCase_simpleSign fuel ty c _ hs) rfl rfl ?_ (le_refl _)
      (fun _ => rfl)
    rw [hw]
  · -- the slash
    subst hty
    subst hw
    have hu := unread_succ st '/' tail hun
    rcases htail with rfl | ⟨more, rfl⟩
    · refine single '/' _ rfl (lexCase_slash fuel _) ?_ ?_ ?_ ?_ ?_
      · unfold handleSlash; rw [hu]; rfl
      · unfold handleSlash; rw [hu]; rfl
      · unfold handleSlash; rw [hu]; rfl
      · unfold handleSlash; rw [hu]
        show st.pos + 1 ≤ st.pos + 1 + 1
        omega
      · intro hh; exact absurd rfl hh
    · refine single '/' _ rfl (lexCase_slash fuel _) ?_ ?_ ?_ ?_ ?_
      · unfold handleSlash; rw [hu]; rfl
      · unfold handleSlash; rw [hu]; rfl
      · unfold handleSlash; rw [hu]; rfl
      · unfold handleSlash; rw [hu]
        show st.pos + 1 ≤ st.pos + 1 + 1 - 1
        omega
      · intro _
        unfold handleSlash; rw [hu]
        show st.pos + 1 + 1 - 1 = st.pos + 1
        omega
  · -- the colon
    subst hty
    subst hw
    have hu := unread_succ st ':' tail hun
    rcases htail with rfl | ⟨more, rfl⟩
    · refine single ':' _ rfl (lexCase_colon fuel _) ?_ ?_ ?_ ?_ ?_
      · unfold handleCol; rw [hu]; rfl
      · unfold handleCol; rw [hu]; rfl
      · unfold handleCol; rw [hu]; rfl
      · unfold handleCol; rw [hu]
        show st.pos + 1 ≤ st.pos + 1
        omega
      · intro hh; exact absurd rfl hh
    · refine single ':' _ rfl (lexCase_colon fuel _) ?_ ?_ ?_ ?_ ?_
      · unfold handleCol; rw [hu]; rfl
      · unfold handleCol; rw [hu]; rfl
      · unfold handleCol; rw [hu]; rfl
      · unfold handleCol; rw [hu]
        show st.pos + 1 ≤ st.pos + 1 + 1 - 1
        omega
      · intro _
        unfold handleCol; rw [hu]
        show st.pos + 1 + 1 - 1 = st.pos + 1
        omega
  · -- the assignment sign
    subst hty
    subst hw
    have hu := unread_succ st ':' ('=' :: tail) hun
    refine ⟨':', handleCol { st with pos := st.pos + 1 } [':'],
      getElem?_of_unread st ':' ('=' :: tail) hun, lexCase_colon fuel _, ?_, ?_, ?_, by simp,
      ?_, ?_⟩
    · unfold handleCol; rw [hu]; rfl
    · unfold handleCol; rw [hu]; rfl
    · unfold handleCol; rw [hu]; rfl
    · unfold handleCol; rw [hu]
      show st.pos + 2 ≤ st.pos + 1 + 1 + 1 - 1
      omega
    · intro _
      unfold handleCol; rw [hu]
      show st.pos + 1 + 1 + 1 - 1 = st.pos + 2
      omega
  · -- the range sign
    subst hty
    subst hw
    have hu := unread_succ st '.' ('.' :: tail) hun
    refine ⟨'.', handlePeriod { st with pos := st.pos + 1 } ['.'],
      getElem?_of_unread st '.' ('.' :: tail) hun, lexCase_period fuel _, ?_, ?_, ?_, by simp,
      ?_, ?_⟩
    · unfold handlePeriod; rw [hu]; rfl
    · unfold handlePeriod; rw [hu]; rfl
    · unfold handlePeriod; rw [hu]; rfl
    · unfold handlePeriod; rw [hu]
      show st.pos + 2 ≤ st.pos + 1 + 1
      omega
    · intro _
      unfold handlePeriod; rw [hu]
      show st.pos + 1 + 1 = st.pos + 2
      omega
  · -- an integer literal
    subst hty
    cases w with
    | nil => exact absurd rfl hne
    | cons c w1 =>
      have hcd : c.isDigit = true := hd c (List.mem_cons_self _ _)
      have hstep := handleIntLiterals_short st (c :: w1) tail hun hd hmaxd hlen
      refine ⟨c, handleIntLiterals { st with pos := st.pos + 1 },
        getElem?_of_unread st c (w1 ++ tail) hun, lexCase_digit fuel c _ hcd, ?_, ?_, ?_,
        by simp, ?_, ?_⟩
      · rw [hstep]
      · rw [hstep]
      · rw [hstep]
      · rw [hstep]
      · intro _; rw [hstep]
  · -- a word
    cases w with
    | nil => simp [isWord] at hw
    | cons c w1 =>
      simp only [isWord, Bool.and_eq_true, List.all_eq_true] at hw
      obtain ⟨hca, hw1⟩ := hw
      have hcw : ∀ x ∈ c :: w1, (x.isAlphanum || x == '_') = true := by
        intro x hx
        rcases List.mem_cons.1 hx with rfl | hx
        · simp [Char.isAlphanum, hca]
        · exact hw1 x hx
      have hstep := handleOthers_word st (c :: w1) tail hun hcw hmaxw hlen
      rw [keywordType_eq_spec _ (by omega), hk] at hstep
      refine ⟨c, handleOthers { st with pos := st.pos + 1 },
        getElem?_of_unread st c (w1 ++ tail) hun, lexCase_alpha fuel c _ hca, ?_, ?_, ?_,
        by simp, ?_, ?_⟩
      · rw [hstep]
      · rw [hstep]
      · rw [hstep]
      · rw [hstep]
      · intro _; rw [hstep]

theorem unread_nil_iff (st : LexState) : st.unread = [] ↔ st.input.length ≤ st.pos := by
  unfold LexState.unread
  exact List.drop_eq_nil_iff

theorem unread_after (st st1 : LexState) (w tail : List Char)
    (hun : st.unread = w ++ tail) (hin : st1.input = st.input)
    (hpos : st1.pos = st.pos + w.length) : st1.unread = tail := by
  unfold LexState.unread at hun ⊢
  rw [hin, hpos, ← List.drop_drop, hun, List.drop_left]

/-- The main loop on lexemes joined by single spaces: with one round of fuel for every unread
character and one more, it returns with the tokens of the lexemes added, in their order, on
the line on which it started. -/
theorem lexLoop_lexemes : ∀ (toks : List (token_type × List Char)) (st : LexState)
    (fuel : Nat), (∀ p ∈ toks, validLexeme p.1 p.2 = true) →
    st.unread = joinLexemes (toks.map Prod.snd) → st.unread.length + 1 ≤ fuel →
    ∃ st1, lexLoop fuel st = .done st1 ∧
      st1.tl = st.tl ++ toks.map (fun p => (⟨p.1, p.2, st.line_number⟩ : token)) ∧
      st1.line_number = st.line_number := by
  intro toks
  induction toks with
  | nil =>
    intro st fuel _ hun hf
    obtain ⟨f, rfl⟩ : ∃ f, fuel = f + 1 := ⟨fuel - 1, by omega⟩
    refine ⟨st, lexLoop_end f st ((unread_nil_iff st).1 hun), by simp, rfl⟩
  | cons p rest ih =>
    intro st fuel hv hun hf
    have hvp := hv p (List.mem_cons_self _ _)
    have hvr : ∀ q ∈ rest, validLexeme q.1 q.2 = true :=
      fun q hq => hv q (List.mem_cons_of_mem _ hq)
    cases rest with
    | nil =>
      have hun2 : st.unread = p.2 ++ [] := by
        rw [hun]; simp [joinLexemes]
      obtain ⟨c, st1, h1, h2, h3, h4, h5, h6, h7, _⟩ :=
        token_step (fuel - 1) st p.1 p.2 [] hvp hun2 (Or.inl rfl)
      have hlen : st.unread.length = p.2.length := by rw [hun2]; simp
      have hne : st.unread ≠ [] := by
        intro hh; rw [hh] at hlen; simp at hlen; omega
      have htot := length_of_unread st hne
      obtain ⟨f, rfl⟩ : ∃ f, fuel = f + 1 + 1 := ⟨fuel - 2, by omega⟩
      have hstep := lexLoop_step (f + 1) st st1 c h1 h2
      refine ⟨st1, ?_, ?_, h4⟩
      · rw [hstep]
        exact lexLoop_end f st1 (by rw [h3]; omega)
      · rw [h5]; simp
    | cons q rest2 =>
      have hun2 : st.unread = p.2 ++ ' ' :: joinLexemes ((q :: rest2).map Prod.snd) := by
        rw [hun]; simp [joinLexemes]
      obtain ⟨c, st1, h1, h2, h3, h4, h5, h6, h7, h8⟩ :=
        token_step (fuel - 1) st p.1 p.2 (' ' :: joinLexemes ((q :: rest2).map Prod.snd))
          hvp hun2 (Or.inr ⟨_, rfl⟩)
      have hpos := h8 (by simp)
      have hlen : st.unread.length =
          p.2.length + 1 + (joinLexemes ((q :: rest2).map Prod.snd)).length := by
        rw [hun2]; simp; omega
      obtain ⟨f, rfl⟩ : ∃ f, fuel = f + 1 + 1 := ⟨fuel - 2, by omega⟩
      have hstep := lexLoop_step (f + 1) st st1 c h1 h2
      have hu1 : st1.unread = ' ' :: joinLexemes ((q :: rest2).map Prod.snd) :=
        unread_after st st1 _ _ hun2 h3 hpos
      have hsp := lexLoop_step f st1 { st1 with pos := st1.pos + 1 } ' '
        (getElem?_of_unread st1 ' ' _ hu1) (lexCase_space f _)
      have hu2 : (({ st1 with pos := st1.pos + 1 } : LexState)).unread =
          joinLexemes ((q :: rest2).map Prod.snd) := unread_succ st1 ' ' _ hu1
      obtain ⟨st3, k1, k2, k3⟩ := ih { st1 with pos := st1.pos + 1 } f hvr hu2
        (by rw [hu2]; omega)
      refine ⟨st3, ?_, ?_, ?_⟩
      · rw [hstep, hsp, k1]
      · rw [k2]
        simp only [h5, h4, List.map_cons, List.append_assoc, List.singleton_append]
      · rw [k3]; exact h4

/-- C38: for every list of tokens of the kinds binary operator, unary operator, parenthesis,
semicolon, colon, assign, range, identifier, keyword and integer literal with valid lexemes
shorter than `TOKEN_MAX_LENGTH` bytes, `lex` on the lexemes joined by single spaces returns
the tokens of exactly those kinds and lexemes, in the same order, each on line 1, followed by
the end-of-input token; none of them is an error token. -/
theorem lex_joined_lexemes (under : Char) (toks : List (token_type × List Char))
    (hv : ∀ p ∈ toks, validLexeme p.1 p.2 = true) :
    lex under (joinLexemes (toks.map Prod.snd)) =
      .done (toks.map (fun p => (⟨p.1, p.2, 1⟩ : token)) ++
        [⟨TOKEN_EOF, "EOF".toList, 1⟩]) ∧
    ∀ t ∈ toks.map (fun p => (⟨p.1, p.2, 1⟩ : token)) ++ [⟨TOKEN_EOF, "EOF".toList, 1⟩],
      t.type ≠ TOKEN_ERROR := by
  constructor
  · obtain ⟨st1, h1, h2, h3⟩ := lexLoop_lexemes toks
      ⟨joinLexemes (toks.map Prod.snd), 0, 1, [], under⟩
      ((joinLexemes (toks.map Prod.snd)).length + 1) hv (by simp [LexState.unread])
      (by simp [LexState.unread])
    unfold lex lexFuel
    rw [h1]
    simp only [Outcome.bind_done, addEOF, h2, h3, List.nil_append]
    rfl
  · intro t ht
    rcases List.mem_append.1 ht with ht | ht
    · obtain ⟨p, hp, rfl⟩ := List.mem_map.1 ht
      intro he
      have hvp := hv p hp
      simp only at he
      rw [he] at hvp
      simp [validLexeme] at hvp
    · rw [List.mem_singleton.1 ht]
      decide

theorem lex_joined_lexemes_witness :
    (∀ p ∈ [(TOKEN_VARKEY, "var".toList), (TOKEN_IDENTIFIER, "x_1".toList),
        (TOKEN_COL, ":".toList), (TOKEN_TYPEKEY, "int".toList), (TOKEN_ASSIGN, ":=".toList),
        (TOKEN_LPAR, "(".toList), (TOKEN_INT_LITERAL, "42".toList), (TOKEN_BIN_OP, "/".toList),
        (TOKEN_INT_LITERAL, "7".toList), (TOKEN_RPAR, ")".toList), (TOKEN_RANGE, "..".toList),
        (TOKEN_UN_OP, "!".toList), (TOKEN_SCOL, ";".toList)],
      validLexeme p.1 p.2 = true) ∧
    lex 'x' "var x_1 : int := ( 42 / 7 ) .. ! ;".toList =
      .done [⟨TOKEN_VARKEY, "var".toList, 1⟩, ⟨TOKEN_IDENTIFIER, "x_1".toList, 1⟩,
        ⟨TOKEN_COL, ":".toList, 1⟩, ⟨TOKEN_TYPEKEY, "int".toList, 1⟩,
        ⟨TOKEN_ASSIGN, ":=".toList, 1⟩, ⟨TOKEN_LPAR, "(".toList, 1⟩,
        ⟨TOKEN_INT_LITERAL, "42".toList, 1⟩, ⟨TOKEN_BIN_OP, "/".toList, 1⟩,
        ⟨TOKEN_INT_LITERAL, "7".toList, 1⟩, ⟨TOKEN_RPAR, ")".toList, 1⟩,
        ⟨TOKEN_RANGE, "..".toList, 1⟩, ⟨TOKEN_UN_OP, "!".toList, 1⟩,
        ⟨TOKEN_SCOL, ";".toList, 1⟩, ⟨TOKEN_EOF, "EOF".toList, 1⟩] :=
  ⟨by decide, (lex_joined_lexemes 'x'
    [(TOKEN_VARKEY, "var".toList), (TOKEN_IDENTIFIER, "x_1".toList),
      (TOKEN_COL, ":".toList), (TOKEN_TYPEKEY, "int".toList), (TOKEN_ASSIGN, ":=".toList),
      (TOKEN_LPAR, "(".toList), (TOKEN_INT_LITERAL, "42".toList), (TOKEN_BIN_OP, "/".toList),
      (TOKEN_INT_LITERAL, "7".toList), (TOKEN_RPAR, ")".toList), (TOKEN_RANGE, "..".toList),
      (TOKEN_UN_OP, "!".toList), (TOKEN_SCOL, ";".toList)] (by decide)).1⟩

/-! ## The type keywords of the token stream -/

theorem typeKeysOk_append (l : token_list) (t : token) (h : Parser.TypeKeysOk l)
    (ht : t.type = TOKEN_TYPEKEY → expectedType t ≠ .UNDEF) : Parser.TypeKeysOk (l ++ [t]) := by
  intro x hx
  rcases List.mem_append.1 hx with hx | hx
  · exact h x hx
  · rw [List.mem_singleton.1 hx]; exact ht

theorem addToken_typeKeys (st : LexState) (type : token_type) (buffer : List Char)
    (line : Int) (ht : type ≠ TOKEN_TYPEKEY) (h : Parser.TypeKeysOk st.tl) :
    Parser.TypeKeysOk (addToken st type buffer line).tl := by
  rw [addToken_tl]
  exact typeKeysOk_append _ _ h (fun hh => absurd hh ht)

theorem keywordType_typeKey (w : List Char) (h : keywordType w = TOKEN_TYPEKEY) :
    isTypeKey w = true := by
  unfold keywordType at h
  split_ifs at h with h1 h2 h3 h4 h5 h6 h7 h8 h9
  exact h3

theorem expectedType_take (ty : token_type) (w : List Char) (line : Int)
    (h : isTypeKey w = true) :
    expectedType ⟨ty, w.take (TOKEN_MAX_LENGTH + 1), line⟩ ≠ .UNDEF := by
  apply isTypeKey_expectedType
  unfold isTypeKey strncmpEq at h ⊢
  simp only [List.take_take] at h ⊢
  have hm : min TOKEN_MAX_LENGTH (TOKEN_MAX_LENGTH + 1) = TOKEN_MAX_LENGTH := by decide
  rw [hm]
  exact h

theorem handleOthers_typeKeys (st : LexState) (h : Parser.TypeKeysOk st.tl) :
    Parser.TypeKeysOk (handleOthers st).tl := by
  unfold handleOthers
  simp only
  split_ifs
  · exact addToken_typeKeys _ _ _ _ (by decide) h
  · rw [addToken_tl]
    refine typeKeysOk_append _ _ h ?_
    intro ht
    exact expectedType_take _ _ _ (keywordType_typeKey _ ht)

theorem handleIntLiterals_typeKeys (st : LexState) (h : Parser.TypeKeysOk st.tl) :
    Parser.TypeKeysOk (handleIntLiterals st).tl := by
  unfold handleIntLiterals
  exact addToken_typeKeys _ _ _ _ (by decide) h

theorem handleErrors_typeKeys (st : LexState) (h : Parser.TypeKeysOk st.tl) :
    Parser.TypeKeysOk (handleErrors st).tl := by
  unfold handleErrors
  simp only
  split_ifs <;> exact addToken_typeKeys _ _ _ _ (by decide) h

theorem handlePeriod_typeKeys (st : LexState) (buffer : List Char)
    (h : Parser.TypeKeysOk st.tl) : Parser.TypeKeysOk (handlePeriod st buffer).tl := by
  unfold handlePeriod
  cases st.unread with
  | nil => exact addToken_typeKeys _ _ _ _ (by decide) h
  | cons c rest =>
    simp only
    split_ifs <;> exact addToken_typeKeys _ _ _ _ (by decide) h

theorem handleCol_typeKeys (st : LexState) (buffer : List Char)
    (h : Parser.TypeKeysOk st.tl) : Parser.TypeKeysOk (handleCol st buffer).tl := by
  unfold handleCol
  cases st.unread with
  | nil => exact addToken_typeKeys _ _ _ _ (by decide) h
  | cons c rest =>
    simp only
    split_ifs <;> exact addToken_typeKeys _ _ _ _ (by decide) h

theorem handleSlash_typeKeys (st : LexState) (buffer : List Char)
    (h : Parser.TypeKeysOk st.tl) : Parser.TypeKeysOk (handleSlash st buffer).tl := by
  unfold handleSlash
  cases st.unread with
  | nil => exact addToken_typeKeys _ _ _ _ (by decide) h
  | cons c rest =>
    simp only
    split_ifs
    · exact h
    · exact h
    · exact addToken_typeKeys _ _ _ _ (by decide) h
    · exact h
    · exact addToken_typeKeys _ _ _ _ (by decide) h

theorem handleStringLiterals_typeKeys (st : LexState) (h : Parser.TypeKeysOk st.tl) :
    Parser.TypeKeysOk (handleStringLiterals st).tl := by
  have hne : (handleStringLoop st.under [] false 0 st.unread).type ≠ TOKEN_TYPEKEY := by
    rcases handleStringLoop_type st.unread st.under [] false 0 with h1 | h1 <;>
      rw [h1] <;> decide
  unfold handleStringLiterals
  exact addToken_typeKeys _ _ _ _ hne h

theorem stringLiteralLoop_typeKeys : ∀ (fuel : Nat) (st st1 : LexState),
    stringLiteralLoop fuel st = .done st1 → Parser.TypeKeysOk st.tl →
    Parser.TypeKeysOk st1.tl := by
  intro fuel
  induction fuel with
  | zero => intro st st1 h; simp [stringLiteralLoop] at h
  | succ f ih =>
    intro st st1 h hq
    have hs := handleStringLiterals_typeKeys st hq
    unfold stringLiteralLoop at h
    simp only at h
    split_ifs at h
    · exact ih _ _ h hs
    · simp only [Outcome.done.injEq] at h
      rw [← h]; exact hs

theorem lexCase_typeKeys (fuel : Nat) (c : Char) (st st1 : LexState)
    (h : lexCase fuel c st = .done st1) (hq : Parser.TypeKeysOk st.tl) :
    Parser.TypeKeysOk st1.tl := by
  unfold lexCase at h
  have dn : ∀ s : LexState, Outcome.done s = Outcome.done st1 → Parser.TypeKeysOk s.tl →
      Parser.TypeKeysOk st1.tl := by
    intro s e hs
    simp only [Outcome.done.injEq] at e
    rw [← e]; exact hs
  by_cases c1 : c = '+' ∨ c = '-' ∨ c = '*' ∨ c = '=' ∨ c = '<' ∨ c = '&'
  · rw [if_pos c1] at h; exact dn _ h (addToken_typeKeys _ _ _ _ (by decide) hq)
  rw [if_neg c1] at h
  by_cases c2 : c = '('
  · rw [if_pos c2] at h; exact dn _ h (addToken_typeKeys _ _ _ _ (by decide) hq)
  rw [if_neg c2] at h
  by_cases c3 : c = ')'
  · rw [if_pos c3] at h; exact dn _ h (addToken_typeKeys _ _ _ _ (by decide) hq)
  rw [if_neg c3] at h
  by_cases c4 : c = ';'
  · rw [if_pos c4] at h; exact dn _ h (addToken_typeKeys _ _ _ _ (by decide) hq)
  rw [if_neg c4] at h
  by_cases c5 : c = '!'
  · rw [if_pos c5] at h; exact dn _ h (addToken_typeKeys _ _ _ _ (by decide) hq)
  rw [if_neg c5] at h
  by_cases c6 : c = '.'
  · rw [if_pos c6] at h; exact dn _ h (handlePeriod_typeKeys _ _ hq)
  rw [if_neg c6] at h
  by_cases c7 : c = '/'
  · rw [if_pos c7] at h; exact dn _ h (handleSlash_typeKeys _ _ hq)
  rw [if_neg c7] at h
  by_cases c8 : c = ':'
  · rw [if_pos c8] at h; exact dn _ h (handleCol_typeKeys _ _ hq)
  rw [if_neg c8] at h
  by_cases c9 : c = ' ' ∨ c = '\n' ∨ c = '\t'
  · rw [if_pos c9] at h
    by_cases cn : c = '\n'
    · rw [if_pos cn] at h; exact dn _ h hq
    · rw [if_neg cn] at h; exact dn _ h hq
  rw [if_neg c9] at h
  by_cases c10 : c.isAlpha = true
  · rw [if_pos c10] at h; exact dn _ h (handleOthers_typeKeys _ hq)
  rw [if_neg c10] at h
  by_cases c11 : c.isDigit = true
  · rw [if_pos c11] at h; exact dn _ h (handleIntLiterals_typeKeys _ hq)
  rw [if_neg c11] at h
  by_cases c12 : c = '"'
  · rw [if_pos c12] at h; exact stringLiteralLoop_typeKeys _ _ _ h hq
  rw [if_neg c12] at h
  by_cases c13 : handleErrorsOverflow (ungetc st) = true
  · rw [if_pos c13] at h; simp at h
  · rw [if_neg c13] at h; exact dn _ h (handleErrors_typeKeys _ hq)

theorem lexLoop_typeKeys : ∀ (fuel : Nat) (st st1 : LexState),
    lexLoop fuel st = .done st1 → Parser.TypeKeysOk st.tl → Parser.TypeKeysOk st1.tl := by
  intro fuel
  induction fuel with
  | zero => intro st st1 h; simp [lexLoop] at h
  | succ f ih =>
    intro st st1 h hq
    rw [lexLoop] at h
    cases hc : st.input[st.pos]? with
    | none =>
      rw [hc] at h
      simp only [Outcome.done.injEq] at h
      rw [← h]; exact hq
    | some c =>
      rw [hc] at h
      simp only at h
      cases hl : lexCase f c { st with pos := st.pos + 1 } with
      | fault => rw [hl] at h; simp at h
      | fuel => rw [hl] at h; simp at h
      | done s =>
        rw [hl] at h
        simp only at h
        exact ih _ _ h (lexCase_typeKeys f c _ s hl hq)

/-- Every token of type `TOKEN_TYPEKEY` that the scanner returns has one of the lexemes `int`,
`string` and `bool`, and so has every such token that `correctTokenList` keeps. -/
theorem lex_typeKeys (under : Char) (input : List Char) (tl : token_list) (err : List Char)
    (h : lex under input = .done tl) :
    Parser.TypeKeysOk tl ∧ Parser.TypeKeysOk (correctTokenList tl err).1 := by
  unfold lex lexFuel at h
  obtain ⟨st1, h1, h2⟩ := Outcome.bind_eq_done _ _ _ h
  simp only [Outcome.done.injEq] at h2
  have hq := lexLoop_typeKeys _ _ _ h1 (by intro t ht; simp at ht)
  have htl : Parser.TypeKeysOk tl := by
    rw [← h2]
    unfold addEOF
    exact typeKeysOk_append _ _ hq
      (fun hh => absurd (show TOKEN_EOF = TOKEN_TYPEKEY from hh) (by decide))
  refine ⟨htl, ?_⟩
  unfold correctTokenList
  rw [correctTokenListLoop_eq]
  intro t ht
  simp only [List.nil_append] at ht
  exact htl t (List.mem_of_mem_filter ht)

/-- The trees that `parse` returns on the tokens of a source text carry known type keywords
in all their declarations. -/
theorem parsed_source_types_known (under : Char) (source : List Char) (tl : token_list)
    (ef : Int) (err err1 : List Char) (pn : program_node) (st : Parser.ParseState)
    (hl : lex under source = .done tl)
    (hp : Parser.parse (correctTokenList tl err).1 ef err1 = .done (pn, st)) :
    programTypesKnown pn = true := by
  unfold Parser.parse Parser.parseFuel at hp
  rcases Parser.program_result _ _ _ _ hp with rfl | ⟨sln, e, rfl⟩
  · rfl
  · exact (Parser.program_keeps _ _ _ _ _ hp).2.2 (lex_typeKeys under source tl err hl).2

theorem run_typed (fuel : Nat) (pn : program_node) (inp : List Char) (r : Int × Env)
    (hk : programTypesKnown pn = true) (h : run fuel pn inp = .done r) :
    TypedTable r.2.global_list := by
  unfold run at h
  cases pn with
  | NULL => simp [program] at h
  | error => simp [program] at h
  | node sln eof =>
    rw [program] at h
    have hk2 : stmtsTypesKnown sln = true := hk
    exact stmts_typed fuel sln _ r hk2 h (by intro x hx; simp [initialEnv] at hx)

/-- C34: in every state of a run in which the declarations carry one of the type keywords
`int`, `string` and `bool`, every value of the symbol table carries a type tag other than
`UNDEF` whose payload field is live, and so does every value that the evaluation of an
expression returns from such a state with `error` and `empty` both 0. The trees that `parse`
returns on the tokens of a source text are of this kind: the scanner gives the type
`TOKEN_TYPEKEY` to these three lexemes only, so that the table a run of such a tree leaves
holds typed values only. -/
theorem values_carry_live_type :
    (∀ st, ReachableKnown st → ∀ e ∈ st.global_list, Typed e.2) ∧
    (∀ n st r, ReachableKnown st → expression n st = .done r →
      r.1.error = 0 → r.1.empty = 0 → Typed r.1) ∧
    (∀ under source tl ef err pn st, lex under source = .done tl →
      Parser.parse (correctTokenList tl []).1 ef err = .done (pn, st) →
      programTypesKnown pn = true ∧
      ∀ fuel inp r, run fuel pn inp = .done r → ∀ e ∈ r.2.global_list, Typed e.2) := by
  refine ⟨fun st h e he => (reachableKnown_typed st h e he).1, ?_, ?_⟩
  · intro n st r h he h1 h2
    have g := expression_typed n st r he (reachableKnown_typed st h)
    exact (stored_of_typedResult _ g (g.2.2.2.2 h1 h2)).1
  · intro under source tl ef err pn st hl hp
    have hk := parsed_source_types_known under source tl ef [] err pn st hl hp
    exact ⟨hk, fun fuel inp r hr e he => (run_typed fuel pn inp r hk hr e he).1⟩

theorem values_carry_live_type_witness :
    statement 0 (declStmt "x" "int"
        (initSuffix (binaryExpr (intOperand "4") "+" (intOperand "5")))) (initialEnv []) =
      .done (1, ⟨[("x".toList, ⟨9, 0, none, 0, 0, 0, INT⟩)], [], [], []⟩) ∧
    ∀ e ∈ [("x".toList, (⟨9, 0, none, 0, 0, 0, INT⟩ : value))], Typed e.2 :=
  ⟨by decide, values_carry_live_type.1 ⟨[("x".toList, ⟨9, 0, none, 0, 0, 0, INT⟩)], [], [], []⟩
    (ReachableKnown.statement 0 (declStmt "x" "int"
        (initSuffix (binaryExpr (intOperand "4") "+" (intOperand "5")))) (initialEnv [])
      (1, ⟨[("x".toList, ⟨9, 0, none, 0, 0, 0, INT⟩)], [], [], []⟩)
      (ReachableKnown.start []) (by decide) (by decide))⟩

end MiniPL
